import Mathlib

/-!
# Branch-and-bound search tree: `Node` and `ParTreeManager`

A shallow embedding of `src/base/Node.cpp` and `src/base/ParTreeManager.cpp`.

* C++ `double` values are embedded as `Dbl`: rationals extended by the two infinities
  and a not-a-number value, with the IEEE rules for the special values. The values of
  the program are the binary64 numbers; addition, subtraction, multiplication and
  division round their exact result to the nearest binary64 number, ties to the even
  significand, and overflow to an infinity. Comparisons, negation and `fabs` are exact.
  An operand that is not a binary64 number is taken as the nearest finite one
  (`Dbl.toDouble`), which leaves every value of the program as it is and makes the
  operations total on `Dbl`. The sign of zero is outside the embedding.
* `NodePtr` values are addresses into an explicit store of nodes (`List (Node Mod)`);
  the null pointer is `none`.
* `UInt` values are naturals reduced modulo `2 ^ 32` where the code increments them.
* Failing assertions and dereferences of null pointers are results `Except.error`.
* The optional tree-visualisation stream (`doVbc_`, `vbcFile_`, `timer_`) only writes
  text to a file; it is left out of the embedding.
-/

namespace Minotaur

/-! ## Numbers -/

/-- A C++ `double`. The finite values are written as rationals; the values of the program
are the binary64 numbers among them, to which every arithmetic operation rounds. -/
inductive Dbl where
  | nan : Dbl
  | ninf : Dbl
  | fin (q : ℚ) : Dbl
  | pinf : Dbl
deriving DecidableEq

namespace Dbl

/-- The integer nearest to `x`; the even one of the two when `x` lies halfway. -/
def roundHalfEven (x : ℚ) : ℤ :=
  if x - ⌊x⌋ < 1 / 2 then ⌊x⌋
  else if 1 / 2 < x - ⌊x⌋ then ⌊x⌋ + 1
  else if ⌊x⌋ % 2 = 0 then ⌊x⌋ else ⌊x⌋ + 1

/-- The exponent of the unit in the last place of the binary64 numbers next to `q`: 52
below the exponent of `q`, and -1074 for the subnormal numbers. -/
def ulpExp (q : ℚ) : ℤ := if q = 0 then -1074 else max (Int.log 2 |q|) (-1022) - 52

/-- The multiple of the unit in the last place that is nearest to `q`, the even multiple
when `q` lies halfway: the binary64 number nearest to `q`, when the exponent does not
overflow. -/
def nearest (q : ℚ) : ℚ := roundHalfEven (q / 2 ^ ulpExp q) * 2 ^ ulpExp q

/-- The binary64 number nearest to `q`, the one with the even significand when `q` lies
halfway between two of them; an infinity when the exponent overflows. -/
def round (q : ℚ) : Dbl :=
  if 2 ^ 1024 ≤ nearest q then pinf
  else if nearest q ≤ -2 ^ 1024 then ninf
  else fin (nearest q)

/-- The largest binary64 number, `DBL_MAX`. -/
def maxDouble : ℚ := 2 ^ 1024 - 2 ^ 971

/-- The number `x` brought into the range of the finite binary64 numbers. -/
def saturate (x : ℚ) : ℚ :=
  if 2 ^ 1024 ≤ x then maxDouble
  else if x ≤ -2 ^ 1024 then -maxDouble
  else x

/-- The value as a `double`: a rational that is not a binary64 number is taken as the
nearest finite one. A binary64 number, an infinity and not-a-number are left as they
are. -/
def toDouble : Dbl → Dbl
  | fin q => fin (saturate (nearest q))
  | x => x

/-- Unary minus. -/
def neg : Dbl → Dbl
  | nan => nan
  | ninf => pinf
  | fin q => fin (-q)
  | pinf => ninf

/-- The function `fabs`. -/
def fabs : Dbl → Dbl
  | nan => nan
  | ninf => pinf
  | fin q => fin (abs q)
  | pinf => pinf

/-- The sum of two binary64 numbers, rounded; opposite infinities give not-a-number. -/
def addDouble : Dbl → Dbl → Dbl
  | nan, _ => nan
  | _, nan => nan
  | pinf, ninf => nan
  | ninf, pinf => nan
  | pinf, _ => pinf
  | _, pinf => pinf
  | ninf, _ => ninf
  | _, ninf => ninf
  | fin a, fin b => round (a + b)

/-- Addition in `double`. -/
def add (a b : Dbl) : Dbl := addDouble (toDouble a) (toDouble b)

/-- Subtraction. -/
def sub (a b : Dbl) : Dbl := add a (neg b)

/-- The infinity with the sign of `q`, for `q` not zero. -/
def infOfSign (q : ℚ) : Dbl := if 0 < q then pinf else ninf

/-- The product of two binary64 numbers, rounded; zero times an infinity gives
not-a-number. -/
def mulDouble : Dbl → Dbl → Dbl
  | nan, _ => nan
  | _, nan => nan
  | fin a, fin b => round (a * b)
  | fin a, pinf => if a = 0 then nan else infOfSign a
  | fin a, ninf => if a = 0 then nan else infOfSign (-a)
  | pinf, fin b => if b = 0 then nan else infOfSign b
  | ninf, fin b => if b = 0 then nan else infOfSign (-b)
  | pinf, pinf => pinf
  | ninf, ninf => pinf
  | pinf, ninf => ninf
  | ninf, pinf => ninf

/-- Multiplication in `double`. -/
def mul (a b : Dbl) : Dbl := mulDouble (toDouble a) (toDouble b)

/-- The quotient of two binary64 numbers, rounded; an infinity over an infinity and zero
over zero give not-a-number. -/
def divDouble : Dbl → Dbl → Dbl
  | nan, _ => nan
  | _, nan => nan
  | fin a, fin b =>
    if b = 0 then (if a = 0 then nan else infOfSign a) else round (a / b)
  | fin _, pinf => fin 0
  | fin _, ninf => fin 0
  | pinf, fin b => if 0 ≤ b then pinf else ninf
  | ninf, fin b => if 0 ≤ b then ninf else pinf
  | pinf, pinf => nan
  | pinf, ninf => nan
  | ninf, pinf => nan
  | ninf, ninf => nan

/-- Division in `double`. -/
def div (a b : Dbl) : Dbl := divDouble (toDouble a) (toDouble b)

/-- The comparison `a < b`; false as soon as one side is not-a-number. -/
def lt : Dbl → Dbl → Bool
  | nan, _ => false
  | _, nan => false
  | ninf, ninf => false
  | ninf, _ => true
  | _, ninf => false
  | pinf, _ => false
  | fin _, pinf => true
  | fin a, fin b => decide (a < b)

/-- The comparison `a <= b`; false as soon as one side is not-a-number. -/
def le : Dbl → Dbl → Bool
  | nan, _ => false
  | _, nan => false
  | ninf, _ => true
  | _, pinf => true
  | pinf, _ => false
  | _, ninf => false
  | fin a, fin b => decide (a ≤ b)

/-- The comparison `a > b`. -/
def gt (a b : Dbl) : Bool := lt b a

/-- The comparison `a >= b`. -/
def ge (a b : Dbl) : Bool := le b a

/-- The constant `INFINITY`. -/
def INFINITY : Dbl := pinf

/-- The conversion of an unsigned integer to `double`. -/
def ofUInt (n : Nat) : Dbl := fin (n : ℚ)

end Dbl

/-- The tolerance `1e-6` that the constructor stores in `etol_`: the binary64 number
nearest to `1 / 10 ^ 6`, which is `4722366482869645 / 2 ^ 72`. -/
def etolDefault : ℚ := 4722366482869645 / 4722366482869645213696

/-! ## Modifications, branches and nodes -/

/-- Modelled from the spec: the interface of class `Modification`, whose declaration
is not among the sources. A modification edits a problem in place (`applyToProblem`,
`undoToProblem`; a relaxation is passed to the same two methods) and is translated by
`fromRel (rel, p)` and `toRel (p, rel)`; the problem pointer `p` that `Node` passes to
the translations is null and is left out. -/
structure ModOps (Mod Prob : Type) where
  /-- The method `mod->applyToProblem(p)`: the state of `p` afterwards. -/
  applyToProblem : Mod → Prob → Prob
  /-- The method `mod->undoToProblem(p)`: the state of `p` afterwards. -/
  undoToProblem : Mod → Prob → Prob
  /-- The method `mod->fromRel(rel, p)`. -/
  fromRel : Mod → Prob → Mod
  /-- The method `mod->toRel(p, rel)`. -/
  toRel : Mod → Prob → Mod

/-- Modelled from the spec: class `Branch` (declaration not among the sources), an
ordered sequence of problem modifications and one of relaxation modifications. -/
structure Branch (Mod : Type) where
  /-- The range `pModsBegin() .. pModsEnd()`. -/
  pMods_ : List Mod
  /-- The range `rModsBegin() .. rModsEnd()`. -/
  rMods_ : List Mod

/-- An address of a node in the store. -/
abbrev NodePtr := Nat

/-- An address of a warm start; the object itself is never inspected. -/
abbrev WarmStartPtr := Nat

/-- Modelled from the spec: the enumeration `NodeStatus` (declaration not among the
sources). The sources name `NodeNotProcessed`, `NodeInfeasible`, `NodeHitUb` and
`NodeOptimal`; the spec adds the status of a node being processed. -/
inductive NodeStatus where
  | NodeNotProcessed : NodeStatus
  | NodeInfeasible : NodeStatus
  | NodeHitUb : NodeStatus
  | NodeOptimal : NodeStatus
  | NodeProcessing : NodeStatus
deriving DecidableEq

/-- The data members of class `Node` (the header is not among the sources; the
members are those that `Node.cpp` initialises and uses, the violation value and the
tie-break score taken as `double`, the statistics as vectors of `double`). -/
structure Node (Mod : Type) where
  branch_ : Option (Branch Mod)
  depth_ : Nat
  id_ : Nat
  lb_ : Dbl
  pMods_ : List Mod
  rMods_ : List Mod
  parent_ : Option NodePtr
  status_ : NodeStatus
  vioVal_ : Dbl
  tbScore_ : Dbl
  children_ : List NodePtr
  ws_ : Option WarmStartPtr
  brCands_ : List Nat
  lastStrBranched_ : List Dbl
  pseudoDown_ : List Dbl
  pseudoUp_ : List Dbl
  timesDown_ : List Dbl
  timesUp_ : List Dbl

namespace Node

variable {Mod Prob : Type}

/-- The constructor `Node::Node()`. -/
def new : Node Mod :=
  { branch_ := none, depth_ := 0, id_ := 0, lb_ := Dbl.ninf, pMods_ := [], rMods_ := [],
    parent_ := none, status_ := NodeStatus.NodeNotProcessed, vioVal_ := Dbl.fin 0,
    tbScore_ := Dbl.fin 0, children_ := [], ws_ := none, brCands_ := [],
    lastStrBranched_ := [], pseudoDown_ := [], pseudoUp_ := [], timesDown_ := [],
    timesUp_ := [] }

/-- The constructor `Node::Node(parentNode, branch)`; `parentLb` is the value
`parentNode->getLb()` that the constructor reads. -/
def newChild (parentNode : NodePtr) (parentLb : Dbl) (branch : Option (Branch Mod)) :
    Node Mod :=
  { branch_ := branch, depth_ := 0, id_ := 0, lb_ := parentLb, pMods_ := [], rMods_ := [],
    parent_ := some parentNode, status_ := NodeStatus.NodeNotProcessed,
    vioVal_ := Dbl.fin 0, tbScore_ := Dbl.fin 0, children_ := [], ws_ := none,
    brCands_ := [], lastStrBranched_ := [], pseudoDown_ := [], pseudoUp_ := [],
    timesDown_ := [], timesUp_ := [] }

/-- A loop `for (it = first; it != last; ++it) body(*it, p)` over the sequence `mods`
that the iterator range visits, with `p` the state of the problem the body edits. -/
def forLoop (body : Mod → Prob → Prob) : List Mod → Prob → Prob
  | [], p => p
  | mod :: rest, p => forLoop body rest (body mod p)

/-- A forward loop `begin() .. end()` calling `mod->applyToProblem(p)`. -/
def applyLoop (ops : ModOps Mod Prob) (mods : List Mod) (p : Prob) : Prob :=
  forLoop ops.applyToProblem mods p

/-- A reverse loop `rbegin() .. rend()` calling `mod->undoToProblem(p)`: the reverse
iterators visit the sequence from its last element to its first. -/
def undoLoop (ops : ModOps Mod Prob) (mods : List Mod) (p : Prob) : Prob :=
  forLoop ops.undoToProblem mods.reverse p

/-- The loop body of `applyRModsTrans`: translate `mod`, then apply the result. -/
def applyTrans (ops : ModOps Mod Prob) (mod : Mod) (rel : Prob) : Prob :=
  let pmod1 := ops.fromRel mod rel
  let mod2 := ops.toRel pmod1 rel
  ops.applyToProblem mod2 rel

/-- The loop body of `undoRModsTrans`: translate `mod`, then undo the result. -/
def undoTrans (ops : ModOps Mod Prob) (mod : Mod) (rel : Prob) : Prob :=
  let pmod1 := ops.fromRel mod rel
  let mod2 := ops.toRel pmod1 rel
  ops.undoToProblem mod2 rel

/-- A forward loop of `applyRModsTrans`. -/
def applyTransLoop (ops : ModOps Mod Prob) (mods : List Mod) (rel : Prob) : Prob :=
  forLoop (applyTrans ops) mods rel

/-- A reverse loop of `undoRModsTrans`. -/
def undoTransLoop (ops : ModOps Mod Prob) (mods : List Mod) (rel : Prob) : Prob :=
  forLoop (undoTrans ops) mods.reverse rel

/-- The method `Node::applyPMods`. -/
def applyPMods (ops : ModOps Mod Prob) (n : Node Mod) (p : Prob) : Prob :=
  let p1 := match n.branch_ with
    | some b => applyLoop ops b.pMods_ p
    | none => p
  applyLoop ops n.pMods_ p1

/-- The method `Node::applyRMods`. -/
def applyRMods (ops : ModOps Mod Prob) (n : Node Mod) (rel : Prob) : Prob :=
  let r1 := match n.branch_ with
    | some b => applyLoop ops b.rMods_ rel
    | none => rel
  applyLoop ops n.rMods_ r1

/-- The method `Node::applyRModsTrans`. -/
def applyRModsTrans (ops : ModOps Mod Prob) (n : Node Mod) (rel : Prob) : Prob :=
  let r1 := match n.branch_ with
    | some b => applyTransLoop ops b.rMods_ rel
    | none => rel
  applyTransLoop ops n.rMods_ r1

/-- The method `Node::undoPMods`. -/
def undoPMods (ops : ModOps Mod Prob) (n : Node Mod) (p : Prob) : Prob :=
  let p1 := undoLoop ops n.pMods_ p
  match n.branch_ with
  | some b => undoLoop ops b.pMods_ p1
  | none => p1

/-- The method `Node::undoRMods`. -/
def undoRMods (ops : ModOps Mod Prob) (n : Node Mod) (rel : Prob) : Prob :=
  let r1 := undoLoop ops n.rMods_ rel
  match n.branch_ with
  | some b => undoLoop ops b.rMods_ r1
  | none => r1

/-- The method `Node::undoRModsTrans`. -/
def undoRModsTrans (ops : ModOps Mod Prob) (n : Node Mod) (rel : Prob) : Prob :=
  let r1 := undoTransLoop ops n.rMods_ rel
  match n.branch_ with
  | some b => undoTransLoop ops b.rMods_ r1
  | none => r1

end Node

/-! ## The store of nodes -/

/-- The ways in which an operation of the tree manager stops the program. -/
inductive Fault where
  /-- The assertion `!"search strategy must be defined!"`. -/
  | strategyUndefined : Fault
  /-- The assertion `size_>0` of `insertCandidate_`. -/
  | sizeNotPositive : Fault
  /-- The assertion `size_==0` of `insertRoot`. -/
  | sizeNotZero : Fault
  /-- The assertion `active_nodes_->getSize()==0` of `insertRoot`. -/
  | activeNotEmpty : Fault
  /-- The assertion `!"Current node is not in its parent's list of children!"`. -/
  | notInParentList : Fault
  /-- A dereference of a null pointer or of an address that holds no node. -/
  | nullPointer : Fault
  /-- A call of `top` or `pop` on an empty container. -/
  | emptyContainer : Fault
  /-- Not a behaviour of the program: the bound that the embedding puts on the number
  of iterations of a loop or of recursive calls was reached. -/
  | fuel : Fault
deriving DecidableEq

/-- The memory holding the nodes: the node at address `p` is the `p`-th entry. An
allocation `new Node(..)` appends an entry, so its address is the current length. -/
abbrev Store (Mod : Type) := List (Node Mod)

namespace Store

variable {Mod : Type}

/-- Read the node that a pointer points to. -/
def deref (s : Store Mod) (p : NodePtr) : Except Fault (Node Mod) :=
  match s[p]? with
  | some n => Except.ok n
  | none => Except.error Fault.nullPointer

/-- Call a setter `p->set..(..)`: replace the node at `p` by `f` of it. -/
def update (s : Store Mod) (p : NodePtr) (f : Node Mod → Node Mod) :
    Except Fault (Store Mod) :=
  match s[p]? with
  | some n => Except.ok (s.set p (f n))
  | none => Except.error Fault.nullPointer

/-- The value `p->getParent()` for a node in the store, null otherwise. -/
def parentOf (s : Store Mod) (p : NodePtr) : Option NodePtr :=
  match s[p]? with
  | some n => n.parent_
  | none => none

/-- The child list of the node at `p`, empty when there is no node at `p`. -/
def childrenOf (s : Store Mod) (p : NodePtr) : List NodePtr :=
  match s[p]? with
  | some n => n.children_
  | none => []

end Store

/-- The modulus of the type `UInt` (`unsigned int`, 32 bits). -/
def uintModulus : Nat := 4294967296

/-- The value `n + 1` computed in `UInt`. -/
def uintSucc (n : Nat) : Nat := (n + 1) % uintModulus

/-! ## The tree manager -/

/-- The search orders that the constructor distinguishes. -/
inductive TreeSearchOrder where
  | DepthFirst : TreeSearchOrder
  | BestFirst : TreeSearchOrder
  | BestThenDive : TreeSearchOrder
deriving DecidableEq

/-- The data members of class `ParTreeManager`, together with the store of the nodes
that its pointers refer to. The member `active_nodes_` holds the content of the
container, its top first. -/
structure ParTreeManager (Mod : Type) where
  store : Store Mod
  active_nodes_ : List NodePtr
  aNode_ : Option NodePtr
  bestLowerBound_ : Dbl
  bestUpperBound_ : Dbl
  cutOff_ : Dbl
  etol_ : Dbl
  searchType_ : TreeSearchOrder
  size_ : Nat
  tbRule_ : String

/-- The options that the constructor reads from the environment. -/
structure Options where
  tree_search : String
  obj_cut_off : Dbl
  tb_rule : String

namespace ParTreeManager

variable {Mod : Type}

/-- The constructor `ParTreeManager::ParTreeManager(env)`, for an environment with the
options `opts` and a memory `store` of nodes already allocated by the caller. -/
def new (opts : Options) (store : Store Mod) : Except Fault (ParTreeManager Mod) :=
  let s := opts.tree_search
  let searchType : Except Fault TreeSearchOrder :=
    if "dfs" = s then Except.ok TreeSearchOrder.DepthFirst
    else if "bfs" = s then Except.ok TreeSearchOrder.BestFirst
    else if "BthenD" = s then Except.ok TreeSearchOrder.BestThenDive
    else Except.error Fault.strategyUndefined
  match searchType with
  | Except.error e => Except.error e
  | Except.ok st =>
    Except.ok
      { store := store, active_nodes_ := [], aNode_ := none,
        bestLowerBound_ := Dbl.neg Dbl.INFINITY, bestUpperBound_ := Dbl.INFINITY,
        cutOff_ := opts.obj_cut_off, etol_ := Dbl.fin etolDefault,
        searchType_ := st, size_ := 0, tbRule_ := opts.tb_rule }

/-! ### The container of active nodes -/

/-- Modelled from the spec: the order of the container for `BestFirst` and
`BestThenDive` (classes `NodeHeap` and `NodeStack` are not among the sources): lower
bound ascending, ties broken by tie-break score ascending. -/
def heapBefore (a b : Node Mod) : Bool :=
  Dbl.lt a.lb_ b.lb_ || (decide (a.lb_ = b.lb_) && Dbl.lt a.tbScore_ b.tbScore_)

/-- Modelled from the spec: insertion of the address `x` of node `nx` into the content
of a priority container, before the first held node that `nx` strictly precedes. -/
def heapInsert (s : Store Mod) (x : NodePtr) (nx : Node Mod) : List NodePtr → List NodePtr
  | [] => [x]
  | y :: ys =>
    match s[y]? with
    | some ny => if heapBefore nx ny then x :: y :: ys else y :: heapInsert s x nx ys
    | none => y :: heapInsert s x nx ys

/-- Modelled from the spec: `active_nodes_->push(node)`. The container is a stack
(last in, first out) for `DepthFirst` and a priority container otherwise. -/
def push (tm : ParTreeManager Mod) (node : NodePtr) : Except Fault (ParTreeManager Mod) :=
  match tm.searchType_ with
  | TreeSearchOrder.DepthFirst =>
    Except.ok { tm with active_nodes_ := node :: tm.active_nodes_ }
  | _ =>
    match Store.deref tm.store node with
    | Except.error e => Except.error e
    | Except.ok nd =>
      Except.ok { tm with active_nodes_ := heapInsert tm.store node nd tm.active_nodes_ }

/-- Modelled from the spec: `active_nodes_->top()`. -/
def top (tm : ParTreeManager Mod) : Except Fault NodePtr :=
  match tm.active_nodes_ with
  | [] => Except.error Fault.emptyContainer
  | x :: _ => Except.ok x

/-- Modelled from the spec: `active_nodes_->pop()`. -/
def pop (tm : ParTreeManager Mod) : Except Fault (ParTreeManager Mod) :=
  match tm.active_nodes_ with
  | [] => Except.error Fault.emptyContainer
  | _ :: rest => Except.ok { tm with active_nodes_ := rest }

/-- The smaller of two bounds. -/
def minLb (a b : Dbl) : Dbl := if Dbl.lt b a then b else a

/-- Modelled from the spec: `active_nodes_->getBestLB()`, the least lower bound among
the held nodes. -/
def getBestLB (tm : ParTreeManager Mod) : Dbl :=
  tm.active_nodes_.foldl
    (fun best x => match tm.store[x]? with
      | some nd => minLb best nd.lb_
      | none => best) Dbl.INFINITY

/-! ### Simple members -/

/-- The method `anyActiveNodesLeft`. -/
def anyActiveNodesLeft (tm : ParTreeManager Mod) : Bool := !tm.active_nodes_.isEmpty

/-- The method `getActiveNodes`. -/
def getActiveNodes (tm : ParTreeManager Mod) : Nat := tm.active_nodes_.length

/-- The method `getCutOff`. -/
def getCutOff (tm : ParTreeManager Mod) : Dbl := tm.cutOff_

/-- The method `getLb`. -/
def getLb (tm : ParTreeManager Mod) : Dbl := tm.bestLowerBound_

/-- The method `getSize`. -/
def getSize (tm : ParTreeManager Mod) : Nat := tm.size_

/-- The method `getUb`. -/
def getUb (tm : ParTreeManager Mod) : Dbl := tm.bestUpperBound_

/-- The method `setCutOff`. -/
def setCutOff (tm : ParTreeManager Mod) (value : Dbl) : ParTreeManager Mod :=
  { tm with cutOff_ := value }

/-- The method `setUb`. -/
def setUb (tm : ParTreeManager Mod) (value : Dbl) : ParTreeManager Mod :=
  let tm1 := { tm with bestUpperBound_ := value }
  if Dbl.lt value tm1.cutOff_ then { tm1 with cutOff_ := value } else tm1

/-- The method `shouldDive`. -/
def shouldDive (tm : ParTreeManager Mod) : Bool :=
  if tm.searchType_ = TreeSearchOrder.DepthFirst
      ∨ tm.searchType_ = TreeSearchOrder.BestThenDive then true
  else false

/-- The method `updateLb`: the new state and the value returned. -/
def updateLb (tm : ParTreeManager Mod) : ParTreeManager Mod × Dbl :=
  let tm1 := { tm with bestLowerBound_ := getBestLB tm }
  (tm1, tm1.bestLowerBound_)

/-- The value that `getPerGap` and `getPerGapPar` compute from the incumbent `ub`, the
tolerance `etol` and the lower bound `lb` they are given. -/
def perGap (ub etol lb : Dbl) : Dbl :=
  if Dbl.ge ub Dbl.INFINITY then Dbl.INFINITY
  else if Dbl.lt (Dbl.fabs lb) etol then Dbl.fin 100
  else
    let gap := Dbl.mul (Dbl.div (Dbl.sub ub lb) (Dbl.add (Dbl.fabs ub) etol)) (Dbl.fin 100)
    if Dbl.lt gap (Dbl.fin 0) then Dbl.fin 0 else gap

/-- The method `getPerGap`. -/
def getPerGap (tm : ParTreeManager Mod) : Dbl :=
  perGap tm.bestUpperBound_ tm.etol_ tm.bestLowerBound_

/-- The method `getPerGapPar`. -/
def getPerGapPar (tm : ParTreeManager Mod) (treeLb : Dbl) : Dbl :=
  perGap tm.bestUpperBound_ tm.etol_ treeLb

/-- The condition of the `if` in `shouldPrune_`. -/
def pruneTest (cutOff ub etol lb : Dbl) : Bool :=
  Dbl.gt lb (Dbl.sub cutOff etol) ||
    Dbl.lt (Dbl.mul (Dbl.div (Dbl.fabs (Dbl.sub ub lb)) (Dbl.add (Dbl.fabs ub) etol))
      (Dbl.fin 100)) etol

/-- The method `shouldPrune_`: the new state and the value returned. -/
def shouldPrune_ (tm : ParTreeManager Mod) (node : NodePtr) :
    Except Fault (ParTreeManager Mod × Bool) :=
  match Store.deref tm.store node with
  | Except.error e => Except.error e
  | Except.ok nd =>
    let lb := nd.lb_
    if pruneTest tm.cutOff_ tm.bestUpperBound_ tm.etol_ lb then
      match Store.update tm.store node (fun n => { n with status_ := NodeStatus.NodeHitUb }) with
      | Except.error e => Except.error e
      | Except.ok s1 => Except.ok ({ tm with store := s1 }, true)
    else Except.ok (tm, false)

/-! ### Insertion and branching -/

/-- The method `insertRoot`. -/
def insertRoot (tm : ParTreeManager Mod) (node : NodePtr) :
    Except Fault (ParTreeManager Mod) :=
  if tm.size_ ≠ 0 then Except.error Fault.sizeNotZero
  else if tm.active_nodes_.length ≠ 0 then Except.error Fault.activeNotEmpty
  else
    match Store.update tm.store node (fun n => { n with id_ := 0 }) with
    | Except.error e => Except.error e
    | Except.ok s1 =>
    match Store.update s1 node (fun n => { n with depth_ := 0 }) with
    | Except.error e => Except.error e
    | Except.ok s2 =>
    match push { tm with store := s2 } node with
    | Except.error e => Except.error e
    | Except.ok tm1 => Except.ok { tm1 with size_ := uintSucc tm1.size_ }

/-- The tie-break score that `insertCandidate_` gives to a node with identifier `id`
whose parent has score `parentScore`. -/
def newTbScore (tbRule : String) (pop_now : Bool) (parentScore : Dbl) (id : Nat) : Dbl :=
  if tbRule = "twoChild" then
    if pop_now then Dbl.mul (Dbl.fin 2) parentScore
    else Dbl.add (Dbl.mul (Dbl.fin 2) parentScore) (Dbl.fin 1)
  else if tbRule = "FIFO" then Dbl.ofUInt id
  else parentScore

/-- The method `insertCandidate_`; `pop_now` is false by default in the sources. The
store is read again after each setter, as the code does through its pointers. -/
def insertCandidate_ (tm : ParTreeManager Mod) (node : NodePtr) (pop_now : Bool) :
    Except Fault (ParTreeManager Mod) :=
  if ¬ (0 < tm.size_) then Except.error Fault.sizeNotPositive
  else
    -- node->setId(size_)
    match Store.update tm.store node (fun n => { n with id_ := tm.size_ }) with
    | Except.error e => Except.error e
    | Except.ok s1 =>
    -- node->setDepth(node->getParent()->getDepth()+1)
    match Store.deref s1 node with
    | Except.error e => Except.error e
    | Except.ok nd1 =>
    match nd1.parent_ with
    | none => Except.error Fault.nullPointer
    | some parent =>
    match Store.deref s1 parent with
    | Except.error e => Except.error e
    | Except.ok pn1 =>
    match Store.update s1 node (fun n => { n with depth_ := uintSucc pn1.depth_ }) with
    | Except.error e => Except.error e
    | Except.ok s2 =>
    -- node->setTbScore(..)
    match Store.deref s2 parent with
    | Except.error e => Except.error e
    | Except.ok pn2 =>
    match Store.deref s2 node with
    | Except.error e => Except.error e
    | Except.ok nd2 =>
    match Store.update s2 node
        (fun n => { n with tbScore_ := newTbScore tm.tbRule_ pop_now pn2.tbScore_ nd2.id_ }) with
    | Except.error e => Except.error e
    | Except.ok s3 =>
    -- ++size_
    let tm1 := { tm with store := s3, size_ := uintSucc tm.size_ }
    if ¬ pop_now then push tm1 node else Except.ok tm1

/-- The body of the loop of `branch` for one branch `branch_p`: the new state, the new
value of `is_first` and the new value of `new_cand`. -/
def branchStep (node : NodePtr) (ws : Option WarmStartPtr)
    (st : ParTreeManager Mod × Bool × Option NodePtr) (branch_p : Branch Mod) :
    Except Fault (ParTreeManager Mod × Bool × Option NodePtr) :=
  let tm := st.1
  let is_first := st.2.1
  let new_cand := st.2.2
  -- child = new Node(node, branch_p)
  match Store.deref tm.store node with
  | Except.error e => Except.error e
  | Except.ok nd =>
  let child : NodePtr := tm.store.length
  let s1 : Store Mod := tm.store ++ [Node.newChild node nd.lb_ (some branch_p)]
  -- child->setLb(node->getLb())
  match Store.deref s1 node with
  | Except.error e => Except.error e
  | Except.ok nd1 =>
  match Store.update s1 child (fun n => { n with lb_ := nd1.lb_ }) with
  | Except.error e => Except.error e
  | Except.ok s2 =>
  -- child->setDepth(node->getDepth()+1)
  match Store.deref s2 node with
  | Except.error e => Except.error e
  | Except.ok nd2 =>
  match Store.update s2 child (fun n => { n with depth_ := uintSucc nd2.depth_ }) with
  | Except.error e => Except.error e
  | Except.ok s3 =>
  -- node->addChild(child)
  match Store.update s3 node (fun n => { n with children_ := n.children_ ++ [child] }) with
  | Except.error e => Except.error e
  | Except.ok s4 =>
  if is_first then
    match insertCandidate_ { tm with store := s4 } child true with
    | Except.error e => Except.error e
    | Except.ok tm1 => Except.ok (tm1, false, some child)
  else
    match Store.update s4 child (fun n => { n with ws_ := ws }) with
    | Except.error e => Except.error e
    | Except.ok s5 =>
    match insertCandidate_ { tm with store := s5 } child false with
    | Except.error e => Except.error e
    | Except.ok tm1 => Except.ok (tm1, is_first, new_cand)

/-- The loop of `branch` over the branches. -/
def branchLoop (node : NodePtr) (ws : Option WarmStartPtr) :
    List (Branch Mod) → ParTreeManager Mod × Bool × Option NodePtr →
      Except Fault (ParTreeManager Mod × Bool × Option NodePtr)
  | [], st => Except.ok st
  | branch_p :: rest, st =>
    match branchStep node ws st branch_p with
    | Except.error e => Except.error e
    | Except.ok st1 => branchLoop node ws rest st1

/-- The method `branch`: the new state and the node returned (null when `none`). -/
def branch (tm : ParTreeManager Mod) (branches : List (Branch Mod)) (node : NodePtr)
    (ws : Option WarmStartPtr) : Except Fault (ParTreeManager Mod × Option NodePtr) :=
  let is_first : Bool :=
    if tm.searchType_ = TreeSearchOrder.DepthFirst
        ∨ tm.searchType_ = TreeSearchOrder.BestThenDive then true
    else false
  match branchLoop node ws branches (tm, is_first, none) with
  | Except.error e => Except.error e
  | Except.ok st =>
    let new_cand := st.2.2
    Except.ok ({ st.1 with aNode_ := new_cand }, new_cand)

/-! ### Removal -/

/-- The method `removeActiveNode`; its argument is only used for the visualisation
stream. -/
def removeActiveNode (tm : ParTreeManager Mod) (_node : NodePtr) :
    Except Fault (ParTreeManager Mod) :=
  pop tm

/-- The recursion of `removeNode_` on the store, with a bound `fuel` on the number of
nested calls. The search loop stops at the first child equal to `node`, which
`removeChild` then erases; when the loop finds none, the assertion fails. -/
def removeNodeAux : Nat → Store Mod → NodePtr → Except Fault (Store Mod)
  | 0, _, _ => Except.error Fault.fuel
  | fuel + 1, s, node =>
    match Store.deref s node with
    | Except.error e => Except.error e
    | Except.ok nd =>
    if 0 < nd.id_ then
      match nd.parent_ with
      | none => Except.error Fault.nullPointer
      | some parent =>
      match Store.deref s parent with
      | Except.error e => Except.error e
      | Except.ok pn =>
      if node ∈ pn.children_ then
        -- parent->removeChild(node_i)
        match Store.update s parent
            (fun n => { n with children_ := n.children_.erase node }) with
        | Except.error e => Except.error e
        | Except.ok s1 =>
        -- node->removeParent()
        match Store.update s1 node (fun n => { n with parent_ := none }) with
        | Except.error e => Except.error e
        | Except.ok s2 =>
        -- if (parent->getNumChildren() < 1) removeNode_(parent)
        match Store.deref s2 parent with
        | Except.error e => Except.error e
        | Except.ok pn2 =>
        if pn2.children_.length < 1 then removeNodeAux fuel s2 parent
        else Except.ok s2
      else Except.error Fault.notInParentList
    else Except.ok s

/-- The method `removeNode_`. Every nested call follows the removal of the parent
pointer of one more node, so there are at most as many nested calls as nodes. -/
def removeNode_ (tm : ParTreeManager Mod) (node : NodePtr) :
    Except Fault (ParTreeManager Mod) :=
  match removeNodeAux (tm.store.length + 1) tm.store node with
  | Except.error e => Except.error e
  | Except.ok s1 => Except.ok { tm with store := s1 }

/-- The method `pruneNode`. -/
def pruneNode (tm : ParTreeManager Mod) (node : NodePtr) :
    Except Fault (ParTreeManager Mod) :=
  removeNode_ tm node

/-- The loop of `getCandidate`, with a bound `fuel` on the number of iterations: the
new state and the value of `node` when the loop ends. -/
def getCandidateLoop : Nat → ParTreeManager Mod →
    Except Fault (ParTreeManager Mod × Option NodePtr)
  | 0, _ => Except.error Fault.fuel
  | fuel + 1, tm =>
    if 0 < tm.active_nodes_.length then
      match top tm with
      | Except.error e => Except.error e
      | Except.ok node =>
      match shouldPrune_ tm node with
      | Except.error e => Except.error e
      | Except.ok (tm1, true) =>
        match removeActiveNode tm1 node with
        | Except.error e => Except.error e
        | Except.ok tm2 =>
        match pruneNode tm2 node with
        | Except.error e => Except.error e
        | Except.ok tm3 => getCandidateLoop fuel tm3
      | Except.ok (tm1, false) => Except.ok (tm1, some node)
    else Except.ok (tm, none)

/-- The method `getCandidate`: the new state and the node returned (null when `none`).
Every iteration but the last pops a node, so the iterations are at most the size of the
container plus one. -/
def getCandidate (tm : ParTreeManager Mod) :
    Except Fault (ParTreeManager Mod × Option NodePtr) :=
  getCandidateLoop (tm.active_nodes_.length + 1) { tm with aNode_ := none }

/-- The loop of `clearAll`, with a bound `fuel` on the number of iterations. -/
def clearAllLoop : Nat → ParTreeManager Mod → Except Fault (ParTreeManager Mod)
  | 0, _ => Except.error Fault.fuel
  | fuel + 1, tm =>
    if tm.active_nodes_.isEmpty = false then
      match top tm with
      | Except.error e => Except.error e
      | Except.ok n =>
      match removeNode_ tm n with
      | Except.error e => Except.error e
      | Except.ok tm1 =>
      match pop tm1 with
      | Except.error e => Except.error e
      | Except.ok tm2 => clearAllLoop fuel tm2
    else Except.ok tm

/-- The method `clearAll`. -/
def clearAll (tm : ParTreeManager Mod) : Except Fault (ParTreeManager Mod) :=
  let cleared : Except Fault (ParTreeManager Mod) :=
    match tm.aNode_ with
    | some a => removeNode_ tm a
    | none => Except.ok tm
  match cleared with
  | Except.error e => Except.error e
  | Except.ok tm1 => clearAllLoop (tm1.active_nodes_.length + 1) tm1

end ParTreeManager

/-! ## Sequences of calls and numbers that are not not-a-number -/

/-- A `double` that is a number: a rational, `-INFINITY` (`⊥`) or `INFINITY` (`⊤`). -/
def Dbl.ofExt : WithBot (WithTop ℚ) → Dbl
  | none => Dbl.ninf
  | some none => Dbl.pinf
  | some (some q) => Dbl.fin q

/-- The calls `setUb(v1)`, ..., `setUb(vn)` made in this order. -/
def ParTreeManager.setUbAll {Mod : Type} (tm : ParTreeManager Mod) (values : List Dbl) :
    ParTreeManager Mod :=
  values.foldl (fun t value => ParTreeManager.setUb t value) tm

/-- A call of a public member function of `ParTreeManager` that can change the state
of the manager or of its nodes. The other public members (`anyActiveNodesLeft`,
`getActiveNodes`, `getCutOff`, `getPerGap`, `getPerGapPar`, `getLb`, `getSize`, `getUb`,
`shouldDive`) only read the state. -/
inductive Op (Mod : Type) where
  | insertRoot (node : NodePtr) : Op Mod
  | branch (branches : List (Branch Mod)) (node : NodePtr) (ws : Option WarmStartPtr) : Op Mod
  | getCandidate : Op Mod
  | removeActiveNode (node : NodePtr) : Op Mod
  | pruneNode (node : NodePtr) : Op Mod
  | clearAll : Op Mod
  | updateLb : Op Mod
  | setUb (value : Dbl) : Op Mod
  | setCutOff (value : Dbl) : Op Mod

namespace ParTreeManager

variable {Mod : Type}

/-- The state after one call. -/
def step (tm : ParTreeManager Mod) : Op Mod → Except Fault (ParTreeManager Mod)
  | Op.insertRoot node => insertRoot tm node
  | Op.branch branches node ws =>
    match branch tm branches node ws with
    | Except.error e => Except.error e
    | Except.ok r => Except.ok r.1
  | Op.getCandidate =>
    match getCandidate tm with
    | Except.error e => Except.error e
    | Except.ok r => Except.ok r.1
  | Op.removeActiveNode node => removeActiveNode tm node
  | Op.pruneNode node => pruneNode tm node
  | Op.clearAll => clearAll tm
  | Op.updateLb => Except.ok (updateLb tm).1
  | Op.setUb value => Except.ok (setUb tm value)
  | Op.setCutOff value => Except.ok (setCutOff tm value)

/-- The state after a sequence of calls, each of which the caller is allowed to make
(`allowed` holds of the state before the call) and none of which stops the program;
`none` otherwise. -/
def runOps (allowed : ParTreeManager Mod → Op Mod → Bool) :
    ParTreeManager Mod → List (Op Mod) → Option (ParTreeManager Mod)
  | tm, [] => some tm
  | tm, op :: rest =>
    if allowed tm op then
      match step tm op with
      | Except.error _ => none
      | Except.ok tm1 => runOps allowed tm1 rest
    else none

/-- Every call is allowed, with arguments that are numbers. -/
def allowNumbers (_tm : ParTreeManager Mod) : Op Mod → Bool
  | Op.setUb value => decide (value ≠ Dbl.nan)
  | Op.setCutOff value => decide (value ≠ Dbl.nan)
  | _ => true

/-- Every call is allowed, with arguments that are numbers, and `setCutOff` only with a
value that does not exceed the incumbent. -/
def allowCutOffBelowUb (tm : ParTreeManager Mod) : Op Mod → Bool
  | Op.setUb value => decide (value ≠ Dbl.nan)
  | Op.setCutOff value => Dbl.le value tm.bestUpperBound_
  | _ => true

end ParTreeManager

/-! ## The shape of the tree -/

/-- The chain of parent pointers that starts at a node ends at `root`. -/
inductive LinkedToRoot {Mod : Type} (s : Store Mod) (root : NodePtr) : NodePtr → Prop where
  | root : LinkedToRoot s root root
  | step (n p : NodePtr) : Store.parentOf s n = some p → LinkedToRoot s root p →
      LinkedToRoot s root n

/-- A node can be reached from `root` through the child lists. -/
inductive InTree {Mod : Type} (s : Store Mod) (root : NodePtr) : NodePtr → Prop where
  | root : InTree s root root
  | child (p c : NodePtr) : InTree s root p → c ∈ Store.childrenOf s p → InTree s root c

/-- A walk of at most `fuel` parent pointers from `n` arrives at `root`. -/
def Store.linkedFuel {Mod : Type} : Nat → Store Mod → NodePtr → NodePtr → Bool
  | 0, _, root, n => decide (n = root)
  | fuel + 1, s, root, n =>
    decide (n = root) ||
      match Store.parentOf s n with
      | some p => Store.linkedFuel fuel s root p
      | none => false

/-- The test that the chain of parent pointers of `n` ends at `root`; a chain without
repetition has at most as many pointers as there are nodes. -/
def Store.linked {Mod : Type} (s : Store Mod) (root n : NodePtr) : Bool :=
  Store.linkedFuel s.length s root n

/-- The tree invariant: every node that is linked in the tree, other than the root,
has a parent and occurs exactly once in the child list of that parent (`inTree` for the
nodes reached from the root through the child lists, `once` for the nodes that have a
parent pointer), and every node held in the container of active nodes has a chain of
parents that ends at the root (`active`). -/
structure TreeInvariant {Mod : Type} (root : NodePtr) (tm : ParTreeManager Mod) : Prop where
  inTree : ∀ n, InTree tm.store root n → n ≠ root →
    ∃ p, Store.parentOf tm.store n = some p ∧ (Store.childrenOf tm.store p).count n = 1
  once : ∀ c p, Store.parentOf tm.store c = some p →
    (Store.childrenOf tm.store p).count c = 1
  active : ∀ n, n ∈ tm.active_nodes_ → LinkedToRoot tm.store root n

namespace ParTreeManager

variable {Mod : Type}

/-- The calls `branch`, `getCandidate`, `removeActiveNode` and `pruneNode`, the last
one only on a node without children. -/
def allowTreeOps (tm : ParTreeManager Mod) : Op Mod → Bool
  | Op.branch _ _ _ => true
  | Op.getCandidate => true
  | Op.removeActiveNode _ => true
  | Op.pruneNode node => decide (Store.childrenOf tm.store node = [])
  | _ => false

/-- The calls `branch`, `getCandidate`, `removeActiveNode` and `pruneNode`, where
`branch` and `pruneNode` are only applied to a node that is not held in the container,
`branch` only to a node linked to the root and `pruneNode` only to a node without
children. -/
def allowTreeOpsOffContainer (root : NodePtr) (tm : ParTreeManager Mod) : Op Mod → Bool
  | Op.branch _ node _ =>
    Store.linked tm.store root node && decide (node ∉ tm.active_nodes_)
  | Op.getCandidate => true
  | Op.removeActiveNode _ => true
  | Op.pruneNode node =>
    decide (Store.childrenOf tm.store node = []) && decide (node ∉ tm.active_nodes_)
  | _ => false

/-- The state after the constructor and `insertRoot(root)`, for the options `opts` and
a memory `store` that holds the nodes allocated so far. -/
def start (opts : Options) (store : Store Mod) (root : NodePtr) :
    Except Fault (ParTreeManager Mod) :=
  match new opts store with
  | Except.error e => Except.error e
  | Except.ok tm0 => insertRoot tm0 root

end ParTreeManager

/-- A manager with the given incumbent and cutoff over the given nodes. -/
def boundsManager (ub cutOff : Dbl) (nodes : Store Int) : ParTreeManager Int :=
  { store := nodes, active_nodes_ := [], aNode_ := none, bestLowerBound_ := Dbl.ninf,
    bestUpperBound_ := ub, cutOff_ := cutOff, etol_ := Dbl.fin etolDefault,
    searchType_ := TreeSearchOrder.BestFirst, size_ := 0, tbRule_ := "" }

/-- A fresh node with the given lower bound. -/
def nodeWithLb (lb : Dbl) : Node Int := { (Node.new : Node Int) with lb_ := lb }

/-! ## Invariants used in the proofs and sample runs -/

/-- Two stores with the same addresses, parent pointers and child lists. -/
structure SameShape {Mod : Type} (s s' : Store Mod) : Prop where
  length : s'.length = s.length
  parent : ∀ x, Store.parentOf s' x = Store.parentOf s x
  children : ∀ x, Store.childrenOf s' x = Store.childrenOf s x

/-- The tree invariant together with what its preservation needs: the two directions
of the link between parent pointers and child lists, and a container that holds each
node once and only nodes without children. -/
structure TreeWF {Mod : Type} (root : NodePtr) (s : Store Mod) (A : List NodePtr) :
    Prop where
  once : ∀ c p, Store.parentOf s c = some p → (Store.childrenOf s p).count c = 1
  parentOfChild : ∀ c p, c ∈ Store.childrenOf s p → Store.parentOf s c = some p
  active : ∀ n, n ∈ A → LinkedToRoot s root n
  activeLeaf : ∀ n, n ∈ A → Store.childrenOf s n = []
  activeNodup : A.Nodup
  rootValid : root < s.length
  parentFirst : ∀ c p, Store.parentOf s c = some p → p < c

/-- Options for a depth-first search without cutoff. -/
def dfsOptions : Options := { tree_search := "dfs", obj_cut_off := Dbl.INFINITY, tb_rule := "" }

/-- A branch without modifications. -/
def emptyBranch : Branch Int := { pMods_ := [], rMods_ := [] }

/-- The manager after the constructor and `insertRoot(0)`, over a memory that holds one
fresh node. -/
def sampleTreeStart : ParTreeManager Int :=
  match ParTreeManager.start dfsOptions [Node.new] 0 with
  | Except.ok tm => tm
  | Except.error _ => boundsManager Dbl.nan Dbl.nan []

/-- A search that processes the root, dives twice and prunes the two deepest nodes, the
second of which takes its parent with it. -/
def sampleTreeOps : List (Op Int) :=
  [Op.getCandidate, Op.removeActiveNode 0, Op.branch [emptyBranch, emptyBranch] 0 none,
   Op.branch [emptyBranch, emptyBranch] 1 none, Op.pruneNode 3, Op.getCandidate,
   Op.removeActiveNode 4, Op.pruneNode 4]

/-- The state after the calls `sampleTreeOps`. -/
def sampleTreeFinal : ParTreeManager Int :=
  match ParTreeManager.runOps (ParTreeManager.allowTreeOpsOffContainer 0) sampleTreeStart
      sampleTreeOps with
  | some tm => tm
  | none => boundsManager Dbl.nan Dbl.nan []

/-- The state after branching at the root and then pruning the child that `branch`
pushed into the container. -/
def pruneInContainer : Option (ParTreeManager Int) :=
  ParTreeManager.runOps ParTreeManager.allowTreeOps sampleTreeStart
    [Op.branch [emptyBranch, emptyBranch] 0 none, Op.pruneNode 2]

/-! ## Reclamation as the spec words it -/

/-- The nodes that the reclamation of `n` detaches, as the spec words it: nothing for a
node with identifier 0 (the root); otherwise the node itself and, when its parent is
thereby left with zero children, the nodes that the reclamation of the parent
detaches. The walk makes at most `fuel` steps. -/
def Store.cascade {Mod : Type} : Nat → Store Mod → NodePtr → List NodePtr
  | 0, _, _ => []
  | fuel + 1, s, n =>
    match s[n]? with
    | none => []
    | some nd =>
      if nd.id_ = 0 then []
      else
        match nd.parent_ with
        | none => []
        | some p => if Store.childrenOf s p = [n] then n :: Store.cascade fuel s p else [n]

/-- The nodes that the reclamation of `n` detaches; a walk up the tree makes at most as
many steps as there are nodes. -/
def Store.reclaimed {Mod : Type} (s : Store Mod) (n : NodePtr) : List NodePtr :=
  Store.cascade (s.length + 1) s n

/-- The store in which the nodes `doomed` are detached: their parent pointers are
cleared and they are taken out of every child list; nothing else changes. -/
def Store.detachAll {Mod : Type} (doomed : List NodePtr) (s : Store Mod) : Store Mod :=
  s.mapIdx (fun y nd =>
    { nd with
      parent_ := if y ∈ doomed then none else nd.parent_,
      children_ := nd.children_.filter (fun c => decide (c ∉ doomed)) })

/-- The test of well-formedness at the address `y`. -/
def Store.wellFormedAt {Mod : Type} (root : NodePtr) (s : Store Mod) (y : NodePtr) : Bool :=
  match s[y]? with
  | none => true
  | some nd =>
    (if y = root then decide (nd.id_ = 0) && decide (nd.parent_ = none)
     else
      decide (0 < nd.id_) &&
        match nd.parent_ with
        | none => nd.children_.isEmpty
        | some p => decide (p < y) && decide ((Store.childrenOf s p).count y = 1)) &&
    nd.children_.all (fun c => decide (Store.parentOf s c = some y))

/-- A well-formed tree in a memory: the root is in the store, has identifier 0 and no
parent; every other node of the tree has a positive identifier and a parent, constructed
before it, in whose child list it occurs exactly once; and every node in a child list
has the owner of the list as its parent. The memory may hold, besides the tree, nodes
that a reclamation has detached: a node other than the root that has no parent has no
children either. -/
def Store.wellFormed {Mod : Type} (root : NodePtr) (s : Store Mod) : Bool :=
  decide (root < s.length) && (List.range s.length).all (Store.wellFormedAt root s)

/-- The store after `removeChild` and `removeParent` in `removeNode_`. -/
def Store.detachOne {Mod : Type} (x p : NodePtr) (s : Store Mod) : Store Mod :=
  s.mapIdx (fun y nd =>
    { nd with
      parent_ := if y = x then none else nd.parent_,
      children_ := if y = p then nd.children_.erase x else nd.children_ })

/-- The node at depth `i` of a chain of `k` nodes below a root: its parent is the node
at depth `i - 1` and its only child the node at depth `i + 1`. -/
def chainNode (Mod : Type) (k i : Nat) : Node Mod :=
  { (Node.new : Node Mod) with
    id_ := i, depth_ := i,
    parent_ := if i = 0 then none else some (i - 1),
    children_ := if i < k then [i + 1] else [] }

/-- The chain `root -> n1 -> ... -> nk` of single-child nodes, the root at address 0. -/
def chainStore (Mod : Type) (k : Nat) : Store Mod :=
  (List.range (k + 1)).map (chainNode Mod k)

/-- A node with its links to parent and children removed. -/
def Node.unlinked {Mod : Type} (nd : Node Mod) : Node Mod :=
  { nd with parent_ := none, children_ := [] }

/-- A node of a sample tree, given by its identifier, parent and children. -/
def treeNode (id : Nat) (parent : Option NodePtr) (children : List NodePtr) : Node Int :=
  { (Node.new : Node Int) with id_ := id, parent_ := parent, children_ := children }

/-- A manager over the tree `0 -> 1`, `1 -> 2`, `1 -> 3`, `3 -> 4`. -/
def sampleTreeManager : ParTreeManager Int :=
  boundsManager Dbl.INFINITY Dbl.INFINITY
    [treeNode 0 none [1], treeNode 1 (some 0) [2, 3], treeNode 2 (some 1) [],
     treeNode 3 (some 1) [4], treeNode 4 (some 3) []]

/-- The manager `sampleTreeManager` after `pruneNode(4)`: the nodes 3 and 4 are detached
and stay in the memory. -/
def afterReclamation : ParTreeManager Int :=
  boundsManager Dbl.INFINITY Dbl.INFINITY
    [treeNode 0 none [1], treeNode 1 (some 0) [2], treeNode 2 (some 1) [],
     treeNode 3 none [], treeNode 4 none []]

/-- The state after the constructor, `setUb(5)` and `setCutOff(100)`. -/
def cutOffAboveUb : Option (ParTreeManager Int) :=
  match ParTreeManager.new dfsOptions [] with
  | Except.error _ => none
  | Except.ok tm =>
    ParTreeManager.runOps ParTreeManager.allowNumbers tm
      [Op.setUb (Dbl.fin 5), Op.setCutOff (Dbl.fin 100)]

/-- The manager after the constructor, over an empty memory. -/
def sampleBoundsStart : ParTreeManager Int :=
  match ParTreeManager.new dfsOptions [] with
  | Except.ok tm => tm
  | Except.error _ => boundsManager Dbl.nan Dbl.nan []

/-- Calls that set the incumbent and the cutoff, the cutoff never above the incumbent. -/
def sampleBoundsOps : List (Op Int) :=
  [Op.setUb (Dbl.fin 5), Op.setCutOff (Dbl.fin 3), Op.setUb (Dbl.fin 20), Op.updateLb]

/-- The state after the calls `sampleBoundsOps`. -/
def sampleBoundsFinal : ParTreeManager Int :=
  match ParTreeManager.runOps ParTreeManager.allowCutOffBelowUb sampleBoundsStart
      sampleBoundsOps with
  | some tm => tm
  | none => boundsManager Dbl.nan Dbl.nan []

/-! ## Recording the calls made on a problem -/

/-- One call received by a problem: `applyToProblem` or `undoToProblem` of a
modification. -/
inductive Call (Mod : Type) where
  | applied (mod : Mod) : Call Mod
  | undone (mod : Mod) : Call Mod
deriving DecidableEq

/-- A problem that does nothing but record, oldest first, the calls it receives;
translation returns the modification itself. -/
def recorder (Mod : Type) : ModOps Mod (List (Call Mod)) where
  applyToProblem := fun mod log => log ++ [Call.applied mod]
  undoToProblem := fun mod log => log ++ [Call.undone mod]
  fromRel := fun mod _ => mod
  toRel := fun mod _ => mod

/-- The modifications of the branch of a node, none for a node without a branch. -/
def Node.branchPMods {Mod : Type} (n : Node Mod) : List Mod :=
  match n.branch_ with
  | some b => b.pMods_
  | none => []

/-- The relaxation modifications of the branch of a node. -/
def Node.branchRMods {Mod : Type} (n : Node Mod) : List Mod :=
  match n.branch_ with
  | some b => b.rMods_
  | none => []

/-- The call that reverses a call: undo for apply. -/
def Call.reversal {Mod : Type} : Call Mod → Call Mod
  | Call.applied mod => Call.undone mod
  | Call.undone mod => Call.applied mod

/-- A problem whose state is an integer; the modification `k` adds `k` on apply and
subtracts it on undo, and is its own translation. -/
def shiftOps : ModOps Int Int where
  applyToProblem := fun k s => s + k
  undoToProblem := fun k s => s - k
  fromRel := fun k _ => k
  toRel := fun k _ => k

/-- A node with a branch of two problem and two relaxation modifications and with
own modifications of both kinds. -/
def sampleNode : Node Int :=
  { (Node.new : Node Int) with
    branch_ := some { pMods_ := [1, 2], rMods_ := [5, 7] },
    pMods_ := [3, 4], rMods_ := [11] }

/-! ## The statistics of a node -/

namespace Node

variable {Mod Prob : Type}

/-- The method `Node::updateLastStrBranched`. -/
def updateLastStrBranched (n : Node Mod) (index : Nat) (value : Dbl) : Node Mod :=
  if index ≥ n.lastStrBranched_.length then
    { n with lastStrBranched_ := n.lastStrBranched_ ++ [value] }
  else { n with lastStrBranched_ := n.lastStrBranched_.set index value }

/-- The method `Node::updatePCDown`. -/
def updatePCDown (n : Node Mod) (index : Nat) (value : Dbl) : Node Mod :=
  if index ≥ n.pseudoDown_.length then { n with pseudoDown_ := n.pseudoDown_ ++ [value] }
  else { n with pseudoDown_ := n.pseudoDown_.set index value }

/-- The method `Node::updatePCUp`. -/
def updatePCUp (n : Node Mod) (index : Nat) (value : Dbl) : Node Mod :=
  if index ≥ n.pseudoUp_.length then { n with pseudoUp_ := n.pseudoUp_ ++ [value] }
  else { n with pseudoUp_ := n.pseudoUp_.set index value }

/-- The method `Node::updateTimesDown`. -/
def updateTimesDown (n : Node Mod) (index : Nat) (value : Dbl) : Node Mod :=
  if index ≥ n.timesDown_.length then { n with timesDown_ := n.timesDown_ ++ [value] }
  else { n with timesDown_ := n.timesDown_.set index value }

/-- The method `Node::updateTimesUp`. -/
def updateTimesUp (n : Node Mod) (index : Nat) (value : Dbl) : Node Mod :=
  if index ≥ n.timesUp_.length then { n with timesUp_ := n.timesUp_ ++ [value] }
  else { n with timesUp_ := n.timesUp_.set index value }

/-- The five vectors of statistics of a node, in the order `lastStrBranched_`,
`pseudoDown_`, `pseudoUp_`, `timesDown_`, `timesUp_`. -/
def statistics (n : Node Mod) : List (List Dbl) :=
  [n.lastStrBranched_, n.pseudoDown_, n.pseudoUp_, n.timesDown_, n.timesUp_]

/-- The five updaters of statistics, in the order of `statistics`. -/
def updaters : List (Node Mod → Nat → Dbl → Node Mod) :=
  [updateLastStrBranched, updatePCDown, updatePCUp, updateTimesDown, updateTimesUp]

/-- A per-index update as the spec words it: the entry at `index` becomes `value`, the
storage being extended by one entry when `index` is the first free index. -/
def storeAt (vec : List Dbl) (index : Nat) (value : Dbl) : List Dbl :=
  if index = vec.length then vec ++ [value] else vec.set index value

end Node

/-! ## Translated replay -/

/-- The operations of a problem with every modification replaced by its translation
onto the problem it is used on, as the spec words the translated replay. -/
def ModOps.translated {Mod Prob : Type} (ops : ModOps Mod Prob) : ModOps Mod Prob :=
  { ops with
    applyToProblem := fun mod rel => ops.applyToProblem (ops.toRel (ops.fromRel mod rel) rel) rel,
    undoToProblem := fun mod rel => ops.undoToProblem (ops.toRel (ops.fromRel mod rel) rel) rel }

/-- A modification as the translations build it: one that is given, or the result of
`fromRel` or of `toRel` on another. -/
inductive Translation (Mod : Type) where
  | given (mod : Mod) : Translation Mod
  | fromRel (mod : Translation Mod) : Translation Mod
  | toRel (mod : Translation Mod) : Translation Mod
deriving DecidableEq

/-- A relaxation that records, oldest first, the calls it receives, over modifications
whose translations are kept as they were built. -/
def translationRecorder (Mod : Type) :
    ModOps (Translation Mod) (List (Call (Translation Mod))) where
  applyToProblem := fun mod log => log ++ [Call.applied mod]
  undoToProblem := fun mod log => log ++ [Call.undone mod]
  fromRel := fun mod _ => Translation.fromRel mod
  toRel := fun mod _ => Translation.toRel mod

/-! ## A sample state for the tie-break score -/

/-- A manager that has inserted its root (address 0, score 3) and whose memory holds a
second node (address 1) constructed as a child of the root; `rule` is the tie-break
rule. -/
def scoreManager (rule : String) : ParTreeManager Int :=
  { boundsManager Dbl.INFINITY Dbl.INFINITY
      [{ treeNode 0 none [1] with tbScore_ := Dbl.fin 3 }, treeNode 0 (some 0) []] with
    active_nodes_ := [0], size_ := 1, tbRule_ := rule }

/-- The manager `scoreManager "twoChild"` with the score `2 ^ 52` at the root. -/
def deepScoreManager : ParTreeManager Int :=
  { boundsManager Dbl.INFINITY Dbl.INFINITY
      [{ treeNode 0 none [1] with tbScore_ := Dbl.fin 4503599627370496 },
        treeNode 0 (some 0) []] with
    active_nodes_ := [0], size_ := 1, tbRule_ := "twoChild" }

/-! ## Depth and the chain that `removeNode_` walks -/

/-- The chain of parent pointers from a node arrives at `root` after `d` pointers and
not before: `d` is the depth of the node in the tree below `root`. -/
inductive DepthIs {Mod : Type} (s : Store Mod) (root : NodePtr) : NodePtr → Nat → Prop where
  | root : DepthIs s root root 0
  | step (n p : NodePtr) (d : Nat) : n ≠ root → Store.parentOf s n = some p →
      DepthIs s root p d → DepthIs s root n (d + 1)

/-- The chain of `d` parent pointers from a node to `root` on which `removeNode_` finds
what it checks: every node of the chain but the last has a positive identifier and a
parent in whose child list it occurs, and the last one is `root`, with identifier 0. -/
inductive ChainToRoot {Mod : Type} (s : Store Mod) (root : NodePtr) : NodePtr → Nat → Prop where
  | root (nd : Node Mod) : s[root]? = some nd → nd.id_ = 0 → ChainToRoot s root root 0
  | step (n p : NodePtr) (d : Nat) (nd pn : Node Mod) : s[n]? = some nd → 0 < nd.id_ →
      nd.parent_ = some p → s[p]? = some pn → n ∈ pn.children_ →
      ChainToRoot s root p d → ChainToRoot s root n (d + 1)

/-! ## The effect of `branch` -/

namespace ParTreeManager

variable {Mod : Type}

/-- The child that one pass of the loop of `branch` leaves in memory, for a parent
`node` that is the node `nd` and a branch `branch_p`: the node that the constructor
builds, with the depth that `setDepth` gives it, the warm start unless it is the first
child of a dive, and the identifier and score that `insertCandidate_` give it. -/
def branchChild (tm : ParTreeManager Mod) (node : NodePtr) (nd : Node Mod)
    (ws : Option WarmStartPtr) (is_first : Bool) (branch_p : Branch Mod) : Node Mod :=
  { Node.newChild node nd.lb_ (some branch_p) with
    depth_ := uintSucc nd.depth_, id_ := tm.size_,
    tbScore_ := newTbScore tm.tbRule_ is_first nd.tbScore_ tm.size_,
    ws_ := if is_first then none else ws }

/-- The state in which one pass of the loop of `branch` calls `insertCandidate_`, for a
parent `node` that is the node `nd`: the child is allocated at the first free address,
has its depth and, unless it is the first child of a dive, the warm start, and is
appended to the child list of the parent. -/
def beforeInsert (tm : ParTreeManager Mod) (node : NodePtr) (nd : Node Mod)
    (ws : Option WarmStartPtr) (is_first : Bool) (branch_p : Branch Mod) :
    ParTreeManager Mod :=
  { tm with store :=
      tm.store.set node { nd with children_ := nd.children_ ++ [tm.store.length] } ++
        [{ Node.newChild node nd.lb_ (some branch_p) with
            depth_ := uintSucc nd.depth_, ws_ := if is_first then none else ws }] }

/-- The state that one pass of the loop of `branch` leaves, for a parent `node` that
is the node `nd`: the child is allocated at the first free address and appended to the
child list of the parent, `size_` is incremented, and the child is pushed unless it is
the first child of a dive. -/
def afterBranchStep (tm : ParTreeManager Mod) (node : NodePtr) (nd : Node Mod)
    (ws : Option WarmStartPtr) (is_first : Bool) (branch_p : Branch Mod) :
    ParTreeManager Mod :=
  let child := branchChild tm node nd ws is_first branch_p
  let store1 : Store Mod :=
    tm.store.set node { nd with children_ := nd.children_ ++ [tm.store.length] } ++ [child]
  { tm with
    store := store1,
    size_ := uintSucc tm.size_,
    active_nodes_ :=
      (if is_first then tm.active_nodes_
       else if tm.searchType_ = TreeSearchOrder.DepthFirst then
         tm.store.length :: tm.active_nodes_
       else heapInsert store1 tm.store.length child tm.active_nodes_) }

end ParTreeManager

/-- What the loop of `branch` over the branches `bs` leaves, from the state `tm` with the
parent `node` being the node `nd` and `is_first` telling whether the first child is
dived into: the state `tm'` holds one new node per branch, at the addresses that follow
the old ones in the order of the branches (`child`), these addresses are appended to the
child list of the parent (`parent`), no other node has changed (`others`), the children
other than a first one that is dived into have been pushed (`active`; for a stack, on
top and in this order, `activeStack`), `size_` has grown by the number of branches
(`size`) and no other member has changed (`members`). -/
structure Branched {Mod : Type} (node : NodePtr) (ws : Option WarmStartPtr)
    (tm : ParTreeManager Mod) (nd : Node Mod) (is_first : Bool) (bs : List (Branch Mod))
    (tm' : ParTreeManager Mod) : Prop where
  length : tm'.store.length = tm.store.length + bs.length
  child : ∀ j b, bs[j]? = some b →
    tm'.store[tm.store.length + j]? = some
      (ParTreeManager.branchChild { tm with size_ := tm.size_ + j } node nd ws
        (is_first && decide (j = 0)) b)
  parent : tm'.store[node]? = some
    { nd with children_ := nd.children_ ++ List.range' tm.store.length bs.length }
  others : ∀ y, y < tm.store.length → y ≠ node → tm'.store[y]? = tm.store[y]?
  active : tm'.active_nodes_.Perm
    ((if is_first then (List.range' tm.store.length bs.length).tail
      else List.range' tm.store.length bs.length) ++ tm.active_nodes_)
  activeStack : tm.searchType_ = TreeSearchOrder.DepthFirst →
    tm'.active_nodes_ =
      (if is_first then (List.range' tm.store.length bs.length).tail
        else List.range' tm.store.length bs.length).reverse ++ tm.active_nodes_
  size : tm'.size_ = if bs.isEmpty then tm.size_ else (tm.size_ + bs.length) % uintModulus
  members : { tm' with store := tm.store, active_nodes_ := tm.active_nodes_,
                       size_ := tm.size_ } = tm

/-! ## The numbering of the nodes -/

/-- Only calls of `branch` are allowed. -/
def ParTreeManager.allowBranch {Mod : Type} (_tm : ParTreeManager Mod) : Op Mod → Bool
  | Op.branch _ _ _ => true
  | _ => false

/-- The address of the `i`-th node of the tree in the order of creation, over a memory
that held `given` nodes when the manager was constructed: the root for `i = 0`, and
then the nodes that `branch` allocates, at the addresses from `given` on. -/
def createdAt (given : Nat) (root : NodePtr) (i : Nat) : NodePtr :=
  if i = 0 then root else given + (i - 1)

/-- The numbering of the nodes, over a memory that held `given` nodes when the manager
was constructed: the root has identifier 0, the `j`-th node allocated since has
identifier `j + 1`, there are at most `uintModulus` nodes, and `size_` is their number
as a value of `UInt`. -/
structure Numbered {Mod : Type} (given : Nat) (root : NodePtr) (tm : ParTreeManager Mod) :
    Prop where
  rootLt : root < given
  lengthGe : given ≤ tm.store.length
  rootId : ∃ nd, tm.store[root]? = some nd ∧ nd.id_ = 0
  ids : ∀ j, given + j < tm.store.length →
    ∃ nd, tm.store[given + j]? = some nd ∧ nd.id_ = j + 1
  count : tm.store.length - given + 1 ≤ uintModulus
  size : tm.size_ = (tm.store.length - given + 1) % uintModulus

/-! ## What removal and pruning leave of a node -/

/-- The store `s'` holds the nodes of `s` with at most their links changed: every node
keeps all members other than the parent pointer and the child list, a node without
parent stays without parent, and no child list gains a node. -/
structure Detached {Mod : Type} (s s' : Store Mod) : Prop where
  length : s'.length = s.length
  node : ∀ (y : NodePtr) (nd : Node Mod), s[y]? = some nd → ∃ nd' : Node Mod, s'[y]? = some nd' ∧
    nd'.unlinked = nd.unlinked ∧ (nd.parent_ = none → nd'.parent_ = none) ∧
    ∀ c, c ∈ nd'.children_ → c ∈ nd.children_

/-- The store `s'` holds the nodes of `s` after prunings decided by `test` on the lower
bound: every node keeps its lower bound and identifier, its status is the old one, or
`NodeHitUb` if its lower bound passes `test`, a node without parent stays without
parent, and no child list gains a node. -/
structure Pruned {Mod : Type} (test : Dbl → Bool) (s s' : Store Mod) : Prop where
  length : s'.length = s.length
  node : ∀ (y : NodePtr) (nd : Node Mod), s[y]? = some nd → ∃ nd' : Node Mod, s'[y]? = some nd' ∧
    nd'.lb_ = nd.lb_ ∧ nd'.id_ = nd.id_ ∧
    (nd'.status_ = nd.status_ ∨
      (nd'.status_ = NodeStatus.NodeHitUb ∧ test nd.lb_ = true)) ∧
    (nd.parent_ = none → nd'.parent_ = none) ∧
    ∀ c, c ∈ nd'.children_ → c ∈ nd.children_

/-- A manager with incumbent and cutoff 10 whose container holds one node, of lower
bound 10 and with the given status. -/
def statusManager (status : NodeStatus) : ParTreeManager Int :=
  { boundsManager (Dbl.fin 10) (Dbl.fin 10)
      [{ nodeWithLb (Dbl.fin 10) with status_ := status }] with
    active_nodes_ := [0], size_ := 1 }

/-! ## The selection of a candidate -/

/-- The pruning test that `shouldPrune_` makes on the node at an address, in the state
`tm`; false when the address holds no node. -/
def ParTreeManager.prunable {Mod : Type} (tm : ParTreeManager Mod) (x : NodePtr) : Bool :=
  match tm.store[x]? with
  | some nd => ParTreeManager.pruneTest tm.cutOff_ tm.bestUpperBound_ tm.etol_ nd.lb_
  | none => false

/-- The addresses of the nodes that have a parent. -/
def Store.parented {Mod : Type} (s : Store Mod) : Finset NodePtr :=
  (Finset.range s.length).filter (fun y => (Store.parentOf s y).isSome)

/-- Options for a depth-first search with the cutoff 10. -/
def cutOffOptions : Options := { tree_search := "dfs", obj_cut_off := Dbl.fin 10, tb_rule := "" }

/-- The manager after the constructor with cutoff 10 and `insertRoot(0)`, over a memory
that holds one fresh node of lower bound 10. -/
def cutOffStart : ParTreeManager Int :=
  match ParTreeManager.start cutOffOptions [nodeWithLb (Dbl.fin 10)] 0 with
  | Except.ok tm => tm
  | Except.error _ => boundsManager Dbl.nan Dbl.nan []

/-- The state after the constructor with cutoff 10, `insertRoot` of a node of lower
bound 10, a depth-first `branch` with two branches at the root, and `pruneNode` on the
child that `branch` pushed into the container. -/
def prunedInContainer : ParTreeManager Int :=
  match ParTreeManager.runOps ParTreeManager.allowTreeOps cutOffStart
      [Op.branch [emptyBranch, emptyBranch] 0 none, Op.pruneNode 2] with
  | some tm => tm
  | none => boundsManager Dbl.nan Dbl.nan []

/-! ## A sample state for the order of the pruning test -/

/-- A manager whose incumbent and cutoff were set to 1000 by `setUb`, over two nodes with
the lower bounds `1000 - 5e-6` and `1001`. -/
def monotoneManager : ParTreeManager Int :=
  ParTreeManager.setUb
    (boundsManager Dbl.pinf Dbl.pinf
      [nodeWithLb (Dbl.fin (1000 - 1 / 200000)), nodeWithLb (Dbl.fin 1001)])
    (Dbl.fin 1000)

/-! ## Theorems: rounding to binary64 -/

namespace Dbl

theorem roundHalfEven_cases (x : ℚ) :
    (roundHalfEven x = ⌊x⌋ ∧ x - ⌊x⌋ ≤ 1 / 2) ∨
    (roundHalfEven x = ⌊x⌋ + 1 ∧ 1 / 2 ≤ x - ⌊x⌋) := by
  unfold roundHalfEven
  by_cases h1 : x - ⌊x⌋ < 1 / 2
  · rw [if_pos h1]; exact Or.inl ⟨rfl, h1.le⟩
  · rw [if_neg h1]
    by_cases h2 : 1 / 2 < x - ⌊x⌋
    · rw [if_pos h2]; exact Or.inr ⟨rfl, h2.le⟩
    · rw [if_neg h2]
      have he : x - ⌊x⌋ = 1 / 2 := le_antisymm (not_lt.mp h2) (not_lt.mp h1)
      by_cases h3 : ⌊x⌋ % 2 = 0
      · rw [if_pos h3]; exact Or.inl ⟨rfl, he.le⟩
      · rw [if_neg h3]; exact Or.inr ⟨rfl, he.ge⟩

theorem roundHalfEven_intCast (n : ℤ) : roundHalfEven (n : ℚ) = n := by
  unfold roundHalfEven
  rw [Int.floor_intCast]
  simp

theorem roundHalfEven_mono {x y : ℚ} (h : x ≤ y) : roundHalfEven x ≤ roundHalfEven y := by
  have hf : ⌊x⌋ ≤ ⌊y⌋ := Int.floor_mono h
  rcases lt_or_eq_of_le hf with hlt | heq
  · rcases roundHalfEven_cases x with ⟨hx, _⟩ | ⟨hx, _⟩ <;>
      rcases roundHalfEven_cases y with ⟨hy, _⟩ | ⟨hy, _⟩ <;> omega
  · unfold roundHalfEven
    rw [← heq]
    have hxy : x - ⌊x⌋ ≤ y - ⌊x⌋ := by linarith
    by_cases h1 : x - ⌊x⌋ < 1 / 2
    · rw [if_pos h1]
      split_ifs <;> omega
    · rw [if_neg h1]
      have h1' : ¬ y - (⌊x⌋ : ℚ) < 1 / 2 := fun hh => h1 (lt_of_le_of_lt hxy hh)
      rw [if_neg h1']
      by_cases h2 : 1 / 2 < x - ⌊x⌋
      · rw [if_pos h2, if_pos (lt_of_lt_of_le h2 hxy)]
      · rw [if_neg h2]
        split_ifs <;> omega

theorem roundHalfEven_neg (x : ℚ) : roundHalfEven (-x) = -roundHalfEven x := by
  by_cases hint : (⌊x⌋ : ℚ) = x
  · rw [← hint, ← Int.cast_neg, roundHalfEven_intCast, roundHalfEven_intCast]
  · have hlt : (⌊x⌋ : ℚ) < x := lt_of_le_of_ne (Int.floor_le x) hint
    have hfl : ⌊-x⌋ = -⌊x⌋ - 1 := by
      rw [Int.floor_eq_iff]
      have := Int.lt_floor_add_one x
      push_cast
      constructor <;> linarith
    unfold roundHalfEven
    rw [hfl]
    push_cast
    by_cases h1 : x - ⌊x⌋ < 1 / 2
    · have a1 : ¬ (-x - (-(⌊x⌋ : ℚ) - 1) < 1 / 2) := by linarith
      have a2 : 1 / 2 < -x - (-(⌊x⌋ : ℚ) - 1) := by linarith
      rw [if_pos h1, if_neg a1, if_pos a2]
      ring
    · rw [if_neg h1]
      by_cases h2 : 1 / 2 < x - ⌊x⌋
      · have a1 : -x - (-(⌊x⌋ : ℚ) - 1) < 1 / 2 := by linarith
        rw [if_pos h2, if_pos a1]
        ring
      · have a1 : ¬ (-x - (-(⌊x⌋ : ℚ) - 1) < 1 / 2) := by linarith
        have a2 : ¬ (1 / 2 < -x - (-(⌊x⌋ : ℚ) - 1)) := by linarith
        rw [if_neg h2, if_neg a1, if_neg a2]
        split_ifs <;> omega

theorem abs_roundHalfEven_sub_le (x : ℚ) : |(roundHalfEven x : ℚ) - x| ≤ 1 / 2 := by
  have h1 := Int.floor_le x
  have h2 := Int.lt_floor_add_one x
  rw [abs_le]
  rcases roundHalfEven_cases x with ⟨hx, h⟩ | ⟨hx, h⟩ <;> rw [hx] <;> push_cast <;>
    constructor <;> linarith

theorem ulpExp_ge (q : ℚ) : -1074 ≤ ulpExp q := by
  unfold ulpExp
  split_ifs
  · exact le_refl _
  · have := le_max_right (Int.log 2 |q|) (-1022)
    omega

theorem ulpExp_neg (q : ℚ) : ulpExp (-q) = ulpExp q := by
  simp only [ulpExp, abs_neg, neg_eq_zero]

theorem ulpExp_abs (q : ℚ) : ulpExp |q| = ulpExp q := by
  simp only [ulpExp, abs_abs, abs_eq_zero]

theorem two_zpow_pos (k : ℤ) : (0 : ℚ) < 2 ^ k := zpow_pos (by norm_num) k

theorem two_zpow_mono {a b : ℤ} (h : a ≤ b) : (2 : ℚ) ^ a ≤ 2 ^ b :=
  zpow_le_zpow_right₀ (by norm_num) h

theorem abs_lt_zpow_ulpExp (q : ℚ) : |q| < 2 ^ (ulpExp q + 53) := by
  unfold ulpExp
  split_ifs with h0
  · rw [h0, abs_zero]; exact two_zpow_pos _
  · have h := Int.lt_zpow_succ_log_self (by norm_num : 1 < 2) |q|
    rw [Nat.cast_ofNat] at h
    refine lt_of_lt_of_le h (two_zpow_mono ?_)
    have := le_max_left (Int.log 2 |q|) (-1022)
    omega

theorem zpow_ulpExp_le_abs (q : ℚ) (h : -1074 < ulpExp q) : 2 ^ (ulpExp q + 52) ≤ |q| := by
  unfold ulpExp at h ⊢
  split_ifs at h ⊢ with h0
  · omega
  · have hpos : 0 < |q| := abs_pos.mpr h0
    have hl := Int.zpow_log_le_self (by norm_num : 1 < 2) hpos
    rw [Nat.cast_ofNat] at hl
    have hmax : max (Int.log 2 |q|) (-1022) = Int.log 2 |q| := by
      rcases max_choice (Int.log 2 |q|) (-1022) with hm | hm
      · exact hm
      · rw [hm] at h; omega
    rw [hmax]
    have : Int.log 2 |q| - 52 + 52 = Int.log 2 |q| := by omega
    rw [this]
    exact hl

theorem ulpExp_mono {a b : ℚ} (h : |a| ≤ |b|) : ulpExp a ≤ ulpExp b := by
  by_cases ha : a = 0
  · have : ulpExp a = -1074 := by simp [ulpExp, ha]
    rw [this]; exact ulpExp_ge b
  · have hpa : 0 < |a| := abs_pos.mpr ha
    have hb : b ≠ 0 := fun e => by
      rw [e, abs_zero] at h
      exact absurd (lt_of_lt_of_le hpa h) (lt_irrefl _)
    unfold ulpExp
    rw [if_neg ha, if_neg hb]
    have := Int.log_mono_right (b := 2) hpa h
    have := max_le_max this (le_refl (-1022 : ℤ))
    omega

theorem nearest_zero : nearest 0 = 0 := by
  unfold nearest
  rw [zero_div]
  have : roundHalfEven 0 = 0 := by
    have := roundHalfEven_intCast 0
    simpa using this
  rw [this]; simp

theorem nearest_neg (q : ℚ) : nearest (-q) = -nearest q := by
  unfold nearest
  rw [ulpExp_neg, neg_div, roundHalfEven_neg]
  push_cast
  ring

/-- Rounding does not cross a multiple of the unit in the last place. -/
theorem le_nearest_of_le (q : ℚ) (n : ℤ) (h : (n : ℚ) * 2 ^ ulpExp q ≤ q) :
    (n : ℚ) * 2 ^ ulpExp q ≤ nearest q := by
  unfold nearest
  have hu := two_zpow_pos (ulpExp q)
  have h1 : (n : ℚ) ≤ q / 2 ^ ulpExp q := (le_div_iff₀ hu).mpr h
  have h2 := roundHalfEven_mono h1
  rw [roundHalfEven_intCast] at h2
  exact mul_le_mul_of_nonneg_right (by exact_mod_cast h2) hu.le

theorem nearest_le_of_le (q : ℚ) (n : ℤ) (h : q ≤ (n : ℚ) * 2 ^ ulpExp q) :
    nearest q ≤ (n : ℚ) * 2 ^ ulpExp q := by
  unfold nearest
  have hu := two_zpow_pos (ulpExp q)
  have h1 : q / 2 ^ ulpExp q ≤ (n : ℚ) := (div_le_iff₀ hu).mpr h
  have h2 := roundHalfEven_mono h1
  rw [roundHalfEven_intCast] at h2
  exact mul_le_mul_of_nonneg_right (by exact_mod_cast h2) hu.le

theorem nearest_nonneg {q : ℚ} (h : 0 ≤ q) : 0 ≤ nearest q := by
  have := le_nearest_of_le q 0 (by simpa using h)
  simpa using this

theorem nearest_le_zpow {q : ℚ} (h : 0 ≤ q) : nearest q ≤ 2 ^ (ulpExp q + 53) := by
  have hlt := abs_lt_zpow_ulpExp q
  rw [abs_of_nonneg h] at hlt
  have e : (2 : ℚ) ^ (ulpExp q + 53) = ((2 ^ 53 : ℤ) : ℚ) * 2 ^ ulpExp q := by
    rw [zpow_add₀ (by norm_num : (2 : ℚ) ≠ 0)]
    push_cast
    rw [mul_comm]
    norm_num
  rw [e] at hlt ⊢
  exact nearest_le_of_le q _ hlt.le

theorem zpow_le_nearest {q : ℚ} (h : 0 ≤ q) (hk : -1074 < ulpExp q) :
    2 ^ (ulpExp q + 52) ≤ nearest q := by
  have hle := zpow_ulpExp_le_abs q hk
  rw [abs_of_nonneg h] at hle
  have e : (2 : ℚ) ^ (ulpExp q + 52) = ((2 ^ 52 : ℤ) : ℚ) * 2 ^ ulpExp q := by
    rw [zpow_add₀ (by norm_num : (2 : ℚ) ≠ 0)]
    push_cast
    rw [mul_comm]
    norm_num
  rw [e] at hle ⊢
  exact le_nearest_of_le q _ hle

theorem nearest_mono_of_nonneg {a b : ℚ} (ha : 0 ≤ a) (h : a ≤ b) : nearest a ≤ nearest b := by
  have hb : 0 ≤ b := le_trans ha h
  have hk : ulpExp a ≤ ulpExp b := ulpExp_mono (by rwa [abs_of_nonneg ha, abs_of_nonneg hb])
  rcases lt_or_eq_of_le hk with hlt | heq
  · calc nearest a ≤ 2 ^ (ulpExp a + 53) := nearest_le_zpow ha
      _ ≤ 2 ^ (ulpExp b + 52) := two_zpow_mono (by omega)
      _ ≤ nearest b := zpow_le_nearest hb (by have := ulpExp_ge a; omega)
  · unfold nearest
    rw [heq]
    have hu := two_zpow_pos (ulpExp b)
    have h1 : a / 2 ^ ulpExp b ≤ b / 2 ^ ulpExp b := div_le_div_of_nonneg_right h hu.le
    have h2 := roundHalfEven_mono h1
    exact mul_le_mul_of_nonneg_right (by exact_mod_cast h2) hu.le

theorem nearest_mono {a b : ℚ} (h : a ≤ b) : nearest a ≤ nearest b := by
  rcases le_total 0 a with ha | ha
  · exact nearest_mono_of_nonneg ha h
  · rcases le_total 0 b with hb | hb
    · have h1 : nearest a ≤ 0 := by
        have := nearest_nonneg (neg_nonneg.mpr ha)
        rw [nearest_neg] at this
        linarith
      exact le_trans h1 (nearest_nonneg hb)
    · have := nearest_mono_of_nonneg (neg_nonneg.mpr hb) (neg_le_neg h)
      rw [nearest_neg, nearest_neg] at this
      linarith

/-- A number `m * 2 ^ j` with `|m| < 2 ^ 53` and `j` at least -1074 is its own nearest
multiple. -/
theorem nearest_of_dyadic (m j : ℤ) (hm : |m| < 2 ^ 53) (hj : -1074 ≤ j) :
    nearest ((m : ℚ) * 2 ^ j) = (m : ℚ) * 2 ^ j := by
  by_cases h0 : m = 0
  · rw [h0]; simp [nearest_zero]
  · have hq0 : (m : ℚ) * 2 ^ j ≠ 0 :=
      mul_ne_zero (by exact_mod_cast h0) (two_zpow_pos j).ne'
    have habs : |(m : ℚ) * 2 ^ j| < 2 ^ (j + 53) := by
      rw [abs_mul, abs_of_pos (two_zpow_pos j), zpow_add₀ (by norm_num : (2 : ℚ) ≠ 0),
        mul_comm]
      apply mul_lt_mul_of_pos_left _ (two_zpow_pos j)
      rw [show ((2 : ℚ) ^ (53 : ℤ)) = ((2 ^ 53 : ℤ) : ℚ) by norm_num, ← Int.cast_abs]
      exact_mod_cast hm
    have hk : ulpExp ((m : ℚ) * 2 ^ j) ≤ j := by
      unfold ulpExp
      rw [if_neg hq0]
      have hpos : 0 < |(m : ℚ) * 2 ^ j| := abs_pos.mpr hq0
      have hlog : Int.log 2 |(m : ℚ) * 2 ^ j| < j + 53 := by
        rw [← Int.lt_zpow_iff_log_lt (by norm_num : 1 < 2) hpos, Nat.cast_ofNat]
        exact habs
      have : max (Int.log 2 |(m : ℚ) * 2 ^ j|) (-1022) ≤ j + 52 := max_le (by omega) (by omega)
      omega
    unfold nearest
    generalize ulpExp ((m : ℚ) * 2 ^ j) = k at hk
    obtain ⟨d, hd⟩ : ∃ d : ℕ, j = k + d := ⟨(j - k).toNat, by omega⟩
    have e : (m : ℚ) * 2 ^ j / 2 ^ k = ((m * 2 ^ d : ℤ) : ℚ) := by
      rw [hd, zpow_add₀ (by norm_num : (2 : ℚ) ≠ 0), zpow_natCast]
      push_cast
      field_simp
      ring
    rw [e, roundHalfEven_intCast, hd, zpow_add₀ (by norm_num : (2 : ℚ) ≠ 0), zpow_natCast]
    push_cast
    ring

/-- The nearest multiple is a number `m * 2 ^ j` with `|m| < 2 ^ 53` and `j` at least
-1074. -/
theorem nearest_dyadic (q : ℚ) :
    ∃ m j : ℤ, |m| < 2 ^ 53 ∧ -1074 ≤ j ∧ nearest q = (m : ℚ) * 2 ^ j := by
  have hu := two_zpow_pos (ulpExp q)
  have hN : |roundHalfEven (q / 2 ^ ulpExp q)| ≤ 2 ^ 53 := by
    have hlt := abs_lt_zpow_ulpExp q
    rw [zpow_add₀ (by norm_num : (2 : ℚ) ≠ 0)] at hlt
    have hx : |q / 2 ^ ulpExp q| ≤ ((2 ^ 53 : ℤ) : ℚ) := by
      rw [abs_div, abs_of_pos hu, div_le_iff₀ hu,
        show (((2 ^ 53 : ℤ)) : ℚ) = (2 : ℚ) ^ (53 : ℤ) by norm_num, mul_comm]
      exact hlt.le
    rw [abs_le] at hx ⊢
    constructor
    · have := roundHalfEven_mono hx.1
      rw [← Int.cast_neg, roundHalfEven_intCast] at this
      exact this
    · have := roundHalfEven_mono hx.2
      rw [roundHalfEven_intCast] at this
      exact this
  rcases lt_or_eq_of_le hN with hlt | heq
  · exact ⟨_, ulpExp q, hlt, ulpExp_ge q, rfl⟩
  · refine ⟨roundHalfEven (q / 2 ^ ulpExp q) / 2 ^ 53, ulpExp q + 53, ?_, ?_, ?_⟩
    · rcases abs_eq (by norm_num : (0 : ℤ) ≤ 2 ^ 53) |>.mp heq with h | h <;> rw [h] <;>
        norm_num
    · have := ulpExp_ge q; omega
    · unfold nearest
      rw [zpow_add₀ (by norm_num : (2 : ℚ) ≠ 0)]
      rcases abs_eq (by norm_num : (0 : ℤ) ≤ 2 ^ 53) |>.mp heq with h | h <;> rw [h] <;>
        norm_num <;> ring

theorem nearest_idem (q : ℚ) : nearest (nearest q) = nearest q := by
  obtain ⟨m, j, hm, hj, h⟩ := nearest_dyadic q
  rw [h, nearest_of_dyadic m j hm hj]

/-! ### Rounding and the order of `double` -/

theorem round_zero : round 0 = fin 0 := by
  unfold round
  rw [nearest_zero]
  norm_num

theorem round_neg (q : ℚ) : round (-q) = neg (round q) := by
  unfold round
  rw [nearest_neg]
  by_cases h1 : (2 : ℚ) ^ 1024 ≤ nearest q
  · have h2 : ¬ (2 : ℚ) ^ 1024 ≤ -nearest q := by
      have : (0 : ℚ) < 2 ^ 1024 := by positivity
      intro h; linarith
    have h3 : -nearest q ≤ -(2 : ℚ) ^ 1024 := by linarith
    rw [if_pos h1, if_neg h2, if_pos h3]; rfl
  · rw [if_neg h1]
    by_cases h2 : nearest q ≤ -(2 : ℚ) ^ 1024
    · have h3 : (2 : ℚ) ^ 1024 ≤ -nearest q := by linarith
      rw [if_pos h2, if_pos h3]; rfl
    · have h3 : ¬ (2 : ℚ) ^ 1024 ≤ -nearest q := by intro h; apply h2; linarith
      have h4 : ¬ -nearest q ≤ -(2 : ℚ) ^ 1024 := by intro h; apply h1; linarith
      rw [if_neg h2, if_neg h3, if_neg h4]; rfl

theorem round_cases (q : ℚ) :
    (round q = pinf ∧ (2 : ℚ) ^ 1024 ≤ nearest q) ∨
    (round q = ninf ∧ nearest q ≤ -(2 : ℚ) ^ 1024) ∨
    (round q = fin (nearest q) ∧ -(2 : ℚ) ^ 1024 < nearest q ∧ nearest q < 2 ^ 1024) := by
  unfold round
  by_cases h1 : (2 : ℚ) ^ 1024 ≤ nearest q
  · rw [if_pos h1]; exact Or.inl ⟨rfl, h1⟩
  · rw [if_neg h1]
    by_cases h2 : nearest q ≤ -(2 : ℚ) ^ 1024
    · rw [if_pos h2]; exact Or.inr (Or.inl ⟨rfl, h2⟩)
    · rw [if_neg h2]; exact Or.inr (Or.inr ⟨rfl, not_le.mp h2, not_le.mp h1⟩)

theorem round_ne_nan (q : ℚ) : round q ≠ nan := by
  rcases round_cases q with ⟨h, _⟩ | ⟨h, _⟩ | ⟨h, _⟩ <;> rw [h] <;> simp

theorem round_mono {a b : ℚ} (h : a ≤ b) : le (round a) (round b) = true := by
  have hn := nearest_mono h
  have hp : (0 : ℚ) < 2 ^ 1024 := by positivity
  rcases round_cases a with ⟨ha, ha'⟩ | ⟨ha, ha'⟩ | ⟨ha, ha1, ha2⟩ <;>
    rcases round_cases b with ⟨hb, hb'⟩ | ⟨hb, hb'⟩ | ⟨hb, hb1, hb2⟩ <;>
    rw [ha, hb] <;> simp [le] <;> linarith

/-- A value that `round` gives is a binary64 number: rounding leaves it as it is. -/
theorem round_idem {q r : ℚ} (h : round q = fin r) : round r = fin r := by
  rcases round_cases q with ⟨hq, _⟩ | ⟨hq, _⟩ | ⟨hq, h1, h2⟩
  · rw [hq] at h; cases h
  · rw [hq] at h; cases h
  · rw [hq] at h
    have hr : r = nearest q := (fin.inj h).symm
    have hn : nearest r = r := by rw [hr, nearest_idem]
    unfold round
    rw [hn, if_neg (by rw [hr]; exact not_le.mpr h2), if_neg (by rw [hr]; exact not_le.mpr h1)]

/-- A number `m * 2 ^ j` with `|m| < 2 ^ 53`, `j` at least -1074 and a magnitude below
`2 ^ 1024` is a binary64 number. -/
theorem round_of_dyadic (m j : ℤ) (hm : |m| < 2 ^ 53) (hj : -1074 ≤ j)
    (hlt : |(m : ℚ) * 2 ^ j| < 2 ^ 1024) : round ((m : ℚ) * 2 ^ j) = fin ((m : ℚ) * 2 ^ j) := by
  unfold round
  rw [nearest_of_dyadic m j hm hj]
  rw [abs_lt] at hlt
  rw [if_neg (not_le.mpr hlt.2), if_neg (not_le.mpr hlt.1)]

theorem round_intCast (n : ℤ) (h : |n| < 2 ^ 53) : round (n : ℚ) = fin (n : ℚ) := by
  have := round_of_dyadic n 0 h (by norm_num) (by
    rw [zpow_zero, mul_one, ← Int.cast_abs]
    have h2 : ((|n| : ℤ) : ℚ) < ((2 ^ 53 : ℤ) : ℚ) := by exact_mod_cast h
    refine lt_trans h2 ?_
    norm_num)
  simpa using this

theorem round_natCast (n : ℕ) (h : n < 2 ^ 53) : round (n : ℚ) = fin (n : ℚ) := by
  have := round_intCast (n : ℤ) (by
    rw [abs_of_nonneg (Int.natCast_nonneg n)]
    exact_mod_cast h)
  simpa using this

theorem le_chain {a b c : Dbl} (h1 : le a b = true) (h2 : le b c = true) :
    le a c = true := by
  cases a <;> cases b <;> cases c <;> simp [le] at h1 h2 ⊢
  exact le_trans h1 h2

theorem ulpExp_eq (q : ℚ) (e : ℤ) (h1 : 2 ^ e ≤ |q|) (h2 : |q| < 2 ^ (e + 1))
    (he : -1022 ≤ e) : ulpExp q = e - 52 := by
  have hpos : 0 < |q| := lt_of_lt_of_le (two_zpow_pos e) h1
  have hq : q ≠ 0 := abs_pos.mp hpos
  have hlog : Int.log 2 |q| = e := by
    apply le_antisymm
    · have := (Int.lt_zpow_iff_log_lt (by norm_num : 1 < 2) hpos (x := e + 1)).mp
        (by rw [Nat.cast_ofNat]; exact h2)
      omega
    · exact (Int.zpow_le_iff_le_log (by norm_num : 1 < 2) hpos).mp
        (by rw [Nat.cast_ofNat]; exact h1)
  unfold ulpExp
  rw [if_neg hq, hlog, max_eq_left he]

theorem roundHalfEven_eq_of_abs_lt (x : ℚ) (n : ℤ) (h : |x - n| < 1 / 2) :
    roundHalfEven x = n := by
  have h1 := abs_roundHalfEven_sub_le x
  have h2 : |((roundHalfEven x - n : ℤ) : ℚ)| < 1 := by
    push_cast
    have : (roundHalfEven x : ℚ) - n = ((roundHalfEven x : ℚ) - x) + (x - n) := by ring
    rw [this]
    exact lt_of_le_of_lt (abs_add _ _) (by linarith)
  rw [← Int.cast_abs] at h2
  have h3 : |roundHalfEven x - n| < 1 := by exact_mod_cast h2
  have h4 : roundHalfEven x - n = 0 := Int.abs_lt_one_iff.mp h3
  omega

theorem roundHalfEven_tie_up (n : ℤ) (hn : n % 2 = 0) :
    roundHalfEven ((n : ℚ) - 1 / 2) = n := by
  have hf : ⌊(n : ℚ) - 1 / 2⌋ = n - 1 := by
    rw [Int.floor_eq_iff]
    push_cast
    constructor <;> linarith
  unfold roundHalfEven
  rw [hf]
  push_cast
  have a1 : ¬ ((n : ℚ) - 1 / 2 - (n - 1) < 1 / 2) := by linarith
  have a2 : ¬ (1 / 2 < (n : ℚ) - 1 / 2 - (n - 1)) := by linarith
  rw [if_neg a1, if_neg a2]
  split_ifs <;> omega

theorem roundHalfEven_tie_down (n : ℤ) (hn : n % 2 = 0) :
    roundHalfEven ((n : ℚ) + 1 / 2) = n := by
  have hf : ⌊(n : ℚ) + 1 / 2⌋ = n := by
    rw [Int.floor_eq_iff]
    constructor <;> linarith
  unfold roundHalfEven
  rw [hf]
  have a1 : ¬ ((n : ℚ) + 1 / 2 - n < 1 / 2) := by linarith
  have a2 : ¬ (1 / 2 < (n : ℚ) + 1 / 2 - n) := by linarith
  rw [if_neg a1, if_neg a2, if_pos hn]

/-- The value of `round` at a number of binary exponent `e` that is nearer to the
multiple `n` of the unit in the last place than to any other. -/
theorem round_eq_of_near (q : ℚ) (e n : ℤ) (h1 : 2 ^ e ≤ |q|) (h2 : |q| < 2 ^ (e + 1))
    (he : -1022 ≤ e) (hx : |q / 2 ^ (e - 52) - n| < 1 / 2)
    (hfin : |(n : ℚ) * 2 ^ (e - 52)| < 2 ^ 1024) :
    round q = fin ((n : ℚ) * 2 ^ (e - 52)) := by
  have hn : nearest q = (n : ℚ) * 2 ^ (e - 52) := by
    unfold nearest
    rw [ulpExp_eq q e h1 h2 he, roundHalfEven_eq_of_abs_lt _ n hx]
  unfold round
  rw [hn]
  rw [abs_lt] at hfin
  rw [if_neg (not_le.mpr hfin.2), if_neg (not_le.mpr hfin.1)]

theorem maxDouble_eq : maxDouble = (((2 ^ 53 - 1 : ℤ)) : ℚ) * 2 ^ (971 : ℤ) := by
  unfold maxDouble
  have e1 : (2 : ℚ) ^ (971 : ℤ) = 2 ^ 971 := zpow_ofNat 2 971
  have e2 : (2 : ℚ) ^ 1024 = 2 ^ 53 * 2 ^ 971 := by rw [← pow_add]
  rw [e1, e2]
  push_cast
  generalize (2 : ℚ) ^ 971 = x
  ring

theorem nearest_maxDouble : nearest maxDouble = maxDouble := by
  have h := nearest_of_dyadic (2 ^ 53 - 1) 971 (by norm_num) (by norm_num)
  rwa [← maxDouble_eq] at h

theorem maxDouble_lt : maxDouble < 2 ^ 1024 := by
  unfold maxDouble
  have : (0 : ℚ) < 2 ^ 971 := by positivity
  linarith

theorem maxDouble_pos : 0 < maxDouble := by
  unfold maxDouble
  have : (2 : ℚ) ^ 971 < 2 ^ 1024 := pow_lt_pow_right₀ (by norm_num) (by norm_num)
  linarith

/-- No multiple of a unit in the last place lies between `DBL_MAX` and `2 ^ 1024`. -/
theorem nearest_le_maxDouble {q : ℚ} (h : nearest q < 2 ^ 1024) : nearest q ≤ maxDouble := by
  rcases le_or_lt q 0 with hq | hq
  · have : nearest q ≤ 0 := by
      have := nearest_nonneg (neg_nonneg.mpr hq)
      rw [nearest_neg] at this
      linarith
    exact le_trans this maxDouble_pos.le
  · rcases lt_trichotomy (ulpExp q) 971 with hk | hk | hk
    · have h1 := nearest_le_zpow hq.le
      have h2 : (2 : ℚ) ^ (ulpExp q + 53) ≤ 2 ^ (1023 : ℤ) := two_zpow_mono (by omega)
      have h3 : (2 : ℚ) ^ (1023 : ℤ) ≤ maxDouble := by
        unfold maxDouble
        have e1 : (2 : ℚ) ^ (1023 : ℤ) = 2 ^ 1023 := zpow_ofNat 2 1023
        have e2 : (2 : ℚ) ^ 1024 = 2 * 2 ^ 1023 := by rw [← pow_succ']
        have e3 : (2 : ℚ) ^ 971 ≤ 2 ^ 1023 := pow_le_pow_right₀ (by norm_num) (by norm_num)
        rw [e1, e2]
        linarith
      linarith
    · have e53 : (((2 ^ 53 : ℤ)) : ℚ) * 2 ^ (971 : ℤ) = 2 ^ 1024 := by
        rw [Int.cast_pow, Int.cast_ofNat, zpow_ofNat, ← pow_add]
      have hlt : q < 2 ^ 1024 := by
        by_contra hcon
        have := nearest_mono (not_lt.mp hcon)
        have e2 : nearest ((2 : ℚ) ^ 1024) = 2 ^ 1024 := by
          have := nearest_of_dyadic 1 1024 (by norm_num) (by norm_num)
          rwa [Int.cast_one, one_mul, zpow_ofNat] at this
        rw [e2] at this
        exact absurd h (not_lt.mpr this)
      have hle : q ≤ (((2 ^ 53 : ℤ)) : ℚ) * 2 ^ ulpExp q := by
        rw [hk, e53]
        exact hlt.le
      -- the multiple is below 2 ^ 53 units
      have hN : roundHalfEven (q / 2 ^ ulpExp q) < 2 ^ 53 := by
        by_contra hcon
        have hNge : (2 : ℤ) ^ 53 ≤ roundHalfEven (q / 2 ^ ulpExp q) := not_lt.mp hcon
        have : (2 : ℚ) ^ 1024 ≤ nearest q := by
          unfold nearest
          rw [hk]
          have hc : (((2 ^ 53 : ℤ)) : ℚ) ≤ (roundHalfEven (q / 2 ^ (971 : ℤ)) : ℚ) := by
            rw [hk] at hNge
            exact_mod_cast hNge
          have := mul_le_mul_of_nonneg_right hc (two_zpow_pos 971).le
          rw [e53] at this
          exact this
        exact absurd h (not_lt.mpr this)
      have hN' : roundHalfEven (q / 2 ^ ulpExp q) ≤ 2 ^ 53 - 1 := by omega
      unfold nearest
      have hc : (roundHalfEven (q / 2 ^ ulpExp q) : ℚ) ≤ (((2 ^ 53 - 1 : ℤ)) : ℚ) := by
        exact_mod_cast hN'
      have := mul_le_mul_of_nonneg_right hc (two_zpow_pos (ulpExp q)).le
      rw [hk] at this ⊢
      rw [← maxDouble_eq] at this
      exact this
    · have h1 := zpow_le_nearest hq.le (by omega)
      have h2 : (2 : ℚ) ^ (1024 : ℤ) ≤ 2 ^ (ulpExp q + 52) := two_zpow_mono (by omega)
      rw [zpow_ofNat] at h2
      exact absurd h (not_lt.mpr (le_trans h2 h1))

theorem neg_maxDouble_le_nearest {q : ℚ} (h : -2 ^ 1024 < nearest q) :
    -maxDouble ≤ nearest q := by
  have := nearest_le_maxDouble (q := -q) (by rw [nearest_neg]; linarith)
  rw [nearest_neg] at this
  linarith

theorem saturate_of_lt {x : ℚ} (h1 : -2 ^ 1024 < x) (h2 : x < 2 ^ 1024) : saturate x = x := by
  unfold saturate
  rw [if_neg (not_le.mpr h2), if_neg (not_le.mpr h1)]

theorem saturate_zero : saturate 0 = 0 := by
  have hp : (0 : ℚ) < 2 ^ 1024 := by positivity
  exact saturate_of_lt (by linarith) hp

theorem toDouble_zero : toDouble (fin 0) = fin 0 := by
  simp only [toDouble, nearest_zero, saturate_zero]

theorem saturate_neg (x : ℚ) : saturate (-x) = -saturate x := by
  have hp : (0 : ℚ) < 2 ^ 1024 := by positivity
  unfold saturate
  by_cases h1 : (2 : ℚ) ^ 1024 ≤ x
  · rw [if_pos h1, if_neg (by intro h; linarith), if_pos (by linarith)]
  · rw [if_neg h1]
    by_cases h2 : x ≤ -(2 : ℚ) ^ 1024
    · rw [if_pos h2, if_pos (by linarith)]; ring
    · rw [if_neg h2, if_neg (by intro h; apply h2; linarith),
        if_neg (by intro h; apply h1; linarith)]

theorem saturate_nearest_mono {a b : ℚ} (h : a ≤ b) :
    saturate (nearest a) ≤ saturate (nearest b) := by
  have hn := nearest_mono h
  have hm := maxDouble_lt
  have hp := maxDouble_pos
  unfold saturate
  by_cases a1 : (2 : ℚ) ^ 1024 ≤ nearest a
  · rw [if_pos a1, if_pos (le_trans a1 hn)]
  · rw [if_neg a1]
    have a1' := nearest_le_maxDouble (not_le.mp a1)
    by_cases a2 : nearest a ≤ -(2 : ℚ) ^ 1024
    · rw [if_pos a2]
      by_cases b1 : (2 : ℚ) ^ 1024 ≤ nearest b
      · rw [if_pos b1]; linarith
      · rw [if_neg b1]
        by_cases b2 : nearest b ≤ -(2 : ℚ) ^ 1024
        · rw [if_pos b2]
        · rw [if_neg b2]
          exact neg_maxDouble_le_nearest (not_le.mp b2)
    · rw [if_neg a2]
      by_cases b1 : (2 : ℚ) ^ 1024 ≤ nearest b
      · rw [if_pos b1]; exact a1'
      · rw [if_neg b1, if_neg (by intro hb; apply a2; linarith)]
        exact hn

theorem nearest_saturate_nearest (q : ℚ) :
    nearest (saturate (nearest q)) = saturate (nearest q) := by
  unfold saturate
  split_ifs
  · exact nearest_maxDouble
  · rw [nearest_neg, nearest_maxDouble]
  · exact nearest_idem q

theorem saturate_idem_nearest (q : ℚ) :
    saturate (nearest (saturate (nearest q))) = saturate (nearest q) := by
  rw [nearest_saturate_nearest]
  have hm := maxDouble_lt
  have hp := maxDouble_pos
  unfold saturate
  by_cases a1 : (2 : ℚ) ^ 1024 ≤ nearest q
  · rw [if_pos a1, if_neg (by linarith), if_neg (by linarith)]
  · rw [if_neg a1]
    by_cases a2 : nearest q ≤ -(2 : ℚ) ^ 1024
    · rw [if_pos a2, if_neg (by linarith), if_neg (by linarith)]
    · rw [if_neg a2, if_neg a1, if_neg a2]

theorem toDouble_idem (a : Dbl) : toDouble (toDouble a) = toDouble a := by
  cases a with
  | fin q => simp only [toDouble, saturate_idem_nearest]
  | nan => rfl
  | ninf => rfl
  | pinf => rfl

/-- A value that `round` gives is a `double`. -/
theorem toDouble_round (q : ℚ) : toDouble (round q) = round q := by
  rcases round_cases q with ⟨hq, _⟩ | ⟨hq, _⟩ | ⟨hq, h1, h2⟩
  · rw [hq]; rfl
  · rw [hq]; rfl
  · rw [hq]
    simp only [toDouble, nearest_idem, saturate_of_lt h1 h2]

theorem toDouble_fin_of_round {q : ℚ} (h : round q = fin q) : toDouble (fin q) = fin q := by
  have := toDouble_round q
  rwa [h] at this

/-- A finite `double` is a value that `round` leaves as it is. -/
theorem round_of_toDouble {q : ℚ} (h : toDouble (fin q) = fin q) : round q = fin q := by
  have hs : saturate (nearest q) = q := fin.inj h
  have hm := maxDouble_lt
  have hp := maxDouble_pos
  have hnq : nearest q = q := by
    have := nearest_saturate_nearest q
    rwa [hs] at this
  unfold round
  unfold saturate at hs
  rw [hnq] at hs ⊢
  by_cases a1 : (2 : ℚ) ^ 1024 ≤ q
  · rw [if_pos a1] at hs; linarith
  · rw [if_neg a1] at hs ⊢
    by_cases a2 : q ≤ -(2 : ℚ) ^ 1024
    · rw [if_pos a2] at hs; linarith
    · rw [if_neg a2]

end Dbl

/-! ### Arithmetic on `double` and the pruning test -/

theorem Dbl.le_refl_of_ne_nan {a : Dbl} (h : a ≠ Dbl.nan) : Dbl.le a a = true := by
  cases a <;> simp [Dbl.le] at h ⊢

theorem Dbl.le_of_not_lt {a b : Dbl} (ha : a ≠ Dbl.nan) (hb : b ≠ Dbl.nan)
    (h : Dbl.lt a b = false) : Dbl.le b a = true := by
  cases a <;> cases b <;> simp [Dbl.le, Dbl.lt] at ha hb h ⊢
  exact h

theorem Dbl.ne_nan_of_le {a b : Dbl} (h : Dbl.le a b = true) : a ≠ Dbl.nan ∧ b ≠ Dbl.nan := by
  cases a <;> cases b <;> simp [Dbl.le] at h ⊢

namespace Dbl

theorem lt_le_chain {a b c : Dbl} (h1 : lt a b = true) (h2 : le b c = true) :
    lt a c = true := by
  cases a <;> cases b <;> cases c <;> simp [le, lt] at h1 h2 ⊢
  exact lt_of_lt_of_le h1 h2

theorem le_lt_chain {a b c : Dbl} (h1 : le a b = true) (h2 : lt b c = true) :
    lt a c = true := by
  cases a <;> cases b <;> cases c <;> simp [le, lt] at h1 h2 ⊢
  exact lt_of_le_of_lt h1 h2

theorem le_of_lt {a b : Dbl} (h : lt a b = true) : le a b = true := by
  cases a <;> cases b <;> simp [le, lt] at h ⊢
  exact h.le

theorem not_lt_of_le {a b : Dbl} (h : le a b = true) : lt b a = false := by
  cases a <;> cases b <;> simp [le, lt] at h ⊢
  exact h

theorem toDouble_mono {a b : Dbl} (h : le a b = true) : le (toDouble a) (toDouble b) = true := by
  cases a <;> cases b <;> simp [le] at h
  · rfl
  · rfl
  · rfl
  · simp only [toDouble, le, decide_eq_true_eq]
    exact saturate_nearest_mono h
  · rfl
  · rfl

theorem toDouble_ne_nan {a : Dbl} (h : a ≠ nan) : toDouble a ≠ nan := by
  cases a <;> simp [toDouble] at h ⊢

theorem toDouble_neg (a : Dbl) : toDouble (neg a) = neg (toDouble a) := by
  cases a with
  | fin q => simp only [neg, toDouble, nearest_neg, saturate_neg]
  | nan => rfl
  | ninf => rfl
  | pinf => rfl

theorem round_nonneg {q : ℚ} (h : 0 ≤ q) : le (fin 0) (round q) = true := by
  have := round_mono h
  rwa [round_zero] at this

theorem fabs_round_of_nonneg {q : ℚ} (h : 0 ≤ q) : fabs (round q) = round q := by
  have h0 := round_nonneg h
  rcases round_cases q with ⟨hq, _⟩ | ⟨hq, _⟩ | ⟨hq, _⟩
  · rw [hq]; rfl
  · rw [hq] at h0; simp [le] at h0
  · rw [hq] at h0 ⊢
    simp only [le, decide_eq_true_eq] at h0
    simp only [fabs, abs_of_nonneg h0]

theorem toDouble_fabs (a : Dbl) : toDouble (fabs a) = fabs (toDouble a) := by
  cases a with
  | nan => rfl
  | ninf => rfl
  | pinf => rfl
  | fin q =>
    simp only [fabs, toDouble]
    congr 1
    rcases le_total 0 q with h | h
    · have h0 : 0 ≤ saturate (nearest q) := by
        have := saturate_nearest_mono h
        rwa [nearest_zero, saturate_zero] at this
      rw [abs_of_nonneg h, abs_of_nonneg h0]
    · have h0 : saturate (nearest q) ≤ 0 := by
        have := saturate_nearest_mono h
        rwa [nearest_zero, saturate_zero] at this
      rw [abs_of_nonpos h, abs_of_nonpos h0, nearest_neg, saturate_neg]

theorem toDouble_addDouble (a b : Dbl) : toDouble (addDouble a b) = addDouble a b := by
  cases a <;> cases b <;> first | rfl | exact toDouble_round _

theorem infOfSign_cases (q : ℚ) : infOfSign q = pinf ∨ infOfSign q = ninf := by
  unfold infOfSign
  split_ifs
  · exact Or.inl rfl
  · exact Or.inr rfl

theorem toDouble_infOfSign (q : ℚ) : toDouble (infOfSign q) = infOfSign q := by
  rcases infOfSign_cases q with h | h <;> rw [h] <;> rfl

theorem toDouble_mulDouble (a b : Dbl) : toDouble (mulDouble a b) = mulDouble a b := by
  cases a <;> cases b <;> simp only [mulDouble] <;>
    first
    | rfl
    | exact toDouble_round _
    | (split_ifs <;> first | rfl | exact toDouble_infOfSign _)

theorem toDouble_divDouble (a b : Dbl) : toDouble (divDouble a b) = divDouble a b := by
  cases a <;> cases b <;> simp only [divDouble] <;>
    first
    | rfl
    | exact toDouble_zero
    | (split_ifs <;> first | rfl | exact toDouble_infOfSign _ | exact toDouble_round _)

/-- A number `q = m * 2 ^ j` with `|m| < 2 ^ 53`, `j` at least -1074 and a magnitude
below `2 ^ 1024` is a binary64 number. -/
theorem round_dyadic_eq (q : ℚ) (m j : ℤ) (hq : q = (m : ℚ) * 2 ^ j) (hm : |m| < 2 ^ 53)
    (hj : -1074 ≤ j) (hlt : |q| < 2 ^ 1024) : round q = fin q := by
  rw [hq] at hlt ⊢
  exact round_of_dyadic m j hm hj hlt

/-- Rounding keeps a number between two binary64 numbers that enclose it. -/
theorem round_between {q a b : ℚ} (hlo : round a = fin a) (hhi : round b = fin b)
    (h1 : a ≤ q) (h2 : q ≤ b) : ∃ r, round q = fin r ∧ a ≤ r ∧ r ≤ b := by
  have a1 := round_mono h1
  have a2 := round_mono h2
  rw [hlo] at a1
  rw [hhi] at a2
  cases hr : round q with
  | nan => exact absurd hr (round_ne_nan q)
  | ninf => rw [hr] at a1; simp [le] at a1
  | pinf => rw [hr] at a2; simp [le] at a2
  | fin r =>
    rw [hr] at a1 a2
    simp only [le, decide_eq_true_eq] at a1 a2
    exact ⟨r, rfl, a1, a2⟩

end Dbl

theorem round_etolDefault : Dbl.round etolDefault = Dbl.fin etolDefault := by
  apply Dbl.round_dyadic_eq etolDefault 4722366482869645 (-72)
  · unfold etolDefault; norm_num
  · norm_num
  · norm_num
  · unfold etolDefault; rw [abs_lt]; norm_num

/-- The literal `1e-6` denotes the binary64 number `etolDefault`. -/
theorem round_literal_etol : Dbl.round (1 / 1000000) = Dbl.fin etolDefault := by
  have := Dbl.round_eq_of_near (1 / 1000000) (-20) 4722366482869645
    (by rw [abs_of_pos (by norm_num)]; norm_num)
    (by rw [abs_of_pos (by norm_num)]; norm_num) (by norm_num)
    (by rw [abs_lt]; norm_num) (by rw [abs_lt]; norm_num)
  rw [this]
  unfold etolDefault
  norm_num

theorem toDouble_etolDefault : Dbl.toDouble (Dbl.fin etolDefault) = Dbl.fin etolDefault :=
  Dbl.toDouble_fin_of_round round_etolDefault

theorem Dbl.round_ten : Dbl.round 10 = Dbl.fin 10 := by
  simpa using Dbl.round_natCast 10 (by norm_num)

namespace Dbl

theorem lt_of_not_le {a b : Dbl} (ha : a ≠ nan) (hb : b ≠ nan) (h : le a b = false) :
    lt b a = true := by
  cases a <;> cases b <;> simp [le, lt] at h ha hb ⊢
  exact h

/-- The gap term of the pruning test, given the difference `x` of incumbent and lower
bound and the denominator `d`. -/
theorem gapTerm_mono (d x x' e : Dbl) (hd : le (fin 0) d = true) (hx' : le (fin 0) x' = true)
    (hxx : le x' x = true)
    (h : lt (mulDouble (divDouble (fabs x) d) (fin 100)) e = true) :
    lt (mulDouble (divDouble (fabs x') d) (fin 100)) e = true := by
  cases x with
  | nan => simp [le] at hxx; cases x' <;> simp [le] at hxx
  | ninf => cases x' <;> simp [le] at hxx hx'
  | pinf =>
    exfalso
    cases d with
    | nan => simp [le] at hd
    | ninf => simp [le] at hd
    | pinf => simp [fabs, divDouble, mulDouble, lt] at h
    | fin d0 =>
      simp only [le, decide_eq_true_eq] at hd
      simp [fabs, divDouble, mulDouble, hd, infOfSign] at h
      cases e <;> simp [lt] at h
  | fin x0 =>
    cases x' with
    | nan => simp [le] at hx'
    | ninf => simp [le] at hx'
    | pinf => simp [le] at hxx
    | fin x1 =>
      simp only [le, decide_eq_true_eq] at hx' hxx
      have hx0 : 0 ≤ x0 := le_trans hx' hxx
      cases d with
      | nan => simp [le] at hd
      | ninf => simp [le] at hd
      | pinf => simpa [fabs, divDouble] using h
      | fin d0 =>
        simp only [le, decide_eq_true_eq] at hd
        simp only [fabs, abs_of_nonneg hx0, abs_of_nonneg hx'] at h ⊢
        by_cases hd0 : d0 = 0
        · exfalso
          simp only [divDouble, hd0, if_true] at h
          by_cases hz : x0 = 0
          · simp [hz, mulDouble, lt] at h
          · have hpos : 0 < x0 := lt_of_le_of_ne hx0 (Ne.symm hz)
            simp [hz, infOfSign, hpos, mulDouble] at h
            cases e <;> simp [lt] at h
        · have hdpos : 0 < d0 := lt_of_le_of_ne hd (Ne.symm hd0)
          simp only [divDouble, hd0, if_false] at h ⊢
          have hq : x1 / d0 ≤ x0 / d0 := div_le_div_of_nonneg_right hxx hdpos.le
          have hq0 : 0 ≤ x1 / d0 := div_nonneg hx' hdpos.le
          have m1 := round_mono hq
          have m0 := round_nonneg hq0
          cases hQ : round (x0 / d0) with
          | nan => exact absurd hQ (round_ne_nan _)
          | ninf => rw [hQ] at m1; cases hQ' : round (x1 / d0) <;> rw [hQ'] at m1 m0 <;>
              simp [le] at m1 m0
          | pinf =>
            rw [hQ] at h
            simp [mulDouble, infOfSign] at h
            cases e <;> simp [lt] at h
          | fin q0 =>
            rw [hQ] at h m1
            cases hQ' : round (x1 / d0) with
            | nan => exact absurd hQ' (round_ne_nan _)
            | ninf => rw [hQ'] at m0; simp [le] at m0
            | pinf => rw [hQ'] at m1; simp [le] at m1
            | fin q1 =>
              rw [hQ'] at m1 m0
              simp only [le, decide_eq_true_eq] at m1 m0
              simp only [mulDouble] at h ⊢
              have m2 := round_mono (mul_le_mul_of_nonneg_right m1 (by norm_num : (0 : ℚ) ≤ 100))
              exact le_lt_chain m2 h

theorem gapTerm_inf (u l d e : Dbl) (hu : u = pinf ∨ u = ninf) (hd : d = pinf) :
    lt (mulDouble (divDouble (fabs (addDouble u (neg l))) d) (fin 100)) e = false := by
  subst hd
  rcases hu with h | h <;> subst h <;> cases l <;>
    simp [neg, addDouble, fabs, divDouble, mulDouble, lt]

theorem diff_mono (u0 : ℚ) (l l' : Dbl) (hl : le l l' = true) (hu : le l' (fin u0) = true) :
    le (fin 0) (addDouble (fin u0) (neg l')) = true ∧
    le (addDouble (fin u0) (neg l')) (addDouble (fin u0) (neg l)) = true := by
  cases l' with
  | nan => simp [le] at hu
  | pinf => simp [le] at hu
  | ninf =>
    cases l <;> simp [le] at hl
    simp [neg, addDouble, le]
  | fin b =>
    simp only [le, decide_eq_true_eq] at hu
    have h0 : le (fin 0) (addDouble (fin u0) (neg (fin b))) = true :=
      round_nonneg (by linarith)
    refine ⟨h0, ?_⟩
    cases l with
    | nan => simp [le] at hl
    | pinf => simp [le] at hl
    | ninf =>
      have hne := (ne_nan_of_le h0).2
      revert hne
      simp only [neg, addDouble]
      cases round (u0 + -b) <;> simp [le]
    | fin a =>
      simp only [le, decide_eq_true_eq] at hl
      exact round_mono (by linarith)

end Dbl

theorem Dbl.sub_le_self (c e : Dbl) (u0 : ℚ) (hc : Dbl.le c (Dbl.fin u0) = true)
    (he : Dbl.le (Dbl.fin 0) e = true) (hcc : Dbl.toDouble c = c) :
    Dbl.le (Dbl.addDouble c (Dbl.neg e)) c = true := by
  cases c with
  | nan => simp [Dbl.le] at hc
  | pinf => simp [Dbl.le] at hc
  | ninf => cases e <;> simp [Dbl.le, Dbl.neg, Dbl.addDouble] at he ⊢
  | fin c0 =>
    have hcc : Dbl.round c0 = Dbl.fin c0 := Dbl.round_of_toDouble hcc
    cases e with
    | nan => simp [Dbl.le] at he
    | ninf => simp [Dbl.le] at he
    | pinf => simp [Dbl.le, Dbl.neg, Dbl.addDouble]
    | fin e0 =>
      simp only [Dbl.le, decide_eq_true_eq] at he
      simp only [Dbl.neg, Dbl.addDouble]
      have := Dbl.round_mono (by linarith : c0 + -e0 ≤ c0)
      rwa [hcc] at this

/-- Conversion to `double` keeps a number between two binary64 numbers that enclose it. -/
theorem Dbl.toDouble_between {q a b : ℚ} (hlo : Dbl.round a = Dbl.fin a)
    (hhi : Dbl.round b = Dbl.fin b) (h1 : a ≤ q) (h2 : q ≤ b) :
    ∃ r, Dbl.toDouble (Dbl.fin q) = Dbl.fin r ∧ a ≤ r ∧ r ≤ b := by
  have a1 := Dbl.toDouble_mono (a := Dbl.fin a) (b := Dbl.fin q) (by simpa [Dbl.le] using h1)
  have a2 := Dbl.toDouble_mono (a := Dbl.fin q) (b := Dbl.fin b) (by simpa [Dbl.le] using h2)
  rw [Dbl.toDouble_fin_of_round hlo] at a1
  rw [Dbl.toDouble_fin_of_round hhi] at a2
  refine ⟨Dbl.saturate (Dbl.nearest q), rfl, ?_, ?_⟩
  · simpa [Dbl.toDouble, Dbl.le] using a1
  · simpa [Dbl.toDouble, Dbl.le] using a2

theorem Dbl.round_thousand : Dbl.round 1000 = Dbl.fin 1000 := by
  simpa using Dbl.round_natCast 1000 (by norm_num)

theorem ParTreeManager.pruneTest_eq (c u e l : Dbl) :
    pruneTest c u e l =
      (Dbl.lt (Dbl.addDouble (Dbl.toDouble c) (Dbl.neg (Dbl.toDouble e))) l ||
        Dbl.lt (Dbl.mulDouble
          (Dbl.divDouble
            (Dbl.fabs (Dbl.addDouble (Dbl.toDouble u) (Dbl.neg (Dbl.toDouble l))))
            (Dbl.addDouble (Dbl.fabs (Dbl.toDouble u)) (Dbl.toDouble e)))
          (Dbl.fin 100)) e) := by
  have h100 : Dbl.toDouble (Dbl.fin 100) = Dbl.fin 100 :=
    Dbl.toDouble_fin_of_round
      (Dbl.round_dyadic_eq 100 100 0 (by norm_num) (by norm_num) (by norm_num)
        (by rw [abs_lt]; norm_num))
  unfold pruneTest Dbl.gt Dbl.sub Dbl.add Dbl.mul Dbl.div
  rw [Dbl.toDouble_neg, Dbl.toDouble_neg, Dbl.toDouble_fabs, Dbl.toDouble_fabs,
    Dbl.toDouble_addDouble, Dbl.toDouble_addDouble, Dbl.toDouble_divDouble, h100]

/-- With cutoff 10 and tolerance `1e-6` a lower bound 10 passes the test
`lb > cutOff - eps`: the difference `10 - 1e-6` rounds to a number below 10. -/
theorem ParTreeManager.pruneTest_cutOff_ten (u : Dbl) :
    pruneTest (Dbl.fin 10) u (Dbl.fin etolDefault) (Dbl.fin 10) = true := by
  rw [pruneTest_eq, Bool.or_eq_true]
  rw [toDouble_etolDefault, Dbl.toDouble_fin_of_round Dbl.round_ten]
  left
  obtain ⟨r, hr, -, h2⟩ := Dbl.round_between (q := 10 + -etolDefault) (a := 9)
    (b := 10485759 / 1048576)
    (Dbl.round_dyadic_eq _ 9 0 (by norm_num) (by norm_num) (by norm_num)
      (by rw [abs_lt]; norm_num))
    (Dbl.round_dyadic_eq _ 10485759 (-20) (by norm_num) (by norm_num) (by norm_num)
      (by rw [abs_lt]; norm_num))
    (by unfold etolDefault; norm_num) (by unfold etolDefault; norm_num)
  show Dbl.lt (Dbl.round (10 + -etolDefault)) (Dbl.fin 10) = true
  rw [hr]
  simp only [Dbl.lt, decide_eq_true_eq]
  exact lt_of_le_of_lt h2 (by norm_num)

/-! ## Theorems: replaying modifications -/

section Replay

variable {Mod Prob : Type}

theorem Node.forLoop_append (body : Mod → Prob → Prob) (xs ys : List Mod) (p : Prob) :
    Node.forLoop body (xs ++ ys) p = Node.forLoop body ys (Node.forLoop body xs p) := by
  induction xs generalizing p with
  | nil => rfl
  | cons x xs ih => simp [Node.forLoop, ih]

theorem Node.forLoop_recorder_apply (xs : List Mod) (log : List (Call Mod)) :
    Node.forLoop (recorder Mod).applyToProblem xs log = log ++ xs.map Call.applied := by
  induction xs generalizing log with
  | nil => simp [Node.forLoop]
  | cons x xs ih => rw [Node.forLoop, ih]; simp [recorder]

theorem Node.forLoop_recorder_undo (xs : List Mod) (log : List (Call Mod)) :
    Node.forLoop (recorder Mod).undoToProblem xs log = log ++ xs.map Call.undone := by
  induction xs generalizing log with
  | nil => simp [Node.forLoop]
  | cons x xs ih => rw [Node.forLoop, ih]; simp [recorder]

theorem Node.applyPMods_recorder (n : Node Mod) (log : List (Call Mod)) :
    n.applyPMods (recorder Mod) log
      = log ++ (n.branchPMods ++ n.pMods_).map Call.applied := by
  unfold Node.applyPMods Node.applyLoop Node.branchPMods
  cases n.branch_ <;> simp [Node.forLoop_recorder_apply]

theorem Node.applyRMods_recorder (n : Node Mod) (log : List (Call Mod)) :
    n.applyRMods (recorder Mod) log
      = log ++ (n.branchRMods ++ n.rMods_).map Call.applied := by
  unfold Node.applyRMods Node.applyLoop Node.branchRMods
  cases n.branch_ <;> simp [Node.forLoop_recorder_apply]

/-- When translation does not depend on the state of the relaxation being edited and
every modification is reversible, translated undo reverses translated apply. -/
theorem Node.undoTrans_applyTrans_of_stateless (ops : ModOps Mod Prob)
    (hinv : ∀ mod s, ops.undoToProblem mod (ops.applyToProblem mod s) = s)
    (hfix : ∀ mod s t, ops.toRel (ops.fromRel mod s) s = ops.toRel (ops.fromRel mod t) t)
    (mod : Mod) (s : Prob) :
    Node.undoTrans ops mod (Node.applyTrans ops mod s) = s := by
  unfold Node.undoTrans Node.applyTrans
  simp only []
  rw [hfix mod (ops.applyToProblem (ops.toRel (ops.fromRel mod s) s) s) s, hinv]

/-- Claim C2 (apply order). For every node, `applyPMods` has the effect of applying, in
forward order, the problem modifications of the branch followed by the own problem
modifications of the node, and the calls it makes on the problem are exactly that
sequence, each modification once; the same holds for `applyRMods` with the relaxation
modifications; a node without a branch (the root) makes exactly the calls of its own
modifications in forward order. -/
theorem Node.apply_order (n : Node Mod) :
    (∀ (ops : ModOps Mod Prob) (p : Prob),
      n.applyPMods ops p = Node.forLoop ops.applyToProblem (n.branchPMods ++ n.pMods_) p ∧
      n.applyRMods ops p = Node.forLoop ops.applyToProblem (n.branchRMods ++ n.rMods_) p) ∧
    (∀ log : List (Call Mod),
      n.applyPMods (recorder Mod) log
        = log ++ (n.branchPMods ++ n.pMods_).map Call.applied ∧
      n.applyRMods (recorder Mod) log
        = log ++ (n.branchRMods ++ n.rMods_).map Call.applied) ∧
    (∀ log : List (Call Mod),
      Node.applyPMods (recorder Mod) { n with branch_ := none } log
        = log ++ n.pMods_.map Call.applied ∧
      Node.applyRMods (recorder Mod) { n with branch_ := none } log
        = log ++ n.rMods_.map Call.applied) := by
  refine ⟨?_, ?_, ?_⟩
  · intro ops p
    unfold Node.applyPMods Node.applyRMods Node.applyLoop Node.branchPMods Node.branchRMods
    cases n.branch_ <;> simp [Node.forLoop_append, Node.forLoop]
  · intro log
    exact ⟨Node.applyPMods_recorder n log, Node.applyRMods_recorder n log⟩
  · intro log
    simp [Node.applyPMods, Node.applyRMods, Node.applyLoop, Node.forLoop_recorder_apply]

/-- Claim C3 (undo order). For every node, the calls that `undoPMods` makes on the
problem are exactly the undo of the own problem modifications, most recent first,
followed by the undo of the branch modifications in reverse order, and this is the exact
reversal of the calls made by `applyPMods`; the same holds for `undoRMods` and
`applyRMods`. -/
theorem Node.undo_order (n : Node Mod) :
    (∀ log : List (Call Mod),
      n.undoPMods (recorder Mod) log
        = log ++ (n.pMods_.reverse ++ n.branchPMods.reverse).map Call.undone ∧
      n.undoRMods (recorder Mod) log
        = log ++ (n.rMods_.reverse ++ n.branchRMods.reverse).map Call.undone) ∧
    n.undoPMods (recorder Mod) []
      = ((n.applyPMods (recorder Mod) []).reverse).map Call.reversal ∧
    n.undoRMods (recorder Mod) []
      = ((n.applyRMods (recorder Mod) []).reverse).map Call.reversal := by
  have hP : ∀ log : List (Call Mod), n.undoPMods (recorder Mod) log
      = log ++ (n.pMods_.reverse ++ n.branchPMods.reverse).map Call.undone := by
    intro log
    unfold Node.undoPMods Node.undoLoop Node.branchPMods
    cases n.branch_ <;> simp [Node.forLoop_recorder_undo]
  have hR : ∀ log : List (Call Mod), n.undoRMods (recorder Mod) log
      = log ++ (n.rMods_.reverse ++ n.branchRMods.reverse).map Call.undone := by
    intro log
    unfold Node.undoRMods Node.undoLoop Node.branchRMods
    cases n.branch_ <;> simp [Node.forLoop_recorder_undo]
  have hrev : ∀ xs : List Mod,
      ((xs.map Call.applied).reverse).map Call.reversal = xs.reverse.map Call.undone := by
    intro xs
    simp [List.map_reverse, Function.comp_def, Call.reversal]
  refine ⟨fun log => ⟨hP log, hR log⟩, ?_, ?_⟩
  · rw [hP, Node.applyPMods_recorder]
    simp [hrev]
  · rw [hR, Node.applyRMods_recorder]
    simp [hrev]

end Replay

/-! ## Theorems: bounds, pruning test and gap -/

section Bounds

variable {Mod : Type}

open ParTreeManager

theorem Dbl.lt_ofExt (a b : WithBot (WithTop ℚ)) :
    Dbl.lt (Dbl.ofExt a) (Dbl.ofExt b) = decide (a < b) := by
  rcases a with _ | _ | a <;> rcases b with _ | _ | b <;>
    simp [Dbl.ofExt, Dbl.lt] <;> exact WithBot.bot_lt_coe _

theorem Dbl.le_ofExt (a b : WithBot (WithTop ℚ)) :
    Dbl.le (Dbl.ofExt a) (Dbl.ofExt b) = decide (a ≤ b) := by
  rcases a with _ | _ | a <;> rcases b with _ | _ | b <;>
    simp [Dbl.ofExt, Dbl.le] <;> exact WithBot.bot_lt_coe _


theorem ParTreeManager.setUb_bestUpperBound (tm : ParTreeManager Mod) (v : Dbl) :
    (setUb tm v).bestUpperBound_ = v := by
  unfold setUb
  simp only []
  split <;> rfl

theorem ParTreeManager.setUb_cutOff (tm : ParTreeManager Mod) (v : Dbl) :
    (setUb tm v).cutOff_ = if Dbl.lt v tm.cutOff_ then v else tm.cutOff_ := by
  unfold setUb
  simp only []
  split <;> rfl

theorem ParTreeManager.setUb_ofExt (tm : ParTreeManager Mod) (c v : WithBot (WithTop ℚ))
    (hc : tm.cutOff_ = Dbl.ofExt c) :
    (setUb tm (Dbl.ofExt v)).cutOff_ = Dbl.ofExt (min c v) ∧
    (setUb tm (Dbl.ofExt v)).bestUpperBound_ = Dbl.ofExt v := by
  rw [setUb_bestUpperBound, setUb_cutOff]
  simp only [hc, Dbl.lt_ofExt]
  by_cases h : v < c
  · simp [h, min_eq_right (le_of_lt h)]
  · simp [h, min_eq_left (le_of_not_lt h), hc]

theorem ParTreeManager.setUbAll_ofExt (vs : List (WithBot (WithTop ℚ)))
    (tm : ParTreeManager Mod) (c : WithBot (WithTop ℚ)) (hc : tm.cutOff_ = Dbl.ofExt c) :
    (setUbAll tm (vs.map Dbl.ofExt)).cutOff_ = Dbl.ofExt (vs.foldl min c) := by
  induction vs generalizing tm c with
  | nil => simpa [setUbAll] using hc
  | cons v vs ih =>
    have := ih (setUb tm (Dbl.ofExt v)) (min c v) (setUb_ofExt tm c v hc).1
    simpa [setUbAll] using this

theorem ParTreeManager.setUbAll_ub (vs : List Dbl) (hne : vs ≠ [])
    (tm : ParTreeManager Mod) :
    (setUbAll tm vs).bestUpperBound_ = vs.getLast hne := by
  induction vs generalizing tm with
  | nil => exact absurd rfl hne
  | cons v vs ih =>
    cases vs with
    | nil => simp [setUbAll, setUb_bestUpperBound]
    | cons w ws =>
      have := ih (List.cons_ne_nil w ws) (setUb tm v)
      simpa [setUbAll] using this

/-- Claim C6 (monotone incumbent). For every initial cutoff `c0` and every sequence of
values `v, vs` (at least one value; all of them numbers), after the calls `setUb(v)`,
`setUb(vs[0])`, ... in this order `getCutOff()` is the minimum of `c0` and all the
values, and `getUb()` is the last value, whether or not a value is larger than the
cutoff at the time it is set. -/
theorem ParTreeManager.setUb_sequence (tm : ParTreeManager Mod)
    (c0 v : WithBot (WithTop ℚ)) (vs : List (WithBot (WithTop ℚ))) :
    getCutOff (setUbAll { tm with cutOff_ := Dbl.ofExt c0 } ((v :: vs).map Dbl.ofExt))
      = Dbl.ofExt ((v :: vs).foldl min c0) ∧
    getUb (setUbAll { tm with cutOff_ := Dbl.ofExt c0 } ((v :: vs).map Dbl.ofExt))
      = Dbl.ofExt ((v :: vs).getLast (List.cons_ne_nil v vs)) := by
  refine ⟨setUbAll_ofExt _ _ _ rfl, ?_⟩
  exact (setUbAll_ub _ (by simp) _).trans (List.getLast_map Dbl.ofExt (v :: vs) _)


theorem etolDefault_pos : 0 < etolDefault := by
  unfold etolDefault; norm_num

theorem ParTreeManager.shouldPrune_eq (tm : ParTreeManager Mod) (node : NodePtr)
    (nd : Node Mod) (hnode : tm.store[node]? = some nd) :
    shouldPrune_ tm node = Except.ok
      (if pruneTest tm.cutOff_ tm.bestUpperBound_ tm.etol_ nd.lb_ = true then
        ({ tm with store := tm.store.set node { nd with status_ := NodeStatus.NodeHitUb } }, true)
      else (tm, false)) := by
  unfold shouldPrune_ Store.deref Store.update
  simp only [hnode]
  split <;> rfl

/-- Claim C10 fails as stated: with no upper bound set (`bestUpperBound_ = INFINITY`)
neither `getPerGapPar(1)` nor `getPerGap()` returns 100. -/
theorem ParTreeManager.getPerGapPar_unbounded_not_100 :
    getPerGapPar (boundsManager Dbl.INFINITY Dbl.INFINITY []) (Dbl.fin 1) ≠ Dbl.fin 100 ∧
    getPerGap (boundsManager Dbl.INFINITY Dbl.INFINITY []) ≠ Dbl.fin 100 := by
  simp [getPerGapPar, getPerGap, boundsManager, perGap, Dbl.ge, Dbl.le, Dbl.INFINITY]

/-- Claim C10, amended (gap with an unbounded incumbent). For every reference bound
`lb`, when `bestUpperBound_` is `INFINITY`, `getPerGapPar(lb)` and `getPerGap()` return
`INFINITY`. -/
theorem ParTreeManager.getPerGap_unbounded (tm : ParTreeManager Mod) (lb : Dbl) :
    getPerGapPar { tm with bestUpperBound_ := Dbl.INFINITY } lb = Dbl.INFINITY ∧
    getPerGap { tm with bestUpperBound_ := Dbl.INFINITY } = Dbl.INFINITY := by
  simp [getPerGapPar, getPerGap, perGap, Dbl.ge, Dbl.le, Dbl.INFINITY]

end Bounds

/-! ## Theorems: the shape of the tree -/

section Tree

variable {Mod : Type}

open ParTreeManager

/-! ### Reading the store after a write -/

theorem Store.deref_ok {s : Store Mod} {p : NodePtr} {n : Node Mod}
    (h : Store.deref s p = Except.ok n) : s[p]? = some n := by
  unfold Store.deref at h
  split at h
  · rename_i m hm
    cases h
    exact hm
  · cases h

theorem Store.update_ok {s s' : Store Mod} {p : NodePtr} {f : Node Mod → Node Mod}
    (h : Store.update s p f = Except.ok s') :
    ∃ n, s[p]? = some n ∧ s' = s.set p (f n) := by
  unfold Store.update at h
  split at h
  · rename_i m hm
    cases h
    exact ⟨m, hm, rfl⟩
  · cases h

theorem Store.lt_length_of_get {s : Store Mod} {p : NodePtr} {n : Node Mod}
    (h : s[p]? = some n) : p < s.length := by
  by_contra hlt
  rw [List.getElem?_eq_none (Nat.le_of_not_lt hlt)] at h
  cases h

theorem Store.parentOf_set {s : Store Mod} {p : NodePtr} {n : Node Mod} (nd : Node Mod)
    (h : s[p]? = some n) (x : NodePtr) :
    Store.parentOf (s.set p nd) x = if x = p then nd.parent_ else Store.parentOf s x := by
  have hp := Store.lt_length_of_get h
  unfold Store.parentOf
  by_cases hx : x = p
  · subst hx
    simp [List.getElem?_set_self, hp]
  · simp [hx, List.getElem?_set_ne (Ne.symm hx)]

theorem Store.childrenOf_set {s : Store Mod} {p : NodePtr} {n : Node Mod} (nd : Node Mod)
    (h : s[p]? = some n) (x : NodePtr) :
    Store.childrenOf (s.set p nd) x
      = if x = p then nd.children_ else Store.childrenOf s x := by
  have hp := Store.lt_length_of_get h
  unfold Store.childrenOf
  by_cases hx : x = p
  · subst hx
    simp [List.getElem?_set_self, hp]
  · simp [hx, List.getElem?_set_ne (Ne.symm hx)]

theorem Store.parentOf_eq_of_get {s : Store Mod} {p : NodePtr} {n : Node Mod}
    (h : s[p]? = some n) : Store.parentOf s p = n.parent_ := by
  simp [Store.parentOf, h]

theorem Store.childrenOf_eq_of_get {s : Store Mod} {p : NodePtr} {n : Node Mod}
    (h : s[p]? = some n) : Store.childrenOf s p = n.children_ := by
  simp [Store.childrenOf, h]

theorem Store.lt_length_of_parentOf {s : Store Mod} {x p : NodePtr}
    (h : Store.parentOf s x = some p) : x < s.length := by
  by_contra hlt
  simp [Store.parentOf, List.getElem?_eq_none (Nat.le_of_not_lt hlt)] at h

theorem Store.lt_length_of_mem_childrenOf {s : Store Mod} {x c : NodePtr}
    (h : c ∈ Store.childrenOf s x) : x < s.length := by
  by_contra hlt
  simp [Store.childrenOf, List.getElem?_eq_none (Nat.le_of_not_lt hlt)] at h

theorem SameShape.refl (s : Store Mod) : SameShape s s :=
  ⟨rfl, fun _ => rfl, fun _ => rfl⟩

theorem SameShape.trans {s s' s'' : Store Mod} (h1 : SameShape s s') (h2 : SameShape s' s'') :
    SameShape s s'' :=
  ⟨h2.length.trans h1.length, fun x => (h2.parent x).trans (h1.parent x),
    fun x => (h2.children x).trans (h1.children x)⟩

theorem Store.update_sameShape {s s' : Store Mod} {p : NodePtr} {f : Node Mod → Node Mod}
    (h : Store.update s p f = Except.ok s')
    (hp : ∀ n, (f n).parent_ = n.parent_) (hc : ∀ n, (f n).children_ = n.children_) :
    SameShape s s' := by
  obtain ⟨n, hn, rfl⟩ := Store.update_ok h
  refine ⟨by simp, fun x => ?_, fun x => ?_⟩
  · rw [Store.parentOf_set _ hn]
    split
    · rename_i hx; subst hx
      rw [hp, Store.parentOf_eq_of_get hn]
    · rfl
  · rw [Store.childrenOf_set _ hn]
    split
    · rename_i hx; subst hx
      rw [hc, Store.childrenOf_eq_of_get hn]
    · rfl

/-! ### The invariant used in the proofs -/

theorem LinkedToRoot.lt_length {s : Store Mod} {root n : NodePtr}
    (h : LinkedToRoot s root n) (hroot : root < s.length) : n < s.length := by
  cases h with
  | root => exact hroot
  | step _ p hp _ => exact Store.lt_length_of_parentOf hp

theorem LinkedToRoot.mono {s s' : Store Mod} {root n : NodePtr}
    (hpar : ∀ x p, Store.parentOf s x = some p → Store.parentOf s' x = some p)
    (h : LinkedToRoot s root n) : LinkedToRoot s' root n := by
  induction h with
  | root => exact LinkedToRoot.root
  | step n p hp _ ih => exact LinkedToRoot.step n p (hpar n p hp) ih

theorem Store.linkedFuel_sound {s : Store Mod} {root : NodePtr} (fuel : Nat) (n : NodePtr)
    (h : Store.linkedFuel fuel s root n = true) : LinkedToRoot s root n := by
  induction fuel generalizing n with
  | zero =>
    simp [Store.linkedFuel] at h
    subst h
    exact LinkedToRoot.root
  | succ fuel ih =>
    simp only [Store.linkedFuel, Bool.or_eq_true, decide_eq_true_eq] at h
    rcases h with h | h
    · subst h
      exact LinkedToRoot.root
    · split at h
      · rename_i p hp
        exact LinkedToRoot.step n p hp (ih p h)
      · cases h

theorem TreeWF.sameShape {root : NodePtr} {s s' : Store Mod} {A : List NodePtr}
    (hs : SameShape s s') (h : TreeWF root s A) : TreeWF root s' A where
  once := fun c p hp => by
    rw [hs.children]; rw [hs.parent] at hp; exact h.once c p hp
  parentOfChild := fun c p hc => by
    rw [hs.parent]; rw [hs.children] at hc; exact h.parentOfChild c p hc
  active := fun n hn =>
    LinkedToRoot.mono (fun x p hp => by rw [hs.parent]; exact hp) (h.active n hn)
  activeLeaf := fun n hn => by rw [hs.children]; exact h.activeLeaf n hn
  activeNodup := h.activeNodup
  rootValid := by rw [hs.length]; exact h.rootValid
  parentFirst := fun c p hp => by rw [hs.parent] at hp; exact h.parentFirst c p hp

theorem TreeWF.perm {root : NodePtr} {s : Store Mod} {A A' : List NodePtr}
    (hp : A'.Perm A) (h : TreeWF root s A) : TreeWF root s A' where
  once := h.once
  parentOfChild := h.parentOfChild
  active := fun n hn => h.active n (hp.mem_iff.mp hn)
  activeLeaf := fun n hn => h.activeLeaf n (hp.mem_iff.mp hn)
  activeNodup := hp.nodup_iff.mpr h.activeNodup
  rootValid := h.rootValid
  parentFirst := h.parentFirst

theorem TreeWF.tail {root : NodePtr} {s : Store Mod} {a : NodePtr} {A : List NodePtr}
    (h : TreeWF root s (a :: A)) : TreeWF root s A where
  once := h.once
  parentOfChild := h.parentOfChild
  active := fun n hn => h.active n (List.mem_cons_of_mem a hn)
  activeLeaf := fun n hn => h.activeLeaf n (List.mem_cons_of_mem a hn)
  activeNodup := (List.nodup_cons.mp h.activeNodup).2
  rootValid := h.rootValid
  parentFirst := h.parentFirst

theorem TreeWF.lt_length_of_mem {root : NodePtr} {s : Store Mod} {A : List NodePtr}
    (h : TreeWF root s A) {n : NodePtr} (hn : n ∈ A) : n < s.length :=
  (h.active n hn).lt_length h.rootValid

theorem TreeWF.no_parent_of_leaf {root : NodePtr} {s : Store Mod} {A : List NodePtr}
    (h : TreeWF root s A) {x : NodePtr} (hx : Store.childrenOf s x = []) (c : NodePtr) :
    Store.parentOf s c ≠ some x := by
  intro hc
  have := h.once c x hc
  rw [hx] at this
  simp at this

theorem heapInsert_perm (s : Store Mod) (x : NodePtr) (nx : Node Mod) (A : List NodePtr) :
    (heapInsert s x nx A).Perm (x :: A) := by
  induction A with
  | nil => simp [heapInsert]
  | cons y ys ih =>
    unfold heapInsert
    split
    · split
      · exact List.Perm.refl _
      · exact (List.Perm.cons y ih).trans (List.Perm.swap x y ys)
    · exact (List.Perm.cons y ih).trans (List.Perm.swap x y ys)

theorem ParTreeManager.push_ok {tm tm' : ParTreeManager Mod} {node : NodePtr}
    (h : push tm node = Except.ok tm') :
    tm'.store = tm.store ∧ tm'.active_nodes_.Perm (node :: tm.active_nodes_) ∧
    tm'.bestUpperBound_ = tm.bestUpperBound_ ∧ tm'.cutOff_ = tm.cutOff_ := by
  unfold push at h
  split at h
  · cases h
    exact ⟨rfl, List.Perm.refl _, rfl, rfl⟩
  · split at h
    · cases h
    · cases h
      exact ⟨rfl, heapInsert_perm _ _ _ _, rfl, rfl⟩

theorem ParTreeManager.pop_ok {tm tm' : ParTreeManager Mod}
    (h : pop tm = Except.ok tm') :
    ∃ a, tm.active_nodes_ = a :: tm'.active_nodes_ ∧ tm'.store = tm.store ∧
    tm'.bestUpperBound_ = tm.bestUpperBound_ ∧ tm'.cutOff_ = tm.cutOff_ := by
  unfold pop at h
  split at h
  · cases h
  · rename_i a rest hA
    cases h
    exact ⟨a, hA, rfl, rfl, rfl⟩

theorem ParTreeManager.insertCandidate_ok {tm tm' : ParTreeManager Mod} {node : NodePtr}
    {pop_now : Bool} (h : insertCandidate_ tm node pop_now = Except.ok tm') :
    SameShape tm.store tm'.store ∧
    (pop_now = true → tm'.active_nodes_ = tm.active_nodes_) ∧
    (pop_now = false → tm'.active_nodes_.Perm (node :: tm.active_nodes_)) ∧
    tm'.bestUpperBound_ = tm.bestUpperBound_ ∧ tm'.cutOff_ = tm.cutOff_ := by
  unfold insertCandidate_ at h
  split at h
  · cases h
  split at h
  · cases h
  rename_i s1 h1
  split at h
  · cases h
  split at h
  · cases h
  split at h
  · cases h
  split at h
  · cases h
  rename_i s2 h2
  split at h
  · cases h
  split at h
  · cases h
  split at h
  · cases h
  rename_i s3 h3
  have hs1 := Store.update_sameShape h1 (fun _ => rfl) (fun _ => rfl)
  have hs2 := Store.update_sameShape h2 (fun _ => rfl) (fun _ => rfl)
  have hs3 := Store.update_sameShape h3 (fun _ => rfl) (fun _ => rfl)
  have hs := (hs1.trans hs2).trans hs3
  split at h
  · rename_i hpop
    obtain ⟨hst, hperm, hub, hco⟩ := push_ok h
    refine ⟨?_, ?_, ?_, hub, hco⟩
    · rw [hst]; exact hs
    · intro hp; simp [hp] at hpop
    · intro _; exact hperm
  · rename_i hpop
    cases h
    refine ⟨hs, fun _ => rfl, ?_, rfl, rfl⟩
    intro hp; simp [hp] at hpop

theorem Store.parentOf_append (s : Store Mod) (nd : Node Mod) (x : NodePtr) :
    Store.parentOf (s ++ [nd]) x
      = if x = s.length then nd.parent_ else Store.parentOf s x := by
  unfold Store.parentOf
  rcases Nat.lt_trichotomy x s.length with hx | hx | hx
  · simp [List.getElem?_append_left hx, Nat.ne_of_lt hx]
  · subst hx; simp
  · have h1 : (s ++ [nd])[x]? = none := List.getElem?_eq_none (by simp; omega)
    have h2 : s[x]? = none := List.getElem?_eq_none (by omega)
    simp [h1, h2, Nat.ne_of_gt hx]

theorem Store.childrenOf_append (s : Store Mod) (nd : Node Mod) (x : NodePtr) :
    Store.childrenOf (s ++ [nd]) x
      = if x = s.length then nd.children_ else Store.childrenOf s x := by
  unfold Store.childrenOf
  rcases Nat.lt_trichotomy x s.length with hx | hx | hx
  · simp [List.getElem?_append_left hx, Nat.ne_of_lt hx]
  · subst hx; simp
  · have h1 : (s ++ [nd])[x]? = none := List.getElem?_eq_none (by simp; omega)
    have h2 : s[x]? = none := List.getElem?_eq_none (by omega)
    simp [h1, h2, Nat.ne_of_gt hx]

/-- The effect of one iteration of the loop of `branch` on the shape of the tree and on
the container: a new node is allocated as last child of `node`, and it is pushed or
not. -/
theorem ParTreeManager.branchStep_ok {node : NodePtr} {ws : Option WarmStartPtr}
    {st st' : ParTreeManager Mod × Bool × Option NodePtr} {branch_p : Branch Mod}
    (h : branchStep node ws st branch_p = Except.ok st') :
    node < st.1.store.length ∧
    st'.1.store.length = st.1.store.length + 1 ∧
    (∀ x, Store.parentOf st'.1.store x
      = if x = st.1.store.length then some node else Store.parentOf st.1.store x) ∧
    (∀ x, Store.childrenOf st'.1.store x
      = if x = node then Store.childrenOf st.1.store node ++ [st.1.store.length]
        else if x = st.1.store.length then [] else Store.childrenOf st.1.store x) ∧
    (st'.1.active_nodes_ = st.1.active_nodes_ ∨
      st'.1.active_nodes_.Perm (st.1.store.length :: st.1.active_nodes_)) ∧
    st'.1.bestUpperBound_ = st.1.bestUpperBound_ ∧ st'.1.cutOff_ = st.1.cutOff_ := by
  obtain ⟨tm, is_first, new_cand⟩ := st
  unfold branchStep at h
  simp only [] at h
  split at h
  · cases h
  rename_i nd hnd
  have hvalid := Store.lt_length_of_get (Store.deref_ok hnd)
  split at h
  · cases h
  split at h
  · cases h
  rename_i s2 h2
  split at h
  · cases h
  split at h
  · cases h
  rename_i s3 h3
  split at h
  · cases h
  rename_i s4 h4
  have hs2 := Store.update_sameShape h2 (fun _ => rfl) (fun _ => rfl)
  have hs3 := Store.update_sameShape h3 (fun _ => rfl) (fun _ => rfl)
  have hs13 := hs2.trans hs3
  obtain ⟨n4, hn4, rfl⟩ := Store.update_ok h4
  have hne : node ≠ tm.store.length := Nat.ne_of_lt hvalid
  have hpar4 : ∀ x, Store.parentOf (s3.set node { n4 with children_ := n4.children_ ++ [tm.store.length] }) x
      = if x = tm.store.length then some node else Store.parentOf tm.store x := by
    intro x
    rw [Store.parentOf_set _ hn4]
    split
    · rename_i hx
      show n4.parent_ = _
      rw [← Store.parentOf_eq_of_get hn4, hs13.parent, Store.parentOf_append, hx]
      rfl
    · rw [hs13.parent, Store.parentOf_append]; rfl
  have hch4 : ∀ x, Store.childrenOf (s3.set node { n4 with children_ := n4.children_ ++ [tm.store.length] }) x
      = if x = node then Store.childrenOf tm.store node ++ [tm.store.length]
        else if x = tm.store.length then [] else Store.childrenOf tm.store x := by
    intro x
    rw [Store.childrenOf_set _ hn4]
    split
    · rename_i hx
      show n4.children_ ++ _ = _
      rw [← Store.childrenOf_eq_of_get hn4, hs13.children, Store.childrenOf_append, if_neg hne]
    · rw [hs13.children, Store.childrenOf_append]; rfl
  have hlen4 : (s3.set node { n4 with children_ := n4.children_ ++ [tm.store.length] }).length
      = tm.store.length + 1 := by
    rw [List.length_set, hs13.length]; simp
  split at h
  · split at h
    · cases h
    rename_i tm1 h5
    cases h
    obtain ⟨hs, hact, _, hub, hco⟩ := insertCandidate_ok h5
    refine ⟨hvalid, ?_, ?_, ?_, Or.inl (hact rfl), hub, hco⟩
    · rw [hs.length]; exact hlen4
    · intro x; rw [hs.parent]; exact hpar4 x
    · intro x; rw [hs.children]; exact hch4 x
  · split at h
    · cases h
    rename_i s5 h5
    split at h
    · cases h
    rename_i tm1 h6
    cases h
    have hs5 := Store.update_sameShape h5 (fun _ => rfl) (fun _ => rfl)
    obtain ⟨hs, _, hact, hub, hco⟩ := insertCandidate_ok h6
    have hs' := hs5.trans hs
    refine ⟨hvalid, ?_, ?_, ?_, Or.inr (hact rfl), hub, hco⟩
    · rw [hs'.length]; exact hlen4
    · intro x; rw [hs'.parent]; exact hpar4 x
    · intro x; rw [hs'.children]; exact hch4 x

theorem ParTreeManager.branchStep_wf {root node : NodePtr} {ws : Option WarmStartPtr}
    {st st' : ParTreeManager Mod × Bool × Option NodePtr} {branch_p : Branch Mod}
    (h : branchStep node ws st branch_p = Except.ok st')
    (hwf : TreeWF root st.1.store st.1.active_nodes_)
    (hlink : LinkedToRoot st.1.store root node) (hnot : node ∉ st.1.active_nodes_) :
    TreeWF root st'.1.store st'.1.active_nodes_ ∧ LinkedToRoot st'.1.store root node ∧
      node ∉ st'.1.active_nodes_ := by
  obtain ⟨hvalid, hlen, hpar, hch, hact, _, _⟩ := branchStep_ok h
  have hne : node ≠ st.1.store.length := Nat.ne_of_lt hvalid
  -- the new address holds no node before the step
  have hfreshP : Store.parentOf st.1.store st.1.store.length = none := by
    cases hp : Store.parentOf st.1.store st.1.store.length with
    | none => rfl
    | some p => exact absurd (Store.lt_length_of_parentOf hp) (Nat.lt_irrefl _)
  have hfreshC : ∀ p, st.1.store.length ∉ Store.childrenOf st.1.store p := by
    intro p hmem
    have := hwf.parentOfChild _ _ hmem
    rw [hfreshP] at this
    cases this
  have hfreshA : st.1.store.length ∉ st.1.active_nodes_ := fun hmem =>
    absurd (hwf.lt_length_of_mem hmem) (Nat.lt_irrefl _)
  have hmono : ∀ x p, Store.parentOf st.1.store x = some p →
      Store.parentOf st'.1.store x = some p := by
    intro x p hp
    rw [hpar]
    split
    · rename_i hx; rw [hx, hfreshP] at hp; cases hp
    · exact hp
  have hlink' : LinkedToRoot st'.1.store root node := hlink.mono hmono
  have hnew : LinkedToRoot st'.1.store root st.1.store.length :=
    LinkedToRoot.step _ node (by rw [hpar]; simp) hlink'
  have hmemA : ∀ n, n ∈ st'.1.active_nodes_ →
      n = st.1.store.length ∨ n ∈ st.1.active_nodes_ := by
    intro n hn
    rcases hact with hact | hact
    · right; rw [← hact]; exact hn
    · exact List.mem_cons.mp (hact.mem_iff.mp hn)
  refine ⟨?_, hlink', ?_⟩
  · refine ⟨?_, ?_, ?_, ?_, ?_, ?_, ?_⟩
    · intro c p hp
      rw [hpar] at hp
      rw [hch]
      split at hp
      · rename_i hc
        cases hp
        rw [if_pos rfl, hc, List.count_append]
        simp [List.count_eq_zero_of_not_mem (hfreshC node)]
      · rename_i hc
        have hone := hwf.once c p hp
        have hpne : p ≠ st.1.store.length := by
          intro hp'
          rw [hp'] at hone
          have hpos : 0 < List.count c (Store.childrenOf st.1.store st.1.store.length) := by
            rw [hone]; exact Nat.one_pos
          exact Nat.lt_irrefl _ (Store.lt_length_of_mem_childrenOf (List.count_pos_iff.mp hpos))
        by_cases hpn : p = node
        · rw [if_pos hpn, List.count_append, ← hpn, hone]
          simp [hc]
        · rw [if_neg hpn, if_neg hpne]; exact hone
    · intro c p hc
      rw [hch] at hc
      rw [hpar]
      split at hc
      · rename_i hp
        rcases List.mem_append.mp hc with hc | hc
        · have hcne : c ≠ st.1.store.length := fun hc' => hfreshC node (hc' ▸ hc)
          rw [if_neg hcne, hp]
          exact hwf.parentOfChild _ _ hc
        · rw [List.mem_singleton.mp hc, if_pos rfl, hp]
      · split at hc
        · cases hc
        · have hcne : c ≠ st.1.store.length := fun hc' => hfreshC p (hc' ▸ hc)
          rw [if_neg hcne]
          exact hwf.parentOfChild _ _ hc
    · intro n hn
      rcases hmemA n hn with hn | hn
      · rw [hn]; exact hnew
      · exact (hwf.active n hn).mono hmono
    · intro n hn
      rw [hch]
      rcases hmemA n hn with hn | hn
      · rw [if_neg (by rw [hn]; exact Ne.symm hne), if_pos hn]
      · have h1 : n ≠ node := fun h' => hnot (h' ▸ hn)
        have h2 : n ≠ st.1.store.length := fun h' => hfreshA (h' ▸ hn)
        rw [if_neg h1, if_neg h2]
        exact hwf.activeLeaf n hn
    · rcases hact with hact | hact
      · rw [hact]; exact hwf.activeNodup
      · exact hact.nodup_iff.mpr (List.nodup_cons.mpr ⟨hfreshA, hwf.activeNodup⟩)
    · rw [hlen]; exact Nat.lt_succ_of_lt hwf.rootValid
    · intro c p hp
      rw [hpar] at hp
      split at hp
      · rename_i hc
        cases hp
        rw [hc]; exact hvalid
      · exact hwf.parentFirst c p hp
  · intro hn
    rcases hmemA node hn with hn | hn
    · exact hne hn
    · exact hnot hn

theorem ParTreeManager.branchLoop_wf {root node : NodePtr} {ws : Option WarmStartPtr}
    (branches : List (Branch Mod)) {st st' : ParTreeManager Mod × Bool × Option NodePtr}
    (h : branchLoop node ws branches st = Except.ok st')
    (hwf : TreeWF root st.1.store st.1.active_nodes_)
    (hlink : LinkedToRoot st.1.store root node) (hnot : node ∉ st.1.active_nodes_) :
    TreeWF root st'.1.store st'.1.active_nodes_ := by
  induction branches generalizing st with
  | nil =>
    simp only [branchLoop] at h
    cases h
    exact hwf
  | cons b rest ih =>
    simp only [branchLoop] at h
    split at h
    · cases h
    · rename_i st1 h1
      obtain ⟨hwf1, hlink1, hnot1⟩ := branchStep_wf h1 hwf hlink hnot
      exact ih h hwf1 hlink1 hnot1

theorem ParTreeManager.branch_wf {root node : NodePtr} {ws : Option WarmStartPtr}
    {branches : List (Branch Mod)} {tm : ParTreeManager Mod}
    {r : ParTreeManager Mod × Option NodePtr}
    (h : branch tm branches node ws = Except.ok r)
    (hwf : TreeWF root tm.store tm.active_nodes_)
    (hlink : LinkedToRoot tm.store root node) (hnot : node ∉ tm.active_nodes_) :
    TreeWF root r.1.store r.1.active_nodes_ := by
  unfold branch at h
  simp only [] at h
  split at h
  · cases h
  · rename_i st hst
    cases h
    exact branchLoop_wf branches hst hwf hlink hnot

/-- One call of `removeNode_` that returns: either the node has identifier 0 and the
store is unchanged, or the node is detached from its parent `p` (its parent pointer is
cleared, it is erased from the child list of `p`) and, when `p` is left without
children, the call continues with `p`. -/
theorem ParTreeManager.removeNodeAux_succ {fuel : Nat} {s s' : Store Mod} {x : NodePtr}
    (h : removeNodeAux (fuel + 1) s x = Except.ok s') :
    s' = s ∨
    ∃ p s2, Store.parentOf s x = some p ∧ x ∈ Store.childrenOf s p ∧
      s2.length = s.length ∧
      (∀ y, Store.parentOf s2 y = if y = x then none else Store.parentOf s y) ∧
      (∀ y, Store.childrenOf s2 y
        = if y = p then (Store.childrenOf s p).erase x else Store.childrenOf s y) ∧
      ((Store.childrenOf s2 p = [] ∧ removeNodeAux fuel s2 p = Except.ok s') ∨
        (Store.childrenOf s2 p ≠ [] ∧ s' = s2)) := by
  simp only [removeNodeAux] at h
  split at h
  · cases h
  rename_i nd hnd
  have hnd := Store.deref_ok hnd
  split at h
  swap
  · cases h; exact Or.inl rfl
  split at h
  · cases h
  rename_i p hp
  split at h
  · cases h
  rename_i pn hpn
  have hpn := Store.deref_ok hpn
  split at h
  swap
  · cases h
  rename_i hmem
  split at h
  · cases h
  rename_i s1 h1
  split at h
  · cases h
  rename_i s2 h2
  split at h
  · cases h
  rename_i pn2 hpn2
  have hpn2 := Store.deref_ok hpn2
  obtain ⟨n1, hn1, rfl⟩ := Store.update_ok h1
  obtain ⟨n2, hn2, rfl⟩ := Store.update_ok h2
  rw [hpn] at hn1
  cases hn1
  have hparx : Store.parentOf s x = some p := by
    rw [Store.parentOf_eq_of_get hnd]; exact hp
  have hchp : Store.childrenOf s p = pn.children_ := Store.childrenOf_eq_of_get hpn
  have hpar2 : ∀ y, Store.parentOf
      ((s.set p { pn with children_ := pn.children_.erase x }).set x { n2 with parent_ := none }) y
      = if y = x then none else Store.parentOf s y := by
    intro y
    rw [Store.parentOf_set _ hn2]
    split
    · rfl
    · rw [Store.parentOf_set _ hpn]
      split
      · rename_i hy
        show pn.parent_ = _
        rw [hy, Store.parentOf_eq_of_get hpn]
      · rfl
  have hch2 : ∀ y, Store.childrenOf
      ((s.set p { pn with children_ := pn.children_.erase x }).set x { n2 with parent_ := none }) y
      = if y = p then (Store.childrenOf s p).erase x else Store.childrenOf s y := by
    intro y
    rw [Store.childrenOf_set _ hn2]
    split
    · rename_i hy
      show n2.children_ = _
      rw [← Store.childrenOf_eq_of_get hn2, Store.childrenOf_set _ hpn, hy, hchp]
    · rw [Store.childrenOf_set _ hpn, hchp]
  refine Or.inr ⟨p, _, hparx, by rw [hchp]; exact hmem, by simp, hpar2, hch2, ?_⟩
  have hpn2c : Store.childrenOf
      ((s.set p { pn with children_ := pn.children_.erase x }).set x { n2 with parent_ := none }) p
      = pn2.children_ := Store.childrenOf_eq_of_get hpn2
  split at h
  · rename_i hlt
    left
    refine ⟨?_, h⟩
    rw [hpn2c]
    exact List.length_eq_zero.mp (by omega)
  · rename_i hlt
    right
    cases h
    refine ⟨?_, rfl⟩
    rw [hpn2c]
    intro hnil
    rw [hnil] at hlt
    simp at hlt

/-- Detaching a node without children, not held in the container, keeps the invariant;
its parent is not held in the container either. -/
theorem TreeWF.detach {root x p : NodePtr} {s s2 : Store Mod} {A : List NodePtr}
    (hwf : TreeWF root s A) (hx : x ∉ A) (hleaf : Store.childrenOf s x = [])
    (hmem : x ∈ Store.childrenOf s p) (hlen : s2.length = s.length)
    (hpar : ∀ y, Store.parentOf s2 y = if y = x then none else Store.parentOf s y)
    (hch : ∀ y, Store.childrenOf s2 y
      = if y = p then (Store.childrenOf s p).erase x else Store.childrenOf s y) :
    TreeWF root s2 A ∧ p ∉ A := by
  have hpx : Store.parentOf s x = some p := hwf.parentOfChild x p hmem
  have hpA : p ∉ A := by
    intro hp
    rw [hwf.activeLeaf p hp] at hmem
    cases hmem
  have hnotin : x ∉ (Store.childrenOf s p).erase x := by
    intro hmem'
    have h1 := hwf.once x p hpx
    have h2 : 0 < List.count x ((Store.childrenOf s p).erase x) := List.count_pos_iff.mpr hmem'
    rw [List.count_erase_self, h1] at h2
    exact Nat.lt_irrefl _ h2
  have hfirst : ∀ c q, Store.parentOf s2 c = some q → q < c := by
    intro c q hq
    rw [hpar] at hq
    split at hq
    · cases hq
    · exact hwf.parentFirst c q hq
  refine ⟨⟨?_, ?_, ?_, ?_, hwf.activeNodup, by rw [hlen]; exact hwf.rootValid, hfirst⟩, hpA⟩
  · intro c q hq
    rw [hpar] at hq
    split at hq
    · cases hq
    · rename_i hc
      rw [hch]
      split
      · rename_i hqp
        rw [List.count_erase_of_ne hc, ← hqp]
        exact hwf.once c q hq
      · exact hwf.once c q hq
  · intro c q hc
    rw [hch] at hc
    rw [hpar]
    split at hc
    · rename_i hqp
      have hcx : c ≠ x := fun h' => hnotin (h' ▸ hc)
      rw [if_neg hcx, hqp]
      exact hwf.parentOfChild c p (List.mem_of_mem_erase hc)
    · rename_i hqp
      have hcq := hwf.parentOfChild c q hc
      have hcx : c ≠ x := by
        intro h'
        rw [h', hpx] at hcq
        cases hcq
        exact hqp rfl
      rw [if_neg hcx]
      exact hcq
  · intro n hn
    have hlink := hwf.active n hn
    have hnx : n ≠ x := fun h' => hx (h' ▸ hn)
    clear hn
    induction hlink with
    | root => exact LinkedToRoot.root
    | step n q hq hrest ih =>
      have hqx : q ≠ x := fun h' => hwf.no_parent_of_leaf hleaf n (h' ▸ hq)
      refine LinkedToRoot.step n q ?_ (ih hqx)
      rw [hpar, if_neg hnx]
      exact hq
  · intro n hn
    rw [hch]
    have hnp : n ≠ p := fun h' => hpA (h' ▸ hn)
    rw [if_neg hnp]
    exact hwf.activeLeaf n hn

theorem ParTreeManager.removeNodeAux_wf {root : NodePtr} (fuel : Nat) {s s' : Store Mod}
    {x : NodePtr} {A : List NodePtr} (h : removeNodeAux fuel s x = Except.ok s')
    (hwf : TreeWF root s A) (hx : x ∉ A) (hleaf : Store.childrenOf s x = []) :
    TreeWF root s' A := by
  induction fuel generalizing s x with
  | zero => simp [removeNodeAux] at h
  | succ fuel ih =>
    rcases removeNodeAux_succ h with rfl | ⟨p, s2, _, hmem, hlen, hpar, hch, hrest⟩
    · exact hwf
    · obtain ⟨hwf2, hpA⟩ := hwf.detach hx hleaf hmem hlen hpar hch
      rcases hrest with ⟨hnil, hrec⟩ | ⟨_, rfl⟩
      · exact ih hrec hwf2 hpA hnil
      · exact hwf2

theorem ParTreeManager.removeNode_ok {tm tm' : ParTreeManager Mod} {node : NodePtr}
    (h : removeNode_ tm node = Except.ok tm') :
    removeNodeAux (tm.store.length + 1) tm.store node = Except.ok tm'.store ∧
    tm'.active_nodes_ = tm.active_nodes_ ∧
    tm'.bestUpperBound_ = tm.bestUpperBound_ ∧ tm'.cutOff_ = tm.cutOff_ := by
  unfold removeNode_ at h
  split at h
  · cases h
  · rename_i s1 h1
    cases h
    exact ⟨h1, rfl, rfl, rfl⟩

theorem ParTreeManager.shouldPrune_ok {tm tm' : ParTreeManager Mod} {node : NodePtr}
    {b : Bool} (h : shouldPrune_ tm node = Except.ok (tm', b)) :
    SameShape tm.store tm'.store ∧ tm'.active_nodes_ = tm.active_nodes_ ∧
    tm'.bestUpperBound_ = tm.bestUpperBound_ ∧ tm'.cutOff_ = tm.cutOff_ := by
  cases hd : tm.store[node]? with
  | none => simp [shouldPrune_, Store.deref, hd] at h
  | some nd =>
    rw [shouldPrune_eq tm node nd hd] at h
    split at h
    · cases h
      refine ⟨⟨by simp, fun x => ?_, fun x => ?_⟩, rfl, rfl, rfl⟩
      · show Store.parentOf (tm.store.set node _) x = _
        rw [Store.parentOf_set _ hd]
        split
        · rename_i hx; rw [hx, Store.parentOf_eq_of_get hd]
        · rfl
      · show Store.childrenOf (tm.store.set node _) x = _
        rw [Store.childrenOf_set _ hd]
        split
        · rename_i hx; rw [hx, Store.childrenOf_eq_of_get hd]
        · rfl
    · cases h
      exact ⟨SameShape.refl _, rfl, rfl, rfl⟩

theorem ParTreeManager.getCandidateLoop_wf {root : NodePtr} (fuel : Nat)
    {tm : ParTreeManager Mod} {r : ParTreeManager Mod × Option NodePtr}
    (h : getCandidateLoop fuel tm = Except.ok r)
    (hwf : TreeWF root tm.store tm.active_nodes_) :
    TreeWF root r.1.store r.1.active_nodes_ := by
  induction fuel generalizing tm with
  | zero => simp [getCandidateLoop] at h
  | succ fuel ih =>
    simp only [getCandidateLoop] at h
    split at h
    swap
    · cases h; exact hwf
    split at h
    · cases h
    rename_i node hnode
    split at h
    · cases h
    · rename_i tm1 h1
      obtain ⟨hs1, ha1, _, _⟩ := shouldPrune_ok h1
      have hwf1 : TreeWF root tm1.store tm1.active_nodes_ := by
        rw [ha1]; exact hwf.sameShape hs1
      split at h
      · cases h
      rename_i tm2 h2
      obtain ⟨a, hA, hs2, _, _⟩ := pop_ok h2
      have htop : a = node := by
        unfold top at hnode
        rw [← ha1, hA] at hnode
        cases hnode
        rfl
      subst htop
      rw [hA] at hwf1
      split at h
      · cases h
      rename_i tm3 h3
      obtain ⟨h3s, h3a, _, _⟩ := removeNode_ok h3
      rw [hs2] at h3s
      have hwf3 := removeNodeAux_wf _ h3s hwf1.tail
        (List.nodup_cons.mp hwf1.activeNodup).1 (hwf1.activeLeaf a (List.mem_cons_self _ _))
      apply ih h
      rw [h3a]
      exact hwf3
    · rename_i tm1 h1
      cases h
      obtain ⟨hs1, ha1, _, _⟩ := shouldPrune_ok h1
      show TreeWF root tm1.store tm1.active_nodes_
      rw [ha1]; exact hwf.sameShape hs1

theorem ParTreeManager.new_ok {opts : Options} {store : Store Mod} {tm : ParTreeManager Mod}
    (h : new opts store = Except.ok tm) :
    tm.store = store ∧ tm.active_nodes_ = [] ∧ tm.bestUpperBound_ = Dbl.INFINITY ∧
      tm.cutOff_ = opts.obj_cut_off := by
  unfold new at h
  simp only [] at h
  split at h
  · cases h
  · cases h
    exact ⟨rfl, rfl, rfl, rfl⟩

theorem ParTreeManager.insertRoot_ok {tm tm' : ParTreeManager Mod} {node : NodePtr}
    (h : insertRoot tm node = Except.ok tm') :
    tm.active_nodes_ = [] ∧ SameShape tm.store tm'.store ∧ tm'.active_nodes_ = [node] ∧
    node < tm.store.length ∧
    tm'.bestUpperBound_ = tm.bestUpperBound_ ∧ tm'.cutOff_ = tm.cutOff_ := by
  unfold insertRoot at h
  split at h
  · cases h
  split at h
  · cases h
  rename_i hlen
  have hnil : tm.active_nodes_ = [] := List.length_eq_zero.mp (by simpa using hlen)
  split at h
  · cases h
  rename_i s1 h1
  split at h
  · cases h
  rename_i s2 h2
  split at h
  · cases h
  rename_i tm1 h3
  cases h
  have hs1 := Store.update_sameShape h1 (fun _ => rfl) (fun _ => rfl)
  have hs2 := Store.update_sameShape h2 (fun _ => rfl) (fun _ => rfl)
  obtain ⟨n1, hn1, _⟩ := Store.update_ok h1
  obtain ⟨hst, hperm, hub, hco⟩ := push_ok h3
  refine ⟨hnil, ?_, ?_, Store.lt_length_of_get hn1, hub, hco⟩
  · show SameShape tm.store tm1.store
    rw [hst]; exact hs1.trans hs2
  · show tm1.active_nodes_ = [node]
    have hperm' : tm1.active_nodes_.Perm [node] := by
      simpa [hnil] using hperm
    exact List.perm_singleton.mp hperm'

theorem ParTreeManager.start_wf {opts : Options} {store : Store Mod} {root : NodePtr}
    {tm : ParTreeManager Mod} (h : start opts store root = Except.ok tm)
    (hfresh : ∀ nd, nd ∈ store → nd.parent_ = none ∧ nd.children_ = []) :
    TreeWF root tm.store tm.active_nodes_ := by
  unfold start at h
  split at h
  · cases h
  rename_i tm0 h0
  obtain ⟨hst, _, _, _⟩ := new_ok h0
  obtain ⟨_, hs, hact, hvalid, _, _⟩ := insertRoot_ok h
  have hP : ∀ x, Store.parentOf store x = none := by
    intro x
    unfold Store.parentOf
    split
    · rename_i nd hnd
      exact (hfresh nd (List.getElem?_mem hnd)).1
    · rfl
  have hC : ∀ x, Store.childrenOf store x = [] := by
    intro x
    unfold Store.childrenOf
    split
    · rename_i nd hnd
      exact (hfresh nd (List.getElem?_mem hnd)).2
    · rfl
  rw [hst] at hs hvalid
  rw [hact]
  refine TreeWF.sameShape hs ⟨?_, ?_, ?_, ?_, List.nodup_singleton _, hvalid, ?_⟩
  · intro c p hp; rw [hP] at hp; cases hp
  · intro c p hc; rw [hC] at hc; cases hc
  · intro n hn
    rw [List.mem_singleton.mp hn]
    exact LinkedToRoot.root
  · intro n _; exact hC n
  · intro c p hp; rw [hP] at hp; cases hp

theorem Store.linkedFuel_complete {s : Store Mod} {root : NodePtr}
    (hfirst : ∀ c p, Store.parentOf s c = some p → p < c) (fuel : Nat) (n : NodePtr)
    (hn : n < fuel + 1) (h : LinkedToRoot s root n) :
    Store.linkedFuel fuel s root n = true := by
  induction fuel generalizing n with
  | zero =>
    cases h with
    | root => simp [Store.linkedFuel]
    | step _ p hp _ =>
      have := hfirst n p hp
      have hn0 : n = 0 := Nat.lt_one_iff.mp hn
      rw [hn0] at this
      exact absurd this (Nat.not_lt_zero p)
  | succ fuel ih =>
    cases h with
    | root => simp [Store.linkedFuel]
    | step _ p hp hrest =>
      have hlt := hfirst n p hp
      have hp' : p < fuel + 1 := Nat.lt_of_lt_of_le hlt (Nat.le_of_lt_succ hn)
      simp [Store.linkedFuel, hp, ih p hp' hrest]

theorem TreeWF.linked_iff {root : NodePtr} {s : Store Mod} {A : List NodePtr}
    (hwf : TreeWF root s A) (n : NodePtr) :
    Store.linked s root n = true ↔ LinkedToRoot s root n := by
  constructor
  · exact Store.linkedFuel_sound _ n
  · intro h
    exact Store.linkedFuel_complete hwf.parentFirst _ n
      (Nat.lt_succ_of_lt (h.lt_length hwf.rootValid)) h

theorem ParTreeManager.step_wf {root : NodePtr} {tm tm' : ParTreeManager Mod} {op : Op Mod}
    (hallow : allowTreeOpsOffContainer root tm op = true)
    (h : step tm op = Except.ok tm')
    (hwf : TreeWF root tm.store tm.active_nodes_) :
    TreeWF root tm'.store tm'.active_nodes_ := by
  cases op with
  | insertRoot node => simp [allowTreeOpsOffContainer] at hallow
  | clearAll => simp [allowTreeOpsOffContainer] at hallow
  | updateLb => simp [allowTreeOpsOffContainer] at hallow
  | setUb v => simp [allowTreeOpsOffContainer] at hallow
  | setCutOff v => simp [allowTreeOpsOffContainer] at hallow
  | branch branches node ws =>
    simp only [allowTreeOpsOffContainer, Bool.and_eq_true, decide_eq_true_eq] at hallow
    simp only [step] at h
    split at h
    · cases h
    · rename_i r hr
      cases h
      exact branch_wf hr hwf (Store.linkedFuel_sound _ _ hallow.1) hallow.2
  | getCandidate =>
    simp only [step] at h
    split at h
    · cases h
    · rename_i r hr
      cases h
      exact getCandidateLoop_wf _ hr hwf
  | removeActiveNode node =>
    simp only [step, removeActiveNode] at h
    obtain ⟨a, hA, hs, _, _⟩ := pop_ok h
    rw [hA] at hwf
    rw [hs]
    exact hwf.tail
  | pruneNode node =>
    simp only [allowTreeOpsOffContainer, Bool.and_eq_true, decide_eq_true_eq] at hallow
    simp only [step, pruneNode] at h
    obtain ⟨hs, ha, _, _⟩ := removeNode_ok h
    rw [ha]
    exact removeNodeAux_wf _ hs hwf hallow.2 hallow.1

theorem ParTreeManager.runOps_wf {root : NodePtr} (ops : List (Op Mod))
    {tm tm' : ParTreeManager Mod}
    (h : runOps (allowTreeOpsOffContainer root) tm ops = some tm')
    (hwf : TreeWF root tm.store tm.active_nodes_) :
    TreeWF root tm'.store tm'.active_nodes_ := by
  induction ops generalizing tm with
  | nil =>
    simp only [runOps] at h
    cases h
    exact hwf
  | cons op rest ih =>
    simp only [runOps] at h
    split at h
    swap
    · cases h
    rename_i hallow
    split at h
    · cases h
    · rename_i tm1 h1
      exact ih h (step_wf hallow h1 hwf)

theorem TreeWF.treeInvariant {root : NodePtr} {tm : ParTreeManager Mod}
    (hwf : TreeWF root tm.store tm.active_nodes_) : TreeInvariant root tm where
  inTree := by
    intro n hn hne
    cases hn with
    | root => exact absurd rfl hne
    | child p c _ hc =>
      have hp := hwf.parentOfChild _ _ hc
      exact ⟨p, hp, hwf.once _ _ hp⟩
  once := hwf.once
  active := hwf.active

/-! ### The incumbent and the cutoff over sequences of calls -/

theorem ParTreeManager.branchLoop_bounds {node : NodePtr} {ws : Option WarmStartPtr}
    (branches : List (Branch Mod)) {st st' : ParTreeManager Mod × Bool × Option NodePtr}
    (h : branchLoop node ws branches st = Except.ok st') :
    st'.1.bestUpperBound_ = st.1.bestUpperBound_ ∧ st'.1.cutOff_ = st.1.cutOff_ := by
  induction branches generalizing st with
  | nil =>
    simp only [branchLoop] at h
    cases h
    exact ⟨rfl, rfl⟩
  | cons b rest ih =>
    simp only [branchLoop] at h
    split at h
    · cases h
    · rename_i st1 h1
      obtain ⟨_, _, _, _, _, hub, hco⟩ := branchStep_ok h1
      obtain ⟨hub', hco'⟩ := ih h
      exact ⟨hub'.trans hub, hco'.trans hco⟩

theorem ParTreeManager.getCandidateLoop_bounds (fuel : Nat)
    {tm : ParTreeManager Mod} {r : ParTreeManager Mod × Option NodePtr}
    (h : getCandidateLoop fuel tm = Except.ok r) :
    r.1.bestUpperBound_ = tm.bestUpperBound_ ∧ r.1.cutOff_ = tm.cutOff_ := by
  induction fuel generalizing tm with
  | zero => simp [getCandidateLoop] at h
  | succ fuel ih =>
    simp only [getCandidateLoop] at h
    split at h
    swap
    · cases h; exact ⟨rfl, rfl⟩
    split at h
    · cases h
    split at h
    · cases h
    · rename_i tm1 h1
      obtain ⟨_, _, hub1, hco1⟩ := shouldPrune_ok h1
      split at h
      · cases h
      rename_i tm2 h2
      obtain ⟨_, _, _, hub2, hco2⟩ := pop_ok h2
      split at h
      · cases h
      rename_i tm3 h3
      obtain ⟨_, _, hub3, hco3⟩ := removeNode_ok h3
      obtain ⟨hub, hco⟩ := ih h
      exact ⟨hub.trans (hub3.trans (hub2.trans hub1)), hco.trans (hco3.trans (hco2.trans hco1))⟩
    · rename_i tm1 h1
      cases h
      obtain ⟨_, _, hub1, hco1⟩ := shouldPrune_ok h1
      exact ⟨hub1, hco1⟩

theorem ParTreeManager.clearAllLoop_bounds (fuel : Nat)
    {tm tm' : ParTreeManager Mod} (h : clearAllLoop fuel tm = Except.ok tm') :
    tm'.bestUpperBound_ = tm.bestUpperBound_ ∧ tm'.cutOff_ = tm.cutOff_ := by
  induction fuel generalizing tm with
  | zero => simp [clearAllLoop] at h
  | succ fuel ih =>
    simp only [clearAllLoop] at h
    split at h
    swap
    · cases h; exact ⟨rfl, rfl⟩
    split at h
    · cases h
    split at h
    · cases h
    rename_i tm1 h1
    obtain ⟨_, _, hub1, hco1⟩ := removeNode_ok h1
    split at h
    · cases h
    rename_i tm2 h2
    obtain ⟨_, _, _, hub2, hco2⟩ := pop_ok h2
    obtain ⟨hub, hco⟩ := ih h
    exact ⟨hub.trans (hub2.trans hub1), hco.trans (hco2.trans hco1)⟩

/-- The calls other than `setUb` and `setCutOff` leave the incumbent and the cutoff as
they are. -/
theorem ParTreeManager.step_bounds {tm tm' : ParTreeManager Mod} {op : Op Mod}
    (h : step tm op = Except.ok tm')
    (hub : ∀ v, op ≠ Op.setUb v) (hco : ∀ v, op ≠ Op.setCutOff v) :
    tm'.bestUpperBound_ = tm.bestUpperBound_ ∧ tm'.cutOff_ = tm.cutOff_ := by
  cases op with
  | setUb v => exact absurd rfl (hub v)
  | setCutOff v => exact absurd rfl (hco v)
  | insertRoot node =>
    obtain ⟨_, _, _, _, h1, h2⟩ := insertRoot_ok h
    exact ⟨h1, h2⟩
  | branch branches node ws =>
    simp only [step] at h
    split at h
    · cases h
    rename_i r hr
    cases h
    unfold branch at hr
    simp only [] at hr
    split at hr
    · cases hr
    rename_i st hst
    cases hr
    exact branchLoop_bounds branches hst
  | getCandidate =>
    simp only [step] at h
    split at h
    · cases h
    rename_i r hr
    cases h
    exact @getCandidateLoop_bounds Mod (tm.active_nodes_.length + 1)
      { tm with aNode_ := none } r hr
  | removeActiveNode node =>
    simp only [step, removeActiveNode] at h
    obtain ⟨_, _, _, h1, h2⟩ := pop_ok h
    exact ⟨h1, h2⟩
  | pruneNode node =>
    simp only [step, pruneNode] at h
    obtain ⟨_, _, h1, h2⟩ := removeNode_ok h
    exact ⟨h1, h2⟩
  | clearAll =>
    simp only [step, clearAll] at h
    split at h
    · cases h
    rename_i tm1 h1
    have hb1 : tm1.bestUpperBound_ = tm.bestUpperBound_ ∧ tm1.cutOff_ = tm.cutOff_ := by
      split at h1
      · obtain ⟨_, _, h1', h2'⟩ := removeNode_ok h1
        exact ⟨h1', h2'⟩
      · cases h1; exact ⟨rfl, rfl⟩
    obtain ⟨h1', h2'⟩ := clearAllLoop_bounds _ h
    exact ⟨h1'.trans hb1.1, h2'.trans hb1.2⟩
  | updateLb =>
    simp only [step, updateLb] at h
    cases h
    exact ⟨rfl, rfl⟩

theorem ParTreeManager.step_cutOff_le {tm tm' : ParTreeManager Mod} {op : Op Mod}
    (hallow : allowCutOffBelowUb tm op = true) (h : step tm op = Except.ok tm')
    (hle : Dbl.le tm.cutOff_ tm.bestUpperBound_ = true) :
    Dbl.le tm'.cutOff_ tm'.bestUpperBound_ = true := by
  by_cases hub : ∃ v, op = Op.setUb v
  · obtain ⟨v, rfl⟩ := hub
    simp only [allowCutOffBelowUb, decide_eq_true_eq] at hallow
    simp only [step] at h
    cases h
    rw [setUb_bestUpperBound, setUb_cutOff]
    cases hlt : Dbl.lt v tm.cutOff_
    · simp only [Bool.false_eq_true, if_false]
      exact Dbl.le_of_not_lt hallow (Dbl.ne_nan_of_le hle).1 hlt
    · simp only [if_true]
      exact Dbl.le_refl_of_ne_nan hallow
  by_cases hco : ∃ v, op = Op.setCutOff v
  · obtain ⟨v, rfl⟩ := hco
    simp only [allowCutOffBelowUb] at hallow
    simp only [step] at h
    cases h
    exact hallow
  · obtain ⟨h1, h2⟩ := step_bounds h (fun v hv => hub ⟨v, hv⟩) (fun v hv => hco ⟨v, hv⟩)
    rw [h1, h2]; exact hle

theorem ParTreeManager.runOps_cutOff_le (ops : List (Op Mod)) {tm tm' : ParTreeManager Mod}
    (h : runOps allowCutOffBelowUb tm ops = some tm')
    (hle : Dbl.le tm.cutOff_ tm.bestUpperBound_ = true) :
    Dbl.le tm'.cutOff_ tm'.bestUpperBound_ = true := by
  induction ops generalizing tm with
  | nil =>
    simp only [runOps] at h
    cases h
    exact hle
  | cons op rest ih =>
    simp only [runOps] at h
    split at h
    swap
    · cases h
    rename_i hallow
    split at h
    · cases h
    · rename_i tm1 h1
      exact ih h (step_cutOff_le hallow h1 hle)

/-- Claim C7, amended (the cutoff never exceeds the incumbent). In every state reached
from the constructor (`bestUpperBound_ = INFINITY`, `cutOff_` the configured objective
cutoff, a number) by a sequence of public calls in which `setUb` is called with any
number and `setCutOff` only with a value that does not exceed the incumbent at the time
of the call, `cutOff_ <= bestUpperBound_`. -/
theorem ParTreeManager.cutOff_le_ub (opts : Options) (store : Store Mod)
    (ops : List (Op Mod)) (tm0 tm : ParTreeManager Mod)
    (hcut : opts.obj_cut_off ≠ Dbl.nan)
    (hnew : new opts store = Except.ok tm0)
    (hrun : runOps allowCutOffBelowUb tm0 ops = some tm) :
    Dbl.le tm.cutOff_ tm.bestUpperBound_ = true := by
  obtain ⟨_, _, hub, hco⟩ := new_ok hnew
  refine runOps_cutOff_le ops hrun ?_
  rw [hub, hco]
  cases hc : opts.obj_cut_off <;> simp [Dbl.le, Dbl.INFINITY]
  exact hcut hc


/-! ### Reclamation -/

theorem Store.getElem?_detachOne (x p : NodePtr) (s : Store Mod) (y : NodePtr) :
    (Store.detachOne x p s)[y]? = (s[y]?).map (fun nd =>
      { nd with
        parent_ := if y = x then none else nd.parent_,
        children_ := if y = p then nd.children_.erase x else nd.children_ }) := by
  simp [Store.detachOne]

theorem Store.getElem?_detachAll (doomed : List NodePtr) (s : Store Mod) (y : NodePtr) :
    (Store.detachAll doomed s)[y]? = (s[y]?).map (fun nd =>
      { nd with
        parent_ := if y ∈ doomed then none else nd.parent_,
        children_ := nd.children_.filter (fun c => decide (c ∉ doomed)) }) := by
  simp [Store.detachAll]

theorem Store.parentOf_detachOne (x p : NodePtr) (s : Store Mod) (y : NodePtr) :
    Store.parentOf (Store.detachOne x p s) y
      = if y = x then none else Store.parentOf s y := by
  unfold Store.parentOf
  rw [Store.getElem?_detachOne]
  cases s[y]? <;> simp

theorem Store.childrenOf_detachOne (x p : NodePtr) (s : Store Mod) (y : NodePtr) :
    Store.childrenOf (Store.detachOne x p s) y
      = if y = p then (Store.childrenOf s p).erase x else Store.childrenOf s y := by
  unfold Store.childrenOf
  rw [Store.getElem?_detachOne]
  by_cases hy : y = p
  · subst hy
    cases s[y]? <;> simp
  · cases s[y]? <;> simp [hy]

/-- The two setters of `removeNode_` produce `detachOne`. -/
theorem Store.set_set_eq_detachOne {s : Store Mod} {x p : NodePtr} {nd pn n2 : Node Mod}
    (hx : s[x]? = some nd) (hp : s[p]? = some pn)
    (hn2 : (s.set p { pn with children_ := pn.children_.erase x })[x]? = some n2) :
    (s.set p { pn with children_ := pn.children_.erase x }).set x { n2 with parent_ := none }
      = Store.detachOne x p s := by
  apply List.ext_getElem?
  intro y
  rw [Store.getElem?_detachOne]
  by_cases hyx : y = x
  · subst hyx
    rw [List.getElem?_set_self (by rw [List.length_set]; exact Store.lt_length_of_get hx)]
    by_cases hyp : y = p
    · subst hyp
      rw [List.getElem?_set_self (Store.lt_length_of_get hx)] at hn2
      cases hn2
      rw [hx] at hp; cases hp
      simp [hx]
    · rw [List.getElem?_set_ne (Ne.symm hyp)] at hn2
      rw [hx] at hn2; cases hn2
      simp [hx, hyp]
  · rw [List.getElem?_set_ne (Ne.symm hyx)]
    by_cases hyp : y = p
    · subst hyp
      rw [List.getElem?_set_self (Store.lt_length_of_get hp)]
      simp [hp, hyx]
    · rw [List.getElem?_set_ne (Ne.symm hyp)]
      cases hy : s[y]? with
      | none => rfl
      | some ny => simp [hyx, hyp]

/-- One call of `removeNode_` on a node that is properly linked under its parent. -/
theorem ParTreeManager.removeNodeAux_step (fuel : Nat) {s : Store Mod} {x p : NodePtr}
    {nd pn : Node Mod} (hx : s[x]? = some nd) (hid : 0 < nd.id_)
    (hpar : nd.parent_ = some p) (hp : s[p]? = some pn) (hmem : x ∈ pn.children_) :
    removeNodeAux (fuel + 1) s x
      = if Store.childrenOf (Store.detachOne x p s) p = [] then
          removeNodeAux fuel (Store.detachOne x p s) p
        else Except.ok (Store.detachOne x p s) := by
  have hxl := Store.lt_length_of_get hx
  have hpl := Store.lt_length_of_get hp
  have hx1 : ∃ n2, (s.set p { pn with children_ := pn.children_.erase x })[x]? = some n2 := by
    have : x < (s.set p { pn with children_ := pn.children_.erase x }).length := by
      rw [List.length_set]; exact hxl
    exact ⟨_, List.getElem?_eq_getElem this⟩
  obtain ⟨n2, hn2⟩ := hx1
  have hs2 := Store.set_set_eq_detachOne hx hp hn2
  have hp2 : ∃ pn2, (Store.detachOne x p s)[p]? = some pn2 := by
    have : p < (Store.detachOne x p s).length := by
      simp [Store.detachOne]; exact hpl
    exact ⟨_, List.getElem?_eq_getElem this⟩
  obtain ⟨pn2, hpn2⟩ := hp2
  have hch : Store.childrenOf (Store.detachOne x p s) p = pn2.children_ :=
    Store.childrenOf_eq_of_get hpn2
  simp only [removeNodeAux, Store.deref, Store.update, hx, hid, if_true, hpar, hp, hmem, hn2,
    hs2, hpn2]
  rw [hch]
  by_cases hnil : pn2.children_ = []
  · simp [hnil]
  · have : ¬ pn2.children_.length < 1 := by
      intro hlt
      exact hnil (List.length_eq_zero.mp (by omega))
    simp [hnil, this]

theorem Store.detachAll_nil (s : Store Mod) : Store.detachAll [] s = s := by
  apply List.ext_getElem?
  intro y
  rw [Store.getElem?_detachAll]
  cases s[y]? <;> simp

/-- The walk of `cascade` from `y` only reads the nodes at addresses up to `y` and the
child lists at addresses below `y`. -/
theorem Store.cascade_congr {s s2 : Store Mod}
    (hfirst : ∀ c p, Store.parentOf s c = some p → p < c) (fuel : Nat) (y : NodePtr)
    (hnode : ∀ z, z ≤ y → (s2[z]?).map (fun nd => (nd.id_, nd.parent_))
      = (s[z]?).map (fun nd => (nd.id_, nd.parent_)))
    (hch : ∀ z, z < y → Store.childrenOf s2 z = Store.childrenOf s z) :
    Store.cascade fuel s2 y = Store.cascade fuel s y := by
  induction fuel generalizing y with
  | zero => rfl
  | succ fuel ih =>
    have hy := hnode y (Nat.le_refl y)
    unfold Store.cascade
    cases h2 : s2[y]? with
    | none =>
      rw [h2] at hy
      cases h1 : s[y]? with
      | none => rfl
      | some nd => rw [h1] at hy; cases hy
    | some nd2 =>
      rw [h2] at hy
      cases h1 : s[y]? with
      | none => rw [h1] at hy; cases hy
      | some nd =>
        rw [h1] at hy
        simp only [Option.map_some', Option.some.injEq, Prod.mk.injEq] at hy
        simp only [hy.1, hy.2]
        split
        · rfl
        · split
          · rfl
          · rename_i p hp
            have hlt : p < y := hfirst y p (by rw [Store.parentOf_eq_of_get h1]; exact hp)
            rw [hch p hlt, ih p (fun z hz => hnode z (Nat.le_trans hz (Nat.le_of_lt hlt)))
              (fun z hz => hch z (Nat.lt_trans hz hlt))]

theorem Store.detachOne_eq_detachAll {root : NodePtr} {s : Store Mod} {x p : NodePtr}
    (hwf : TreeWF root s []) (hpx : Store.parentOf s x = some p) :
    Store.detachOne x p s = Store.detachAll [x] s := by
  apply List.ext_getElem?
  intro y
  rw [Store.getElem?_detachOne, Store.getElem?_detachAll]
  cases hy : s[y]? with
  | none => rfl
  | some nd =>
    have hnd : nd.children_ = Store.childrenOf s y := (Store.childrenOf_eq_of_get hy).symm
    simp only [Option.map_some', List.mem_singleton]
    congr 2
    by_cases hyp : y = p
    · rw [if_pos hyp, hnd, hyp]
      have hnodup : (Store.childrenOf s p).Nodup := by
        rw [List.nodup_iff_count_eq_one]
        intro c hc
        exact hwf.once c p (hwf.parentOfChild c p hc)
      rw [hnodup.erase_eq_filter]
      apply List.filter_congr
      intro c _
      by_cases hcx : c = x <;> simp [hcx]
    · rw [if_neg hyp, hnd]
      symm
      rw [List.filter_eq_self]
      intro c hc
      have hcy := hwf.parentOfChild c y hc
      simp only [decide_eq_true_eq]
      intro hcx
      rw [hcx, hpx] at hcy
      cases hcy
      exact hyp rfl

theorem Store.detachAll_detachOne {root : NodePtr} {s : Store Mod} {x p : NodePtr}
    (doomed : List NodePtr) (hwf : TreeWF root s []) (hpx : Store.parentOf s x = some p)
    (honly : Store.childrenOf s p = [x]) :
    Store.detachAll doomed (Store.detachOne x p s) = Store.detachAll (x :: doomed) s := by
  apply List.ext_getElem?
  intro y
  rw [Store.getElem?_detachAll, Store.getElem?_detachAll, Store.getElem?_detachOne]
  cases hy : s[y]? with
  | none => rfl
  | some nd =>
    have hnd : nd.children_ = Store.childrenOf s y := (Store.childrenOf_eq_of_get hy).symm
    simp only [Option.map_some', List.mem_cons]
    congr 2
    · by_cases hyx : y = x
      · simp [hyx]
      · simp [hyx]
    · by_cases hyp : y = p
      · rw [if_pos hyp, hnd, hyp, honly]
        simp
      · rw [if_neg hyp, hnd]
        apply List.filter_congr
        intro c hc
        have hcy := hwf.parentOfChild c y hc
        have hcx : c ≠ x := by
          intro hcx
          rw [hcx, hpx] at hcy
          cases hcy
          exact hyp rfl
        simp [hcx]

/-- On a tree that satisfies the invariant, `removeNode_` of a node without children
returns, and detaches exactly the nodes of `cascade`. -/
theorem ParTreeManager.removeNodeAux_cascade {root : NodePtr} (fuel : Nat) (s : Store Mod)
    (x : NodePtr) (hfuel : x < fuel) (hwf : TreeWF root s [])
    (hleaf : Store.childrenOf s x = []) (hx : x < s.length)
    (hpar : ∀ y nd, y ≤ x → s[y]? = some nd →
      nd.id_ = 0 ∨ nd.parent_ ≠ none ∨ (y ≠ x ∧ nd.children_ = [])) :
    removeNodeAux fuel s x = Except.ok (Store.detachAll (Store.cascade fuel s x) s) := by
  induction fuel generalizing s x with
  | zero => exact absurd hfuel (Nat.not_lt_zero x)
  | succ fuel ih =>
    have hnd : s[x]? = some s[x] := List.getElem?_eq_getElem hx
    generalize s[x] = nd at hnd
    by_cases hid : nd.id_ = 0
    · simp [removeNodeAux, Store.deref, Store.cascade, hnd, hid, Store.detachAll_nil]
    · have hid' : 0 < nd.id_ := Nat.pos_of_ne_zero hid
      cases hp : nd.parent_ with
      | none =>
        rcases hpar x nd (Nat.le_refl x) hnd with h | h | h
        · exact absurd h hid
        · exact absurd hp h
        · exact absurd rfl h.1
      | some p =>
        have hpx : Store.parentOf s x = some p := by
          rw [Store.parentOf_eq_of_get hnd]; exact hp
        have hone := hwf.once x p hpx
        have hmem : x ∈ Store.childrenOf s p :=
          List.count_pos_iff.mp (by rw [hone]; exact Nat.one_pos)
        have hpl : p < s.length := Store.lt_length_of_mem_childrenOf hmem
        have hpn : s[p]? = some s[p] := List.getElem?_eq_getElem hpl
        generalize s[p] = pn at hpn
        have hchp : Store.childrenOf s p = pn.children_ := Store.childrenOf_eq_of_get hpn
        have hlt : p < x := hwf.parentFirst x p hpx
        rw [removeNodeAux_step fuel hnd hid' hp hpn (hchp ▸ hmem)]
        have hch2 : Store.childrenOf (Store.detachOne x p s) p
            = (Store.childrenOf s p).erase x := by
          rw [Store.childrenOf_detachOne, if_pos rfl]
        have hcas : Store.cascade (fuel + 1) s x
            = if Store.childrenOf s p = [x] then x :: Store.cascade fuel s p else [x] := by
          simp [Store.cascade, hnd, hid, hp]
        rw [hcas]
        by_cases honly : Store.childrenOf s p = [x]
        · have hnil : Store.childrenOf (Store.detachOne x p s) p = [] := by
            rw [hch2, honly]; simp
          rw [if_pos hnil, if_pos honly]
          obtain ⟨hwf2, _⟩ := hwf.detach (List.not_mem_nil x) hleaf hmem
            (by simp [Store.detachOne]) (Store.parentOf_detachOne x p s)
            (Store.childrenOf_detachOne x p s)
          have hnode : ∀ z, z ≤ p →
              ((Store.detachOne x p s)[z]?).map (fun nd => (nd.id_, nd.parent_))
                = (s[z]?).map (fun nd => (nd.id_, nd.parent_)) := by
            intro z hz
            have hzx : z ≠ x := Nat.ne_of_lt (Nat.lt_of_le_of_lt hz hlt)
            rw [Store.getElem?_detachOne]
            cases s[z]? <;> simp [hzx]
          rw [ih (Store.detachOne x p s) p (Nat.lt_of_lt_of_le hlt (Nat.le_of_lt_succ hfuel))
            hwf2 hnil (by simp [Store.detachOne]; exact hpl) ?_]
          · rw [Store.cascade_congr hwf.parentFirst fuel p hnode ?_,
              Store.detachAll_detachOne _ hwf hpx honly]
            intro z hz
            rw [Store.childrenOf_detachOne, if_neg (Nat.ne_of_lt hz)]
          · intro y nd2 hy hnd2
            have hyx : y ≠ x := Nat.ne_of_lt (Nat.lt_of_le_of_lt hy hlt)
            rw [Store.getElem?_detachOne] at hnd2
            cases hsy : s[y]? with
            | none => rw [hsy] at hnd2; cases hnd2
            | some ny =>
              rw [hsy] at hnd2
              simp only [Option.map_some', Option.some.injEq] at hnd2
              rw [← hnd2]
              simp only [if_neg hyx]
              rcases hpar y ny (Nat.le_trans hy (Nat.le_of_lt hlt)) hsy with h | h | h
              · exact Or.inl h
              · exact Or.inr (Or.inl h)
              · have hyp : y ≠ p := by
                  intro e
                  rw [e, hpn] at hsy
                  cases hsy
                  rw [hchp, h.2] at hmem
                  cases hmem
                exact Or.inr (Or.inr ⟨hyp, by rw [if_neg hyp]; exact h.2⟩)
        · have hnil : ¬ Store.childrenOf (Store.detachOne x p s) p = [] := by
            rw [hch2, List.erase_eq_nil]
            rintro (h | h)
            · rw [h] at hmem; cases hmem
            · exact honly h
          rw [if_neg hnil, if_neg honly, Store.detachOne_eq_detachAll hwf hpx]

/-- What the test `wellFormed` says of each node. -/
theorem Store.wellFormed_spec {root : NodePtr} {s : Store Mod}
    (h : Store.wellFormed root s = true) :
    root < s.length ∧
    (∀ nd, s[root]? = some nd → nd.id_ = 0 ∧ nd.parent_ = none) ∧
    (∀ y nd, s[y]? = some nd → y ≠ root →
      0 < nd.id_ ∧ ((nd.parent_ = none ∧ nd.children_ = []) ∨
        ∃ p, nd.parent_ = some p ∧ p < y ∧ (Store.childrenOf s p).count y = 1)) ∧
    (∀ y c, c ∈ Store.childrenOf s y → Store.parentOf s c = some y) := by
  simp only [Store.wellFormed, Bool.and_eq_true, decide_eq_true_eq, List.all_eq_true,
    List.mem_range] at h
  obtain ⟨hroot, hall⟩ := h
  have hat : ∀ y nd, s[y]? = some nd →
      ((if y = root then decide (nd.id_ = 0) && decide (nd.parent_ = none)
        else decide (0 < nd.id_) &&
          match nd.parent_ with
          | none => nd.children_.isEmpty
          | some p => decide (p < y) && decide ((Store.childrenOf s p).count y = 1)) = true) ∧
      ∀ c, c ∈ nd.children_ → Store.parentOf s c = some y := by
    intro y nd hy
    have := hall y (Store.lt_length_of_get hy)
    simp only [Store.wellFormedAt, hy, Bool.and_eq_true, List.all_eq_true,
      decide_eq_true_eq] at this
    exact this
  refine ⟨hroot, ?_, ?_, ?_⟩
  · intro nd hnd
    have := (hat root nd hnd).1
    simpa using this
  · intro y nd hnd hne
    have := (hat y nd hnd).1
    rw [if_neg hne] at this
    simp only [Bool.and_eq_true, decide_eq_true_eq] at this
    refine ⟨this.1, ?_⟩
    cases hp : nd.parent_ with
    | none =>
      rw [hp] at this
      exact Or.inl ⟨rfl, List.isEmpty_iff.mp this.2⟩
    | some p =>
      rw [hp] at this
      simp only [Bool.and_eq_true, decide_eq_true_eq] at this
      exact Or.inr ⟨p, rfl, this.2.1, this.2.2⟩
  · intro y c hc
    unfold Store.childrenOf at hc
    split at hc
    · rename_i nd hnd
      exact (hat y nd hnd).2 c hc
    · cases hc

theorem Store.wellFormed_treeWF {root : NodePtr} {s : Store Mod}
    (h : Store.wellFormed root s = true) : TreeWF root s [] := by
  obtain ⟨hroot, hr, hnr, hch⟩ := Store.wellFormed_spec h
  have hfacts : ∀ c p, Store.parentOf s c = some p →
      p < c ∧ (Store.childrenOf s p).count c = 1 := by
    intro c p hp
    have hc : c < s.length := Store.lt_length_of_parentOf hp
    have hnd : s[c]? = some s[c] := List.getElem?_eq_getElem hc
    generalize s[c] = nd at hnd
    rw [Store.parentOf_eq_of_get hnd] at hp
    by_cases hcr : c = root
    · rw [hcr] at hnd
      rw [(hr nd hnd).2] at hp
      cases hp
    · rcases (hnr c nd hnd hcr).2 with ⟨hq, _⟩ | ⟨q, hq, hlt, hone⟩
      · rw [hq] at hp
        cases hp
      · rw [hq] at hp
        cases hp
        exact ⟨hlt, hone⟩
  exact ⟨fun c p hp => (hfacts c p hp).2, fun c p hc => hch p c hc,
    fun n hn => absurd hn (List.not_mem_nil n), fun n hn => absurd hn (List.not_mem_nil n),
    List.nodup_nil, hroot, fun c p hp => (hfacts c p hp).1⟩

theorem Store.cascade_fuel {s : Store Mod}
    (hfirst : ∀ c p, Store.parentOf s c = some p → p < c) (f g : Nat) (y : NodePtr)
    (hf : y < f) (hg : y < g) : Store.cascade f s y = Store.cascade g s y := by
  induction f generalizing g y with
  | zero => exact absurd hf (Nat.not_lt_zero y)
  | succ f ih =>
    cases g with
    | zero => exact absurd hg (Nat.not_lt_zero y)
    | succ g =>
      unfold Store.cascade
      cases hy : s[y]? with
      | none => rfl
      | some nd =>
        simp only []
        split
        · rfl
        · split
          · rfl
          · rename_i p hp
            have hlt : p < y := hfirst y p (by rw [Store.parentOf_eq_of_get hy]; exact hp)
            rw [ih g p (Nat.lt_of_lt_of_le hlt (Nat.le_of_lt_succ hf))
              (Nat.lt_of_lt_of_le hlt (Nat.le_of_lt_succ hg))]

/-- The equations that determine `reclaimed` on a well-formed tree: nothing for the
root; for another node the node itself, followed by what the reclamation of its parent
detaches when the parent is not the root and has no other child. -/
theorem Store.reclaimed_spec {root : NodePtr} {s : Store Mod}
    (h : Store.wellFormed root s = true) :
    Store.reclaimed s root = [] ∧
    ∀ x p, x ≠ root → Store.parentOf s x = some p →
      Store.reclaimed s x
        = x :: (if p ≠ root ∧ Store.childrenOf s p = [x] then Store.reclaimed s p else []) := by
  obtain ⟨hroot, hr, hnr, _⟩ := Store.wellFormed_spec h
  have hwf := Store.wellFormed_treeWF h
  have hrnd : s[root]? = some s[root] := List.getElem?_eq_getElem hroot
  generalize s[root] = rnd at hrnd
  have hcr : ∀ f, Store.cascade f s root = [] := by
    intro f
    cases f with
    | zero => rfl
    | succ f => simp [Store.cascade, hrnd, (hr rnd hrnd).1]
  refine ⟨hcr _, ?_⟩
  intro x p hx hpx
  have hxl : x < s.length := Store.lt_length_of_parentOf hpx
  have hnd : s[x]? = some s[x] := List.getElem?_eq_getElem hxl
  generalize s[x] = nd at hnd
  have hp : nd.parent_ = some p := by
    rw [← Store.parentOf_eq_of_get hnd]; exact hpx
  have hid : nd.id_ ≠ 0 := Nat.pos_iff_ne_zero.mp (hnr x nd hnd hx).1
  have hlt : p < x := hwf.parentFirst x p hpx
  have hcas : Store.cascade (s.length + 1) s x
      = if Store.childrenOf s p = [x] then x :: Store.cascade s.length s p else [x] := by
    simp [Store.cascade, hnd, hid, hp]
  unfold Store.reclaimed
  rw [hcas]
  by_cases honly : Store.childrenOf s p = [x]
  · rw [if_pos honly]
    by_cases hpr : p = root
    · rw [hpr, hcr]; simp
    · rw [if_pos ⟨hpr, honly⟩,
        Store.cascade_fuel hwf.parentFirst s.length (s.length + 1) p
          (Nat.lt_trans hlt hxl) (Nat.lt_succ_of_lt (Nat.lt_trans hlt hxl))]
  · rw [if_neg honly, if_neg (fun hh => honly hh.2)]

theorem chainStore_get (k y : Nat) :
    (chainStore Mod k)[y]? = if y < k + 1 then some (chainNode Mod k y) else none := by
  unfold chainStore
  rw [List.getElem?_map]
  by_cases hy : y < k + 1
  · rw [if_pos hy, List.getElem?_range hy]; rfl
  · rw [if_neg hy, List.getElem?_eq_none (by simpa using hy)]; rfl

theorem chainStore_parentOf (k y : Nat) :
    Store.parentOf (chainStore Mod k) y
      = if y < k + 1 ∧ y ≠ 0 then some (y - 1) else none := by
  unfold Store.parentOf
  rw [chainStore_get]
  by_cases hy : y < k + 1
  · by_cases h0 : y = 0 <;> simp [hy, h0, chainNode]
  · simp [hy]

theorem chainStore_childrenOf (k y : Nat) :
    Store.childrenOf (chainStore Mod k) y = if y < k then [y + 1] else [] := by
  unfold Store.childrenOf
  rw [chainStore_get]
  by_cases hy : y < k + 1
  · by_cases hk : y < k <;> simp [hy, hk, chainNode]
  · have hk : ¬ y < k := fun h => hy (Nat.lt_succ_of_lt h)
    simp [hy, hk]

theorem chainStore_wellFormed (k : Nat) : Store.wellFormed 0 (chainStore Mod k) = true := by
  simp only [Store.wellFormed, Bool.and_eq_true, decide_eq_true_eq, List.all_eq_true,
    List.mem_range]
  refine ⟨by simp [chainStore], ?_⟩
  intro y hy
  have hy' : y < k + 1 := by simpa [chainStore] using hy
  simp only [Store.wellFormedAt, chainStore_get, if_pos hy', Bool.and_eq_true,
    List.all_eq_true, decide_eq_true_eq]
  constructor
  · by_cases h0 : y = 0
    · simp [h0, chainNode]
    · have hpos : 0 < y := Nat.pos_of_ne_zero h0
      have hlt : y - 1 < k := by omega
      have hsucc : y - 1 + 1 = y := by omega
      simp [h0, chainNode, hpos, chainStore_childrenOf, hlt, hsucc]
  · intro c hc
    rw [chainStore_parentOf]
    by_cases hk : y < k
    · simp only [chainNode, if_pos hk, List.mem_singleton] at hc
      subst hc
      simp [hk]
    · simp [chainNode, hk] at hc

theorem chainStore_mem_reclaimed (k i : Nat) (hi : i ≤ k) (y : Nat) :
    y ∈ Store.reclaimed (chainStore Mod k) i ↔ 1 ≤ y ∧ y ≤ i := by
  obtain ⟨hroot, hstep⟩ := Store.reclaimed_spec (@chainStore_wellFormed Mod k)
  induction i with
  | zero =>
    rw [hroot]
    simp
    omega
  | succ i ih =>
    have hpar : Store.parentOf (chainStore Mod k) (i + 1) = some i := by
      rw [chainStore_parentOf]; simp; omega
    rw [hstep (i + 1) i (Nat.succ_ne_zero i) hpar, chainStore_childrenOf,
      if_pos (by omega : i < k)]
    by_cases h0 : i = 0
    · subst h0
      simp
      omega
    · simp only [ne_eq, h0, not_false_eq_true, and_self, if_true, List.mem_cons]
      rw [ih (by omega)]
      omega

theorem Store.wellFormed_of_spec {root : NodePtr} {s : Store Mod}
    (hroot : root < s.length)
    (hr : ∀ nd, s[root]? = some nd → nd.id_ = 0 ∧ nd.parent_ = none)
    (hnr : ∀ y nd, s[y]? = some nd → y ≠ root →
      0 < nd.id_ ∧ ((nd.parent_ = none ∧ nd.children_ = []) ∨
        ∃ p, nd.parent_ = some p ∧ p < y ∧ (Store.childrenOf s p).count y = 1))
    (hch : ∀ y c, c ∈ Store.childrenOf s y → Store.parentOf s c = some y) :
    Store.wellFormed root s = true := by
  simp only [Store.wellFormed, Bool.and_eq_true, decide_eq_true_eq, List.all_eq_true,
    List.mem_range]
  refine ⟨hroot, ?_⟩
  intro y hy
  have hnd : s[y]? = some s[y] := List.getElem?_eq_getElem hy
  generalize s[y] = nd at hnd
  simp only [Store.wellFormedAt, hnd, Bool.and_eq_true, List.all_eq_true, decide_eq_true_eq]
  constructor
  · by_cases hyr : y = root
    · rw [if_pos hyr]
      rw [hyr] at hnd
      simp [(hr nd hnd).1, (hr nd hnd).2]
    · rw [if_neg hyr]
      obtain ⟨hid, h⟩ := hnr y nd hnd hyr
      rcases h with ⟨hp, hc⟩ | ⟨p, hp, hlt, hone⟩
      · simp [hid, hp, hc]
      · simp [hid, hp, hlt, hone]
  · intro c hc
    exact hch y c (by rw [Store.childrenOf_eq_of_get hnd]; exact hc)

/-- Every node that `cascade` lists has a positive identifier and a parent, and is the
start node or a node whose only child is listed too. -/
theorem Store.cascade_mem (fuel : Nat) (s : Store Mod) (x y : NodePtr)
    (hy : y ∈ Store.cascade fuel s x) :
    (∃ nd p, s[y]? = some nd ∧ nd.id_ ≠ 0 ∧ nd.parent_ = some p) ∧
    (y = x ∨ ∃ c, c ∈ Store.cascade fuel s x ∧ Store.childrenOf s y = [c]) := by
  induction fuel generalizing x with
  | zero => simp [Store.cascade] at hy
  | succ fuel ih =>
    cases hx : s[x]? with
    | none => simp [Store.cascade, hx] at hy
    | some nd =>
      by_cases hid : nd.id_ = 0
      · simp [Store.cascade, hx, hid] at hy
      · cases hp : nd.parent_ with
        | none => simp [Store.cascade, hx, hid, hp] at hy
        | some p =>
          have hcas : Store.cascade (fuel + 1) s x
              = if Store.childrenOf s p = [x] then x :: Store.cascade fuel s p else [x] := by
            simp [Store.cascade, hx, hid, hp]
          rw [hcas] at hy ⊢
          by_cases honly : Store.childrenOf s p = [x]
          · rw [if_pos honly] at hy ⊢
            rcases List.mem_cons.mp hy with h | h
            · subst h
              exact ⟨⟨nd, p, hx, hid, hp⟩, Or.inl rfl⟩
            · obtain ⟨h1, h2⟩ := ih p h
              refine ⟨h1, Or.inr ?_⟩
              rcases h2 with h2 | ⟨c, hc, hcy⟩
              · subst h2
                exact ⟨x, List.mem_cons_self _ _, honly⟩
              · exact ⟨c, List.mem_cons_of_mem _ hc, hcy⟩
          · rw [if_neg honly] at hy ⊢
            have h := List.mem_singleton.mp hy
            subst h
            exact ⟨⟨nd, p, hx, hid, hp⟩, Or.inl rfl⟩

/-- The reclamation of a node without children in a well-formed memory leaves a
well-formed memory. -/
theorem Store.wellFormed_detachAll {root : NodePtr} {s : Store Mod} (n : NodePtr)
    (hwf : Store.wellFormed root s = true) (hleaf : Store.childrenOf s n = []) :
    Store.wellFormed root (Store.detachAll (Store.reclaimed s n) s) = true := by
  obtain ⟨hroot, hr, hnr, hch⟩ := Store.wellFormed_spec hwf
  have hmem := Store.cascade_mem (s.length + 1) s n
  have hkids : ∀ y, y ∈ Store.reclaimed s n → ∀ c, c ∈ Store.childrenOf s y →
      c ∈ Store.reclaimed s n := by
    intro y hy c hc
    rcases (hmem y hy).2 with h | ⟨c2, hc2, hyc⟩
    · rw [h, hleaf] at hc; cases hc
    · rw [hyc] at hc
      rw [List.mem_singleton.mp hc]
      exact hc2
  have hpar : ∀ y, Store.parentOf (Store.detachAll (Store.reclaimed s n) s) y
      = if y ∈ Store.reclaimed s n then none else Store.parentOf s y := by
    intro y
    unfold Store.parentOf
    rw [Store.getElem?_detachAll]
    cases s[y]? <;> simp
  have hchild : ∀ y, Store.childrenOf (Store.detachAll (Store.reclaimed s n) s) y
      = (Store.childrenOf s y).filter (fun c => decide (c ∉ Store.reclaimed s n)) := by
    intro y
    unfold Store.childrenOf
    rw [Store.getElem?_detachAll]
    cases s[y]? <;> simp
  apply Store.wellFormed_of_spec
  · simpa [Store.detachAll] using hroot
  · intro nd hnd
    rw [Store.getElem?_detachAll] at hnd
    cases hs : s[root]? with
    | none => rw [hs] at hnd; cases hnd
    | some nd0 =>
      rw [hs] at hnd
      simp only [Option.map_some', Option.some.injEq] at hnd
      rw [← hnd]
      refine ⟨(hr nd0 hs).1, ?_⟩
      simp [(hr nd0 hs).2]
  · intro y nd hnd hyr
    rw [Store.getElem?_detachAll] at hnd
    cases hs : s[y]? with
    | none => rw [hs] at hnd; cases hnd
    | some nd0 =>
      rw [hs] at hnd
      simp only [Option.map_some', Option.some.injEq] at hnd
      rw [← hnd]
      obtain ⟨hid, h⟩ := hnr y nd0 hs hyr
      refine ⟨hid, ?_⟩
      by_cases hy : y ∈ Store.reclaimed s n
      · left
        refine ⟨by simp [hy], ?_⟩
        rw [List.filter_eq_nil_iff]
        intro c hc
        have := hkids y hy c (by rw [Store.childrenOf_eq_of_get hs]; exact hc)
        simp [this]
      · rcases h with ⟨hp, hc⟩ | ⟨p, hp, hlt, hone⟩
        · left
          simp [hy, hp, hc]
        · right
          refine ⟨p, by simp [hy, hp], hlt, ?_⟩
          rw [hchild, List.count_filter (by simpa using hy)]
          exact hone
  · intro y c hc
    rw [hchild, List.mem_filter] at hc
    have hcn : c ∉ Store.reclaimed s n := by simpa using hc.2
    rw [hpar, if_neg hcn]
    exact hch y c hc.1

theorem ParTreeManager.pruneNode_eq {root : NodePtr} (tm : ParTreeManager Mod) (n : NodePtr)
    (hwf : Store.wellFormed root tm.store = true) (hn : n < tm.store.length)
    (hlive : n = root ∨ Store.parentOf tm.store n ≠ none)
    (hleaf : Store.childrenOf tm.store n = []) :
    pruneNode tm n = Except.ok
      { tm with store := Store.detachAll (Store.reclaimed tm.store n) tm.store } := by
  obtain ⟨_, hr, hnr, _⟩ := Store.wellFormed_spec hwf
  have hpar : ∀ y nd, y ≤ n → tm.store[y]? = some nd →
      nd.id_ = 0 ∨ nd.parent_ ≠ none ∨ (y ≠ n ∧ nd.children_ = []) := by
    intro y nd _ hnd
    by_cases hy : y = root
    · rw [hy] at hnd
      exact Or.inl (hr nd hnd).1
    · rcases (hnr y nd hnd hy).2 with ⟨hnone, hch⟩ | ⟨p, hp, _⟩
      · refine Or.inr (Or.inr ⟨?_, hch⟩)
        intro e
        rcases hlive with h | h
        · exact hy (e.trans h)
        · rw [← e, Store.parentOf_eq_of_get hnd] at h
          exact h hnone
      · refine Or.inr (Or.inl ?_)
        rw [hp]
        exact Option.some_ne_none p
  have h := removeNodeAux_cascade (tm.store.length + 1) tm.store n (Nat.lt_succ_of_lt hn)
    (Store.wellFormed_treeWF hwf) hleaf hn hpar
  unfold pruneNode removeNode_
  rw [h]
  rfl

theorem chainStore_detachAll (k : Nat) :
    Store.detachAll (Store.reclaimed (chainStore Mod k) k) (chainStore Mod k)
      = (chainStore Mod k).map Node.unlinked := by
  apply List.ext_getElem?
  intro y
  rw [Store.getElem?_detachAll, List.getElem?_map, chainStore_get]
  by_cases hy : y < k + 1
  · simp only [if_pos hy, Option.map_some', Option.some.injEq]
    have hmem := @chainStore_mem_reclaimed Mod k k (Nat.le_refl k)
    unfold Node.unlinked
    congr 1
    · by_cases h0 : y = 0
      · simp [chainNode, h0]
      · have : y ∈ Store.reclaimed (chainStore Mod k) k := (hmem y).mpr ⟨by omega, by omega⟩
        simp [this]
    · by_cases hk : y < k
      · have : y + 1 ∈ Store.reclaimed (chainStore Mod k) k :=
          (hmem (y + 1)).mpr ⟨by omega, by omega⟩
        simp [chainNode, hk, this]
      · simp [chainNode, hk]
  · simp [hy]

/-- Claim C4 (bottom-up reclamation). For every well-formed tree in a memory
(`Store.wellFormed`; the memory may also hold the nodes that earlier reclamations have
detached) and every node `n` of the tree (the root, or a node with a parent) without
children, `pruneNode(n)` returns, and the only change is that the nodes
`Store.reclaimed tm.store n` are detached: their parent pointers are cleared and they
are taken out of the child list of their parent. The memory that results is well-formed
again, so that the statement holds of every reclamation of a search in turn. The nodes
detached are: none when `n` is the root; otherwise `n` itself, followed by what the
reclamation of its parent detaches when the parent is not the root and is left with
zero children, that is, when `n` was its only child. So the cascade stops at the first
ancestor that still has another child, which keeps its parent pointer and its remaining
children, and it never detaches the root. In particular, for a chain
`root -> n1 -> ... -> nk` of single-child nodes, removing `nk` gives the chain with all
links removed: every `n1 .. nk` is detached and the root has no children. -/
theorem ParTreeManager.pruneNode_reclaims (tm : ParTreeManager Mod) (root n : NodePtr)
    (hwf : Store.wellFormed root tm.store = true) (hn : n < tm.store.length)
    (hlive : n = root ∨ Store.parentOf tm.store n ≠ none)
    (hleaf : Store.childrenOf tm.store n = []) :
    pruneNode tm n = Except.ok
      { tm with store := Store.detachAll (Store.reclaimed tm.store n) tm.store } ∧
    Store.wellFormed root (Store.detachAll (Store.reclaimed tm.store n) tm.store) = true ∧
    Store.reclaimed tm.store root = [] ∧
    (∀ x p, x ≠ root → Store.parentOf tm.store x = some p →
      Store.reclaimed tm.store x
        = x :: (if p ≠ root ∧ Store.childrenOf tm.store p = [x]
                then Store.reclaimed tm.store p else [])) ∧
    (∀ k, pruneNode { tm with store := chainStore Mod k } k
      = Except.ok { tm with store := (chainStore Mod k).map Node.unlinked }) := by
  refine ⟨pruneNode_eq tm n hwf hn hlive hleaf, Store.wellFormed_detachAll n hwf hleaf,
    (Store.reclaimed_spec hwf).1, (Store.reclaimed_spec hwf).2, ?_⟩
  intro k
  have h := @pruneNode_eq Mod 0 { tm with store := chainStore Mod k } k
    (chainStore_wellFormed k) (by simp [chainStore])
    (by
      rw [chainStore_parentOf]
      by_cases h0 : k = 0
      · exact Or.inl h0
      · exact Or.inr (by simp [h0]))
    (by rw [chainStore_childrenOf]; simp)
  rw [h]
  simp only [chainStore_detachAll]

/-! ### Termination and the tree invariant -/

/-- The recursion of `removeNode_` never reaches the bound on nested calls when the
bound exceeds the address of the node and parents have smaller addresses than their
children. -/
theorem ParTreeManager.removeNodeAux_ne_fuel (fuel : Nat) (s : Store Mod) (x : NodePtr)
    (hfuel : x < fuel) (hfirst : ∀ c p, Store.parentOf s c = some p → p < c) :
    removeNodeAux fuel s x ≠ Except.error Fault.fuel := by
  induction fuel generalizing s x with
  | zero => exact absurd hfuel (Nat.not_lt_zero x)
  | succ fuel ih =>
    cases hnd : s[x]? with
    | none => simp [removeNodeAux, Store.deref, hnd]
    | some nd =>
      by_cases hid : 0 < nd.id_
      swap
      · simp [removeNodeAux, Store.deref, hnd, hid]
      cases hp : nd.parent_ with
      | none => simp [removeNodeAux, Store.deref, hnd, hid, hp]
      | some p =>
        cases hpn : s[p]? with
        | none => simp [removeNodeAux, Store.deref, hnd, hid, hp, hpn]
        | some pn =>
          by_cases hmem : x ∈ pn.children_
          swap
          · simp [removeNodeAux, Store.deref, hnd, hid, hp, hpn, hmem]
          rw [removeNodeAux_step fuel hnd hid hp hpn hmem]
          have hlt : p < x := hfirst x p (by rw [Store.parentOf_eq_of_get hnd]; exact hp)
          split
          · apply ih _ _ (Nat.lt_of_lt_of_le hlt (Nat.le_of_lt_succ hfuel))
            intro c q hq
            rw [Store.parentOf_detachOne] at hq
            split at hq
            · cases hq
            · exact hfirst c q hq
          · simp

theorem ParTreeManager.removeNode_ne_fuel (tm : ParTreeManager Mod) (x : NodePtr)
    (hfirst : ∀ c p, Store.parentOf tm.store c = some p → p < c) :
    removeNode_ tm x ≠ Except.error Fault.fuel := by
  unfold removeNode_
  by_cases hx : x < tm.store.length
  · have := removeNodeAux_ne_fuel (tm.store.length + 1) tm.store x (Nat.lt_succ_of_lt hx) hfirst
    split
    · rename_i e he
      intro h
      cases h
      exact this he
    · simp
  · have hnone : tm.store[x]? = none := List.getElem?_eq_none (Nat.le_of_not_lt hx)
    simp [removeNodeAux, Store.deref, hnone]

theorem ParTreeManager.getCandidateLoop_ne_fuel {root : NodePtr} (fuel : Nat)
    (tm : ParTreeManager Mod) (hfuel : tm.active_nodes_.length < fuel)
    (hwf : TreeWF root tm.store tm.active_nodes_) :
    getCandidateLoop fuel tm ≠ Except.error Fault.fuel := by
  induction fuel generalizing tm with
  | zero => exact absurd hfuel (Nat.not_lt_zero _)
  | succ fuel ih =>
    simp only [getCandidateLoop]
    split
    swap
    · simp
    cases hA : tm.active_nodes_ with
    | nil => simp [top, hA]
    | cons a rest =>
      have htop : top tm = Except.ok a := by simp [top, hA]
      rw [htop]
      simp only []
      have ha : a < tm.store.length := hwf.lt_length_of_mem (by rw [hA]; exact List.mem_cons_self _ _)
      have hnd : tm.store[a]? = some tm.store[a] := List.getElem?_eq_getElem ha
      generalize tm.store[a] = nd at hnd
      rw [shouldPrune_eq tm a nd hnd]
      split
      · rename_i e he
        split at he <;> cases he
      · rename_i tm1 h1
        have h1' : shouldPrune_ tm a = Except.ok (tm1, true) := by
          rw [shouldPrune_eq tm a nd hnd]; exact h1
        obtain ⟨hs1, ha1, _, _⟩ := shouldPrune_ok h1'
        have hpop : removeActiveNode tm1 a = Except.ok { tm1 with active_nodes_ := rest } := by
          simp [removeActiveNode, pop, ha1, hA]
        rw [hpop]
        simp only []
        have hwf1 : TreeWF root tm1.store (a :: rest) := by
          rw [← hA]; exact hwf.sameShape hs1
        split
        · rename_i e he
          intro h
          cases h
          exact removeNode_ne_fuel { tm1 with active_nodes_ := rest } a hwf1.parentFirst he
        · rename_i tm3 h3
          obtain ⟨h3s, h3a, _, _⟩ := removeNode_ok h3
          have hwf3 := removeNodeAux_wf _ h3s hwf1.tail
            (List.nodup_cons.mp hwf1.activeNodup).1 (hwf1.activeLeaf a (List.mem_cons_self _ _))
          apply ih tm3
          · rw [h3a]
            show rest.length < fuel
            rw [hA] at hfuel
            exact Nat.lt_of_succ_lt_succ hfuel
          · rw [h3a]; exact hwf3
      · simp

theorem Store.deref_ne_fuel (s : Store Mod) (p : NodePtr) :
    Store.deref s p ≠ Except.error Fault.fuel := by
  unfold Store.deref
  split <;> simp

theorem Store.update_ne_fuel (s : Store Mod) (p : NodePtr) (f : Node Mod → Node Mod) :
    Store.update s p f ≠ Except.error Fault.fuel := by
  unfold Store.update
  split <;> simp

theorem ParTreeManager.push_ne_fuel (tm : ParTreeManager Mod) (node : NodePtr) :
    push tm node ≠ Except.error Fault.fuel := by
  unfold push
  split
  · simp
  · split
    · rename_i e he
      intro h
      cases h
      exact Store.deref_ne_fuel _ _ he
    · simp

theorem ParTreeManager.insertCandidate_ne_fuel (tm : ParTreeManager Mod) (node : NodePtr)
    (pop_now : Bool) : insertCandidate_ tm node pop_now ≠ Except.error Fault.fuel := by
  intro h
  unfold insertCandidate_ at h
  split at h
  · cases h
  split at h
  · rename_i e he; cases h; exact Store.update_ne_fuel _ _ _ he
  split at h
  · rename_i e he; cases h; exact Store.deref_ne_fuel _ _ he
  split at h
  · cases h
  split at h
  · rename_i e he; cases h; exact Store.deref_ne_fuel _ _ he
  split at h
  · rename_i e he; cases h; exact Store.update_ne_fuel _ _ _ he
  split at h
  · rename_i e he; cases h; exact Store.deref_ne_fuel _ _ he
  split at h
  · rename_i e he; cases h; exact Store.deref_ne_fuel _ _ he
  split at h
  · rename_i e he; cases h; exact Store.update_ne_fuel _ _ _ he
  split at h
  · exact push_ne_fuel _ _ h
  · cases h

theorem ParTreeManager.branchStep_ne_fuel (node : NodePtr) (ws : Option WarmStartPtr)
    (st : ParTreeManager Mod × Bool × Option NodePtr) (branch_p : Branch Mod) :
    branchStep node ws st branch_p ≠ Except.error Fault.fuel := by
  intro h
  unfold branchStep at h
  simp only [] at h
  split at h
  · rename_i e he; cases h; exact Store.deref_ne_fuel _ _ he
  split at h
  · rename_i e he; cases h; exact Store.deref_ne_fuel _ _ he
  split at h
  · rename_i e he; cases h; exact Store.update_ne_fuel _ _ _ he
  split at h
  · rename_i e he; cases h; exact Store.deref_ne_fuel _ _ he
  split at h
  · rename_i e he; cases h; exact Store.update_ne_fuel _ _ _ he
  split at h
  · rename_i e he; cases h; exact Store.update_ne_fuel _ _ _ he
  split at h
  · split at h
    · rename_i e he; cases h; exact insertCandidate_ne_fuel _ _ _ he
    · cases h
  · split at h
    · rename_i e he; cases h; exact Store.update_ne_fuel _ _ _ he
    split at h
    · rename_i e he; cases h; exact insertCandidate_ne_fuel _ _ _ he
    · cases h

theorem ParTreeManager.branchLoop_ne_fuel (node : NodePtr) (ws : Option WarmStartPtr)
    (branches : List (Branch Mod)) (st : ParTreeManager Mod × Bool × Option NodePtr) :
    branchLoop node ws branches st ≠ Except.error Fault.fuel := by
  induction branches generalizing st with
  | nil => simp [branchLoop]
  | cons b rest ih =>
    simp only [branchLoop]
    split
    · rename_i e he
      intro h
      cases h
      exact branchStep_ne_fuel _ _ _ _ he
    · exact ih _

theorem ParTreeManager.branch_ne_fuel (tm : ParTreeManager Mod) (branches : List (Branch Mod))
    (node : NodePtr) (ws : Option WarmStartPtr) :
    branch tm branches node ws ≠ Except.error Fault.fuel := by
  unfold branch
  simp only []
  split
  · rename_i e he
    intro h
    cases h
    exact branchLoop_ne_fuel _ _ _ _ he
  · simp

/-- In a state that satisfies the invariant, no call of `branch`, `getCandidate`,
`removeActiveNode` or `pruneNode` stops because of a bound of the embedding. -/
theorem ParTreeManager.step_ne_fuel {root : NodePtr} (tm : ParTreeManager Mod)
    (hwf : TreeWF root tm.store tm.active_nodes_) (op : Op Mod)
    (hop : allowTreeOps tm op = true) :
    step tm op ≠ Except.error Fault.fuel := by
  cases op with
  | insertRoot node => simp [allowTreeOps] at hop
  | clearAll => simp [allowTreeOps] at hop
  | updateLb => simp [allowTreeOps] at hop
  | setUb v => simp [allowTreeOps] at hop
  | setCutOff v => simp [allowTreeOps] at hop
  | branch branches node ws =>
    simp only [step]
    split
    · rename_i e he
      intro h
      cases h
      exact branch_ne_fuel _ _ _ _ he
    · simp
  | getCandidate =>
    simp only [step]
    split
    · rename_i e he
      intro h
      cases h
      exact getCandidateLoop_ne_fuel (tm.active_nodes_.length + 1) { tm with aNode_ := none }
        (Nat.lt_succ_self _) hwf he
    · simp
  | removeActiveNode node =>
    simp only [step, removeActiveNode, pop]
    split <;> simp
  | pruneNode node =>
    simp only [step, pruneNode]
    exact removeNode_ne_fuel tm node hwf.parentFirst

/-- Claim C5, amended (tree invariant). Start from the constructor over a memory of
fresh nodes and `insertRoot(root)`, and make any sequence of calls of `branch`,
`getCandidate`, `removeActiveNode` and `pruneNode` in which `branch` and `pruneNode` are
only applied to a node that is not held in the container of active nodes, `branch` only
to a node linked to the root and `pruneNode` only to a node without children. Then every
node still linked in the tree other than the root has a parent and occurs exactly once
in the child list of that parent, and every node held in the container has a chain of
parents that ends at the root. In these states the test `Store.linked` used for
`branch` holds exactly of the nodes whose chain of parents ends at the root, and no call
of the four functions stops because a bound of the embedding is reached. -/
theorem ParTreeManager.tree_invariant (opts : Options) (store : Store Mod) (root : NodePtr)
    (ops : List (Op Mod)) (tm1 tm : ParTreeManager Mod)
    (hfresh : ∀ nd, nd ∈ store → nd.parent_ = none ∧ nd.children_ = [])
    (hstart : start opts store root = Except.ok tm1)
    (hrun : runOps (allowTreeOpsOffContainer root) tm1 ops = some tm) :
    TreeInvariant root tm ∧
    (∀ n, Store.linked tm.store root n = true ↔ LinkedToRoot tm.store root n) ∧
    ∀ op, allowTreeOps tm op = true → step tm op ≠ Except.error Fault.fuel :=
  have hwf := runOps_wf ops hrun (start_wf hstart hfresh)
  ⟨hwf.treeInvariant, hwf.linked_iff, step_ne_fuel tm hwf⟩

/-- Witness of C5: a depth-first search that processes the root, dives twice and prunes
the two deepest nodes. -/
theorem ParTreeManager.tree_invariant_witness : TreeInvariant 0 sampleTreeFinal :=
  (tree_invariant dfsOptions [Node.new] 0 sampleTreeOps sampleTreeStart sampleTreeFinal
    (by intro nd hnd; rw [List.mem_singleton.mp hnd]; exact ⟨rfl, rfl⟩) rfl rfl).1

/-- Claim C5 fails as stated: after `insertRoot` on a fresh manager, `branch` at the
root with two branches (depth first: the second child is pushed) and `pruneNode` of the
pushed child, which has no children, the tree invariant does not hold: the child is
still held in the container and has no parent. -/
theorem ParTreeManager.tree_invariant_fails :
    ParTreeManager.start dfsOptions [Node.new] 0 = Except.ok sampleTreeStart ∧
    match pruneInContainer with
    | some tm => ¬ TreeInvariant 0 tm
    | none => False := by
  refine ⟨rfl, ?_⟩
  have h : pruneInContainer.map
      (fun tm => (decide (2 ∈ tm.active_nodes_), Store.parentOf tm.store 2))
      = some (true, none) := by decide
  cases hrun : pruneInContainer with
  | none => rw [hrun] at h; cases h
  | some tm =>
    rw [hrun] at h
    simp only [Option.map_some', Option.some.injEq, Prod.mk.injEq, decide_eq_true_eq] at h
    intro hinv
    cases hinv.active 2 h.1 with
    | step _ p hp _ => rw [h.2] at hp; cases hp

/-- Witness of C7: `setUb(5)`, `setCutOff(3)`, `setUb(20)`, `updateLb()`. -/
theorem ParTreeManager.cutOff_le_ub_witness :
    Dbl.le sampleBoundsFinal.cutOff_ sampleBoundsFinal.bestUpperBound_ = true :=
  cutOff_le_ub dfsOptions [] sampleBoundsOps sampleBoundsStart sampleBoundsFinal
    (by simp [dfsOptions, Dbl.INFINITY]) rfl
    (by simp [sampleBoundsFinal, sampleBoundsStart, sampleBoundsOps, new, dfsOptions, runOps,
      allowCutOffBelowUb, step, setUb, setCutOff, updateLb, Dbl.lt, Dbl.le, Dbl.INFINITY]
        norm_num)

/-- Claim C7 fails as stated: after the constructor, `setUb(5)` and `setCutOff(100)` the
cutoff 100 exceeds the incumbent 5. -/
theorem ParTreeManager.cutOff_le_ub_fails :
    cutOffAboveUb.map (fun tm => (tm.cutOff_, tm.bestUpperBound_,
      Dbl.le tm.cutOff_ tm.bestUpperBound_)) = some (Dbl.fin 100, Dbl.fin 5, false) := by
  simp [cutOffAboveUb, new, dfsOptions, runOps, allowNumbers, step, setUb, setCutOff, Dbl.lt,
    Dbl.le, Dbl.INFINITY]
  norm_num

/-- Witness of C4: in the tree `0 -> 1`, `1 -> 2`, `1 -> 3`, `3 -> 4`, pruning the leaf 4
detaches 4 and its parent 3, and stops at node 1, which keeps its child 2. In the memory
that this leaves, with the detached nodes 3 and 4 still in it, pruning the leaf 2
detaches 2 and its parent 1 and stops at the root. -/
theorem ParTreeManager.pruneNode_reclaims_witness :
    pruneNode sampleTreeManager 4 = Except.ok
      { sampleTreeManager with
        store := [treeNode 0 none [1], treeNode 1 (some 0) [2], treeNode 2 (some 1) [],
                  treeNode 3 none [], treeNode 4 none []] } ∧
    pruneNode afterReclamation 2 = Except.ok
      { afterReclamation with
        store := [treeNode 0 none [], treeNode 1 none [], treeNode 2 none [],
                  treeNode 3 none [], treeNode 4 none []] } :=
  ⟨(pruneNode_reclaims sampleTreeManager 0 4 (by decide) (by decide) (by decide)
      (by decide)).1,
   (pruneNode_reclaims afterReclamation 0 2 (by decide) (by decide) (by decide)
      (by decide)).1⟩

end Tree

/-! ## Theorems: statistics, the incumbent and translated replay -/

section Members

variable {Mod Prob : Type}

open ParTreeManager

theorem Node.storeAt_spec (vec : List Dbl) (i : Nat) (v : Dbl) (hi : i ≤ vec.length) :
    (Node.storeAt vec i v)[i]? = some v ∧
    ∀ j, j ≠ i → (Node.storeAt vec i v)[j]? = vec[j]? := by
  unfold Node.storeAt
  by_cases h : i = vec.length
  · subst h
    simp only [if_true]
    refine ⟨by simp, fun j hj => ?_⟩
    by_cases hlt : j < vec.length
    · rw [List.getElem?_append_left hlt]
    · have hgt : vec.length < j := by omega
      rw [List.getElem?_eq_none (by simp; omega), List.getElem?_eq_none (by omega)]
  · have hlt : i < vec.length := by omega
    simp only [h, if_false]
    refine ⟨by simp [hlt], fun j hj => ?_⟩
    rw [List.getElem?_set_ne (fun e => hj e.symm)]

/-- Claim C16 fails as stated: on a node whose storage is empty, each of the five
updaters called with index 2 and value 7 appends the value, so that it is stored at
index 0 and no entry is stored at index 2. -/
theorem Node.update_beyond_end :
    (Node.updaters.map (fun update =>
        Node.statistics (update (Node.new : Node Int) 2 (Dbl.fin 7)))
      = [[[Dbl.fin 7], [], [], [], []], [[], [Dbl.fin 7], [], [], []],
         [[], [], [Dbl.fin 7], [], []], [[], [], [], [Dbl.fin 7], []],
         [[], [], [], [], [Dbl.fin 7]]]) ∧
    (Node.updaters.map (fun update =>
        (Node.statistics (update (Node.new : Node Int) 2 (Dbl.fin 7))).map
          (fun vec => vec[2]?))
      = List.replicate 5 (List.replicate 5 none)) := by
  constructor
  · rfl
  · rfl

/-- Claim C16 (per-index statistics update), amended to an index that is not beyond the
end of the storage. For each of `updateLastStrBranched`, `updatePCDown`, `updatePCUp`,
`updateTimesDown` and `updateTimesUp`, every node, every value `v` and every index `i`
that is at most the current size of the vector the function updates: afterwards that
vector is the per-index update of the old one (`Node.storeAt`), so the entry at `i` is
`v`, the storage having grown by one entry when `i` was its size, and the entry at
every other index is what it was; the four other vectors are unchanged. -/
theorem Node.update_statistics (n : Node Mod) (i : Nat) (v : Dbl) :
    (i ≤ n.lastStrBranched_.length →
      Node.statistics (Node.updateLastStrBranched n i v) =
        [Node.storeAt n.lastStrBranched_ i v, n.pseudoDown_, n.pseudoUp_, n.timesDown_,
          n.timesUp_] ∧
      (Node.updateLastStrBranched n i v).lastStrBranched_[i]? = some v ∧
      ∀ j, j ≠ i →
        (Node.updateLastStrBranched n i v).lastStrBranched_[j]? = n.lastStrBranched_[j]?) ∧
    (i ≤ n.pseudoDown_.length →
      Node.statistics (Node.updatePCDown n i v) =
        [n.lastStrBranched_, Node.storeAt n.pseudoDown_ i v, n.pseudoUp_, n.timesDown_,
          n.timesUp_] ∧
      (Node.updatePCDown n i v).pseudoDown_[i]? = some v ∧
      ∀ j, j ≠ i → (Node.updatePCDown n i v).pseudoDown_[j]? = n.pseudoDown_[j]?) ∧
    (i ≤ n.pseudoUp_.length →
      Node.statistics (Node.updatePCUp n i v) =
        [n.lastStrBranched_, n.pseudoDown_, Node.storeAt n.pseudoUp_ i v, n.timesDown_,
          n.timesUp_] ∧
      (Node.updatePCUp n i v).pseudoUp_[i]? = some v ∧
      ∀ j, j ≠ i → (Node.updatePCUp n i v).pseudoUp_[j]? = n.pseudoUp_[j]?) ∧
    (i ≤ n.timesDown_.length →
      Node.statistics (Node.updateTimesDown n i v) =
        [n.lastStrBranched_, n.pseudoDown_, n.pseudoUp_, Node.storeAt n.timesDown_ i v,
          n.timesUp_] ∧
      (Node.updateTimesDown n i v).timesDown_[i]? = some v ∧
      ∀ j, j ≠ i → (Node.updateTimesDown n i v).timesDown_[j]? = n.timesDown_[j]?) ∧
    (i ≤ n.timesUp_.length →
      Node.statistics (Node.updateTimesUp n i v) =
        [n.lastStrBranched_, n.pseudoDown_, n.pseudoUp_, n.timesDown_,
          Node.storeAt n.timesUp_ i v] ∧
      (Node.updateTimesUp n i v).timesUp_[i]? = some v ∧
      ∀ j, j ≠ i → (Node.updateTimesUp n i v).timesUp_[j]? = n.timesUp_[j]?) := by
  refine ⟨fun hi => ?_, fun hi => ?_, fun hi => ?_, fun hi => ?_, fun hi => ?_⟩
  · have hs := Node.storeAt_spec n.lastStrBranched_ i v hi
    have he : (Node.updateLastStrBranched n i v).lastStrBranched_ =
        Node.storeAt n.lastStrBranched_ i v := by
      unfold Node.updateLastStrBranched Node.storeAt
      by_cases h : i = n.lastStrBranched_.length
      · simp [h]
      · have hlt : ¬ i ≥ n.lastStrBranched_.length := by omega
        simp [h, hlt]
    refine ⟨?_, by rw [he]; exact hs.1, fun j hj => by rw [he]; exact hs.2 j hj⟩
    rw [← he]; unfold Node.updateLastStrBranched Node.statistics; split <;> rfl
  · have hs := Node.storeAt_spec n.pseudoDown_ i v hi
    have he : (Node.updatePCDown n i v).pseudoDown_ = Node.storeAt n.pseudoDown_ i v := by
      unfold Node.updatePCDown Node.storeAt
      by_cases h : i = n.pseudoDown_.length
      · simp [h]
      · have hlt : ¬ i ≥ n.pseudoDown_.length := by omega
        simp [h, hlt]
    refine ⟨?_, by rw [he]; exact hs.1, fun j hj => by rw [he]; exact hs.2 j hj⟩
    rw [← he]; unfold Node.updatePCDown Node.statistics; split <;> rfl
  · have hs := Node.storeAt_spec n.pseudoUp_ i v hi
    have he : (Node.updatePCUp n i v).pseudoUp_ = Node.storeAt n.pseudoUp_ i v := by
      unfold Node.updatePCUp Node.storeAt
      by_cases h : i = n.pseudoUp_.length
      · simp [h]
      · have hlt : ¬ i ≥ n.pseudoUp_.length := by omega
        simp [h, hlt]
    refine ⟨?_, by rw [he]; exact hs.1, fun j hj => by rw [he]; exact hs.2 j hj⟩
    rw [← he]; unfold Node.updatePCUp Node.statistics; split <;> rfl
  · have hs := Node.storeAt_spec n.timesDown_ i v hi
    have he : (Node.updateTimesDown n i v).timesDown_ = Node.storeAt n.timesDown_ i v := by
      unfold Node.updateTimesDown Node.storeAt
      by_cases h : i = n.timesDown_.length
      · simp [h]
      · have hlt : ¬ i ≥ n.timesDown_.length := by omega
        simp [h, hlt]
    refine ⟨?_, by rw [he]; exact hs.1, fun j hj => by rw [he]; exact hs.2 j hj⟩
    rw [← he]; unfold Node.updateTimesDown Node.statistics; split <;> rfl
  · have hs := Node.storeAt_spec n.timesUp_ i v hi
    have he : (Node.updateTimesUp n i v).timesUp_ = Node.storeAt n.timesUp_ i v := by
      unfold Node.updateTimesUp Node.storeAt
      by_cases h : i = n.timesUp_.length
      · simp [h]
      · have hlt : ¬ i ≥ n.timesUp_.length := by omega
        simp [h, hlt]
    refine ⟨?_, by rw [he]; exact hs.1, fun j hj => by rw [he]; exact hs.2 j hj⟩
    rw [← he]; unfold Node.updateTimesUp Node.statistics; split <;> rfl

/-- Witness of C16: on the pseudo-costs `[1, 2]`, an update at index 2 (the size)
appends, and an update at index 0 overwrites. -/
theorem Node.update_statistics_witness :
    (Node.updatePCDown { (Node.new : Node Int) with pseudoDown_ := [Dbl.fin 1, Dbl.fin 2] } 2
        (Dbl.fin 7)).pseudoDown_[2]? = some (Dbl.fin 7) ∧
    (Node.updatePCUp { (Node.new : Node Int) with pseudoUp_ := [Dbl.fin 1, Dbl.fin 2] } 0
        (Dbl.fin 7)).pseudoUp_[0]? = some (Dbl.fin 7) :=
  ⟨((Node.update_statistics
      { (Node.new : Node Int) with pseudoDown_ := [Dbl.fin 1, Dbl.fin 2] } 2
      (Dbl.fin 7)).2.1 (by decide)).2.1,
   ((Node.update_statistics
      { (Node.new : Node Int) with pseudoUp_ := [Dbl.fin 1, Dbl.fin 2] } 0
      (Dbl.fin 7)).2.2.1 (by decide)).2.1⟩

/-- Claim C18 fails as stated: with the incumbent 5, `setUb(20)` makes the incumbent 20,
which is not at most 5. -/
theorem ParTreeManager.setUb_accepts_worse :
    (setUb (boundsManager (Dbl.fin 5) (Dbl.fin 5) []) (Dbl.fin 20)).bestUpperBound_
      = Dbl.fin 20 ∧
    Dbl.le (setUb (boundsManager (Dbl.fin 5) (Dbl.fin 5) []) (Dbl.fin 20)).bestUpperBound_
      (boundsManager (Dbl.fin 5) (Dbl.fin 5) []).bestUpperBound_ = false := by
  rw [setUb_bestUpperBound]
  simp [boundsManager, Dbl.le]
  norm_num

/-- Claim C18 (the incumbent under `setUb`), amended: `setUb` accepts every value. For
every manager state with best upper bound `u` and every value `v`, after `setUb(v)` the
best upper bound is `v`; it is therefore at most `u` exactly when `v <= u`, and a value
larger than the incumbent is accepted. Only the cutoff is kept from moving up: for a
cutoff `c` and a value `v` that are numbers, the cutoff after the call is at most `c`. -/
theorem ParTreeManager.setUb_moves_down_iff (tm : ParTreeManager Mod) (v : Dbl) :
    (setUb tm v).bestUpperBound_ = v ∧
    Dbl.le (setUb tm v).bestUpperBound_ tm.bestUpperBound_ = Dbl.le v tm.bestUpperBound_ ∧
    (Dbl.gt v tm.bestUpperBound_ = true →
      Dbl.gt (setUb tm v).bestUpperBound_ tm.bestUpperBound_ = true) ∧
    ∀ c x : WithBot (WithTop ℚ), tm.cutOff_ = Dbl.ofExt c → v = Dbl.ofExt x →
      Dbl.le (setUb tm v).cutOff_ tm.cutOff_ = true := by
  refine ⟨setUb_bestUpperBound tm v, by rw [setUb_bestUpperBound], fun h => by
    rw [setUb_bestUpperBound]; exact h, fun c x hc hx => ?_⟩
  subst hx
  rw [(setUb_ofExt tm c x hc).1, hc, Dbl.le_ofExt]
  simp

/-- Witness of C18: with incumbent and cutoff 5, `setUb(20)` (a worse value) is
accepted, and the cutoff stays at 5. -/
theorem ParTreeManager.setUb_moves_down_iff_witness :
    Dbl.gt (setUb (boundsManager (Dbl.fin 5) (Dbl.fin 5) []) (Dbl.fin 20)).bestUpperBound_
      (boundsManager (Dbl.fin 5) (Dbl.fin 5) []).bestUpperBound_ = true ∧
    Dbl.le (setUb (boundsManager (Dbl.fin 5) (Dbl.fin 5) []) (Dbl.fin 20)).cutOff_
      (boundsManager (Dbl.fin 5) (Dbl.fin 5) []).cutOff_ = true :=
  ⟨(setUb_moves_down_iff (boundsManager (Dbl.fin 5) (Dbl.fin 5) []) (Dbl.fin 20)).2.2.1
      (by simp [boundsManager, Dbl.gt, Dbl.lt]; norm_num),
   (setUb_moves_down_iff (boundsManager (Dbl.fin 5) (Dbl.fin 5) []) (Dbl.fin 20)).2.2.2
      (((5 : ℚ) : WithTop ℚ) : WithBot (WithTop ℚ)) (((20 : ℚ) : WithTop ℚ) : WithBot (WithTop ℚ))
      rfl rfl⟩

theorem Node.forLoop_translationRecorder_apply (mods : List (Translation Mod))
    (log : List (Call (Translation Mod))) :
    Node.forLoop (Node.applyTrans (translationRecorder Mod)) mods log =
      log ++ mods.map (fun mod => Call.applied (Translation.toRel (Translation.fromRel mod))) := by
  induction mods generalizing log with
  | nil => simp [Node.forLoop]
  | cons mod rest ih =>
    rw [Node.forLoop, ih]
    simp [Node.applyTrans, translationRecorder]

theorem Node.forLoop_translationRecorder_undo (mods : List (Translation Mod))
    (log : List (Call (Translation Mod))) :
    Node.forLoop (Node.undoTrans (translationRecorder Mod)) mods log =
      log ++ mods.map (fun mod => Call.undone (Translation.toRel (Translation.fromRel mod))) := by
  induction mods generalizing log with
  | nil => simp [Node.forLoop]
  | cons mod rest ih =>
    rw [Node.forLoop, ih]
    simp [Node.undoTrans, translationRecorder]

theorem Node.forLoop_congr (f g : Mod → Prob → Prob) (h : ∀ mod p, f mod p = g mod p)
    (mods : List Mod) (p : Prob) : Node.forLoop f mods p = Node.forLoop g mods p := by
  induction mods generalizing p with
  | nil => rfl
  | cons mod rest ih => rw [Node.forLoop, Node.forLoop, h, ih]

/-- Claim C19 (translated replay mirrors plain replay). For every modification interface
`ops`, node `n` and relaxation `rel`: `applyRModsTrans(rel)` is `applyRMods(rel)` and
`undoRModsTrans(rel)` is `undoRMods(rel)` with every modification replaced by its
translation `toRel(fromRel(mod))` onto the relaxation (`ModOps.translated`). On a
relaxation that records its calls, the translated apply logs the translations of the
branch relaxation-mods in forward order followed by those of the own relaxation-mods
in forward order, where the plain apply logs the same modifications untranslated; the
translated undo logs the translations of the own mods reversed followed by those of the
branch mods reversed, where the plain undo logs them untranslated. Consequently, when on
every state applying (undoing) the translation of a modification equals applying
(undoing) the modification, the translated and the plain variants leave the relaxation
in the same state. -/
theorem Node.translated_replay (ops : ModOps Mod Prob) (n : Node Mod) (rel : Prob)
    (m : Node (Translation Mod)) (log : List (Call (Translation Mod))) :
    Node.applyRModsTrans ops n rel = Node.applyRMods ops.translated n rel ∧
    Node.undoRModsTrans ops n rel = Node.undoRMods ops.translated n rel ∧
    Node.applyRModsTrans (translationRecorder Mod) m log =
      log ++ (m.branchRMods ++ m.rMods_).map
        (fun mod => Call.applied (Translation.toRel (Translation.fromRel mod))) ∧
    Node.applyRMods (recorder (Translation Mod)) m log =
      log ++ (m.branchRMods ++ m.rMods_).map Call.applied ∧
    Node.undoRModsTrans (translationRecorder Mod) m log =
      log ++ (m.rMods_.reverse ++ m.branchRMods.reverse).map
        (fun mod => Call.undone (Translation.toRel (Translation.fromRel mod))) ∧
    Node.undoRMods (recorder (Translation Mod)) m log =
      log ++ (m.rMods_.reverse ++ m.branchRMods.reverse).map Call.undone ∧
    ((∀ mod s, ops.applyToProblem (ops.toRel (ops.fromRel mod s) s) s
        = ops.applyToProblem mod s) →
      Node.applyRModsTrans ops n rel = Node.applyRMods ops n rel) ∧
    ((∀ mod s, ops.undoToProblem (ops.toRel (ops.fromRel mod s) s) s
        = ops.undoToProblem mod s) →
      Node.undoRModsTrans ops n rel = Node.undoRMods ops n rel) := by
  refine ⟨?_, ?_, ?_, ?_, ?_, ?_, ?_, ?_⟩
  · unfold Node.applyRModsTrans Node.applyRMods Node.applyTransLoop Node.applyLoop
    rfl
  · unfold Node.undoRModsTrans Node.undoRMods Node.undoTransLoop Node.undoLoop
    rfl
  · unfold Node.applyRModsTrans Node.applyTransLoop Node.branchRMods
    cases m.branch_ <;> simp [Node.forLoop_translationRecorder_apply]
  · exact Node.applyRMods_recorder m log
  · unfold Node.undoRModsTrans Node.undoTransLoop Node.branchRMods
    cases m.branch_ <;> simp [Node.forLoop_translationRecorder_undo]
  · unfold Node.undoRMods Node.undoLoop Node.branchRMods
    cases m.branch_ <;> simp [Node.forLoop_recorder_undo]
  · intro h
    unfold Node.applyRModsTrans Node.applyRMods Node.applyTransLoop Node.applyLoop
    have hc := Node.forLoop_congr (Node.applyTrans ops) ops.applyToProblem h
    cases n.branch_ <;> simp [hc]
  · intro h
    unfold Node.undoRModsTrans Node.undoRMods Node.undoTransLoop Node.undoLoop
    have hc := Node.forLoop_congr (Node.undoTrans ops) ops.undoToProblem h
    cases n.branch_ <;> simp [hc]

/-- Witness of C19: over an integer state on which a modification adds its value, the
translated and the plain replay of the relaxation-mods `5, 7, 11` of the sample node
both lead from 100 to 123, and both undo from 123 back to 100. -/
theorem Node.translated_replay_witness :
    Node.applyRModsTrans shiftOps sampleNode 100 = Node.applyRMods shiftOps sampleNode 100 ∧
    Node.undoRModsTrans shiftOps sampleNode 123 = Node.undoRMods shiftOps sampleNode 123 :=
  ⟨(Node.translated_replay shiftOps sampleNode 100 Node.new []).2.2.2.2.2.2.1
      (fun _ _ => rfl),
   (Node.translated_replay shiftOps sampleNode 123 Node.new []).2.2.2.2.2.2.2
      (fun _ _ => rfl)⟩

end Members

/-! ## Theorems: insertion -/

section Insertion

variable {Mod : Type}

open ParTreeManager

theorem ParTreeManager.push_eq (tm : ParTreeManager Mod) (node : NodePtr) (nd : Node Mod)
    (hnd : tm.store[node]? = some nd) :
    push tm node = Except.ok { tm with
      active_nodes_ := (if tm.searchType_ = TreeSearchOrder.DepthFirst then
          node :: tm.active_nodes_
        else heapInsert tm.store node nd tm.active_nodes_) } := by
  unfold push
  cases hs : tm.searchType_ <;> simp [Store.deref, hnd]

theorem ParTreeManager.insertCandidate_eq (tm : ParTreeManager Mod) (node p : NodePtr)
    (pop_now : Bool) (nd pn : Node Mod) (hsize : 0 < tm.size_)
    (hnd : tm.store[node]? = some nd) (hp : nd.parent_ = some p)
    (hpn : tm.store[p]? = some pn) :
    insertCandidate_ tm node pop_now =
      if pop_now = true then
        Except.ok { tm with
          store := tm.store.set node { nd with
            id_ := tm.size_, depth_ := uintSucc pn.depth_,
            tbScore_ := newTbScore tm.tbRule_ pop_now pn.tbScore_ tm.size_ },
          size_ := uintSucc tm.size_ }
      else
        push { tm with
          store := tm.store.set node { nd with
            id_ := tm.size_, depth_ := uintSucc pn.depth_,
            tbScore_ := newTbScore tm.tbRule_ pop_now pn.tbScore_ tm.size_ },
          size_ := uintSucc tm.size_ } node := by
  have hlt : node < tm.store.length := Store.lt_length_of_get hnd
  unfold insertCandidate_
  by_cases hpe : p = node
  · subst hpe
    have hpn2 : pn = nd := by rw [hnd] at hpn; exact (Option.some.inj hpn).symm
    subst hpn2
    cases pop_now <;>
      simp [hsize, Store.update, Store.deref, hnd, hp, hlt, List.getElem?_set_self]
  · have hne : ¬ node = p := fun e => hpe e.symm
    cases pop_now <;>
      simp [hsize, Store.update, Store.deref, hnd, hp, hpn, hlt, List.getElem?_set_self,
        List.getElem?_set_ne, hne, hpe]

theorem ParTreeManager.insertRoot_eq (tm : ParTreeManager Mod) (node : NodePtr)
    (nd : Node Mod) (hnd : tm.store[node]? = some nd) :
    insertRoot tm node =
      if tm.size_ ≠ 0 then Except.error Fault.sizeNotZero
      else if tm.active_nodes_ ≠ [] then Except.error Fault.activeNotEmpty
      else Except.ok { tm with
        store := tm.store.set node { nd with id_ := 0, depth_ := 0 },
        active_nodes_ := [node], size_ := 1 } := by
  have hlt : node < tm.store.length := Store.lt_length_of_get hnd
  unfold insertRoot
  by_cases hs : tm.size_ = 0
  · by_cases ha : tm.active_nodes_ = []
    · cases hst : tm.searchType_ <;>
        simp [hs, ha, hst, push, Store.update, Store.deref, hnd, hlt, heapInsert, uintSucc,
          uintModulus, List.getElem?_set_self]
    · have hl : ¬ tm.active_nodes_.length = 0 := fun e => ha (List.length_eq_zero.mp e)
      simp [hs, ha, hl]
  · simp [hs]

theorem ParTreeManager.branchStep_size_zero (tm : ParTreeManager Mod) (node : NodePtr)
    (nd : Node Mod) (hnd : tm.store[node]? = some nd) (hs : tm.size_ = 0)
    (ws : Option WarmStartPtr) (f : Bool) (c : Option NodePtr) (b : Branch Mod) :
    branchStep node ws (tm, f, c) b = Except.error Fault.sizeNotPositive := by
  have hlt : node < tm.store.length := Store.lt_length_of_get hnd
  have hne : ¬ node = tm.store.length := Nat.ne_of_lt hlt
  have hne2 : ¬ tm.store.length = node := fun e => hne e.symm
  unfold branchStep
  cases f <;>
    simp [Store.deref, Store.update, hnd, hlt, hne, hne2, List.getElem?_append_left,
      List.getElem?_set_ne, List.getElem?_set_self, insertCandidate_, hs]

/-- Claim C15 (insertion preconditions). For a manager state and a pointer `node` to a
node in memory: `insertRoot(node)` succeeds exactly when `size_ == 0` and the container
of active nodes is empty; it then gives the node the identifier 0 and the depth 0, makes
it the only content of the container and makes `size_` 1, changing nothing else. With
`size_ != 0` it fails on the assertion `size_==0`, and with a non-empty container on the
assertion on the container; hence a second `insertRoot` right after a successful one
fails. With `size_ == 0`, `insertCandidate_` fails on the assertion `size_>0` for every
node, and so does `branch` with at least one branch; a failed call yields no new state. -/
theorem ParTreeManager.insertion_preconditions (tm : ParTreeManager Mod) (node : NodePtr)
    (nd : Node Mod) (hnd : tm.store[node]? = some nd) :
    ((∃ tm', insertRoot tm node = Except.ok tm') ↔ tm.size_ = 0 ∧ tm.active_nodes_ = []) ∧
    (tm.size_ = 0 → tm.active_nodes_ = [] →
      insertRoot tm node = Except.ok { tm with
        store := tm.store.set node { nd with id_ := 0, depth_ := 0 },
        active_nodes_ := [node], size_ := 1 }) ∧
    (tm.size_ ≠ 0 → insertRoot tm node = Except.error Fault.sizeNotZero) ∧
    (tm.size_ = 0 → tm.active_nodes_ ≠ [] →
      insertRoot tm node = Except.error Fault.activeNotEmpty) ∧
    (∀ tm' again, insertRoot tm node = Except.ok tm' →
      insertRoot tm' again = Except.error Fault.sizeNotZero) ∧
    (tm.size_ = 0 → ∀ x pop_now,
      insertCandidate_ tm x pop_now = Except.error Fault.sizeNotPositive) ∧
    (tm.size_ = 0 → ∀ b bs ws,
      branch tm (b :: bs) node ws = Except.error Fault.sizeNotPositive) := by
  have heq := insertRoot_eq tm node nd hnd
  refine ⟨?_, ?_, ?_, ?_, ?_, ?_, ?_⟩
  · constructor
    · rintro ⟨tm', h⟩
      rw [heq] at h
      by_cases hs : tm.size_ = 0
      · by_cases ha : tm.active_nodes_ = []
        · exact ⟨hs, ha⟩
        · simp [hs, ha] at h
      · simp [hs] at h
    · rintro ⟨hs, ha⟩
      rw [heq]
      simp [hs, ha]
  · intro hs ha
    rw [heq]
    simp [hs, ha]
  · intro hs
    rw [heq]
    simp [hs]
  · intro hs ha
    rw [heq]
    simp [hs, ha]
  · intro tm' again h
    rw [heq] at h
    by_cases hs : tm.size_ = 0
    · by_cases ha : tm.active_nodes_ = []
      · simp only [hs, ha, ne_eq, not_true_eq_false, if_false] at h
        cases h
        simp [insertRoot]
      · simp [hs, ha] at h
    · simp [hs] at h
  · intro hs x pop_now
    simp [insertCandidate_, hs]
  · intro hs b bs ws
    unfold branch
    simp only [branchLoop]
    rw [branchStep_size_zero tm node nd hnd hs]

/-- Witness of C15: on a new manager over one fresh node, `insertRoot(0)` succeeds and
leaves the node in the container with `size_` 1, a second `insertRoot(0)` fails, and
before the first one `branch` at the node fails on the assertion `size_>0`. -/
theorem ParTreeManager.insertion_preconditions_witness :
    insertRoot (boundsManager Dbl.INFINITY Dbl.INFINITY [nodeWithLb Dbl.ninf]) 0 =
      Except.ok { boundsManager Dbl.INFINITY Dbl.INFINITY [nodeWithLb Dbl.ninf] with
        store := [nodeWithLb Dbl.ninf], active_nodes_ := [0], size_ := 1 } ∧
    branch (boundsManager Dbl.INFINITY Dbl.INFINITY [nodeWithLb Dbl.ninf])
      [emptyBranch] 0 none = Except.error Fault.sizeNotPositive :=
  ⟨(insertion_preconditions (boundsManager Dbl.INFINITY Dbl.INFINITY [nodeWithLb Dbl.ninf])
      0 (nodeWithLb Dbl.ninf) rfl).2.1 rfl rfl,
   (insertion_preconditions (boundsManager Dbl.INFINITY Dbl.INFINITY [nodeWithLb Dbl.ninf])
      0 (nodeWithLb Dbl.ninf) rfl).2.2.2.2.2.2 rfl emptyBranch [] none⟩

end Insertion

/-! ## Theorems: reclamation without the consistency failure -/

section Consistency

variable {Mod : Type}

open ParTreeManager

theorem ChainToRoot.unique {s : Store Mod} {root x : NodePtr} {a b : Nat}
    (ha : ChainToRoot s root x a) (hb : ChainToRoot s root x b) : a = b := by
  induction ha generalizing b with
  | root nd hnd hid =>
    cases hb with
    | root _ _ _ => rfl
    | step _ p d nd2 pn h1 h2 _ _ _ _ =>
      rw [hnd] at h1
      cases h1
      omega
  | step n p d nd pn h1 h2 h3 h4 h5 _ ih =>
    cases hb with
    | root nd2 hnd hid =>
      rw [h1] at hnd
      cases hnd
      omega
    | step _ p2 d2 nd2 pn2 k1 k2 k3 k4 k5 k6 =>
      rw [h1] at k1
      cases k1
      rw [h3] at k3
      cases k3
      rw [ih k6]

theorem ChainToRoot.kept_by_detach {s : Store Mod} {root x p y : NodePtr} {d e : Nat}
    (hx : ChainToRoot s root x (d + 1)) (hy : ChainToRoot s root y e) (he : e ≤ d) :
    ChainToRoot (Store.detachOne x p s) root y e := by
  induction hy with
  | root nd hnd hid =>
    exact ChainToRoot.root
      { nd with
        parent_ := if root = x then none else nd.parent_,
        children_ := if root = p then nd.children_.erase x else nd.children_ }
      (by rw [Store.getElem?_detachOne, hnd]; rfl) hid
  | step n q d2 nd qn h1 h2 h3 h4 h5 h6 ih =>
    have hne : n ≠ x := by
      intro e1
      subst e1
      have := ChainToRoot.unique hx (ChainToRoot.step n q d2 nd qn h1 h2 h3 h4 h5 h6)
      omega
    refine ChainToRoot.step n q d2
      { nd with
        parent_ := if n = x then none else nd.parent_,
        children_ := if n = p then nd.children_.erase x else nd.children_ }
      { qn with
        parent_ := if q = x then none else qn.parent_,
        children_ := if q = p then qn.children_.erase x else qn.children_ }
      (by rw [Store.getElem?_detachOne, h1]; rfl) h2 ?_
      (by rw [Store.getElem?_detachOne, h4]; rfl) ?_ (ih (by omega))
    · simp [hne, h3]
    · show n ∈ (if q = p then qn.children_.erase x else qn.children_)
      split
      · exact (List.mem_erase_of_ne hne).mpr h5
      · exact h5

theorem ParTreeManager.removeNodeAux_chain {root : NodePtr} (d : Nat) (s : Store Mod)
    (n : NodePtr) (h : ChainToRoot s root n d) :
    ∃ s', ∀ fuel, d < fuel → removeNodeAux fuel s n = Except.ok s' := by
  induction d generalizing s n with
  | zero =>
    cases h with
    | root nd hnd hid =>
      refine ⟨s, fun fuel hf => ?_⟩
      obtain ⟨f, rfl⟩ : ∃ f, fuel = f + 1 := ⟨fuel - 1, by omega⟩
      simp [removeNodeAux, Store.deref, hnd, hid]
  | succ d ih =>
    have h0 := h
    cases h with
    | step _ p _ nd pn h1 h2 h3 h4 h5 h6 =>
      by_cases hc : Store.childrenOf (Store.detachOne n p s) p = []
      · obtain ⟨s', hs'⟩ := ih (Store.detachOne n p s) p
          (ChainToRoot.kept_by_detach h0 h6 (Nat.le_refl d))
        refine ⟨s', fun fuel hf => ?_⟩
        obtain ⟨f, rfl⟩ : ∃ f, fuel = f + 1 := ⟨fuel - 1, by omega⟩
        rw [removeNodeAux_step f h1 h2 h3 h4 h5, if_pos hc]
        exact hs' f (by omega)
      · refine ⟨Store.detachOne n p s, fun fuel hf => ?_⟩
        obtain ⟨f, rfl⟩ : ∃ f, fuel = f + 1 := ⟨fuel - 1, by omega⟩
        rw [removeNodeAux_step f h1 h2 h3 h4 h5, if_neg hc]

theorem ChainToRoot.nodes {s : Store Mod} {root n : NodePtr} {d : Nat}
    (h : ChainToRoot s root n d) :
    ∃ l : List NodePtr, l.length = d + 1 ∧ l.Nodup ∧
      ∀ y ∈ l, y < s.length ∧ ∃ e, e ≤ d ∧ ChainToRoot s root y e := by
  induction h with
  | root nd hnd hid =>
    refine ⟨[root], rfl, List.nodup_singleton _, fun y hy => ?_⟩
    rw [List.mem_singleton] at hy
    subst hy
    exact ⟨Store.lt_length_of_get hnd, 0, Nat.le_refl 0, ChainToRoot.root nd hnd hid⟩
  | step n p d nd pn h1 h2 h3 h4 h5 h6 ih =>
    obtain ⟨l, hlen, hnd, hall⟩ := ih
    refine ⟨n :: l, by simp [hlen], List.nodup_cons.mpr ⟨fun hmem => ?_, hnd⟩, fun y hy => ?_⟩
    · obtain ⟨_, e, he, hch⟩ := hall n hmem
      have := ChainToRoot.unique hch (ChainToRoot.step n p d nd pn h1 h2 h3 h4 h5 h6)
      omega
    · rcases List.mem_cons.mp hy with rfl | hy
      · exact ⟨Store.lt_length_of_get h1, d + 1, Nat.le_refl _,
          ChainToRoot.step y p d nd pn h1 h2 h3 h4 h5 h6⟩
      · obtain ⟨hlt, e, he, hch⟩ := hall y hy
        exact ⟨hlt, e, Nat.le_succ_of_le he, hch⟩

theorem ChainToRoot.depth_lt_length {s : Store Mod} {root n : NodePtr} {d : Nat}
    (h : ChainToRoot s root n d) : d < s.length := by
  obtain ⟨l, hlen, hnd, hall⟩ := ChainToRoot.nodes h
  have hsub : l.toFinset ⊆ Finset.range s.length := by
    intro y hy
    rw [List.mem_toFinset] at hy
    exact Finset.mem_range.mpr (hall y hy).1
  have hcard := Finset.card_le_card hsub
  rw [List.toFinset_card_of_nodup hnd, Finset.card_range, hlen] at hcard
  omega

theorem ChainToRoot.of_depth {s : Store Mod} {root n : NodePtr} {d : Nat}
    (tree : NodePtr → Prop)
    (hroot : ∃ nd, s[root]? = some nd ∧ nd.id_ = 0)
    (htree : ∀ y nd, tree y → s[y]? = some nd → y ≠ root →
      0 < nd.id_ ∧
        ∃ p pn, nd.parent_ = some p ∧ tree p ∧ s[p]? = some pn ∧ y ∈ pn.children_)
    (hn : tree n) (h : DepthIs s root n d) : ChainToRoot s root n d := by
  induction h with
  | root =>
    obtain ⟨nd, h1, h2⟩ := hroot
    exact ChainToRoot.root nd h1 h2
  | step n p d hne hpar _ ih =>
    unfold Store.parentOf at hpar
    cases hx : s[n]? with
    | none => rw [hx] at hpar; cases hpar
    | some nd =>
      rw [hx] at hpar
      obtain ⟨hid, p2, pn, hp2, htp, hpn, hmem⟩ := htree n nd hn hx hne
      simp only [] at hpar
      rw [hpar] at hp2
      cases hp2
      exact ChainToRoot.step n p d nd pn hx hid hpar hpn hmem (ih htp)

/-- Claim C20 (reclamation and the consistency failure). Take a tree below `root`: a set
`tree` of nodes of the memory in which the root has identifier 0 and every other node
has a positive identifier and a parent that belongs to the tree and in whose child list
the node occurs. Nothing is asked of the rest of the memory, such as the nodes that
earlier reclamations have detached. For every node `n` of the tree, of depth `d` (the
chain of parent pointers from `n` reaches the root after `d` pointers), `removeNode_(n)`
returns a new state, and the recursion needs no more than `d + 1` nested calls: with
every bound above `d` on their number it returns the same store; so it does not reach
the failure "Current node is not in its parent's list of children". Conversely, in every
state, if a node with a positive identifier has a parent in whose child list it does
not occur, `removeNode_` on it stops with that failure, and yields no new state. -/
theorem ParTreeManager.removeNode_consistent (tm : ParTreeManager Mod) (root : NodePtr) :
    (∀ (tree : NodePtr → Prop) (n : NodePtr) (d : Nat),
      (∃ nd, tm.store[root]? = some nd ∧ nd.id_ = 0) →
      (∀ y nd, tree y → tm.store[y]? = some nd → y ≠ root →
        0 < nd.id_ ∧
          ∃ p pn, nd.parent_ = some p ∧ tree p ∧ tm.store[p]? = some pn ∧
            y ∈ pn.children_) →
      tree n → DepthIs tm.store root n d →
      ∃ s', (∀ fuel, d < fuel → removeNodeAux fuel tm.store n = Except.ok s') ∧
        removeNode_ tm n = Except.ok { tm with store := s' }) ∧
    (∀ x nd p pn, tm.store[x]? = some nd → 0 < nd.id_ → nd.parent_ = some p →
      tm.store[p]? = some pn → x ∉ pn.children_ →
      removeNode_ tm x = Except.error Fault.notInParentList) := by
  constructor
  · intro tree n d hroot htree hn hdepth
    have hchain := ChainToRoot.of_depth tree hroot htree hn hdepth
    obtain ⟨s', hs'⟩ := removeNodeAux_chain d tm.store n hchain
    have hlen := ChainToRoot.depth_lt_length hchain
    refine ⟨s', hs', ?_⟩
    unfold removeNode_
    rw [hs' (tm.store.length + 1) (by omega)]
  · intro x nd p pn hx hid hpar hp hmem
    simp [removeNode_, removeNodeAux, Store.deref, hx, hid, hpar, hp, hmem]

/-- Witness of C20: in the memory that `pruneNode(4)` leaves of the tree `0 -> 1`,
`1 -> 2`, `1 -> 3`, `3 -> 4`, the nodes 3 and 4 are detached and the tree is made of the
nodes 0, 1 and 2; the node 2 has depth 2 and `removeNode_(2)` returns. In a memory where
node 1 names node 0 as its parent but node 0 has no children, `removeNode_(1)` stops
with the failure. -/
theorem ParTreeManager.removeNode_consistent_witness :
    pruneNode sampleTreeManager 4 = Except.ok afterReclamation ∧
    (∃ s', (∀ fuel, 2 < fuel → removeNodeAux fuel afterReclamation.store 2 = Except.ok s') ∧
      removeNode_ afterReclamation 2 = Except.ok { afterReclamation with store := s' }) ∧
    removeNode_
        (boundsManager Dbl.INFINITY Dbl.INFINITY [treeNode 0 none [], treeNode 1 (some 0) []]) 1
      = Except.error Fault.notInParentList :=
  ⟨rfl,
   (removeNode_consistent afterReclamation 0).1 (fun y => y ≤ 2) 2 2
      ⟨treeNode 0 none [1], rfl, rfl⟩
      (by
        intro y nd hy h hne
        have hlt : y < 3 := Nat.lt_succ_of_le hy
        interval_cases y
        · exact absurd rfl hne
        · cases h
          exact ⟨by decide, 0, treeNode 0 none [1], rfl, by decide, rfl, by decide⟩
        · cases h
          exact ⟨by decide, 1, treeNode 1 (some 0) [2], rfl, by decide, rfl, by decide⟩)
      (Nat.le_refl 2)
      (DepthIs.step 2 1 1 (by decide) rfl (DepthIs.step 1 0 0 (by decide) rfl DepthIs.root)),
   (removeNode_consistent
      (boundsManager Dbl.INFINITY Dbl.INFINITY [treeNode 0 none [], treeNode 1 (some 0) []])
      0).2 1 (treeNode 1 (some 0) []) 0 (treeNode 0 none []) rfl (by decide) rfl rfl
      (by decide)⟩

end Consistency

/-! ## Theorems: branching -/

section Branching

variable {Mod : Type}

open ParTreeManager

theorem Store.set_append_last {α : Type} (l : List α) (a b : α) (n : Nat)
    (h : l.length = n) : (l ++ [a]).set n b = l ++ [b] := by
  subst h
  induction l with
  | nil => rfl
  | cons x xs ih => simp [List.set, ih]

theorem Store.set_append_lt {α : Type} (l : List α) (a b : α) (i : Nat)
    (h : i < l.length) : (l ++ [a]).set i b = l.set i b ++ [a] := by
  induction l generalizing i with
  | nil => simp at h
  | cons x xs ih =>
    cases i with
    | zero => rfl
    | succ i => simp [List.set, ih i (by simpa using h)]

theorem ParTreeManager.branchStep_unfold (tm : ParTreeManager Mod) (node : NodePtr)
    (nd : Node Mod) (hnd : tm.store[node]? = some nd)
    (ws : Option WarmStartPtr) (f : Bool) (c : Option NodePtr) (b : Branch Mod) :
    branchStep node ws (tm, f, c) b =
      match insertCandidate_ (beforeInsert tm node nd ws f b) tm.store.length f with
      | Except.error e => Except.error e
      | Except.ok tm1 => Except.ok (tm1, false, if f = true then some tm.store.length else c) := by
  have hlt : node < tm.store.length := Store.lt_length_of_get hnd
  have hne : ¬ node = tm.store.length := Nat.ne_of_lt hlt
  have hne2 : ¬ tm.store.length = node := fun e => hne e.symm
  unfold branchStep beforeInsert
  cases f
  · simp only [Store.deref, Store.update, hnd, hlt, hne, hne2, List.getElem?_append_left,
      List.getElem?_set_ne, List.getElem?_set_self, List.length_set, List.length_append,
      List.getElem?_append_right, ne_eq, not_false_eq_true, List.length_cons, List.length_nil,
      Nat.lt_add_one, Nat.le_refl, Nat.sub_self, List.getElem?_cons_zero, Bool.false_eq_true,
      if_false, Store.set_append_last _ _ _ _ rfl, Store.set_append_lt _ _ _ _ hlt,
      Store.set_append_last _ _ _ _ (List.length_set _ _ _)]
    rfl
  · simp only [Store.deref, Store.update, hnd, hlt, hne, hne2, List.getElem?_append_left,
      List.getElem?_set_ne, List.getElem?_set_self, List.length_set, List.length_append,
      List.getElem?_append_right, ne_eq, not_false_eq_true, List.length_cons, List.length_nil,
      Nat.lt_add_one, Nat.le_refl, Nat.sub_self, List.getElem?_cons_zero,
      if_true, Store.set_append_last _ _ _ _ rfl, Store.set_append_lt _ _ _ _ hlt,
      Store.set_append_last _ _ _ _ (List.length_set _ _ _)]
    rfl

theorem ParTreeManager.branchStep_eq (tm : ParTreeManager Mod) (node : NodePtr)
    (nd : Node Mod) (hnd : tm.store[node]? = some nd) (hsize : 0 < tm.size_)
    (ws : Option WarmStartPtr) (f : Bool) (c : Option NodePtr) (b : Branch Mod) :
    branchStep node ws (tm, f, c) b = Except.ok
      (afterBranchStep tm node nd ws f b, false,
        if f = true then some tm.store.length else c) := by
  have hlt : node < tm.store.length := Store.lt_length_of_get hnd
  have hlen : (tm.store.set node
      { nd with children_ := nd.children_ ++ [tm.store.length] }).length = tm.store.length :=
    List.length_set _ _ _
  have h1 : (beforeInsert tm node nd ws f b).store[tm.store.length]? =
      some { Node.newChild node nd.lb_ (some b) with
        depth_ := uintSucc nd.depth_, ws_ := if f then none else ws } := by
    unfold beforeInsert
    show (_ ++ _)[tm.store.length]? = _
    rw [List.getElem?_append_right (by rw [hlen]), hlen]
    simp
  have h3 : (beforeInsert tm node nd ws f b).store[node]? =
      some { nd with children_ := nd.children_ ++ [tm.store.length] } := by
    unfold beforeInsert
    show (_ ++ _)[node]? = _
    rw [List.getElem?_append_left (by rw [hlen]; exact hlt)]
    simp [hlt]
  rw [branchStep_unfold tm node nd hnd,
    insertCandidate_eq (beforeInsert tm node nd ws f b) tm.store.length node f _ _ hsize h1
      rfl h3]
  have hset : ∀ x : Node Mod, (beforeInsert tm node nd ws f b).store.set tm.store.length x
      = tm.store.set node { nd with children_ := nd.children_ ++ [tm.store.length] } ++ [x] :=
    fun x => Store.set_append_last _ _ _ _ hlen
  rw [hset]
  cases f
  · rw [push_eq _ tm.store.length _ (by
      show (_ ++ _)[tm.store.length]? = _
      rw [List.getElem?_append_right (by rw [hlen]), hlen, Nat.sub_self]
      rfl)]
    rfl
  · rfl

theorem ParTreeManager.branchStep_inv {tm : ParTreeManager Mod} {node : NodePtr}
    {ws : Option WarmStartPtr} {f : Bool} {c : Option NodePtr} {b : Branch Mod}
    {st' : ParTreeManager Mod × Bool × Option NodePtr}
    (h : branchStep node ws (tm, f, c) b = Except.ok st') :
    ∃ nd, tm.store[node]? = some nd ∧ 0 < tm.size_ ∧
      st' = (afterBranchStep tm node nd ws f b, false,
        if f = true then some tm.store.length else c) := by
  cases hnd : tm.store[node]? with
  | none => simp [branchStep, Store.deref, hnd] at h
  | some nd =>
    by_cases hs : tm.size_ = 0
    · rw [branchStep_size_zero tm node nd hnd hs] at h
      cases h
    · rw [branchStep_eq tm node nd hnd (Nat.pos_of_ne_zero hs)] at h
      cases h
      exact ⟨nd, rfl, Nat.pos_of_ne_zero hs, rfl⟩

theorem ParTreeManager.afterBranchStep_store (tm : ParTreeManager Mod) (node : NodePtr)
    (nd : Node Mod) (hnd : tm.store[node]? = some nd) (ws : Option WarmStartPtr) (f : Bool)
    (b : Branch Mod) :
    (afterBranchStep tm node nd ws f b).store.length = tm.store.length + 1 ∧
    (afterBranchStep tm node nd ws f b).store[tm.store.length]? =
      some (branchChild tm node nd ws f b) ∧
    (afterBranchStep tm node nd ws f b).store[node]? =
      some { nd with children_ := nd.children_ ++ [tm.store.length] } ∧
    ∀ y, y < tm.store.length → y ≠ node →
      (afterBranchStep tm node nd ws f b).store[y]? = tm.store[y]? := by
  have hlt : node < tm.store.length := Store.lt_length_of_get hnd
  have hlen : (tm.store.set node
      { nd with children_ := nd.children_ ++ [tm.store.length] }).length = tm.store.length :=
    List.length_set _ _ _
  unfold afterBranchStep
  refine ⟨by simp, ?_, ?_, fun y hy hne => ?_⟩
  · show (_ ++ _)[tm.store.length]? = _
    rw [List.getElem?_append_right (by rw [hlen]), hlen, Nat.sub_self]
    rfl
  · show (_ ++ _)[node]? = _
    rw [List.getElem?_append_left (by rw [hlen]; exact hlt)]
    simp [hlt]
  · show (_ ++ _)[y]? = _
    rw [List.getElem?_append_left (by rw [hlen]; exact hy),
      List.getElem?_set_ne (fun e => hne e.symm)]

theorem ParTreeManager.afterBranchStep_active (tm : ParTreeManager Mod) (node : NodePtr)
    (nd : Node Mod) (ws : Option WarmStartPtr) (f : Bool) (b : Branch Mod) :
    (afterBranchStep tm node nd ws f b).active_nodes_.Perm
      ((if f = true then [] else [tm.store.length]) ++ tm.active_nodes_) ∧
    (tm.searchType_ = TreeSearchOrder.DepthFirst →
      (afterBranchStep tm node nd ws f b).active_nodes_ =
        (if f = true then [] else [tm.store.length]) ++ tm.active_nodes_) := by
  unfold afterBranchStep
  cases f
  · by_cases hd : tm.searchType_ = TreeSearchOrder.DepthFirst
    · simp [hd]
    · simp only [hd, if_false, Bool.false_eq_true, List.singleton_append]
      exact ⟨heapInsert_perm _ _ _ _, fun h => absurd h (fun e => by cases e)⟩
  · simp

theorem ParTreeManager.branchLoop_spec (node : NodePtr) (ws : Option WarmStartPtr)
    (bs : List (Branch Mod)) (tm : ParTreeManager Mod) (f : Bool) (c : Option NodePtr)
    (nd : Node Mod) (hnd : tm.store[node]? = some nd)
    (hsize : bs ≠ [] → 0 < tm.size_) (hwrap : tm.size_ + bs.length ≤ uintModulus) :
    ∃ tm', branchLoop node ws bs (tm, f, c) = Except.ok
        (tm', f && bs.isEmpty,
          if (f && !bs.isEmpty) = true then some tm.store.length else c) ∧
      Branched node ws tm nd f bs tm' := by
  induction bs generalizing tm f c nd with
  | nil =>
    refine ⟨tm, by simp [branchLoop], ?_⟩
    exact
      { length := rfl
        child := fun j b hb => by simp at hb
        parent := by simpa using hnd
        others := fun _ _ _ => rfl
        active := by cases f <;> simp
        activeStack := fun _ => by cases f <;> simp
        size := rfl
        members := rfl }
  | cons b rest ih =>
    have hpos : 0 < tm.size_ := hsize (by simp)
    have hst := afterBranchStep_store tm node nd hnd ws f b
    have hact := afterBranchStep_active tm node nd ws f b
    have hsz1 : (afterBranchStep tm node nd ws f b).size_ = uintSucc tm.size_ := rfl
    have hlen' : tm.size_ + rest.length + 1 ≤ uintModulus := by
      simpa [Nat.add_assoc] using hwrap
    obtain ⟨tm', hrun, hB⟩ := ih (afterBranchStep tm node nd ws f b) false
      (if f = true then some tm.store.length else c)
      { nd with children_ := nd.children_ ++ [tm.store.length] } hst.2.2.1
      (fun hne => by
        have : 0 < rest.length := List.length_pos.mpr hne
        rw [hsz1]; unfold uintSucc
        rw [Nat.mod_eq_of_lt (by omega)]; omega)
      (by
        rw [hsz1]; unfold uintSucc
        by_cases h1 : tm.size_ + 1 < uintModulus
        · rw [Nat.mod_eq_of_lt h1]; omega
        · have : tm.size_ + 1 = uintModulus := by omega
          rw [this, Nat.mod_self]; omega)
    refine ⟨tm', ?_, ?_⟩
    · rw [branchLoop, branchStep_eq tm node nd hnd hpos]
      simp only []
      rw [hrun]
      cases f <;> cases rest <;> simp
    · have hlenA : (afterBranchStep tm node nd ws f b).store.length = tm.store.length + 1 :=
        hst.1
      have hltn : node < tm.store.length := Store.lt_length_of_get hnd
      exact
        { length := by rw [hB.length, hlenA, List.length_cons]; omega
          child := fun j b' hb => by
            cases j with
            | zero =>
              simp only [List.getElem?_cons_zero, Option.some.injEq] at hb
              subst hb
              rw [Nat.add_zero, hB.others tm.store.length (by rw [hlenA]; omega)
                (Nat.ne_of_gt hltn), hst.2.1]
              simp [branchChild]
            | succ j =>
              simp only [List.getElem?_cons_succ] at hb
              have hj : j < rest.length := by
                by_contra hge
                rw [List.getElem?_eq_none (Nat.le_of_not_lt hge)] at hb
                cases hb
              have hsucc : uintSucc tm.size_ = tm.size_ + 1 := by
                unfold uintSucc
                exact Nat.mod_eq_of_lt (by omega)
              have := hB.child j b' hb
              rw [hlenA] at this
              rw [show tm.store.length + (j + 1) = tm.store.length + 1 + j by omega, this]
              have htb : (afterBranchStep tm node nd ws f b).tbRule_ = tm.tbRule_ := rfl
              simp [branchChild, hsz1, hsucc, htb, Nat.add_assoc, Nat.add_comm 1 j]
          parent := by
            rw [hB.parent, hlenA]
            simp [List.range'_succ]
          others := fun y hy hne => by
            rw [hB.others y (by rw [hlenA]; omega) hne, hst.2.2.2 y hy hne]
          active := by
            have h1 := hB.active
            simp only [Bool.false_eq_true, if_false, hlenA] at h1
            refine h1.trans ?_
            have h2 := (List.Perm.append_left (List.range' (tm.store.length + 1) rest.length)
              hact.1)
            refine h2.trans ?_
            cases f
            · simp only [Bool.false_eq_true, if_false, List.length_cons, List.range'_succ]
              simp
            · simp [List.range'_succ]
          activeStack := fun hd => by
            have h1 := hB.activeStack hd
            simp only [Bool.false_eq_true, if_false, hlenA] at h1
            rw [h1, hact.2 hd]
            cases f <;> simp [List.range'_succ]
          size := by
            rw [hB.size, hsz1]
            cases rest with
            | nil => simp [uintSucc]
            | cons r rs =>
              have hsucc : uintSucc tm.size_ = tm.size_ + 1 := by
                unfold uintSucc
                simp only [List.length_cons] at hlen'
                exact Nat.mod_eq_of_lt (by omega)
              simp [hsucc, Nat.add_assoc, Nat.add_comm 1]
          members := by
            have := congrArg (fun t : ParTreeManager Mod =>
              { t with store := tm.store, active_nodes_ := tm.active_nodes_,
                       size_ := tm.size_ }) hB.members
            exact this }

theorem ParTreeManager.branch_spec (tm : ParTreeManager Mod) (bs : List (Branch Mod))
    (node : NodePtr) (ws : Option WarmStartPtr) (nd : Node Mod)
    (hnd : tm.store[node]? = some nd) (hsize : bs ≠ [] → 0 < tm.size_)
    (hwrap : tm.size_ + bs.length ≤ uintModulus) :
    ∃ tmL, Branched node ws tm nd (shouldDive tm) bs tmL ∧
      branch tm bs node ws = Except.ok
        ({ tmL with aNode_ :=
            if (shouldDive tm && !bs.isEmpty) = true then some tm.store.length else none },
          if (shouldDive tm && !bs.isEmpty) = true then some tm.store.length else none) := by
  obtain ⟨tmL, hrun, hB⟩ := branchLoop_spec node ws bs tm (shouldDive tm) none nd hnd hsize hwrap
  refine ⟨tmL, hB, ?_⟩
  unfold branch
  have hf : (if tm.searchType_ = TreeSearchOrder.DepthFirst
      ∨ tm.searchType_ = TreeSearchOrder.BestThenDive then true else false) = shouldDive tm := rfl
  rw [hf]
  simp only [hrun]

/-- Claim C12 (branching and the bypass of the container on a dive). Take a state with
`size_ > 0` whose counter `size_` can still count `k` more nodes, a parent `node` in
memory and `k` branches. Then `branch` returns, and: it has allocated exactly `k` new
nodes, at the `k` addresses that follow the old ones, in the order of the branches; the
`j`-th of them has `node` as its parent, the `j`-th branch as its branch, the lower
bound of the parent and the depth of the parent plus one (computed in `UInt`), and no
children; these `k` addresses are appended, in this order, to the child list of the
parent, and no other node changes. Under `DepthFirst` or `BestThenDive` with `k >= 1`
the call returns the child of the first branch, which is not pushed (the container
holds its address afterwards only if it did before), and the `k - 1` other children
are pushed and have the warm start `ws`. Under `BestFirst`, or when `k = 0`, the call
returns null, and under `BestFirst` all `k` children are pushed and have the warm
start. The container afterwards is a rearrangement of the pushed children and its old
content; under `DepthFirst` the pushed children lie on top, the last one topmost. -/
theorem ParTreeManager.branch_creates (tm : ParTreeManager Mod) (bs : List (Branch Mod))
    (node : NodePtr) (ws : Option WarmStartPtr) (nd : Node Mod)
    (hnd : tm.store[node]? = some nd) (hsize : 0 < tm.size_)
    (hwrap : tm.size_ + bs.length ≤ uintModulus) :
    ∃ tmL ret,
      branch tm bs node ws = Except.ok ({ tmL with aNode_ := ret }, ret) ∧
      Branched node ws tm nd (shouldDive tm) bs tmL ∧
      tmL.store.length = tm.store.length + bs.length ∧
      (∀ j b, bs[j]? = some b → ∃ ch, tmL.store[tm.store.length + j]? = some ch ∧
        ch.parent_ = some node ∧ ch.branch_ = some b ∧ ch.lb_ = nd.lb_ ∧
        ch.depth_ = uintSucc nd.depth_ ∧
        (nd.depth_ + 1 < uintModulus → ch.depth_ = nd.depth_ + 1) ∧
        ch.children_ = [] ∧
        ((shouldDive tm && decide (j = 0)) = false → ch.ws_ = ws)) ∧
      Store.childrenOf tmL.store node
        = nd.children_ ++ List.range' tm.store.length bs.length ∧
      (∀ y, y < tm.store.length → y ≠ node → tmL.store[y]? = tm.store[y]?) ∧
      (shouldDive tm = true → bs ≠ [] →
        ret = some tm.store.length ∧
        (tm.store.length ∈ tmL.active_nodes_ ↔ tm.store.length ∈ tm.active_nodes_) ∧
        (∀ j, 0 < j → j < bs.length → tm.store.length + j ∈ tmL.active_nodes_) ∧
        tmL.active_nodes_.Perm
          (List.range' (tm.store.length + 1) (bs.length - 1) ++ tm.active_nodes_)) ∧
      (shouldDive tm = false ∨ bs = [] → ret = none) ∧
      (shouldDive tm = false →
        (∀ j, j < bs.length → tm.store.length + j ∈ tmL.active_nodes_) ∧
        tmL.active_nodes_.Perm
          (List.range' tm.store.length bs.length ++ tm.active_nodes_)) ∧
      (tm.searchType_ = TreeSearchOrder.DepthFirst →
        tmL.active_nodes_ =
          (List.range' (tm.store.length + 1) (bs.length - 1)).reverse ++ tm.active_nodes_) := by
  obtain ⟨tmL, hB, hrun⟩ := branch_spec tm bs node ws nd hnd (fun _ => hsize) hwrap
  have htail : ∀ (a n : Nat), (List.range' a n).tail = List.range' (a + 1) (n - 1) := by
    intro a n
    cases n with
    | zero => rfl
    | succ n => simp [List.range'_succ]
  refine ⟨tmL, _, hrun, hB, hB.length, fun j b hb => ?_, ?_, hB.others, fun hd hne => ?_,
    fun h => ?_, fun hd => ?_, fun hd => ?_⟩
  · refine ⟨_, hB.child j b hb, rfl, rfl, rfl, rfl, fun hlt => ?_, rfl, fun hf => ?_⟩
    · show uintSucc nd.depth_ = nd.depth_ + 1
      exact Nat.mod_eq_of_lt hlt
    · show (if (shouldDive tm && decide (j = 0)) = true then none else ws) = ws
      rw [hf]
      rfl
  · unfold Store.childrenOf
    rw [hB.parent]
  · have hperm := hB.active
    rw [hd, if_pos rfl, htail] at hperm
    have hne' : bs.isEmpty = false := by
      cases bs with
      | nil => exact absurd rfl hne
      | cons _ _ => rfl
    refine ⟨by simp [hd, hne'], ?_, fun j hj0 hj => ?_, hperm⟩
    · rw [hperm.mem_iff, List.mem_append]
      constructor
      · rintro (h | h)
        · rw [List.mem_range'_1] at h
          omega
        · exact h
      · exact fun h => Or.inr h
    · rw [hperm.mem_iff, List.mem_append]
      refine Or.inl ?_
      rw [List.mem_range'_1]
      omega
  · rcases h with h | h
    · simp [h]
    · simp [h]
  · have hperm := hB.active
    rw [hd] at hperm
    simp only [Bool.false_eq_true, if_false] at hperm
    refine ⟨fun j hj => ?_, hperm⟩
    rw [hperm.mem_iff, List.mem_append]
    refine Or.inl ?_
    rw [List.mem_range'_1]
    omega
  · have hdive : shouldDive tm = true := by simp [shouldDive, hd]
    have := hB.activeStack hd
    rw [hdive, if_pos rfl, htail] at this
    exact this

/-- Witness of C12: after `insertRoot`, a depth-first `branch` with two branches at the
root returns the first child (address 1) and leaves three nodes in memory and the second
child (address 2) on top of the root in the container. -/
theorem ParTreeManager.branch_creates_witness :
    ∃ tmL : ParTreeManager Int, branch sampleTreeStart [emptyBranch, emptyBranch] 0 none
        = Except.ok ({ tmL with aNode_ := some 1 }, some 1) ∧
      tmL.store.length = 3 ∧ tmL.active_nodes_ = [2, 0] ∧
      Store.childrenOf tmL.store 0 = [1, 2] := by
  obtain ⟨tmL, ret, h1, -, h3, -, h5, -, h7, -, -, h10⟩ :=
    branch_creates sampleTreeStart [emptyBranch, emptyBranch] 0 none Node.new rfl
      (by decide) (by decide)
  have hret : ret = some 1 := (h7 rfl (by simp)).1
  subst hret
  exact ⟨tmL, h1, h3, h10 rfl, h5⟩

end Branching

/-! ## Theorems: the numbering of the nodes -/

section Numbering

variable {Mod : Type}

open ParTreeManager

theorem ParTreeManager.insertCandidate_inv {tm tm' : ParTreeManager Mod} {node : NodePtr}
    {pop_now : Bool} (h : insertCandidate_ tm node pop_now = Except.ok tm') :
    0 < tm.size_ ∧ tm'.size_ = uintSucc tm.size_ ∧
    ∃ nd p pn, tm.store[node]? = some nd ∧ nd.parent_ = some p ∧ tm.store[p]? = some pn ∧
      tm'.store = tm.store.set node { nd with
        id_ := tm.size_, depth_ := uintSucc pn.depth_,
        tbScore_ := newTbScore tm.tbRule_ pop_now pn.tbScore_ tm.size_ } := by
  by_cases hs : tm.size_ = 0
  · simp [insertCandidate_, hs] at h
  have hpos : 0 < tm.size_ := Nat.pos_of_ne_zero hs
  cases hnd : tm.store[node]? with
  | none => simp [insertCandidate_, hpos, Store.update, hnd] at h
  | some nd =>
    have hlt : node < tm.store.length := Store.lt_length_of_get hnd
    cases hp : nd.parent_ with
    | none =>
      simp [insertCandidate_, hpos, Store.update, Store.deref, hnd, hlt, hp,
        List.getElem?_set_self] at h
    | some p =>
      cases hpn : tm.store[p]? with
      | none =>
        have hne : ¬ node = p := fun e => by rw [e, hpn] at hnd; cases hnd
        simp [insertCandidate_, hpos, Store.update, Store.deref, hnd, hlt, hp, hpn, hne,
          List.getElem?_set_self, List.getElem?_set_ne] at h
      | some pn =>
        rw [insertCandidate_eq tm node p pop_now nd pn hpos hnd hp hpn] at h
        cases pop_now
        · rw [push_eq _ node _ (List.getElem?_set_self hlt)] at h
          simp only [Bool.false_eq_true, if_false] at h
          have h2 := Except.ok.inj h
          subst h2
          exact ⟨hpos, rfl, nd, p, pn, rfl, hp, hpn, rfl⟩
        · simp only [if_true] at h
          have h2 := Except.ok.inj h
          subst h2
          exact ⟨hpos, rfl, nd, p, pn, rfl, hp, hpn, rfl⟩

theorem ParTreeManager.branchStep_numbered {given : Nat} {root node : NodePtr}
    {ws : Option WarmStartPtr} {tm : ParTreeManager Mod} {f : Bool} {c : Option NodePtr}
    {b : Branch Mod} {st' : ParTreeManager Mod × Bool × Option NodePtr}
    (h : branchStep node ws (tm, f, c) b = Except.ok st') (hN : Numbered given root tm) :
    Numbered given root st'.1 := by
  obtain ⟨nd, hnd, hpos, rfl⟩ := branchStep_inv h
  obtain ⟨hlen, hchild, hpar, hoth⟩ := afterBranchStep_store tm node nd hnd ws f b
  have hltn : node < tm.store.length := Store.lt_length_of_get hnd
  have hsz : tm.size_ = tm.store.length - given + 1 ∧
      tm.store.length - given + 1 < uintModulus := by
    have h1 := hN.size
    have h2 := hN.count
    have h3 := hN.lengthGe
    rcases Nat.lt_or_ge (tm.store.length - given + 1) uintModulus with hlt | hge
    · rw [Nat.mod_eq_of_lt hlt] at h1
      exact ⟨h1, hlt⟩
    · have : tm.store.length - given + 1 = uintModulus := by omega
      rw [this, Nat.mod_self] at h1
      omega
  have hget : ∀ y ndy, y < tm.store.length → tm.store[y]? = some ndy →
      ∃ nd', (afterBranchStep tm node nd ws f b).store[y]? = some nd' ∧ nd'.id_ = ndy.id_ := by
    intro y ndy hy hndy
    by_cases hyn : y = node
    · subst hyn
      rw [hnd] at hndy
      cases hndy
      exact ⟨_, hpar, rfl⟩
    · exact ⟨ndy, by rw [hoth y hy hyn]; exact hndy, rfl⟩
  have hge := hN.lengthGe
  have hcount := hN.count
  exact
    { rootLt := hN.rootLt
      lengthGe := by show given ≤ _; rw [hlen]; omega
      rootId := by
        obtain ⟨r, hr, hid⟩ := hN.rootId
        obtain ⟨r', hr', hid'⟩ := hget root r (Store.lt_length_of_get hr) hr
        exact ⟨r', hr', by rw [hid', hid]⟩
      ids := fun j hj => by
        rw [show (afterBranchStep tm node nd ws f b, false,
          if f = true then some tm.store.length else c).1.store.length
            = tm.store.length + 1 from hlen] at hj
        by_cases hjl : given + j < tm.store.length
        · obtain ⟨ndj, h1, h2⟩ := hN.ids j hjl
          obtain ⟨nd', h3, h4⟩ := hget (given + j) ndj hjl h1
          exact ⟨nd', h3, by rw [h4, h2]⟩
        · have hj2 : given + j = tm.store.length := by omega
          refine ⟨_, by rw [hj2]; exact hchild, ?_⟩
          show tm.size_ = j + 1
          omega
      count := by
        show (afterBranchStep tm node nd ws f b).store.length - given + 1 ≤ uintModulus
        rw [hlen]
        omega
      size := by
        show uintSucc tm.size_ = ((afterBranchStep tm node nd ws f b).store.length - given + 1)
          % uintModulus
        rw [hlen, hsz.1]
        unfold uintSucc
        congr 1
        omega }

theorem ParTreeManager.branchLoop_numbered {given : Nat} {root node : NodePtr}
    {ws : Option WarmStartPtr} (bs : List (Branch Mod))
    {st st' : ParTreeManager Mod × Bool × Option NodePtr}
    (h : branchLoop node ws bs st = Except.ok st') (hN : Numbered given root st.1) :
    Numbered given root st'.1 := by
  induction bs generalizing st with
  | nil =>
    simp only [branchLoop] at h
    cases h
    exact hN
  | cons b rest ih =>
    rw [branchLoop] at h
    cases hstep : branchStep node ws st b with
    | error e => rw [hstep] at h; cases h
    | ok st1 =>
      rw [hstep] at h
      obtain ⟨tm, f, c⟩ := st
      exact ih h (branchStep_numbered hstep hN)

theorem ParTreeManager.branch_numbered {given : Nat} {root node : NodePtr}
    {ws : Option WarmStartPtr} {bs : List (Branch Mod)} {tm : ParTreeManager Mod}
    {r : ParTreeManager Mod × Option NodePtr}
    (h : branch tm bs node ws = Except.ok r) (hN : Numbered given root tm) :
    Numbered given root r.1 := by
  unfold branch at h
  simp only [] at h
  split at h
  · cases h
  · rename_i st hst
    cases h
    have := branchLoop_numbered bs hst hN
    exact
      { rootLt := this.rootLt, lengthGe := this.lengthGe, rootId := this.rootId,
        ids := this.ids, count := this.count, size := this.size }

theorem ParTreeManager.insertRoot_inv {tm tm' : ParTreeManager Mod} {node : NodePtr}
    (h : insertRoot tm node = Except.ok tm') :
    ∃ nd, tm.store[node]? = some nd ∧ tm.size_ = 0 ∧ tm.active_nodes_ = [] ∧
      tm' = { tm with
        store := tm.store.set node { nd with id_ := 0, depth_ := 0 },
        active_nodes_ := [node], size_ := 1 } := by
  cases hnd : tm.store[node]? with
  | none =>
    unfold insertRoot at h
    by_cases hs : tm.size_ = 0
    · by_cases ha : tm.active_nodes_.length = 0
      · simp [hs, ha, Store.update, hnd] at h
      · simp [hs, ha] at h
    · simp [hs] at h
  | some nd =>
    rw [insertRoot_eq tm node nd hnd] at h
    by_cases hs : tm.size_ = 0
    · by_cases ha : tm.active_nodes_ = []
      · simp only [hs, ha, ne_eq, not_true_eq_false, if_false] at h
        exact ⟨nd, rfl, hs, ha, (Except.ok.inj h).symm⟩
      · simp [hs, ha] at h
    · simp [hs] at h

theorem ParTreeManager.start_numbered {opts : Options} {store : Store Mod} {root : NodePtr}
    {tm : ParTreeManager Mod} (h : start opts store root = Except.ok tm) :
    Numbered store.length root tm := by
  unfold start at h
  cases hnew : (new opts store : Except Fault (ParTreeManager Mod)) with
  | error e => rw [hnew] at h; cases h
  | ok tm0 =>
    rw [hnew] at h
    simp only [] at h
    obtain ⟨h1, -, -, -⟩ := new_ok hnew
    obtain ⟨nd, hnd, hs, ha, rfl⟩ := insertRoot_inv h
    rw [h1] at hnd
    have hlt : root < store.length := Store.lt_length_of_get hnd
    exact
      { rootLt := hlt
        lengthGe := by simp [h1]
        rootId := ⟨{ nd with id_ := 0, depth_ := 0 }, by
          show (tm0.store.set root _)[root]? = _
          rw [h1]
          exact List.getElem?_set_self hlt, rfl⟩
        ids := fun j hj => by simp [h1] at hj
        count := by simp [h1, uintModulus]
        size := by simp [h1, uintModulus] }

theorem ParTreeManager.runOps_numbered {given : Nat} {root : NodePtr} (ops : List (Op Mod))
    {tm tm' : ParTreeManager Mod} (h : runOps allowBranch tm ops = some tm')
    (hN : Numbered given root tm) : Numbered given root tm' := by
  induction ops generalizing tm with
  | nil =>
    simp only [runOps] at h
    cases h
    exact hN
  | cons op rest ih =>
    rw [runOps] at h
    cases op with
    | branch bs node ws =>
      simp only [allowBranch, if_true, step] at h
      cases hb : branch tm bs node ws with
      | error e => rw [hb] at h; cases h
      | ok r =>
        rw [hb] at h
        exact ih h (branch_numbered hb hN)
    | _ => simp [allowBranch] at h

/-- Claim C14 (unique consecutive identifiers). After the constructor, `insertRoot` and
any sequence of `branch` calls, none of which stops the program, let `N` be the number
of nodes created: the root and the nodes that `branch` allocated. Then for every
`i < N` the `i`-th node created, the root counted as the 0-th, has identifier `i`; so the
identifiers are pairwise distinct and strictly increasing in the order of creation.
`N` is at most `2^32`, and `getSize()` is `N` as a value of `UInt`, that is `N` itself
as long as `N < 2^32`. Every call of `insertCandidate_` that returns has incremented
`size_` in `UInt`, by exactly one when `size_ + 1 < 2^32`, whether or not it pushed the
node. -/
theorem ParTreeManager.ids_consecutive (opts : Options) (store : Store Mod) (root : NodePtr)
    (ops : List (Op Mod)) (tm1 tm : ParTreeManager Mod)
    (hstart : start opts store root = Except.ok tm1)
    (hrun : runOps allowBranch tm1 ops = some tm) :
    (∀ i, i < tm.store.length - store.length + 1 →
      ∃ nd, tm.store[createdAt store.length root i]? = some nd ∧ nd.id_ = i) ∧
    (∀ i j ni nj, i < j → j < tm.store.length - store.length + 1 →
      tm.store[createdAt store.length root i]? = some ni →
      tm.store[createdAt store.length root j]? = some nj → ni.id_ < nj.id_) ∧
    tm.store.length - store.length + 1 ≤ uintModulus ∧
    getSize tm = (tm.store.length - store.length + 1) % uintModulus ∧
    (tm.store.length - store.length + 1 < uintModulus →
      getSize tm = tm.store.length - store.length + 1) ∧
    (∀ (t t' : ParTreeManager Mod) node pop_now,
      insertCandidate_ t node pop_now = Except.ok t' →
        t'.size_ = uintSucc t.size_ ∧ (t.size_ + 1 < uintModulus → t'.size_ = t.size_ + 1)) := by
  have hN := runOps_numbered ops hrun (start_numbered hstart)
  have hid : ∀ i, i < tm.store.length - store.length + 1 →
      ∃ nd, tm.store[createdAt store.length root i]? = some nd ∧ nd.id_ = i := by
    intro i hi
    have hge := hN.lengthGe
    unfold createdAt
    cases i with
    | zero => simpa using hN.rootId
    | succ i =>
      simp only [Nat.add_one_ne_zero, if_false, Nat.add_sub_cancel]
      exact hN.ids i (by omega)
  refine ⟨hid, fun i j ni nj hij hj hni hnj => ?_, hN.count, hN.size, fun hlt => ?_,
    fun t t' node pop_now h => ?_⟩
  · obtain ⟨ni', h1, h2⟩ := hid i (by omega)
    obtain ⟨nj', h3, h4⟩ := hid j hj
    rw [hni] at h1
    rw [hnj] at h3
    cases h1
    cases h3
    omega
  · show tm.size_ = _
    rw [hN.size, Nat.mod_eq_of_lt hlt]
  · obtain ⟨-, h2, -⟩ := insertCandidate_inv h
    refine ⟨h2, fun hlt => ?_⟩
    rw [h2]
    exact Nat.mod_eq_of_lt hlt

/-- Witness of C14: after `insertRoot(0)` and two calls of `branch`, at the root with
two branches and at the first child with one, four nodes have been created, the one at
address `i` has identifier `i`, and `getSize()` is 4. -/
theorem ParTreeManager.ids_consecutive_witness :
    ∃ tm : ParTreeManager Int,
      runOps allowBranch sampleTreeStart
        [Op.branch [emptyBranch, emptyBranch] 0 none, Op.branch [emptyBranch] 1 none]
        = some tm ∧
      (∀ i, i < 4 → ∃ nd, tm.store[createdAt 1 0 i]? = some nd ∧ nd.id_ = i) ∧
      getSize tm = 4 := by
  refine ⟨_, rfl, ?_⟩
  have h := ids_consecutive dfsOptions [Node.new] 0
    [Op.branch [emptyBranch, emptyBranch] 0 none, Op.branch [emptyBranch] 1 none]
    sampleTreeStart _ rfl rfl
  exact ⟨h.1, h.2.2.2.2.1 (by decide)⟩

end Numbering

/-! ## Theorems: what the operations leave of a node -/

section Frames

variable {Mod : Type}

open ParTreeManager

theorem Detached.of_eq (s : Store Mod) : Detached s s :=
  { length := rfl, node := fun _ nd h => ⟨nd, h, rfl, fun e => e, fun _ hc => hc⟩ }

theorem Detached.followed {s s' s'' : Store Mod} (h1 : Detached s s') (h2 : Detached s' s'') :
    Detached s s'' :=
  { length := h2.length.trans h1.length
    node := fun y nd h => by
      obtain ⟨nd', a1, a2, a3, a4⟩ := h1.node y nd h
      obtain ⟨nd'', b1, b2, b3, b4⟩ := h2.node y nd' a1
      exact ⟨nd'', b1, b2.trans a2, fun e => b3 (a3 e), fun c hc => a4 c (b4 c hc)⟩ }

theorem Detached.of_detachOne (x p : NodePtr) (s : Store Mod) :
    Detached s (Store.detachOne x p s) :=
  { length := by simp [Store.detachOne]
    node := fun y nd h => by
      refine ⟨{ nd with
          parent_ := if y = x then none else nd.parent_,
          children_ := if y = p then nd.children_.erase x else nd.children_ },
        by rw [Store.getElem?_detachOne, h]; rfl, rfl, fun e => ?_, fun c hc => ?_⟩
      · show (if y = x then none else nd.parent_) = none
        split
        · rfl
        · exact e
      · have hc' : c ∈ (if y = p then nd.children_.erase x else nd.children_) := hc
        split at hc'
        · exact List.mem_of_mem_erase hc'
        · exact hc' }

theorem ParTreeManager.removeNodeAux_inv {fuel : Nat} {s s' : Store Mod} {x : NodePtr}
    (h : removeNodeAux (fuel + 1) s x = Except.ok s') :
    (∃ nd, s[x]? = some nd ∧ nd.id_ = 0 ∧ s' = s) ∨
    ∃ nd p pn, s[x]? = some nd ∧ 0 < nd.id_ ∧ nd.parent_ = some p ∧ s[p]? = some pn ∧
      x ∈ pn.children_ ∧
      ((Store.childrenOf (Store.detachOne x p s) p = [] ∧
          removeNodeAux fuel (Store.detachOne x p s) p = Except.ok s') ∨
        (Store.childrenOf (Store.detachOne x p s) p ≠ [] ∧ s' = Store.detachOne x p s)) := by
  cases hx : s[x]? with
  | none => simp [removeNodeAux, Store.deref, hx] at h
  | some nd =>
    by_cases hid : 0 < nd.id_
    · cases hpar : nd.parent_ with
      | none => simp [removeNodeAux, Store.deref, hx, hid, hpar] at h
      | some p =>
        cases hp : s[p]? with
        | none => simp [removeNodeAux, Store.deref, hx, hid, hpar, hp] at h
        | some pn =>
          by_cases hmem : x ∈ pn.children_
          · rw [removeNodeAux_step fuel hx hid hpar hp hmem] at h
            refine Or.inr ⟨nd, p, pn, rfl, hid, hpar, hp, hmem, ?_⟩
            by_cases hc : Store.childrenOf (Store.detachOne x p s) p = []
            · rw [if_pos hc] at h
              exact Or.inl ⟨hc, h⟩
            · rw [if_neg hc] at h
              exact Or.inr ⟨hc, (Except.ok.inj h).symm⟩
          · simp [removeNodeAux, Store.deref, hx, hid, hpar, hp, hmem] at h
    · have h0 : nd.id_ = 0 := by omega
      simp only [removeNodeAux, Store.deref, hx, h0, Nat.lt_irrefl, if_false] at h
      exact Or.inl ⟨nd, rfl, h0, (Except.ok.inj h).symm⟩

theorem ParTreeManager.removeNodeAux_detached (fuel : Nat) {s s' : Store Mod} {x : NodePtr}
    (h : removeNodeAux fuel s x = Except.ok s') : Detached s s' := by
  induction fuel generalizing s x with
  | zero => simp [removeNodeAux] at h
  | succ fuel ih =>
    rcases removeNodeAux_inv h with ⟨_, _, _, rfl⟩ | ⟨nd, p, pn, _, _, _, _, _, hrest⟩
    · exact Detached.of_eq _
    · rcases hrest with ⟨_, hrec⟩ | ⟨_, rfl⟩
      · exact (Detached.of_detachOne x p s).followed (ih hrec)
      · exact Detached.of_detachOne x p s

theorem ParTreeManager.removeNodeAux_parent {fuel : Nat} {s s' : Store Mod} {x : NodePtr}
    {nd : Node Mod} (h : removeNodeAux fuel s x = Except.ok s') (hx : s[x]? = some nd)
    (hid : 0 < nd.id_) : Store.parentOf s' x = none := by
  cases fuel with
  | zero => simp [removeNodeAux] at h
  | succ fuel =>
    rcases removeNodeAux_inv h with ⟨nd2, h2, h0, _⟩ | ⟨nd2, p, pn, h2, _, hpar, hp, hmem, hrest⟩
    · rw [hx] at h2
      cases h2
      omega
    · rw [hx] at h2
      cases h2
      have hD : Detached (Store.detachOne x p s) s' := by
        rcases hrest with ⟨_, hrec⟩ | ⟨_, rfl⟩
        · exact removeNodeAux_detached fuel hrec
        · exact Detached.of_eq _
      have hx2 : (Store.detachOne x p s)[x]? = some
          { nd with
            parent_ := if x = x then none else nd.parent_,
            children_ := if x = p then nd.children_.erase x else nd.children_ } := by
        rw [Store.getElem?_detachOne, hx]; rfl
      obtain ⟨nd', hnd', -, hpn, -⟩ := hD.node x _ hx2
      unfold Store.parentOf
      rw [hnd']
      exact hpn (by simp)

theorem ParTreeManager.branchStep_kept {node : NodePtr} {ws : Option WarmStartPtr}
    {st st' : ParTreeManager Mod × Bool × Option NodePtr} {b : Branch Mod}
    (h : branchStep node ws st b = Except.ok st') (y : NodePtr) (nd : Node Mod)
    (hy : st.1.store[y]? = some nd) :
    ∃ nd', st'.1.store[y]? = some nd' ∧ nd'.unlinked = nd.unlinked := by
  obtain ⟨tm, f, c⟩ := st
  obtain ⟨pn, hpn, -, rfl⟩ := branchStep_inv h
  obtain ⟨-, -, hpar, hoth⟩ := afterBranchStep_store tm node pn hpn ws f b
  by_cases hyn : y = node
  · subst hyn
    have : pn = nd := by rw [hpn] at hy; exact Option.some.inj hy
    subst this
    exact ⟨_, hpar, rfl⟩
  · exact ⟨nd, by rw [hoth y (Store.lt_length_of_get hy) hyn]; exact hy, rfl⟩

theorem ParTreeManager.branchLoop_kept {node : NodePtr} {ws : Option WarmStartPtr}
    (bs : List (Branch Mod)) {st st' : ParTreeManager Mod × Bool × Option NodePtr}
    (h : branchLoop node ws bs st = Except.ok st') (y : NodePtr) (nd : Node Mod)
    (hy : st.1.store[y]? = some nd) :
    ∃ nd', st'.1.store[y]? = some nd' ∧ nd'.unlinked = nd.unlinked := by
  induction bs generalizing st nd with
  | nil =>
    simp only [branchLoop] at h
    cases h
    exact ⟨nd, hy, rfl⟩
  | cons b rest ih =>
    rw [branchLoop] at h
    cases hstep : branchStep node ws st b with
    | error e => rw [hstep] at h; cases h
    | ok st1 =>
      rw [hstep] at h
      obtain ⟨nd1, h1, e1⟩ := branchStep_kept hstep y nd hy
      obtain ⟨nd2, h2, e2⟩ := ih h nd1 h1
      exact ⟨nd2, h2, e2.trans e1⟩

theorem ParTreeManager.branch_kept {tm : ParTreeManager Mod} {bs : List (Branch Mod)}
    {node : NodePtr} {ws : Option WarmStartPtr} {r : ParTreeManager Mod × Option NodePtr}
    (h : branch tm bs node ws = Except.ok r) (y : NodePtr) (nd : Node Mod)
    (hy : tm.store[y]? = some nd) :
    ∃ nd', r.1.store[y]? = some nd' ∧ nd'.unlinked = nd.unlinked := by
  unfold branch at h
  simp only [] at h
  split at h
  · cases h
  · rename_i st hst
    cases h
    exact branchLoop_kept bs hst y nd hy

theorem Pruned.of_same (test : Dbl → Bool) (s : Store Mod) : Pruned test s s :=
  { length := rfl
    node := fun _ nd h => ⟨nd, h, rfl, rfl, Or.inl rfl, fun e => e, fun _ hc => hc⟩ }

theorem Pruned.andThen {test : Dbl → Bool} {s s' s'' : Store Mod} (h1 : Pruned test s s')
    (h2 : Pruned test s' s'') : Pruned test s s'' :=
  { length := h2.length.trans h1.length
    node := fun y nd h => by
      obtain ⟨nd', a1, a2, a3, a4, a5, a6⟩ := h1.node y nd h
      obtain ⟨nd'', b1, b2, b3, b4, b5, b6⟩ := h2.node y nd' a1
      refine ⟨nd'', b1, b2.trans a2, b3.trans a3, ?_, fun e => b5 (a5 e),
        fun c hc => a6 c (b6 c hc)⟩
      rcases b4 with b4 | ⟨b4, b4'⟩
      · rcases a4 with a4 | ⟨a4, a4'⟩
        · exact Or.inl (b4.trans a4)
        · exact Or.inr ⟨b4.trans a4, a4'⟩
      · exact Or.inr ⟨b4, by rw [← a2]; exact b4'⟩ }

theorem Node.unlinked_fields {a b : Node Mod} (h : a.unlinked = b.unlinked) :
    a.lb_ = b.lb_ ∧ a.id_ = b.id_ ∧ a.status_ = b.status_ := by
  have h1 := congrArg Node.lb_ h
  have h2 := congrArg Node.id_ h
  have h3 := congrArg Node.status_ h
  exact ⟨h1, h2, h3⟩

theorem Detached.pruned (test : Dbl → Bool) {s s' : Store Mod} (h : Detached s s') :
    Pruned test s s' :=
  { length := h.length
    node := fun y nd hy => by
      obtain ⟨nd', a1, a2, a3, a4⟩ := h.node y nd hy
      obtain ⟨f1, f2, f3⟩ := Node.unlinked_fields a2
      exact ⟨nd', a1, f1, f2, Or.inl f3, a3, a4⟩ }

theorem Pruned.setHitUb (test : Dbl → Bool) (s : Store Mod) (x : NodePtr) (nx : Node Mod)
    (hx : s[x]? = some nx) (ht : test nx.lb_ = true) :
    Pruned test s (s.set x { nx with status_ := NodeStatus.NodeHitUb }) :=
  { length := List.length_set _ _ _
    node := fun y nd hy => by
      by_cases hyx : y = x
      · subst hyx
        rw [hx] at hy
        cases hy
        exact ⟨{ nx with status_ := NodeStatus.NodeHitUb },
          List.getElem?_set_self (Store.lt_length_of_get hx), rfl, rfl, Or.inr ⟨rfl, ht⟩,
          fun e => e, fun _ hc => hc⟩
      · exact ⟨nd, by rw [List.getElem?_set_ne (fun e => hyx e.symm)]; exact hy, rfl, rfl,
          Or.inl rfl, fun e => e, fun _ hc => hc⟩ }

theorem ParTreeManager.getCandidateLoop_nil (fuel : Nat) (tm : ParTreeManager Mod)
    (hA : tm.active_nodes_ = []) :
    getCandidateLoop (fuel + 1) tm = Except.ok (tm, none) := by
  simp [getCandidateLoop, hA]

theorem ParTreeManager.getCandidateLoop_cons (fuel : Nat) (tm : ParTreeManager Mod)
    (x : NodePtr) (rest : List NodePtr) (nd : Node Mod)
    (hA : tm.active_nodes_ = x :: rest) (hx : tm.store[x]? = some nd) :
    getCandidateLoop (fuel + 1) tm =
      if pruneTest tm.cutOff_ tm.bestUpperBound_ tm.etol_ nd.lb_ = true then
        match removeNodeAux (tm.store.length + 1)
            (tm.store.set x { nd with status_ := NodeStatus.NodeHitUb }) x with
        | Except.error e => Except.error e
        | Except.ok s3 => getCandidateLoop fuel { tm with store := s3, active_nodes_ := rest }
      else Except.ok (tm, some x) := by
  rw [getCandidateLoop]
  simp only [hA, List.length_cons, Nat.zero_lt_succ, if_true, top]
  rw [shouldPrune_eq tm x nd hx]
  by_cases ht : pruneTest tm.cutOff_ tm.bestUpperBound_ tm.etol_ nd.lb_ = true
  · simp only [ht, if_true, removeActiveNode, pop, hA, pruneNode, removeNode_, List.length_set]
    cases removeNodeAux (tm.store.length + 1)
      (tm.store.set x { nd with status_ := NodeStatus.NodeHitUb }) x <;> rfl
  · simp only [ht, if_false, Bool.false_eq_true]

theorem ParTreeManager.getCandidateLoop_invalid (fuel : Nat) (tm : ParTreeManager Mod)
    (x : NodePtr) (rest : List NodePtr)
    (hA : tm.active_nodes_ = x :: rest) (hx : tm.store[x]? = none) :
    getCandidateLoop (fuel + 1) tm = Except.error Fault.nullPointer := by
  rw [getCandidateLoop]
  simp [hA, top, shouldPrune_, Store.deref, hx]

theorem ParTreeManager.getCandidateLoop_pruned (fuel : Nat) {tm : ParTreeManager Mod}
    {r : ParTreeManager Mod × Option NodePtr} (h : getCandidateLoop fuel tm = Except.ok r) :
    Pruned (pruneTest tm.cutOff_ tm.bestUpperBound_ tm.etol_) tm.store r.1.store := by
  induction fuel generalizing tm with
  | zero => simp [getCandidateLoop] at h
  | succ fuel ih =>
    cases hA : tm.active_nodes_ with
    | nil =>
      rw [getCandidateLoop_nil fuel tm hA] at h
      cases h
      exact Pruned.of_same _ _
    | cons x rest =>
      cases hx : tm.store[x]? with
      | none =>
        rw [getCandidateLoop_invalid fuel tm x rest hA hx] at h
        cases h
      | some nd =>
        rw [getCandidateLoop_cons fuel tm x rest nd hA hx] at h
        by_cases ht : pruneTest tm.cutOff_ tm.bestUpperBound_ tm.etol_ nd.lb_ = true
        · rw [if_pos ht] at h
          cases hrem : removeNodeAux (tm.store.length + 1)
              (tm.store.set x { nd with status_ := NodeStatus.NodeHitUb }) x with
          | error e => rw [hrem] at h; cases h
          | ok s3 =>
            rw [hrem] at h
            simp only [] at h
            exact ((Pruned.setHitUb _ tm.store x nd hx ht).andThen
              ((removeNodeAux_detached _ hrem).pruned _)).andThen (ih h)
        · rw [if_neg ht] at h
          cases h
          exact Pruned.of_same _ _

theorem ParTreeManager.statusManager_test :
    pruneTest (Dbl.fin 10) (Dbl.fin 10) (Dbl.fin etolDefault) (Dbl.fin 10) = true :=
  pruneTest_cutOff_ten _

/-- Claim C17 fails as stated: a node with status `NodeOptimal` and lower bound 10, with
incumbent and cutoff 10, passes the pruning test; `shouldPrune_` on it, and
`getCandidate` when it is the top of the container, change its status to `NodeHitUb`. -/
theorem ParTreeManager.optimal_becomes_hitUb :
    shouldPrune_ (statusManager NodeStatus.NodeOptimal) 0
      = Except.ok ({ statusManager NodeStatus.NodeOptimal with
          store := [{ nodeWithLb (Dbl.fin 10) with status_ := NodeStatus.NodeHitUb }] }, true) ∧
    getCandidate (statusManager NodeStatus.NodeOptimal)
      = Except.ok ({ statusManager NodeStatus.NodeOptimal with
          store := [{ nodeWithLb (Dbl.fin 10) with status_ := NodeStatus.NodeHitUb }],
          active_nodes_ := [] }, none) := by
  have ht : pruneTest (statusManager NodeStatus.NodeOptimal).cutOff_
      (statusManager NodeStatus.NodeOptimal).bestUpperBound_
      (statusManager NodeStatus.NodeOptimal).etol_
      ({ nodeWithLb (Dbl.fin 10) with status_ := NodeStatus.NodeOptimal } : Node Int).lb_
        = true := statusManager_test
  constructor
  · rw [shouldPrune_eq (statusManager NodeStatus.NodeOptimal) 0
      { nodeWithLb (Dbl.fin 10) with status_ := NodeStatus.NodeOptimal } rfl, if_pos ht]
    rfl
  · show getCandidateLoop (0 + 1 + 1) (statusManager NodeStatus.NodeOptimal) = _
    rw [getCandidateLoop_cons (0 + 1) (statusManager NodeStatus.NodeOptimal) 0 []
      { nodeWithLb (Dbl.fin 10) with status_ := NodeStatus.NodeOptimal } rfl rfl, if_pos ht]
    rfl

/-- Claim C17 (terminal statuses), amended: the pruning test overrides a terminal status.
For every node in memory, whatever its status: `branch`, `removeActiveNode` and
`pruneNode`, when they return, leave the node with the status it had; `shouldPrune_` on
a node leaves every other node with its status, and leaves the node itself with its
status if its lower bound fails the pruning test and with `NodeHitUb` if it passes;
after `getCandidate` the node has the status it had, or it has `NodeHitUb` and its lower
bound passes the pruning test. So `NodeHitUb` is final under these operations, and
`NodeOptimal` and `NodeInfeasible` are final for a node that fails the pruning test. -/
theorem ParTreeManager.status_after (tm : ParTreeManager Mod) (y : NodePtr) (nd : Node Mod)
    (hy : tm.store[y]? = some nd) :
    (∀ bs node ws r, branch tm bs node ws = Except.ok r →
      ∃ nd', r.1.store[y]? = some nd' ∧ nd'.status_ = nd.status_) ∧
    (∀ node tm', removeActiveNode tm node = Except.ok tm' → tm'.store[y]? = some nd) ∧
    (∀ node tm', pruneNode tm node = Except.ok tm' →
      ∃ nd', tm'.store[y]? = some nd' ∧ nd'.status_ = nd.status_) ∧
    (∀ node tm' b, shouldPrune_ tm node = Except.ok (tm', b) →
      ∃ nd', tm'.store[y]? = some nd' ∧
        nd'.status_ =
          if y = node ∧ pruneTest tm.cutOff_ tm.bestUpperBound_ tm.etol_ nd.lb_ = true then
            NodeStatus.NodeHitUb
          else nd.status_) ∧
    (∀ r, getCandidate tm = Except.ok r →
      ∃ nd', r.1.store[y]? = some nd' ∧
        (nd'.status_ = nd.status_ ∨
          (nd'.status_ = NodeStatus.NodeHitUb ∧
            pruneTest tm.cutOff_ tm.bestUpperBound_ tm.etol_ nd.lb_ = true))) ∧
    (nd.status_ = NodeStatus.NodeHitUb →
      (∀ node tm' b, shouldPrune_ tm node = Except.ok (tm', b) →
        ∃ nd', tm'.store[y]? = some nd' ∧ nd'.status_ = NodeStatus.NodeHitUb) ∧
      (∀ r, getCandidate tm = Except.ok r →
        ∃ nd', r.1.store[y]? = some nd' ∧ nd'.status_ = NodeStatus.NodeHitUb)) := by
  have hsp : ∀ node tm' b, shouldPrune_ tm node = Except.ok (tm', b) →
      ∃ nd', tm'.store[y]? = some nd' ∧
        nd'.status_ =
          if y = node ∧ pruneTest tm.cutOff_ tm.bestUpperBound_ tm.etol_ nd.lb_ = true then
            NodeStatus.NodeHitUb
          else nd.status_ := by
    intro node tm' b h
    cases hn : tm.store[node]? with
    | none => simp [shouldPrune_, Store.deref, hn] at h
    | some nn =>
      rw [shouldPrune_eq tm node nn hn] at h
      by_cases hyn : y = node
      · subst hyn
        rw [hy] at hn
        cases hn
        by_cases ht : pruneTest tm.cutOff_ tm.bestUpperBound_ tm.etol_ nd.lb_ = true
        · rw [if_pos ht] at h
          cases h
          exact ⟨_, List.getElem?_set_self (Store.lt_length_of_get hy), by simp [ht]⟩
        · rw [if_neg ht] at h
          cases h
          exact ⟨nd, hy, by simp [ht]⟩
      · by_cases ht : pruneTest tm.cutOff_ tm.bestUpperBound_ tm.etol_ nn.lb_ = true
        · rw [if_pos ht] at h
          cases h
          exact ⟨nd, by
            show (tm.store.set node _)[y]? = _
            rw [List.getElem?_set_ne (fun e => hyn e.symm)]; exact hy, by simp [hyn]⟩
        · rw [if_neg ht] at h
          cases h
          exact ⟨nd, hy, by simp [hyn]⟩
  have hgc : ∀ r, getCandidate tm = Except.ok r →
      ∃ nd', r.1.store[y]? = some nd' ∧
        (nd'.status_ = nd.status_ ∨
          (nd'.status_ = NodeStatus.NodeHitUb ∧
            pruneTest tm.cutOff_ tm.bestUpperBound_ tm.etol_ nd.lb_ = true)) := by
    intro r h
    obtain ⟨nd', h1, -, -, h4, -, -⟩ := (getCandidateLoop_pruned _ h).node y nd hy
    exact ⟨nd', h1, h4⟩
  refine ⟨fun bs node ws r h => ?_, fun node tm' h => ?_, fun node tm' h => ?_, hsp, hgc,
    fun hs => ⟨fun node tm' b h => ?_, fun r h => ?_⟩⟩
  · obtain ⟨nd', h1, h2⟩ := branch_kept h y nd hy
    exact ⟨nd', h1, (Node.unlinked_fields h2).2.2⟩
  · obtain ⟨_, _, hs, _⟩ := pop_ok h
    rw [hs]
    exact hy
  · obtain ⟨nd', h1, h2, -, -⟩ :=
      (removeNodeAux_detached _ (removeNode_ok h).1).node y nd hy
    exact ⟨nd', h1, (Node.unlinked_fields h2).2.2⟩
  · obtain ⟨nd', h1, h2⟩ := hsp node tm' b h
    refine ⟨nd', h1, ?_⟩
    rw [h2, hs]
    simp
  · obtain ⟨nd', h1, h2⟩ := hgc r h
    refine ⟨nd', h1, ?_⟩
    rcases h2 with h2 | ⟨h2, -⟩
    · rw [h2, hs]
    · exact h2

/-- Witness of C17: a node with status `NodeHitUb` at the top of the container keeps
that status through `getCandidate`, which prunes it. -/
theorem ParTreeManager.status_after_witness :
    ∃ nd', ∃ r, getCandidate (statusManager NodeStatus.NodeHitUb) = Except.ok r ∧
      r.1.store[0]? = some nd' ∧ nd'.status_ = NodeStatus.NodeHitUb := by
  have hrun : getCandidate (statusManager NodeStatus.NodeHitUb)
      = Except.ok ({ statusManager NodeStatus.NodeHitUb with active_nodes_ := [] }, none) := by
    show getCandidateLoop (0 + 1 + 1) (statusManager NodeStatus.NodeHitUb) = _
    rw [getCandidateLoop_cons (0 + 1) (statusManager NodeStatus.NodeHitUb) 0 []
      { nodeWithLb (Dbl.fin 10) with status_ := NodeStatus.NodeHitUb } rfl rfl]
    have ht : pruneTest (statusManager NodeStatus.NodeHitUb).cutOff_
        (statusManager NodeStatus.NodeHitUb).bestUpperBound_
        (statusManager NodeStatus.NodeHitUb).etol_
        ({ nodeWithLb (Dbl.fin 10) with status_ := NodeStatus.NodeHitUb } : Node Int).lb_
          = true := statusManager_test
    rw [if_pos ht]
    rfl
  obtain ⟨nd', h1, h2⟩ := (status_after (statusManager NodeStatus.NodeHitUb) 0
    { nodeWithLb (Dbl.fin 10) with status_ := NodeStatus.NodeHitUb } rfl).2.2.2.2.2 rfl |>.2
      _ hrun
  exact ⟨nd', _, hrun, h1, h2⟩

end Frames

/-! ## Theorems: the selection of a candidate -/

section Selection

variable {Mod : Type}

open ParTreeManager

theorem ParTreeManager.prunable_pruned (tm : ParTreeManager Mod) (s3 : Store Mod)
    (rest : List NodePtr) {test : Dbl → Bool} (hP : Pruned test tm.store s3) (y : NodePtr) :
    prunable { tm with store := s3, active_nodes_ := rest } y = prunable tm y := by
  unfold prunable
  cases hy : tm.store[y]? with
  | none =>
    have hlen : tm.store.length ≤ y := by
      by_contra hlt
      have := List.getElem?_eq_getElem (Nat.lt_of_not_le hlt)
      rw [hy] at this
      cases this
    have : s3[y]? = none := List.getElem?_eq_none (by rw [hP.length]; exact hlen)
    simp only []
    rw [this]
  | some nd =>
    obtain ⟨nd', h1, h2, -⟩ := hP.node y nd hy
    simp only [h1, h2]

theorem ParTreeManager.getCandidateLoop_selects (fuel : Nat) {tm : ParTreeManager Mod}
    {r : ParTreeManager Mod × Option NodePtr} (h : getCandidateLoop fuel tm = Except.ok r) :
    r.1.active_nodes_ = tm.active_nodes_.dropWhile (prunable tm) ∧
    r.2 = (tm.active_nodes_.dropWhile (prunable tm)).head? ∧
    (∀ x, x ∈ tm.active_nodes_.takeWhile (prunable tm) →
      ∃ nd', r.1.store[x]? = some nd' ∧ nd'.status_ = NodeStatus.NodeHitUb ∧
        (0 < nd'.id_ → nd'.parent_ = none)) ∧
    r.1 = { tm with store := r.1.store, active_nodes_ := r.1.active_nodes_ } := by
  induction fuel generalizing tm with
  | zero => simp [getCandidateLoop] at h
  | succ fuel ih =>
    by_cases hA : tm.active_nodes_ = []
    · rw [getCandidateLoop_nil fuel tm hA] at h
      cases h
      exact ⟨by simp [hA], by simp [hA], by simp [hA], rfl⟩
    · obtain ⟨x, rest, hA⟩ := List.exists_cons_of_ne_nil hA
      cases hx : tm.store[x]? with
      | none =>
        rw [getCandidateLoop_invalid fuel tm x rest hA hx] at h
        cases h
      | some nd =>
        rw [getCandidateLoop_cons fuel tm x rest nd hA hx] at h
        have hpx : prunable tm x = pruneTest tm.cutOff_ tm.bestUpperBound_ tm.etol_ nd.lb_ := by
          unfold prunable
          rw [hx]
        by_cases ht : pruneTest tm.cutOff_ tm.bestUpperBound_ tm.etol_ nd.lb_ = true
        · rw [if_pos ht] at h
          cases hrem : removeNodeAux (tm.store.length + 1)
              (tm.store.set x { nd with status_ := NodeStatus.NodeHitUb }) x with
          | error e => rw [hrem] at h; cases h
          | ok s3 =>
            rw [hrem] at h
            simp only [] at h
            have hD := removeNodeAux_detached _ hrem
            have hP1 : Pruned (pruneTest tm.cutOff_ tm.bestUpperBound_ tm.etol_) tm.store s3 :=
              (Pruned.setHitUb _ tm.store x nd hx ht).andThen (hD.pruned _)
            have hP2 := getCandidateLoop_pruned fuel h
            obtain ⟨h1, h2, h3, h4⟩ := ih h
            have hfun : prunable { tm with store := s3, active_nodes_ := rest } = prunable tm :=
              funext (prunable_pruned tm s3 rest hP1)
            rw [hfun] at h1 h2 h3
            simp only [] at h1 h2 h3
            have hpx' : prunable tm x = true := by rw [hpx]; exact ht
            rw [hA]
            refine ⟨by simp [List.dropWhile, hpx', h1], by simp [List.dropWhile, hpx', h2],
              fun y hy => ?_, h4⟩
            simp only [List.takeWhile, hpx', List.mem_cons] at hy
            rcases hy with rfl | hy
            · have hx1 : (tm.store.set y { nd with status_ := NodeStatus.NodeHitUb })[y]?
                  = some { nd with status_ := NodeStatus.NodeHitUb } :=
                List.getElem?_set_self (Store.lt_length_of_get hx)
              obtain ⟨n3, a1, a2, a3, -⟩ := hD.node y _ hx1
              obtain ⟨f1, f2, f3⟩ := Node.unlinked_fields a2
              obtain ⟨n4, b1, -, b3, b4, b5, -⟩ := hP2.node y n3 a1
              refine ⟨n4, b1, ?_, fun hid => ?_⟩
              · rcases b4 with b4 | ⟨b4, -⟩
                · rw [b4, f3]
                · exact b4
              · apply b5
                have hpar := removeNodeAux_parent hrem hx1 (by
                  show 0 < nd.id_
                  have : n3.id_ = nd.id_ := f2
                  omega)
                unfold Store.parentOf at hpar
                rw [a1] at hpar
                exact hpar
            · exact h3 y hy
        · rw [if_neg ht] at h
          cases h
          have hpx' : prunable tm x = false := by
            rw [hpx]
            exact Bool.eq_false_iff.mpr ht
          exact ⟨by simp [hA, List.dropWhile, hpx'], by simp [hA, List.dropWhile, hpx'],
            by simp [hA, List.takeWhile, hpx'], rfl⟩

theorem TreeWF.chain {root x : NodePtr} {s : Store Mod} {A : List NodePtr}
    (hwf : TreeWF root s A) (hroot : ∃ nd, s[root]? = some nd ∧ nd.id_ = 0)
    (hl : LinkedToRoot s root x) : ∃ z d, ChainToRoot s z x d := by
  induction hl with
  | root =>
    obtain ⟨nd, h1, h2⟩ := hroot
    exact ⟨root, 0, ChainToRoot.root nd h1 h2⟩
  | step n p hpar _ ih =>
    obtain ⟨z, d, hch⟩ := ih
    have hcount := hwf.once n p hpar
    have hmem : n ∈ Store.childrenOf s p := by
      apply List.count_pos_iff.mp
      rw [hcount]
      exact Nat.one_pos
    unfold Store.parentOf at hpar
    unfold Store.childrenOf at hmem
    cases hn : s[n]? with
    | none => rw [hn] at hpar; cases hpar
    | some nn =>
      rw [hn] at hpar
      simp only [] at hpar
      cases hp : s[p]? with
      | none => rw [hp] at hmem; simp at hmem
      | some pn =>
        rw [hp] at hmem
        simp only [] at hmem
        by_cases hid : 0 < nn.id_
        · exact ⟨z, d + 1, ChainToRoot.step n p d nn pn hn hid hpar hp hmem hch⟩
        · exact ⟨n, 0, ChainToRoot.root nn hn (by omega)⟩

theorem ParTreeManager.getCandidateLoop_returns {root : NodePtr} (fuel : Nat)
    (tm : ParTreeManager Mod) (hwf : TreeWF root tm.store tm.active_nodes_)
    (hroot : ∃ nd, tm.store[root]? = some nd ∧ nd.id_ = 0)
    (hfuel : tm.active_nodes_.length < fuel) :
    ∃ r, getCandidateLoop fuel tm = Except.ok r := by
  induction fuel generalizing tm with
  | zero => exact absurd hfuel (Nat.not_lt_zero _)
  | succ fuel ih =>
    by_cases hA : tm.active_nodes_ = []
    · exact ⟨_, getCandidateLoop_nil fuel tm hA⟩
    · obtain ⟨x, rest, hA⟩ := List.exists_cons_of_ne_nil hA
      have hxA : x ∈ tm.active_nodes_ := by rw [hA]; exact List.mem_cons_self _ _
      have hxlt : x < tm.store.length := hwf.lt_length_of_mem hxA
      obtain ⟨nd, hx⟩ : ∃ nd, tm.store[x]? = some nd :=
        ⟨tm.store[x], List.getElem?_eq_getElem hxlt⟩
      rw [getCandidateLoop_cons fuel tm x rest nd hA hx]
      by_cases ht : pruneTest tm.cutOff_ tm.bestUpperBound_ tm.etol_ nd.lb_ = true
      · rw [if_pos ht]
        have hupd : Store.update tm.store x (fun n => { n with status_ := NodeStatus.NodeHitUb })
            = Except.ok (tm.store.set x { nd with status_ := NodeStatus.NodeHitUb }) := by
          simp [Store.update, hx]
        have hshape := Store.update_sameShape hupd (fun _ => rfl) (fun _ => rfl)
        have hwf1 : TreeWF root (tm.store.set x { nd with status_ := NodeStatus.NodeHitUb })
            tm.active_nodes_ := TreeWF.sameShape hshape hwf
        have hP1 := Pruned.setHitUb (pruneTest tm.cutOff_ tm.bestUpperBound_ tm.etol_)
          tm.store x nd hx ht
        have hroot1 : ∃ n1, (tm.store.set x { nd with status_ := NodeStatus.NodeHitUb })[root]?
            = some n1 ∧ n1.id_ = 0 := by
          obtain ⟨r0, hr0, hid0⟩ := hroot
          obtain ⟨n1, a1, -, a3, -⟩ := hP1.node root r0 hr0
          exact ⟨n1, a1, by rw [a3, hid0]⟩
        obtain ⟨z, d, hch⟩ := TreeWF.chain hwf1 hroot1 (hwf1.active x hxA)
        obtain ⟨s3, hs3⟩ := removeNodeAux_chain d _ x hch
        have hlen : d < tm.store.length + 1 := by
          have := ChainToRoot.depth_lt_length hch
          rw [List.length_set] at this
          omega
        have hrem := hs3 (tm.store.length + 1) hlen
        rw [hrem]
        simp only []
        rw [hA] at hwf1
        have hwf3 : TreeWF root s3 rest :=
          removeNodeAux_wf _ hrem hwf1.tail (List.nodup_cons.mp hwf1.activeNodup).1
            (hwf1.activeLeaf x (List.mem_cons_self _ _))
        have hD := removeNodeAux_detached _ hrem
        apply ih { tm with store := s3, active_nodes_ := rest } hwf3
        · obtain ⟨n1, a1, a2⟩ := hroot1
          obtain ⟨n3, b1, b2, -⟩ := hD.node root n1 a1
          exact ⟨n3, b1, by rw [(Node.unlinked_fields b2).2.1, a2]⟩
        · show rest.length < fuel
          rw [hA] at hfuel
          simp only [List.length_cons] at hfuel
          omega
      · rw [if_neg ht]
        exact ⟨_, rfl⟩

theorem List.head?_dropWhile_false {α : Type} (p : α → Bool) (l : List α) (a : α)
    (h : (l.dropWhile p).head? = some a) : p a = false := by
  induction l with
  | nil => simp at h
  | cons x xs ih =>
    cases hp : p x
    · simp only [List.dropWhile, hp, List.head?_cons, Option.some.injEq] at h
      rw [← h]
      exact hp
    · simp only [List.dropWhile, hp] at h
      exact ih h

theorem Store.parented_detachOne {s : Store Mod} {x p : NodePtr} {nd : Node Mod}
    (hx : s[x]? = some nd) (hpar : nd.parent_ = some p) :
    (Store.parented (Store.detachOne x p s)).card < (Store.parented s).card := by
  apply Finset.card_lt_card
  have hlen : (Store.detachOne x p s).length = s.length := by simp [Store.detachOne]
  refine (Finset.ssubset_iff_of_subset ?_).mpr ⟨x, ?_, ?_⟩
  · intro y hy
    simp only [Store.parented, Finset.mem_filter, Finset.mem_range, hlen,
      Store.parentOf_detachOne] at hy ⊢
    refine ⟨hy.1, ?_⟩
    have h2 := hy.2
    split at h2
    · cases h2
    · exact h2
  · simp only [Store.parented, Finset.mem_filter, Finset.mem_range]
    refine ⟨Store.lt_length_of_get hx, ?_⟩
    unfold Store.parentOf
    rw [hx]
    simp [hpar]
  · simp [Store.parented, Store.parentOf_detachOne]

theorem ParTreeManager.removeNodeAux_terminates (fuel : Nat) (s : Store Mod) (x : NodePtr)
    (hfuel : (Store.parented s).card < fuel) :
    removeNodeAux fuel s x ≠ Except.error Fault.fuel := by
  induction fuel generalizing s x with
  | zero => exact absurd hfuel (Nat.not_lt_zero _)
  | succ fuel ih =>
    cases hnd : s[x]? with
    | none => simp [removeNodeAux, Store.deref, hnd]
    | some nd =>
      by_cases hid : 0 < nd.id_
      swap
      · simp [removeNodeAux, Store.deref, hnd, hid]
      cases hp : nd.parent_ with
      | none => simp [removeNodeAux, Store.deref, hnd, hid, hp]
      | some p =>
        cases hpn : s[p]? with
        | none => simp [removeNodeAux, Store.deref, hnd, hid, hp, hpn]
        | some pn =>
          by_cases hmem : x ∈ pn.children_
          swap
          · simp [removeNodeAux, Store.deref, hnd, hid, hp, hpn, hmem]
          rw [removeNodeAux_step fuel hnd hid hp hpn hmem]
          have hlt := Store.parented_detachOne hnd hp
          split
          · exact ih _ _ (by omega)
          · simp

theorem Store.parented_card_le (s : Store Mod) : (Store.parented s).card ≤ s.length := by
  unfold Store.parented
  exact (Finset.card_filter_le _ _).trans (by rw [Finset.card_range])

theorem ParTreeManager.getCandidateLoop_terminates (fuel : Nat) (tm : ParTreeManager Mod)
    (hfuel : tm.active_nodes_.length < fuel) :
    getCandidateLoop fuel tm ≠ Except.error Fault.fuel := by
  induction fuel generalizing tm with
  | zero => exact absurd hfuel (Nat.not_lt_zero _)
  | succ fuel ih =>
    by_cases hA : tm.active_nodes_ = []
    · rw [getCandidateLoop_nil fuel tm hA]
      simp
    · obtain ⟨x, rest, hA⟩ := List.exists_cons_of_ne_nil hA
      cases hx : tm.store[x]? with
      | none =>
        rw [getCandidateLoop_invalid fuel tm x rest hA hx]
        simp
      | some nd =>
        rw [getCandidateLoop_cons fuel tm x rest nd hA hx]
        by_cases ht : pruneTest tm.cutOff_ tm.bestUpperBound_ tm.etol_ nd.lb_ = true
        · rw [if_pos ht]
          have hrem := removeNodeAux_terminates (tm.store.length + 1)
            (tm.store.set x { nd with status_ := NodeStatus.NodeHitUb }) x (by
              have := Store.parented_card_le
                (tm.store.set x { nd with status_ := NodeStatus.NodeHitUb })
              rw [List.length_set] at this
              omega)
          cases hr : removeNodeAux (tm.store.length + 1)
              (tm.store.set x { nd with status_ := NodeStatus.NodeHitUb }) x with
          | error e =>
            simp only []
            intro h
            cases h
            exact hrem hr
          | ok s3 =>
            simp only []
            apply ih
            show rest.length < fuel
            rw [hA] at hfuel
            simp only [List.length_cons] at hfuel
            omega
        · rw [if_neg ht]
          simp

/-- Claim C13 (candidate selection). Write `A` for the content of the container, top
first, and call a node prunable when its lower bound passes the pruning test of
`shouldPrune_`. In every manager state the loop of `getCandidate` ends (the bound that
the embedding puts on its iterations is not reached), and whenever `getCandidate`
returns: the nodes it
has popped are the longest prefix of `A` made of prunable nodes, and the container
afterwards holds the rest of `A`; if the rest is not empty the call returns its first
node `n`, which is the top of the container after the call, is still held in it and is
not prunable; if the rest is empty the call returns null and the container is empty;
every popped node was prunable, has status `NodeHitUb` afterwards and, having been
given to `pruneNode`, has no parent unless its identifier is 0; no node that fails the
test is removed from the container; and besides the nodes and the container only
`aNode_` changes, to null. In every state that satisfies the tree invariant (`TreeWF`)
and whose root has identifier 0, `getCandidate` does return, and the popped nodes with
a positive identifier are afterwards in no child list. -/
theorem ParTreeManager.getCandidate_selects (tm : ParTreeManager Mod) :
    getCandidate tm ≠ Except.error Fault.fuel ∧
    (∀ r, getCandidate tm = Except.ok r →
      r.2 = (tm.active_nodes_.dropWhile (prunable tm)).head? ∧
      r.1.active_nodes_ = tm.active_nodes_.dropWhile (prunable tm) ∧
      tm.active_nodes_ = tm.active_nodes_.takeWhile (prunable tm) ++ r.1.active_nodes_ ∧
      (∀ n, r.2 = some n →
        top r.1 = Except.ok n ∧ prunable r.1 n = false ∧ n ∈ r.1.active_nodes_) ∧
      (r.2 = none → r.1.active_nodes_ = []) ∧
      (∀ x, x ∈ tm.active_nodes_.takeWhile (prunable tm) →
        prunable tm x = true ∧
        ∃ nd', r.1.store[x]? = some nd' ∧ nd'.status_ = NodeStatus.NodeHitUb ∧
          (0 < nd'.id_ → nd'.parent_ = none)) ∧
      (∀ x, x ∈ tm.active_nodes_ → prunable tm x = false → x ∈ r.1.active_nodes_) ∧
      r.1 = { tm with store := r.1.store, active_nodes_ := r.1.active_nodes_,
                      aNode_ := none }) ∧
    (∀ root, TreeWF root tm.store tm.active_nodes_ →
      (∃ nd, tm.store[root]? = some nd ∧ nd.id_ = 0) →
      ∃ r, getCandidate tm = Except.ok r ∧
        ∀ x nd', x ∈ tm.active_nodes_.takeWhile (prunable tm) →
          r.1.store[x]? = some nd' → 0 < nd'.id_ → ∀ q, x ∉ Store.childrenOf r.1.store q) := by
  have hsel : ∀ r, getCandidate tm = Except.ok r →
      r.1.active_nodes_ = tm.active_nodes_.dropWhile (prunable tm) ∧
      r.2 = (tm.active_nodes_.dropWhile (prunable tm)).head? ∧
      (∀ x, x ∈ tm.active_nodes_.takeWhile (prunable tm) →
        ∃ nd', r.1.store[x]? = some nd' ∧ nd'.status_ = NodeStatus.NodeHitUb ∧
          (0 < nd'.id_ → nd'.parent_ = none)) ∧
      r.1 = { tm with store := r.1.store, active_nodes_ := r.1.active_nodes_,
                      aNode_ := none } := by
    intro r h
    exact getCandidateLoop_selects _ h
  refine ⟨getCandidateLoop_terminates _ _ (Nat.lt_succ_self _), ?_, ?_⟩
  · intro r h
    obtain ⟨h1, h2, h3, h4⟩ := hsel r h
    have hP : Pruned (pruneTest tm.cutOff_ tm.bestUpperBound_ tm.etol_) tm.store r.1.store :=
      @getCandidateLoop_pruned Mod (tm.active_nodes_.length + 1) { tm with aNode_ := none } r h
    have hfun : ∀ y, prunable r.1 y = prunable tm y := by
      intro y
      rw [h4]
      exact prunable_pruned { tm with aNode_ := none } r.1.store r.1.active_nodes_ hP y
    refine ⟨h2, h1, ?_, fun n hn => ?_, fun hn => ?_, fun x hx => ⟨?_, h3 x hx⟩,
      fun x hx hp => ?_, h4⟩
    · rw [h1, List.takeWhile_append_dropWhile]
    · rw [h2] at hn
      have hp := List.head?_dropWhile_false _ _ _ hn
      cases hd : tm.active_nodes_.dropWhile (prunable tm) with
      | nil => rw [hd] at hn; cases hn
      | cons a rest =>
        rw [hd] at hn
        simp only [List.head?_cons, Option.some.injEq] at hn
        subst hn
        refine ⟨?_, by rw [hfun]; exact hp, by rw [h1, hd]; exact List.mem_cons_self _ _⟩
        unfold top
        rw [h1, hd]
    · rw [h2] at hn
      rw [h1]
      cases hd : tm.active_nodes_.dropWhile (prunable tm) with
      | nil => rfl
      | cons a rest => rw [hd] at hn; cases hn
    · exact List.mem_takeWhile_imp hx
    · rw [h1]
      have hmem : x ∈ tm.active_nodes_.takeWhile (prunable tm)
          ++ tm.active_nodes_.dropWhile (prunable tm) := by
        rw [List.takeWhile_append_dropWhile]
        exact hx
      rcases List.mem_append.mp hmem with hm | hm
      · have := List.mem_takeWhile_imp hm
        rw [hp] at this
        cases this
      · exact hm
  · intro root hwf hroot
    obtain ⟨r, hr⟩ := getCandidateLoop_returns (tm.active_nodes_.length + 1)
      { tm with aNode_ := none } hwf hroot (Nat.lt_succ_self _)
    refine ⟨r, hr, fun x nd' hx hnd' hid q hq => ?_⟩
    obtain ⟨-, -, h3, -⟩ := hsel r hr
    obtain ⟨n2, a1, -, a3⟩ := h3 x hx
    rw [hnd'] at a1
    cases a1
    have hwf' : TreeWF root r.1.store r.1.active_nodes_ :=
      getCandidateLoop_wf _ hr hwf
    have := hwf'.parentOfChild x q hq
    unfold Store.parentOf at this
    rw [hnd'] at this
    simp only [] at this
    rw [a3 hid] at this
    cases this

/-- Witness of C13: after the constructor with cutoff 10 and `insertRoot` of a node of
lower bound 10, the root is prunable; `getCandidate` returns null, leaves the container
empty and the root with status `NodeHitUb`. -/
theorem ParTreeManager.getCandidate_selects_witness :
    ∃ r, getCandidate cutOffStart = Except.ok r ∧ r.2 = none ∧ r.1.active_nodes_ = [] ∧
      ∃ nd', r.1.store[0]? = some nd' ∧ nd'.status_ = NodeStatus.NodeHitUb := by
  have hp : prunable cutOffStart 0 = true := pruneTest_cutOff_ten _
  have hA : cutOffStart.active_nodes_ = [0] := rfl
  obtain ⟨r, hr, -⟩ := (getCandidate_selects cutOffStart).2.2 0
    (start_wf (show start cutOffOptions [nodeWithLb (Dbl.fin 10)] 0 = Except.ok cutOffStart
      from rfl) (fun nd hnd => by
        rw [List.mem_singleton] at hnd
        subst hnd
        exact ⟨rfl, rfl⟩))
    ⟨nodeWithLb (Dbl.fin 10), rfl, rfl⟩
  obtain ⟨h1, h2, -, -, -, h6, -, -⟩ := (getCandidate_selects cutOffStart).2.1 r hr
  have hd : List.dropWhile (prunable cutOffStart) cutOffStart.active_nodes_ = [] := by
    rw [hA, List.dropWhile_cons_of_pos hp, List.dropWhile_nil]
  have ht : List.takeWhile (prunable cutOffStart) cutOffStart.active_nodes_ = [0] := by
    rw [hA, List.takeWhile_cons_of_pos hp, List.takeWhile_nil]
  rw [hd] at h1 h2
  rw [ht] at h6
  exact ⟨r, hr, h1, h2, (h6 0 (List.mem_singleton.mpr rfl)).2.imp
    (fun nd' h => ⟨h.1, h.2.1⟩)⟩

end Selection

section SelectionFails

open ParTreeManager

/-- Claim C13 fails as stated: after the constructor with cutoff 10, `insertRoot` of a
node of lower bound 10, `branch` with two branches at the root and `pruneNode` on the
child that was pushed, the container holds that child (address 2) on top of the root,
the child has no parent any more and passes the pruning test; `getCandidate` pops it and
stops the program in `removeNode_`, on the null parent pointer, instead of returning. -/
theorem ParTreeManager.getCandidate_stops :
    runOps allowTreeOps cutOffStart
      [Op.branch [emptyBranch, emptyBranch] 0 none, Op.pruneNode 2] = some prunedInContainer ∧
    prunedInContainer.active_nodes_ = [2, 0] ∧
    Store.parentOf prunedInContainer.store 2 = none ∧
    prunable prunedInContainer 2 = true ∧
    getCandidate prunedInContainer = Except.error Fault.nullPointer := by
  have ht : pruneTest prunedInContainer.cutOff_ prunedInContainer.bestUpperBound_
      prunedInContainer.etol_
      ({ Node.newChild 0 (Dbl.fin 10) (some emptyBranch) with
          depth_ := 1, id_ := 2, parent_ := none } : Node Int).lb_ = true :=
    pruneTest_cutOff_ten _
  refine ⟨rfl, rfl, rfl, ht, ?_⟩
  unfold getCandidate
  rw [getCandidateLoop_cons prunedInContainer.active_nodes_.length
    { prunedInContainer with aNode_ := none } 2 [0]
    { Node.newChild 0 (Dbl.fin 10) (some emptyBranch) with
      depth_ := 1, id_ := 2, parent_ := none } rfl rfl]
  rw [if_pos ht]
  rfl

end SelectionFails

/-! ## Theorems: the pruning test and the order of lower bounds -/

section Monotone

variable {Mod : Type}

theorem ParTreeManager.pruneTest_mono (c e l l' : Dbl) (u : ℚ)
    (he : Dbl.gt e (Dbl.fin 0) = true) (hc : Dbl.le c (Dbl.fin u) = true)
    (hl : Dbl.le l l' = true) (h : pruneTest c (Dbl.fin u) e l = true) :
    pruneTest c (Dbl.fin u) e l' = true := by
  rw [pruneTest_eq, Bool.or_eq_true] at h ⊢
  have hE : Dbl.le (Dbl.fin 0) (Dbl.toDouble e) = true := by
    have := Dbl.toDouble_mono (Dbl.le_of_lt he)
    rwa [Dbl.toDouble_zero] at this
  have hC := Dbl.toDouble_mono hc
  have hL := Dbl.toDouble_mono hl
  rcases h with h | h
  · exact Or.inl (Dbl.lt_le_chain h hl)
  · have hD0 : ∀ u0 : ℚ, Dbl.le (Dbl.fin 0)
        (Dbl.addDouble (Dbl.fabs (Dbl.fin u0)) (Dbl.toDouble e)) = true := by
      intro u0
      revert hE
      cases Dbl.toDouble e with
      | nan => simp [Dbl.le]
      | ninf => simp [Dbl.le]
      | pinf => intro _; simp [Dbl.fabs, Dbl.addDouble, Dbl.le]
      | fin e0 =>
        intro hE
        simp only [Dbl.le, decide_eq_true_eq] at hE
        simp only [Dbl.fabs, Dbl.addDouble]
        exact Dbl.round_nonneg (add_nonneg (abs_nonneg u0) hE)
    have hfu : Dbl.toDouble (Dbl.fin u) = Dbl.fin (Dbl.saturate (Dbl.nearest u)) := rfl
    rw [hfu] at h hC ⊢
    have hLn := (Dbl.ne_nan_of_le hL).2
    by_cases hLU : Dbl.le (Dbl.toDouble l') (Dbl.fin (Dbl.saturate (Dbl.nearest u))) = true
    · right
      obtain ⟨d1, d2⟩ := Dbl.diff_mono (Dbl.saturate (Dbl.nearest u)) _ _ hL hLU
      exact Dbl.gapTerm_mono _ _ _ _ (hD0 _) d1 d2 h
    · left
      have hlt : Dbl.lt (Dbl.fin (Dbl.saturate (Dbl.nearest u))) (Dbl.toDouble l') = true :=
        Dbl.lt_of_not_le hLn (by simp) (by simpa using hLU)
      have hF : Dbl.le (Dbl.addDouble (Dbl.toDouble c) (Dbl.neg (Dbl.toDouble e)))
          (Dbl.toDouble c) = true :=
        Dbl.sub_le_self _ _ _ hC hE (Dbl.toDouble_idem c)
      have hFL : Dbl.lt (Dbl.addDouble (Dbl.toDouble c) (Dbl.neg (Dbl.toDouble e)))
          (Dbl.toDouble l') = true :=
        Dbl.le_lt_chain (Dbl.le_chain hF hC) hlt
      by_contra hcon
      have hcon' : Dbl.lt (Dbl.addDouble (Dbl.toDouble c) (Dbl.neg (Dbl.toDouble e))) l'
          = false := by simpa using hcon
      have hFn : Dbl.addDouble (Dbl.toDouble c) (Dbl.neg (Dbl.toDouble e)) ≠ Dbl.nan :=
        (Dbl.ne_nan_of_le hF).1
      have hle := Dbl.le_of_not_lt hFn (Dbl.ne_nan_of_le hl).2 hcon'
      have hle2 := Dbl.toDouble_mono hle
      rw [Dbl.toDouble_addDouble] at hle2
      rw [Dbl.not_lt_of_le hle2] at hFL
      cases hFL

theorem ParTreeManager.setUb_cutOff_le (tm : ParTreeManager Mod) (v : ℚ)
    (hc : tm.cutOff_ ≠ Dbl.nan) :
    Dbl.le (setUb tm (Dbl.fin v)).cutOff_ (setUb tm (Dbl.fin v)).bestUpperBound_ = true := by
  unfold setUb
  cases h : tm.cutOff_ with
  | nan => exact absurd h hc
  | ninf => simp [h, Dbl.lt, Dbl.le]
  | pinf => simp [h, Dbl.lt, Dbl.le]
  | fin c =>
    by_cases hv : v < c
    · simp [h, Dbl.lt, Dbl.le, hv]
    · simp [h, Dbl.lt, Dbl.le, hv, not_lt.mp hv]

/-- Claim C21 (pruning is monotone in the lower bound). For every manager state with a
finite incumbent `ub`, a tolerance above zero and a cutoff at most the incumbent, and for
all lower bounds `lb <= lb'` (compared as `double` values): if the condition of
`shouldPrune_` holds for `lb` then it holds for `lb'`. Hence for two nodes of the tree
whose lower bounds are so ordered, when `shouldPrune_` returns true on the first it
returns true on the second, in the same state and in the state left by the first call. -/
theorem ParTreeManager.shouldPrune_monotone (tm : ParTreeManager Mod) (ub : ℚ)
    (hub : tm.bestUpperBound_ = Dbl.fin ub) (heps : Dbl.gt tm.etol_ (Dbl.fin 0) = true)
    (hcut : Dbl.le tm.cutOff_ tm.bestUpperBound_ = true) :
    (∀ lb lb' : Dbl, Dbl.le lb lb' = true →
      pruneTest tm.cutOff_ tm.bestUpperBound_ tm.etol_ lb = true →
      pruneTest tm.cutOff_ tm.bestUpperBound_ tm.etol_ lb' = true) ∧
    (∀ (node node' : NodePtr) (nd nd' : Node Mod), tm.store[node]? = some nd →
      tm.store[node']? = some nd' → Dbl.le nd.lb_ nd'.lb_ = true →
      ∀ tm1 : ParTreeManager Mod, shouldPrune_ tm node = Except.ok (tm1, true) →
        (∃ tm2 : ParTreeManager Mod, shouldPrune_ tm node' = Except.ok (tm2, true)) ∧
        (∃ tm2 : ParTreeManager Mod, shouldPrune_ tm1 node' = Except.ok (tm2, true))) := by
  have hmono : ∀ lb lb' : Dbl, Dbl.le lb lb' = true →
      pruneTest tm.cutOff_ tm.bestUpperBound_ tm.etol_ lb = true →
      pruneTest tm.cutOff_ tm.bestUpperBound_ tm.etol_ lb' = true := by
    intro lb lb' hl h
    rw [hub] at hcut h ⊢
    exact pruneTest_mono _ _ _ _ ub heps hcut hl h
  refine ⟨hmono, ?_⟩
  intro node node' nd nd' hn hn' hl tm1 hrun
  rw [shouldPrune_eq tm node nd hn] at hrun
  by_cases ht : pruneTest tm.cutOff_ tm.bestUpperBound_ tm.etol_ nd.lb_ = true
  · have ht' := hmono _ _ hl ht
    rw [if_pos ht] at hrun
    have h1 : tm1 = { tm with store :=
        (tm.store.set node { nd with status_ := NodeStatus.NodeHitUb }) } :=
      (congrArg Prod.fst (Except.ok.inj hrun)).symm
    constructor
    · rw [shouldPrune_eq tm node' nd' hn', if_pos ht']
      exact ⟨_, rfl⟩
    · subst h1
      by_cases hsame : node = node'
      · subst hsame
        have hlt : node < tm.store.length := (List.getElem?_eq_some_iff.mp hn).1
        have hnd : nd' = nd := Option.some.inj (hn'.symm.trans hn)
        subst hnd
        rw [shouldPrune_eq _ node { nd' with status_ := NodeStatus.NodeHitUb }
          (List.getElem?_set_self hlt), if_pos ht']
        exact ⟨_, rfl⟩
      · rw [shouldPrune_eq _ node' nd'
          ((List.getElem?_set_ne hsame).trans hn'), if_pos ht']
        exact ⟨_, rfl⟩
  · rw [if_neg ht] at hrun
    exact absurd (congrArg Prod.snd (Except.ok.inj hrun)) (by simp)

theorem ParTreeManager.monotoneManager_bound : Dbl.gt (Dbl.fin (1000 - 1 / 200000))
      (Dbl.sub (Dbl.fin 1000) (Dbl.fin etolDefault)) = false := by
  unfold Dbl.gt Dbl.sub Dbl.add
  rw [Dbl.toDouble_neg, toDouble_etolDefault, Dbl.toDouble_fin_of_round Dbl.round_thousand]
  obtain ⟨r, hr, h1, -⟩ := Dbl.round_between (q := 1000 + -etolDefault)
    (a := 262143999 / 262144) (b := 1000)
    (Dbl.round_dyadic_eq _ 262143999 (-18) (by norm_num) (by norm_num) (by norm_num)
      (by rw [abs_lt]; norm_num))
    Dbl.round_thousand
    (by unfold etolDefault; norm_num) (by unfold etolDefault; norm_num)
  show Dbl.lt (Dbl.round (1000 + -etolDefault)) _ = false
  rw [hr]
  simp only [Dbl.lt, decide_eq_false_iff_not, not_lt]
  exact le_trans (by norm_num) h1

theorem ParTreeManager.monotoneManager_gap : pruneTest (Dbl.fin 1000) (Dbl.fin 1000) (Dbl.fin etolDefault)
    (Dbl.fin (1000 - 1 / 200000)) = true := by
  rw [pruneTest_eq, Bool.or_eq_true]
  right
  rw [toDouble_etolDefault, Dbl.toDouble_fin_of_round Dbl.round_thousand]
  obtain ⟨l0, hl0, l1, l2⟩ := Dbl.toDouble_between (q := 1000 - 1 / 200000)
    (a := 524287997 / 524288) (b := 1048575995 / 1048576)
    (Dbl.round_dyadic_eq _ 524287997 (-19) (by norm_num) (by norm_num) (by norm_num)
      (by rw [abs_lt]; norm_num))
    (Dbl.round_dyadic_eq _ 1048575995 (-20) (by norm_num) (by norm_num) (by norm_num)
      (by rw [abs_lt]; norm_num))
    (by norm_num) (by norm_num)
  rw [hl0]
  obtain ⟨x, hx, x1, x2⟩ := Dbl.round_between (q := 1000 + -l0)
    (a := 5 / 1048576) (b := 3 / 524288)
    (Dbl.round_dyadic_eq _ 5 (-20) (by norm_num) (by norm_num) (by norm_num)
      (by rw [abs_lt]; norm_num))
    (Dbl.round_dyadic_eq _ 3 (-19) (by norm_num) (by norm_num) (by norm_num)
      (by rw [abs_lt]; norm_num))
    (by linarith) (by linarith)
  have hX : Dbl.addDouble (Dbl.fin 1000) (Dbl.neg (Dbl.fin l0)) = Dbl.fin x := hx
  rw [hX]
  obtain ⟨d, hd, d1, d2⟩ := Dbl.round_between (q := |1000| + etolDefault)
    (a := 1000) (b := 1001) Dbl.round_thousand
    (by simpa using Dbl.round_natCast 1001 (by norm_num))
    (by rw [abs_of_pos (by norm_num)]; unfold etolDefault; norm_num)
    (by rw [abs_of_pos (by norm_num)]; unfold etolDefault; norm_num)
  have hD : Dbl.addDouble (Dbl.fabs (Dbl.fin 1000)) (Dbl.fin etolDefault) = Dbl.fin d := hd
  rw [hD]
  have hx0 : 0 < x := lt_of_lt_of_le (by norm_num) x1
  have hd0 : d ≠ 0 := by intro e; rw [e] at d1; norm_num at d1
  have hdpos : 0 < d := lt_of_lt_of_le (by norm_num) d1
  obtain ⟨q, hq, q1, q2⟩ := Dbl.round_between (q := |x| / d)
    (a := 0) (b := 1 / 134217728) Dbl.round_zero
    (Dbl.round_dyadic_eq _ 1 (-27) (by norm_num) (by norm_num) (by norm_num)
      (by rw [abs_lt]; norm_num))
    (by positivity)
    (by
      rw [abs_of_pos hx0, div_le_iff₀ hdpos]
      calc x ≤ 3 / 524288 := x2
        _ ≤ 1 / 134217728 * 1000 := by norm_num
        _ ≤ 1 / 134217728 * d := by
          apply mul_le_mul_of_nonneg_left d1 (by norm_num))
  have hQ : Dbl.divDouble (Dbl.fabs (Dbl.fin x)) (Dbl.fin d) = Dbl.fin q := by
    simp only [Dbl.fabs, Dbl.divDouble, hd0, if_false]
    exact hq
  rw [hQ]
  obtain ⟨g, hg, -, g2⟩ := Dbl.round_between (q := q * 100)
    (a := 0) (b := 25 / 33554432) Dbl.round_zero
    (Dbl.round_dyadic_eq _ 25 (-25) (by norm_num) (by norm_num) (by norm_num)
      (by rw [abs_lt]; norm_num))
    (by positivity) (by linarith)
  have hG : Dbl.mulDouble (Dbl.fin q) (Dbl.fin 100) = Dbl.fin g := hg
  rw [hG]
  simp only [Dbl.lt, decide_eq_true_eq]
  refine lt_of_le_of_lt g2 ?_
  unfold etolDefault
  norm_num

/-- Witness of C21: after `setUb` with the value 1000 the cutoff equals the incumbent; the
lower bound `1000 - 5e-6` passes the test (by the relative gap only), so the larger
lower bound 1001 passes it too, and `shouldPrune_` returns true on both nodes. -/
theorem ParTreeManager.shouldPrune_monotone_witness :
    monotoneManager.bestUpperBound_ = Dbl.fin 1000 ∧
    Dbl.gt monotoneManager.etol_ (Dbl.fin 0) = true ∧
    Dbl.le monotoneManager.cutOff_ monotoneManager.bestUpperBound_ = true ∧
    Dbl.le (Dbl.fin (1000 - 1 / 200000)) (Dbl.fin 1001) = true ∧
    Dbl.gt (Dbl.fin (1000 - 1 / 200000))
      (Dbl.sub monotoneManager.cutOff_ monotoneManager.etol_) = false ∧
    pruneTest monotoneManager.cutOff_ monotoneManager.bestUpperBound_ monotoneManager.etol_
      (Dbl.fin (1000 - 1 / 200000)) = true ∧
    pruneTest monotoneManager.cutOff_ monotoneManager.bestUpperBound_ monotoneManager.etol_
      (Dbl.fin 1001) = true ∧
    (∃ tm2 : ParTreeManager Int, shouldPrune_ monotoneManager 1 = Except.ok (tm2, true)) := by
  have heps : Dbl.gt monotoneManager.etol_ (Dbl.fin 0) = true := by
    show Dbl.gt (Dbl.fin etolDefault) (Dbl.fin 0) = true
    simp [Dbl.gt, Dbl.lt, etolDefault_pos]
  have hcut : Dbl.le monotoneManager.cutOff_ monotoneManager.bestUpperBound_ = true :=
    setUb_cutOff_le _ 1000 (by simp [boundsManager])
  have hle : Dbl.le (Dbl.fin (1000 - 1 / 200000)) (Dbl.fin 1001) = true := by
    simp [Dbl.le]; norm_num
  have hgt : Dbl.gt (Dbl.fin (1000 - 1 / 200000))
      (Dbl.sub monotoneManager.cutOff_ monotoneManager.etol_) = false :=
    monotoneManager_bound
  have ht : pruneTest monotoneManager.cutOff_ monotoneManager.bestUpperBound_
      monotoneManager.etol_ (Dbl.fin (1000 - 1 / 200000)) = true :=
    monotoneManager_gap
  have hrun : shouldPrune_ monotoneManager 0 = Except.ok
      ({ monotoneManager with store :=
          (monotoneManager.store.set 0
            { nodeWithLb (Dbl.fin (1000 - 1 / 200000)) with
              status_ := NodeStatus.NodeHitUb }) }, true) := by
    rw [shouldPrune_eq monotoneManager 0 (nodeWithLb (Dbl.fin (1000 - 1 / 200000))) rfl]
    exact congrArg Except.ok (if_pos ht)
  have h := shouldPrune_monotone monotoneManager 1000 rfl heps hcut
  exact ⟨rfl, heps, hcut, hle, hgt, ht, h.1 _ _ hle ht,
    (h.2 0 1 (nodeWithLb (Dbl.fin (1000 - 1 / 200000))) (nodeWithLb (Dbl.fin 1001)) rfl rfl
      hle _ hrun).1⟩

end Monotone

/-! ## Theorems: the tie-break score in `double` arithmetic -/

section Scores

variable {Mod : Type}

open ParTreeManager

theorem Dbl.toDouble_natCast (n : ℕ) (h : n < 2 ^ 53) :
    Dbl.toDouble (Dbl.fin (n : ℚ)) = Dbl.fin (n : ℚ) :=
  Dbl.toDouble_fin_of_round (Dbl.round_natCast n h)

/-- The value of `round` at a number that lies halfway between two multiples of the unit
in the last place, the lower of which, `n`, is even. -/
theorem Dbl.round_tie_even (q : ℚ) (e n : ℤ) (h1 : 2 ^ e ≤ |q|) (h2 : |q| < 2 ^ (e + 1))
    (he : -1022 ≤ e) (hx : q / 2 ^ (e - 52) = (n : ℚ) + 1 / 2) (hn : n % 2 = 0)
    (hfin : |(n : ℚ) * 2 ^ (e - 52)| < 2 ^ 1024) :
    Dbl.round q = Dbl.fin ((n : ℚ) * 2 ^ (e - 52)) := by
  have hnr : Dbl.nearest q = (n : ℚ) * 2 ^ (e - 52) := by
    unfold Dbl.nearest
    rw [Dbl.ulpExp_eq q e h1 h2 he, hx, Dbl.roundHalfEven_tie_down n hn]
  unfold Dbl.round
  rw [hnr]
  rw [abs_lt] at hfin
  rw [if_neg (not_le.mpr hfin.2), if_neg (not_le.mpr hfin.1)]

theorem ParTreeManager.newTbScore_twoChild (k : ℕ) (hk : k < 2 ^ 52) (pop_now : Bool)
    (id : Nat) :
    newTbScore "twoChild" pop_now (Dbl.fin (k : ℚ)) id
      = Dbl.fin (if pop_now = true then 2 * (k : ℚ) else 2 * (k : ℚ) + 1) := by
  have h2 : Dbl.toDouble (Dbl.fin 2) = Dbl.fin 2 := by
    simpa using Dbl.toDouble_natCast 2 (by norm_num)
  have h1 : Dbl.toDouble (Dbl.fin 1) = Dbl.fin 1 := by
    simpa using Dbl.toDouble_natCast 1 (by norm_num)
  have hk' : Dbl.toDouble (Dbl.fin (k : ℚ)) = Dbl.fin (k : ℚ) :=
    Dbl.toDouble_natCast k (by omega)
  have hm : Dbl.mul (Dbl.fin 2) (Dbl.fin (k : ℚ)) = Dbl.fin (2 * (k : ℚ)) := by
    unfold Dbl.mul
    rw [h2, hk']
    have := Dbl.round_natCast (2 * k) (by omega)
    push_cast at this
    exact this
  unfold newTbScore
  rw [if_pos rfl]
  cases pop_now
  · simp only [Bool.false_eq_true, if_false]
    rw [hm]
    unfold Dbl.add
    rw [h1]
    have ht : Dbl.toDouble (Dbl.fin (2 * (k : ℚ))) = Dbl.fin (2 * (k : ℚ)) := by
      have := Dbl.toDouble_natCast (2 * k) (by omega)
      push_cast at this
      exact this
    rw [ht]
    have := Dbl.round_natCast (2 * k + 1) (by omega)
    push_cast at this
    exact this
  · simp only [if_true]
    exact hm

/-- At the score `2 ^ 52` the sum `2 * s + 1` lies halfway between two binary64 numbers
and rounds to `2 * s`: both children get the score `2 ^ 53`. -/
theorem ParTreeManager.newTbScore_tie (pop_now : Bool) (id : Nat) :
    newTbScore "twoChild" pop_now (Dbl.fin 4503599627370496) id
      = Dbl.fin 9007199254740992 := by
  have h2 : Dbl.toDouble (Dbl.fin 2) = Dbl.fin 2 := by
    simpa using Dbl.toDouble_natCast 2 (by norm_num)
  have h1 : Dbl.toDouble (Dbl.fin 1) = Dbl.fin 1 := by
    simpa using Dbl.toDouble_natCast 1 (by norm_num)
  have hs : Dbl.toDouble (Dbl.fin 4503599627370496) = Dbl.fin 4503599627370496 := by
    simpa using Dbl.toDouble_natCast 4503599627370496 (by norm_num)
  have hd : Dbl.round 9007199254740992 = Dbl.fin 9007199254740992 :=
    Dbl.round_dyadic_eq _ 1 53 (by norm_num) (by norm_num) (by norm_num)
      (by rw [abs_lt]; norm_num)
  have hm : Dbl.mul (Dbl.fin 2) (Dbl.fin 4503599627370496) = Dbl.fin 9007199254740992 := by
    unfold Dbl.mul
    rw [h2, hs]
    show Dbl.round (2 * 4503599627370496) = _
    rw [show (2 : ℚ) * 4503599627370496 = 9007199254740992 by norm_num]
    exact hd
  unfold newTbScore
  rw [if_pos rfl]
  cases pop_now
  · simp only [Bool.false_eq_true, if_false]
    rw [hm]
    unfold Dbl.add
    rw [h1, Dbl.toDouble_fin_of_round hd]
    show Dbl.round (9007199254740992 + 1) = _
    have := Dbl.round_tie_even (9007199254740992 + 1) 53 4503599627370496
      (by rw [abs_of_pos (by norm_num)]; norm_num)
      (by rw [abs_of_pos (by norm_num)]; norm_num) (by norm_num)
      (by norm_num) (by norm_num) (by rw [abs_lt]; norm_num)
    rw [this]
    norm_num
  · simp only [if_true]
    exact hm

/-- Claim C11 fails as stated: under rule "twoChild", below a node of score
`s = 2 ^ 52`, the deferred node inserted by `insertCandidate_` gets the score
`2 ^ 53 = 2 * s`, not `2 * s + 1`, which is no `double`; it is the score that the node
gets when it is dived into. -/
theorem ParTreeManager.tbScore_rounds :
    (match insertCandidate_ deepScoreManager 1 false with
      | Except.ok tm => (tm.store[1]?).map (fun nd => nd.tbScore_)
      | Except.error _ => none) = some (Dbl.fin 9007199254740992) ∧
    (match insertCandidate_ deepScoreManager 1 true with
      | Except.ok tm => (tm.store[1]?).map (fun nd => nd.tbScore_)
      | Except.error _ => none) = some (Dbl.fin 9007199254740992) ∧
    (deepScoreManager.store[0]?).map (fun nd => nd.tbScore_)
      = some (Dbl.fin 4503599627370496) ∧
    Dbl.fin 9007199254740992 ≠ Dbl.fin (2 * 4503599627370496 + 1) := by
  have hs : ∀ pop_now : Bool,
      newTbScore deepScoreManager.tbRule_ pop_now
        ({ treeNode 0 none [1] with tbScore_ := Dbl.fin 4503599627370496 } : Node Int).tbScore_
        deepScoreManager.size_ = Dbl.fin 9007199254740992 :=
    fun pop_now => newTbScore_tie pop_now 1
  refine ⟨?_, ?_, rfl, ?_⟩
  · rw [insertCandidate_eq deepScoreManager 1 0 false (treeNode 0 (some 0) [])
      { treeNode 0 none [1] with tbScore_ := Dbl.fin 4503599627370496 }
      (by decide) rfl rfl rfl, hs]
    rfl
  · rw [insertCandidate_eq deepScoreManager 1 0 true (treeNode 0 (some 0) [])
      { treeNode 0 none [1] with tbScore_ := Dbl.fin 4503599627370496 }
      (by decide) rfl rfl rfl, hs]
    rfl
  · intro h
    have := Dbl.fin.inj h
    norm_num at this

/-- Claim C11, amended (tie-break score assignment). For every call
`insertCandidate_(node, pop_now)` in a state with `size_ > 0` on a node whose parent has
score `s`: the call returns, and afterwards the node has the identifier `size_` of
before the call and a score that is, under rule "twoChild", `2*s` when `pop_now` is true
and `2*s + 1` when it is false, computed in `double` arithmetic: these are the numbers
`2 s` and `2 s + 1` whenever `s` is a whole number below `2 ^ 52`; under rule "FIFO",
the identifier it was just assigned; and under every other rule, `s`. -/
theorem ParTreeManager.insertCandidate_tbScore (tm : ParTreeManager Mod) (node p : NodePtr)
    (pop_now : Bool) (nd pn : Node Mod) (hsize : 0 < tm.size_)
    (hnd : tm.store[node]? = some nd) (hp : nd.parent_ = some p)
    (hpn : tm.store[p]? = some pn) :
    ∃ tm' nd', insertCandidate_ tm node pop_now = Except.ok tm' ∧
      tm'.store[node]? = some nd' ∧ nd'.id_ = tm.size_ ∧
      (tm.tbRule_ = "twoChild" → pop_now = true →
        nd'.tbScore_ = Dbl.mul (Dbl.fin 2) pn.tbScore_) ∧
      (tm.tbRule_ = "twoChild" → pop_now = false →
        nd'.tbScore_ = Dbl.add (Dbl.mul (Dbl.fin 2) pn.tbScore_) (Dbl.fin 1)) ∧
      (∀ k : ℕ, k < 2 ^ 52 → pn.tbScore_ = Dbl.fin (k : ℚ) → tm.tbRule_ = "twoChild" →
        nd'.tbScore_ = Dbl.fin (if pop_now = true then 2 * (k : ℚ) else 2 * (k : ℚ) + 1)) ∧
      (tm.tbRule_ = "FIFO" → nd'.tbScore_ = Dbl.ofUInt nd'.id_) ∧
      (tm.tbRule_ ≠ "twoChild" → tm.tbRule_ ≠ "FIFO" → nd'.tbScore_ = pn.tbScore_) := by
  have hlt : node < tm.store.length := Store.lt_length_of_get hnd
  have heq := insertCandidate_eq tm node p pop_now nd pn hsize hnd hp hpn
  have hget : (tm.store.set node { nd with
      id_ := tm.size_, depth_ := uintSucc pn.depth_,
      tbScore_ := newTbScore tm.tbRule_ pop_now pn.tbScore_ tm.size_ })[node]? =
      some { nd with
        id_ := tm.size_, depth_ := uintSucc pn.depth_,
        tbScore_ := newTbScore tm.tbRule_ pop_now pn.tbScore_ tm.size_ } := by
    simp [List.getElem?_set_self, hlt]
  have hscore :
      (tm.tbRule_ = "twoChild" → pop_now = true →
        newTbScore tm.tbRule_ pop_now pn.tbScore_ tm.size_
          = Dbl.mul (Dbl.fin 2) pn.tbScore_) ∧
      (tm.tbRule_ = "twoChild" → pop_now = false →
        newTbScore tm.tbRule_ pop_now pn.tbScore_ tm.size_
          = Dbl.add (Dbl.mul (Dbl.fin 2) pn.tbScore_) (Dbl.fin 1)) ∧
      (∀ k : ℕ, k < 2 ^ 52 → pn.tbScore_ = Dbl.fin (k : ℚ) → tm.tbRule_ = "twoChild" →
        newTbScore tm.tbRule_ pop_now pn.tbScore_ tm.size_
          = Dbl.fin (if pop_now = true then 2 * (k : ℚ) else 2 * (k : ℚ) + 1)) ∧
      (tm.tbRule_ = "FIFO" →
        newTbScore tm.tbRule_ pop_now pn.tbScore_ tm.size_ = Dbl.ofUInt tm.size_) ∧
      (tm.tbRule_ ≠ "twoChild" → tm.tbRule_ ≠ "FIFO" →
        newTbScore tm.tbRule_ pop_now pn.tbScore_ tm.size_ = pn.tbScore_) := by
    refine ⟨fun h1 h2 => by simp [newTbScore, h1, h2], fun h1 h2 => by
      simp [newTbScore, h1, h2], fun k hk hs h1 => ?_, fun h1 => ?_, fun h1 h2 => by
      simp [newTbScore, h1, h2]⟩
    · rw [h1, hs]
      exact newTbScore_twoChild k hk pop_now tm.size_
    · have h2 : ¬ tm.tbRule_ = "twoChild" := by rw [h1]; decide
      simp [newTbScore, h1, h2]
  cases hpop : pop_now
  · rw [hpop] at heq hget hscore
    rw [push_eq _ node _ hget] at heq
    simp only [Bool.false_eq_true, if_false] at heq
    exact ⟨_, _, heq, hget, rfl, hscore⟩
  · rw [hpop] at heq hget hscore
    simp only [if_true] at heq
    exact ⟨_, _, heq, hget, rfl, hscore⟩

/-- Witness of C11: under rule "twoChild", below a root with score 3, a deferred node
is given the identifier 1 and the score 7. -/
theorem ParTreeManager.insertCandidate_tbScore_witness :
    ∃ tm' nd', insertCandidate_ (scoreManager "twoChild") 1 false = Except.ok tm' ∧
      tm'.store[1]? = some nd' ∧ nd'.id_ = 1 ∧ nd'.tbScore_ = Dbl.fin 7 := by
  obtain ⟨tm', nd', h1, h2, h3, -, -, h6, -, -⟩ :=
    insertCandidate_tbScore (scoreManager "twoChild") 1 0 false
      (treeNode 0 (some 0) []) { treeNode 0 none [1] with tbScore_ := Dbl.fin 3 }
      (by decide) rfl rfl rfl
  refine ⟨tm', nd', h1, h2, h3, ?_⟩
  rw [h6 3 (by norm_num) (by
    show Dbl.fin 3 = Dbl.fin ((3 : ℕ) : ℚ)
    norm_num) rfl]
  norm_num

end Scores

/-! ## Theorems: the pruning test in `double` arithmetic -/

section PruningTest

variable {Mod : Type}

open ParTreeManager

theorem Dbl.gt_sub (l c e : Dbl) :
    Dbl.gt l (Dbl.sub c e)
      = Dbl.lt (Dbl.addDouble (Dbl.toDouble c) (Dbl.neg (Dbl.toDouble e))) l := by
  unfold Dbl.gt Dbl.sub Dbl.add
  rw [Dbl.toDouble_neg]

/-- The difference `1e11 - 1e-6` rounds to `1e11`: the tolerance is less than half a unit
in the last place of the cutoff. -/
theorem Dbl.round_absorbs_etol :
    Dbl.round (100000000000 + -etolDefault) = Dbl.fin 100000000000 := by
  have := Dbl.round_eq_of_near (100000000000 + -etolDefault) 36 6553600000000000
    (by rw [abs_of_pos (by unfold etolDefault; norm_num)]; unfold etolDefault; norm_num)
    (by rw [abs_of_pos (by unfold etolDefault; norm_num)]; unfold etolDefault; norm_num)
    (by norm_num)
    (by rw [abs_lt]; unfold etolDefault; norm_num) (by rw [abs_lt]; norm_num)
  rw [this]
  norm_num

/-- Claim C8 fails as stated: with cutoff `1e11`, incumbent `2e11` and a node whose
lower bound is `1e11`, `lb > cutOff - eps` holds of the numbers, but `shouldPrune_`
returns false and changes nothing: in `double` the difference `cutOff - eps` is
`cutOff`. -/
theorem ParTreeManager.shouldPrune_absorbs_eps :
    shouldPrune_ (boundsManager (Dbl.fin 200000000000) (Dbl.fin 100000000000)
        [nodeWithLb (Dbl.fin 100000000000)]) 0
      = Except.ok (boundsManager (Dbl.fin 200000000000) (Dbl.fin 100000000000)
          [nodeWithLb (Dbl.fin 100000000000)], false) ∧
    (100000000000 : ℚ) > 100000000000 - etolDefault ∧
    (100000000000 : ℚ) > 100000000000 - 1 / 1000000 := by
  have ha : Dbl.toDouble (Dbl.fin 100000000000) = Dbl.fin 100000000000 := by
    simpa using Dbl.toDouble_natCast 100000000000 (by norm_num)
  have hb : Dbl.toDouble (Dbl.fin 200000000000) = Dbl.fin 200000000000 := by
    simpa using Dbl.toDouble_natCast 200000000000 (by norm_num)
  have hp : pruneTest (Dbl.fin 100000000000) (Dbl.fin 200000000000) (Dbl.fin etolDefault)
      (Dbl.fin 100000000000) = false := by
    rw [pruneTest_eq, Bool.or_eq_false_iff, toDouble_etolDefault, ha, hb]
    constructor
    · have h1 : Dbl.addDouble (Dbl.fin 100000000000) (Dbl.neg (Dbl.fin etolDefault))
          = Dbl.fin 100000000000 := Dbl.round_absorbs_etol
      rw [h1]
      simp [Dbl.lt]
    · have h2 : Dbl.addDouble (Dbl.fin 200000000000) (Dbl.neg (Dbl.fin 100000000000))
          = Dbl.fin 100000000000 := by
        show Dbl.round (200000000000 + -100000000000) = _
        rw [show (200000000000 : ℚ) + -100000000000 = ((100000000000 : ℕ) : ℚ) by norm_num,
          Dbl.round_natCast 100000000000 (by norm_num)]
        norm_num
      rw [h2]
      obtain ⟨d, hd, d1, d2⟩ := Dbl.round_between (q := |200000000000| + etolDefault)
        (a := 200000000000) (b := 200000000001)
        (by simpa using Dbl.round_natCast 200000000000 (by norm_num))
        (by simpa using Dbl.round_natCast 200000000001 (by norm_num))
        (by rw [abs_of_pos (by norm_num)]; unfold etolDefault; norm_num)
        (by rw [abs_of_pos (by norm_num)]; unfold etolDefault; norm_num)
      have hD : Dbl.addDouble (Dbl.fabs (Dbl.fin 200000000000)) (Dbl.fin etolDefault)
          = Dbl.fin d := hd
      rw [hD]
      have hdpos : 0 < d := lt_of_lt_of_le (by norm_num) d1
      have hd0 : d ≠ 0 := ne_of_gt hdpos
      obtain ⟨q, hq, q1, q2⟩ := Dbl.round_between (q := |100000000000| / d)
        (a := 1 / 4) (b := 1)
        (Dbl.round_dyadic_eq _ 1 (-2) (by norm_num) (by norm_num) (by norm_num)
          (by rw [abs_lt]; norm_num))
        (Dbl.round_dyadic_eq _ 1 0 (by norm_num) (by norm_num) (by norm_num)
          (by rw [abs_lt]; norm_num))
        (by
          rw [abs_of_pos (by norm_num), le_div_iff₀ hdpos]
          linarith)
        (by
          rw [abs_of_pos (by norm_num), div_le_iff₀ hdpos]
          linarith)
      have hQ : Dbl.divDouble (Dbl.fabs (Dbl.fin 100000000000)) (Dbl.fin d) = Dbl.fin q := by
        simp only [Dbl.fabs, Dbl.divDouble, hd0, if_false]
        exact hq
      rw [hQ]
      obtain ⟨g, hg, g1, -⟩ := Dbl.round_between (q := q * 100)
        (a := 25) (b := 100)
        (by simpa using Dbl.round_natCast 25 (by norm_num))
        (by simpa using Dbl.round_natCast 100 (by norm_num))
        (by linarith) (by linarith)
      have hG : Dbl.mulDouble (Dbl.fin q) (Dbl.fin 100) = Dbl.fin g := hg
      rw [hG]
      simp only [Dbl.lt, decide_eq_false_iff_not, not_lt]
      refine le_trans ?_ g1
      unfold etolDefault
      norm_num
  have hp' : pruneTest
      (boundsManager (Dbl.fin 200000000000) (Dbl.fin 100000000000)
        [nodeWithLb (Dbl.fin 100000000000)]).cutOff_
      (boundsManager (Dbl.fin 200000000000) (Dbl.fin 100000000000)
        [nodeWithLb (Dbl.fin 100000000000)]).bestUpperBound_
      (boundsManager (Dbl.fin 200000000000) (Dbl.fin 100000000000)
        [nodeWithLb (Dbl.fin 100000000000)]).etol_
      (nodeWithLb (Dbl.fin 100000000000) : Node Int).lb_ = false := hp
  refine ⟨?_, ?_, ?_⟩
  · rw [shouldPrune_eq (boundsManager (Dbl.fin 200000000000) (Dbl.fin 100000000000)
      [nodeWithLb (Dbl.fin 100000000000)]) 0 (nodeWithLb (Dbl.fin 100000000000)) rfl, hp']
    rfl
  · unfold etolDefault; norm_num
  · norm_num

/-- Claim C8, amended (pruning test). For every node (at address `node`, with lower
bound `nd.lb_`) and every manager state with a finite incumbent `ub` and the tolerance
`eps` that the constructor stores, the `double` nearest to `1e-6`: `shouldPrune_`
returns true exactly when `lb > cutOff - eps` or
`|ub - lb| / (|ub| + eps) * 100 < eps` holds with every difference, sum, quotient and
product rounded to `double`; when it returns true the only change is that the status of
the node becomes `NodeHitUb`, and when it returns false nothing changes. For numbers
`lb` and `cutOff` of the type `double`, the rounded test `lb > cutOff - eps` holds
whenever `lb > cutOff`, and then the node is pruned, and it fails whenever
`lb <= cutOff - eps` holds of the numbers; between the two it depends on the rounding of
`cutOff - eps`. -/
theorem ParTreeManager.shouldPrune_spec (tm : ParTreeManager Mod) (node : NodePtr)
    (nd : Node Mod) (ub : ℚ) (hnode : tm.store[node]? = some nd)
    (hub : tm.bestUpperBound_ = Dbl.fin ub) (hetol : tm.etol_ = Dbl.fin etolDefault) :
    (shouldPrune_ tm node
      = Except.ok
        (if Dbl.gt nd.lb_ (Dbl.sub tm.cutOff_ (Dbl.fin etolDefault)) = true ∨
            Dbl.lt (Dbl.mul (Dbl.div (Dbl.fabs (Dbl.sub (Dbl.fin ub) nd.lb_))
              (Dbl.add (Dbl.fabs (Dbl.fin ub)) (Dbl.fin etolDefault))) (Dbl.fin 100))
              (Dbl.fin etolDefault) = true then
          ({ tm with store := tm.store.set node { nd with status_ := NodeStatus.NodeHitUb } },
            true)
        else (tm, false))) ∧
    (∀ lb cutOff : ℚ, nd.lb_ = Dbl.fin lb → tm.cutOff_ = Dbl.fin cutOff →
      Dbl.toDouble (Dbl.fin cutOff) = Dbl.fin cutOff →
      (cutOff < lb →
        Dbl.gt nd.lb_ (Dbl.sub tm.cutOff_ (Dbl.fin etolDefault)) = true ∧
        shouldPrune_ tm node = Except.ok
          ({ tm with store := tm.store.set node { nd with status_ := NodeStatus.NodeHitUb } },
            true)) ∧
      (Dbl.toDouble (Dbl.fin lb) = Dbl.fin lb → lb ≤ cutOff - etolDefault →
        Dbl.gt nd.lb_ (Dbl.sub tm.cutOff_ (Dbl.fin etolDefault)) = false)) := by
  have hform : shouldPrune_ tm node
      = Except.ok
        (if Dbl.gt nd.lb_ (Dbl.sub tm.cutOff_ (Dbl.fin etolDefault)) = true ∨
            Dbl.lt (Dbl.mul (Dbl.div (Dbl.fabs (Dbl.sub (Dbl.fin ub) nd.lb_))
              (Dbl.add (Dbl.fabs (Dbl.fin ub)) (Dbl.fin etolDefault))) (Dbl.fin 100))
              (Dbl.fin etolDefault) = true then
          ({ tm with store := tm.store.set node { nd with status_ := NodeStatus.NodeHitUb } },
            true)
        else (tm, false)) := by
    rw [shouldPrune_eq tm node nd hnode, hub, hetol]
    simp only [pruneTest, Bool.or_eq_true]
  refine ⟨hform, ?_⟩
  intro lb cutOff hlb hc hcc
  constructor
  · intro hlt
    have hgt : Dbl.gt nd.lb_ (Dbl.sub tm.cutOff_ (Dbl.fin etolDefault)) = true := by
      rw [Dbl.gt_sub, hlb, hc, hcc, toDouble_etolDefault]
      have hle := Dbl.sub_le_self (Dbl.fin cutOff) (Dbl.fin etolDefault) cutOff
        (by simp [Dbl.le]) (by simpa [Dbl.le] using le_of_lt etolDefault_pos) hcc
      exact Dbl.le_lt_chain hle (by simpa [Dbl.lt] using hlt)
    refine ⟨hgt, ?_⟩
    rw [hform, if_pos (Or.inl hgt)]
  · intro hll hle
    rw [Dbl.gt_sub, hlb, hc, hcc, toDouble_etolDefault]
    have h1 : Dbl.le (Dbl.round lb) (Dbl.round (cutOff + -etolDefault)) = true :=
      Dbl.round_mono (by linarith)
    rw [Dbl.round_of_toDouble hll] at h1
    exact Dbl.not_lt_of_le h1

/-- Witness of C8: with incumbent 20 and cutoff 10, a node whose lower bound is the
`double` nearest to 10.1 is pruned and marked `NodeHitUb`; the `double` nearest to 9.9
fails the test `lb > cutOff - eps`. -/
theorem ParTreeManager.shouldPrune_spec_witness :
    Dbl.round (101 / 10) = Dbl.fin (5685794529555251 / 562949953421312) ∧
    shouldPrune_ (boundsManager (Dbl.fin 20) (Dbl.fin 10)
        [nodeWithLb (Dbl.fin (5685794529555251 / 562949953421312))]) 0
      = Except.ok
          (boundsManager (Dbl.fin 20) (Dbl.fin 10)
            [{ nodeWithLb (Dbl.fin (5685794529555251 / 562949953421312)) with
                status_ := NodeStatus.NodeHitUb }], true) ∧
    Dbl.round (99 / 10) = Dbl.fin (5573204538870989 / 562949953421312) ∧
    Dbl.gt (Dbl.fin (5573204538870989 / 562949953421312))
      (Dbl.sub (Dbl.fin 10) (Dbl.fin etolDefault)) = false := by
  have hten : Dbl.toDouble (Dbl.fin 10) = Dbl.fin 10 :=
    Dbl.toDouble_fin_of_round Dbl.round_ten
  refine ⟨?_, ?_, ?_, ?_⟩
  · have := Dbl.round_eq_of_near (101 / 10) 3 5685794529555251
      (by rw [abs_of_pos (by norm_num)]; norm_num)
      (by rw [abs_of_pos (by norm_num)]; norm_num) (by norm_num)
      (by rw [abs_lt]; norm_num) (by rw [abs_lt]; norm_num)
    rw [this]
    norm_num
  · have h := ((shouldPrune_spec
      (boundsManager (Dbl.fin 20) (Dbl.fin 10)
        [nodeWithLb (Dbl.fin (5685794529555251 / 562949953421312))]) 0
      (nodeWithLb (Dbl.fin (5685794529555251 / 562949953421312))) 20 rfl rfl rfl).2
      (5685794529555251 / 562949953421312) 10 rfl rfl hten).1 (by norm_num)
    rw [h.2]
    rfl
  · have := Dbl.round_eq_of_near (99 / 10) 3 5573204538870989
      (by rw [abs_of_pos (by norm_num)]; norm_num)
      (by rw [abs_of_pos (by norm_num)]; norm_num) (by norm_num)
      (by rw [abs_lt]; norm_num) (by rw [abs_lt]; norm_num)
    rw [this]
    norm_num
  · rw [Dbl.gt_sub, hten, toDouble_etolDefault]
    obtain ⟨r, hr, h1, -⟩ := Dbl.round_between (q := 10 + -etolDefault)
      (a := 5242879 / 524288) (b := 10)
      (Dbl.round_dyadic_eq _ 5242879 (-19) (by norm_num) (by norm_num) (by norm_num)
        (by rw [abs_lt]; norm_num))
      Dbl.round_ten
      (by unfold etolDefault; norm_num) (by unfold etolDefault; norm_num)
    show Dbl.lt (Dbl.round (10 + -etolDefault)) _ = false
    rw [hr]
    simp only [Dbl.lt, decide_eq_false_iff_not, not_lt]
    exact le_trans (by norm_num) h1

end PruningTest

/-! ## Theorems: the gap in `double` arithmetic -/

section Gap

variable {Mod : Type}

open ParTreeManager

/-- Rounding keeps a number between the roundings of two numbers that enclose it. -/
theorem Dbl.round_enclosed {q a b lo hi : ℚ} (hlo : Dbl.round a = Dbl.fin lo)
    (hhi : Dbl.round b = Dbl.fin hi) (h1 : a ≤ q) (h2 : q ≤ b) :
    ∃ r, Dbl.round q = Dbl.fin r ∧ lo ≤ r ∧ r ≤ hi := by
  have a1 := Dbl.round_mono h1
  have a2 := Dbl.round_mono h2
  rw [hlo] at a1
  rw [hhi] at a2
  cases hr : Dbl.round q with
  | nan => exact absurd hr (Dbl.round_ne_nan q)
  | ninf => rw [hr] at a1; simp [Dbl.le] at a1
  | pinf => rw [hr] at a2; simp [Dbl.le] at a2
  | fin r =>
    rw [hr] at a1 a2
    simp only [Dbl.le, decide_eq_true_eq] at a1 a2
    exact ⟨r, rfl, a1, a2⟩

/-- A number above `2 ^ 1024` rounds to the positive infinity. -/
theorem Dbl.round_overflow {q : ℚ} (h : 2 ^ 1024 ≤ q) : Dbl.round q = Dbl.pinf := by
  have e2 : Dbl.nearest ((2 : ℚ) ^ 1024) = 2 ^ 1024 := by
    have := Dbl.nearest_of_dyadic 1 1024 (by norm_num) (by norm_num)
    rwa [Int.cast_one, one_mul, zpow_ofNat] at this
  have := Dbl.nearest_mono h
  rw [e2] at this
  unfold Dbl.round
  rw [if_pos this]

/-- The largest binary64 number plus less than half a unit rounds to itself. -/
theorem Dbl.round_maxDouble_add {t : ℚ} (h0 : 0 ≤ t) (ht : t < 1 / 2) :
    Dbl.round (Dbl.maxDouble + t) = Dbl.fin Dbl.maxDouble := by
  have hx1 : (1 : ℚ) ≤ 2 ^ 971 := one_le_pow₀ (by norm_num)
  have e971 : (2 : ℚ) ^ (971 : ℤ) = 2 ^ 971 := zpow_ofNat 2 971
  have e1023 : (2 : ℚ) ^ (1023 : ℤ) = 2 ^ 52 * 2 ^ 971 := by rw [zpow_ofNat, ← pow_add]
  have e1024 : (2 : ℚ) ^ 1024 = 2 ^ 53 * 2 ^ 971 := by rw [← pow_add]
  have e1024z : (2 : ℚ) ^ ((1023 : ℤ) + 1) = 2 ^ 53 * 2 ^ 971 := by
    rw [show (1023 : ℤ) + 1 = 1024 by norm_num, zpow_ofNat, ← pow_add]
  have e52 : (1023 : ℤ) - 52 = 971 := by norm_num
  have hm : Dbl.maxDouble = (2 ^ 53 - 1) * 2 ^ 971 := by
    unfold Dbl.maxDouble
    rw [e1024]
    generalize (2 : ℚ) ^ 971 = x
    ring
  have hpos : 0 < Dbl.maxDouble + t := by
    have := Dbl.maxDouble_pos
    linarith
  have := Dbl.round_eq_of_near (Dbl.maxDouble + t) 1023 (2 ^ 53 - 1)
    (by
      rw [abs_of_pos hpos, e1023, hm]
      generalize (2 : ℚ) ^ 971 = x at hx1
      norm_num
      linarith)
    (by
      rw [abs_of_pos hpos, e1024z, hm]
      generalize (2 : ℚ) ^ 971 = x at hx1
      norm_num
      linarith)
    (by norm_num)
    (by
      rw [e52, e971, hm]
      generalize (2 : ℚ) ^ 971 = x at hx1
      have hx0 : 0 < x := by linarith
      have e : ((2 ^ 53 - 1) * x + t) / x - (((2 ^ 53 - 1 : ℤ)) : ℚ) = t / x := by
        push_cast
        field_simp
        ring
      rw [e, abs_of_nonneg (div_nonneg h0 hx0.le), div_lt_iff₀ hx0]
      linarith)
    (by
      rw [e52, ← Dbl.maxDouble_eq, abs_of_pos Dbl.maxDouble_pos]
      exact Dbl.maxDouble_lt)
  rw [this, e52, ← Dbl.maxDouble_eq]

theorem Dbl.abs_saturate_nearest_le (q : ℚ) :
    |Dbl.saturate (Dbl.nearest q)| ≤ Dbl.maxDouble := by
  have hp := Dbl.maxDouble_pos
  unfold Dbl.saturate
  by_cases h1 : (2 : ℚ) ^ 1024 ≤ Dbl.nearest q
  · rw [if_pos h1, abs_of_pos hp]
  · rw [if_neg h1]
    by_cases h2 : Dbl.nearest q ≤ -(2 : ℚ) ^ 1024
    · rw [if_pos h2, abs_neg, abs_of_pos hp]
    · rw [if_neg h2, abs_le]
      exact ⟨Dbl.neg_maxDouble_le_nearest (not_le.mp h2),
        Dbl.nearest_le_maxDouble (not_le.mp h1)⟩

/-- The denominator `|ub| + eps` of the gap is a positive number, never an infinity. -/
theorem ParTreeManager.gapDenominator (ub : ℚ) :
    ∃ d, Dbl.addDouble (Dbl.fabs (Dbl.toDouble (Dbl.fin ub))) (Dbl.fin etolDefault)
        = Dbl.fin d ∧ 0 < d := by
  have he : etolDefault < 1 / 2 := by unfold etolDefault; norm_num
  obtain ⟨r, hr, h1, -⟩ := Dbl.round_enclosed
    (q := |Dbl.saturate (Dbl.nearest ub)| + etolDefault) round_etolDefault
    (Dbl.round_maxDouble_add etolDefault_pos.le he)
    (by have := abs_nonneg (Dbl.saturate (Dbl.nearest ub)); linarith)
    (by have := Dbl.abs_saturate_nearest_le ub; linarith)
  exact ⟨r, hr, lt_of_lt_of_le etolDefault_pos h1⟩

theorem ParTreeManager.perGap_eq (u e l : Dbl) :
    perGap u e l =
      if Dbl.ge u Dbl.INFINITY = true then Dbl.INFINITY
      else if Dbl.lt (Dbl.fabs l) e = true then Dbl.fin 100
      else if Dbl.lt (Dbl.mulDouble (Dbl.divDouble
          (Dbl.addDouble (Dbl.toDouble u) (Dbl.neg (Dbl.toDouble l)))
          (Dbl.addDouble (Dbl.fabs (Dbl.toDouble u)) (Dbl.toDouble e))) (Dbl.fin 100))
          (Dbl.fin 0) = true then Dbl.fin 0
      else Dbl.mulDouble (Dbl.divDouble
          (Dbl.addDouble (Dbl.toDouble u) (Dbl.neg (Dbl.toDouble l)))
          (Dbl.addDouble (Dbl.fabs (Dbl.toDouble u)) (Dbl.toDouble e))) (Dbl.fin 100) := by
  have h100 : Dbl.toDouble (Dbl.fin 100) = Dbl.fin 100 :=
    Dbl.toDouble_fin_of_round
      (Dbl.round_dyadic_eq 100 100 0 (by norm_num) (by norm_num) (by norm_num)
        (by rw [abs_lt]; norm_num))
  unfold perGap Dbl.sub Dbl.add Dbl.mul Dbl.div
  simp only []
  rw [Dbl.toDouble_neg, Dbl.toDouble_fabs, Dbl.toDouble_addDouble, Dbl.toDouble_addDouble,
    Dbl.toDouble_divDouble, h100]

/-- The value `x / d * 100` for a positive number `d`: it is a number or an infinity,
and an infinity when `x` is one. -/
theorem ParTreeManager.gapValue_cases (x : Dbl) (d : ℚ) (hd : 0 < d) (hx : x ≠ Dbl.nan) :
    Dbl.mulDouble (Dbl.divDouble x (Dbl.fin d)) (Dbl.fin 100) ≠ Dbl.nan ∧
    (x = Dbl.pinf → Dbl.mulDouble (Dbl.divDouble x (Dbl.fin d)) (Dbl.fin 100) = Dbl.pinf) ∧
    (x = Dbl.ninf → Dbl.mulDouble (Dbl.divDouble x (Dbl.fin d)) (Dbl.fin 100) = Dbl.ninf) := by
  have hd0 : d ≠ 0 := ne_of_gt hd
  have h100 : ¬ ((100 : ℚ) = 0) := by norm_num
  have hpos : (0 : ℚ) < 100 := by norm_num
  have hneg : ¬ ((0 : ℚ) < -100) := by norm_num
  cases x with
  | nan => exact absurd rfl hx
  | pinf =>
    have e : Dbl.mulDouble (Dbl.divDouble Dbl.pinf (Dbl.fin d)) (Dbl.fin 100) = Dbl.pinf := by
      simp only [Dbl.divDouble, hd.le, if_true, Dbl.mulDouble, h100, if_false, Dbl.infOfSign,
        hpos]
    rw [e]
    simp
  | ninf =>
    have e : Dbl.mulDouble (Dbl.divDouble Dbl.ninf (Dbl.fin d)) (Dbl.fin 100) = Dbl.ninf := by
      simp only [Dbl.divDouble, hd.le, if_true, Dbl.mulDouble, h100, if_false, Dbl.infOfSign,
        hneg]
    rw [e]
    simp
  | fin a =>
    refine ⟨?_, fun h => absurd h (by simp), fun h => absurd h (by simp)⟩
    have e : Dbl.divDouble (Dbl.fin a) (Dbl.fin d) = Dbl.round (a / d) := by
      simp only [Dbl.divDouble, hd0, if_false]
    rw [e]
    rcases Dbl.round_cases (a / d) with h | h | h
    · rw [h.1]
      simp only [Dbl.mulDouble, h100, if_false, Dbl.infOfSign]
      split <;> simp
    · rw [h.1]
      simp only [Dbl.mulDouble, h100, if_false, Dbl.infOfSign]
      split <;> simp
    · rw [h.1]
      exact Dbl.round_ne_nan _

/-- The difference `ub - lb` for a number `ub`: not-a-number only when `lb` is. -/
theorem ParTreeManager.gapDifference_cases (s : ℚ) (l : Dbl) :
    (l ≠ Dbl.nan → Dbl.addDouble (Dbl.fin s) (Dbl.neg (Dbl.toDouble l)) ≠ Dbl.nan) ∧
    (l = Dbl.pinf → Dbl.addDouble (Dbl.fin s) (Dbl.neg (Dbl.toDouble l)) = Dbl.ninf) ∧
    (l = Dbl.ninf → Dbl.addDouble (Dbl.fin s) (Dbl.neg (Dbl.toDouble l)) = Dbl.pinf) := by
  refine ⟨fun hl => ?_, fun h => by rw [h]; rfl, fun h => by rw [h]; rfl⟩
  cases l with
  | nan => exact absurd rfl hl
  | pinf => exact fun h => by cases h
  | ninf => exact fun h => by cases h
  | fin a => exact Dbl.round_ne_nan _

/-- Claim C9 fails as stated: with `ub = 2 ^ 1023` and `lb = -2 ^ 1023`, where `|lb|` is
not below `eps`, the formula `max(0, (ub - lb) / (|ub| + eps) * 100)` has a value below
200, but `getPerGapPar(lb)` returns `INFINITY`: the difference `ub - lb` overflows. -/
theorem ParTreeManager.getPerGapPar_overflows :
    getPerGapPar (boundsManager (Dbl.fin (2 ^ 1023)) (Dbl.fin (2 ^ 1023)) [])
        (Dbl.fin (-(2 ^ 1023))) = Dbl.pinf ∧
    ¬ (|(-(2 ^ 1023) : ℚ)| < etolDefault) ∧
    max 0 (((2 : ℚ) ^ 1023 - -(2 ^ 1023)) / (|(2 : ℚ) ^ 1023| + etolDefault) * 100) < 200 := by
  have hx1 : (1 : ℚ) ≤ 2 ^ 1023 := one_le_pow₀ (by norm_num)
  have he1 : etolDefault < 1 := by unfold etolDefault; norm_num
  have hu : Dbl.toDouble (Dbl.fin (2 ^ 1023)) = Dbl.fin (2 ^ 1023) := by
    apply Dbl.toDouble_fin_of_round
    apply Dbl.round_dyadic_eq _ 1 1023
    · rw [Int.cast_one, one_mul, zpow_ofNat]
    · norm_num
    · norm_num
    · rw [abs_of_pos (by positivity)]
      exact pow_lt_pow_right₀ (by norm_num) (by norm_num)
  have hl : Dbl.toDouble (Dbl.fin (-(2 ^ 1023))) = Dbl.fin (-(2 ^ 1023)) := by
    have := Dbl.toDouble_neg (Dbl.fin (2 ^ 1023))
    rw [hu] at this
    exact this
  refine ⟨?_, ?_, ?_⟩
  · show perGap (Dbl.fin (2 ^ 1023)) (Dbl.fin etolDefault) (Dbl.fin (-(2 ^ 1023))) = Dbl.pinf
    obtain ⟨d, hd, hdpos⟩ := gapDenominator (2 ^ 1023)
    have hN : Dbl.addDouble (Dbl.fin (2 ^ 1023)) (Dbl.neg (Dbl.fin (-(2 ^ 1023))))
        = Dbl.pinf := by
      show Dbl.round (2 ^ 1023 + - -(2 ^ 1023)) = Dbl.pinf
      apply Dbl.round_overflow
      rw [neg_neg, ← two_mul, ← pow_succ']
    have hlt : Dbl.lt (Dbl.fabs (Dbl.fin (-(2 ^ 1023)))) (Dbl.fin etolDefault) = false := by
      simp only [Dbl.fabs, Dbl.lt, decide_eq_false_iff_not, not_lt, abs_neg]
      rw [abs_of_pos (by positivity)]
      linarith
    rw [perGap_eq, toDouble_etolDefault, hd, hl, hu, hN, hlt,
      (gapValue_cases Dbl.pinf d hdpos (by simp)).2.1 rfl]
    simp [Dbl.ge, Dbl.le, Dbl.INFINITY, Dbl.lt]
  · rw [abs_neg, abs_of_pos (by positivity)]
    linarith
  · rw [abs_of_pos (by positivity)]
    generalize (2 : ℚ) ^ 1023 = x at hx1
    have hpos : 0 < x + etolDefault := by have := etolDefault_pos; linarith
    rw [max_lt_iff]
    refine ⟨by norm_num, ?_⟩
    rw [div_mul_eq_mul_div, div_lt_iff₀ hpos]
    have := etolDefault_pos
    linarith

/-- Claim C9, amended (gap formula for a finite incumbent). For every finite incumbent
`ub` and the tolerance `eps` that the constructor stores, the `double` nearest to
`1e-6`: `getPerGapPar(lb)` returns 100 if `|lb| < eps`, and otherwise the value of
`(ub - lb) / (|ub| + eps) * 100` with the difference, the sum, the quotient and the
product each rounded to `double`, replaced by 0 when it is negative; it returns 0 for
`lb = INFINITY` and `INFINITY` for `lb = -INFINITY`; the result is never negative for a
`lb` that is a number or an infinity. With `ub = 5` and `lb = 0` the result is 100; with
`ub = 100` and `lb = 90` it is within `1e-6` of 10. -/
theorem ParTreeManager.getPerGapPar_finite (tm : ParTreeManager Mod) (ub : ℚ) :
    (∀ lb : Dbl,
      getPerGapPar { tm with bestUpperBound_ := Dbl.fin ub, etol_ := Dbl.fin etolDefault } lb
        = if Dbl.lt (Dbl.fabs lb) (Dbl.fin etolDefault) = true then Dbl.fin 100
          else if Dbl.lt (Dbl.mul (Dbl.div (Dbl.sub (Dbl.fin ub) lb)
              (Dbl.add (Dbl.fabs (Dbl.fin ub)) (Dbl.fin etolDefault))) (Dbl.fin 100))
              (Dbl.fin 0) = true then Dbl.fin 0
          else Dbl.mul (Dbl.div (Dbl.sub (Dbl.fin ub) lb)
              (Dbl.add (Dbl.fabs (Dbl.fin ub)) (Dbl.fin etolDefault))) (Dbl.fin 100)) ∧
    getPerGapPar { tm with bestUpperBound_ := Dbl.fin ub, etol_ := Dbl.fin etolDefault }
        Dbl.pinf = Dbl.fin 0 ∧
    getPerGapPar { tm with bestUpperBound_ := Dbl.fin ub, etol_ := Dbl.fin etolDefault }
        Dbl.ninf = Dbl.pinf ∧
    (∀ lb : WithBot (WithTop ℚ),
      Dbl.le (Dbl.fin 0)
        (getPerGapPar { tm with bestUpperBound_ := Dbl.fin ub, etol_ := Dbl.fin etolDefault }
          (Dbl.ofExt lb)) = true) ∧
    getPerGapPar { tm with bestUpperBound_ := Dbl.fin 5, etol_ := Dbl.fin etolDefault }
        (Dbl.fin 0) = Dbl.fin 100 ∧
    (∃ r : ℚ,
      getPerGapPar { tm with bestUpperBound_ := Dbl.fin 100, etol_ := Dbl.fin etolDefault }
        (Dbl.fin 90) = Dbl.fin r ∧ |r - 10| < 1 / 1000000) := by
  have hge : ∀ u : ℚ, Dbl.ge (Dbl.fin u) Dbl.INFINITY = false := fun u => rfl
  have hnn : ∀ (u : ℚ) (l : Dbl), l ≠ Dbl.nan →
      Dbl.le (Dbl.fin 0) (perGap (Dbl.fin u) (Dbl.fin etolDefault) l) = true := by
    intro u l hl
    obtain ⟨d, hd, hdpos⟩ := gapDenominator u
    have hu : Dbl.toDouble (Dbl.fin u) = Dbl.fin (Dbl.saturate (Dbl.nearest u)) := rfl
    have hN := (gapDifference_cases (Dbl.saturate (Dbl.nearest u)) l).1 hl
    rw [perGap_eq, hge, toDouble_etolDefault, hd, hu]
    have hG := (gapValue_cases _ d hdpos hN).1
    simp only [Bool.false_eq_true, if_false]
    split
    · simp [Dbl.le]
    · split
      · simp [Dbl.le]
      · rename_i h
        exact Dbl.le_of_not_lt hG (by simp) (by simpa using h)
  refine ⟨fun lb => ?_, ?_, ?_, ?_, ?_, ?_⟩
  · show perGap (Dbl.fin ub) (Dbl.fin etolDefault) lb = _
    unfold perGap
    rw [hge]
    simp only [Bool.false_eq_true, if_false]
  · show perGap (Dbl.fin ub) (Dbl.fin etolDefault) Dbl.pinf = _
    obtain ⟨d, hd, hdpos⟩ := gapDenominator ub
    have hu : Dbl.toDouble (Dbl.fin ub) = Dbl.fin (Dbl.saturate (Dbl.nearest ub)) := rfl
    rw [perGap_eq, hge, toDouble_etolDefault, hd, hu,
      (gapDifference_cases (Dbl.saturate (Dbl.nearest ub)) Dbl.pinf).2.1 rfl,
      (gapValue_cases Dbl.ninf d hdpos (by simp)).2.2 rfl]
    simp [Dbl.fabs, Dbl.lt]
  · show perGap (Dbl.fin ub) (Dbl.fin etolDefault) Dbl.ninf = _
    obtain ⟨d, hd, hdpos⟩ := gapDenominator ub
    have hu : Dbl.toDouble (Dbl.fin ub) = Dbl.fin (Dbl.saturate (Dbl.nearest ub)) := rfl
    rw [perGap_eq, hge, toDouble_etolDefault, hd, hu,
      (gapDifference_cases (Dbl.saturate (Dbl.nearest ub)) Dbl.ninf).2.2 rfl,
      (gapValue_cases Dbl.pinf d hdpos (by simp)).2.1 rfl]
    simp [Dbl.fabs, Dbl.lt]
  · intro lb
    apply hnn ub
    rcases lb with _ | _ | l <;> simp [Dbl.ofExt]
  · show perGap (Dbl.fin 5) (Dbl.fin etolDefault) (Dbl.fin 0) = _
    have hlt : Dbl.lt (Dbl.fabs (Dbl.fin 0)) (Dbl.fin etolDefault) = true := by
      simp [Dbl.fabs, Dbl.lt, etolDefault_pos]
    rw [perGap_eq, hge, hlt]
    simp
  · show ∃ r : ℚ, perGap (Dbl.fin 100) (Dbl.fin etolDefault) (Dbl.fin 90) = Dbl.fin r ∧ _
    have h100 : Dbl.toDouble (Dbl.fin 100) = Dbl.fin 100 := by
      simpa using Dbl.toDouble_natCast 100 (by norm_num)
    have h90 : Dbl.toDouble (Dbl.fin 90) = Dbl.fin 90 := by
      simpa using Dbl.toDouble_natCast 90 (by norm_num)
    have hlt : Dbl.lt (Dbl.fabs (Dbl.fin 90)) (Dbl.fin etolDefault) = false := by
      simp only [Dbl.fabs, Dbl.lt, decide_eq_false_iff_not, not_lt]
      rw [abs_of_pos (by norm_num)]
      unfold etolDefault
      norm_num
    have hN : Dbl.addDouble (Dbl.fin 100) (Dbl.neg (Dbl.fin 90)) = Dbl.fin 10 := by
      show Dbl.round (100 + -90) = _
      rw [show (100 : ℚ) + -90 = 10 by norm_num]
      exact Dbl.round_ten
    obtain ⟨d, hd, d1, d2⟩ := Dbl.round_between (q := |100| + etolDefault)
      (a := 104857601 / 1048576) (b := 52428801 / 524288)
      (Dbl.round_dyadic_eq _ 104857601 (-20) (by norm_num) (by norm_num) (by norm_num)
        (by rw [abs_lt]; norm_num))
      (Dbl.round_dyadic_eq _ 52428801 (-19) (by norm_num) (by norm_num) (by norm_num)
        (by rw [abs_lt]; norm_num))
      (by rw [abs_of_pos (by norm_num)]; unfold etolDefault; norm_num)
      (by rw [abs_of_pos (by norm_num)]; unfold etolDefault; norm_num)
    have hD : Dbl.addDouble (Dbl.fabs (Dbl.fin 100)) (Dbl.fin etolDefault) = Dbl.fin d := hd
    have hdpos : 0 < d := lt_of_lt_of_le (by norm_num) d1
    have hd0 : d ≠ 0 := ne_of_gt hdpos
    obtain ⟨q, hq, q1, q2⟩ := Dbl.round_between (q := 10 / d)
      (a := 6871947542 / 68719476736) (b := 6871947609 / 68719476736)
      (Dbl.round_dyadic_eq _ 6871947542 (-36) (by norm_num) (by norm_num) (by norm_num)
        (by rw [abs_lt]; norm_num))
      (Dbl.round_dyadic_eq _ 6871947609 (-36) (by norm_num) (by norm_num) (by norm_num)
        (by rw [abs_lt]; norm_num))
      (by rw [le_div_iff₀ hdpos]; linarith)
      (by rw [div_le_iff₀ hdpos]; linarith)
    have hQ : Dbl.divDouble (Dbl.fin 10) (Dbl.fin d) = Dbl.fin q := by
      simp only [Dbl.divDouble, hd0, if_false]
      exact hq
    obtain ⟨g, hg, g1, g2⟩ := Dbl.round_between (q := q * 100)
      (a := 687194754200 / 68719476736) (b := 687194760900 / 68719476736)
      (Dbl.round_dyadic_eq _ 687194754200 (-36) (by norm_num) (by norm_num) (by norm_num)
        (by rw [abs_lt]; norm_num))
      (Dbl.round_dyadic_eq _ 687194760900 (-36) (by norm_num) (by norm_num) (by norm_num)
        (by rw [abs_lt]; norm_num))
      (by linarith) (by linarith)
    have hG : Dbl.mulDouble (Dbl.fin q) (Dbl.fin 100) = Dbl.fin g := hg
    have hg0 : Dbl.lt (Dbl.fin g) (Dbl.fin 0) = false := by
      simp only [Dbl.lt, decide_eq_false_iff_not, not_lt]
      linarith
    refine ⟨g, ?_, ?_⟩
    · rw [perGap_eq, hge, hlt, toDouble_etolDefault, h100, h90, hN, hD, hQ, hG, hg0]
      simp
    · rw [abs_lt]
      constructor <;> linarith

end Gap

end Minotaur
